import Mathlib

/-!
# vp2: prefetch window, loader queue and navigator

A shallow embedding of the image viewer's core (`window.cpp`, `threads.cpp`, `flags.h`) and the
properties established about it.

* C++ `int` values are modelled by `Int`. For a cursor in `[-1, count)` every intermediate value of
  `surrounding` lies between `-count` and `2 * count`, so for catalogs below `2^30` entries the
  32-bit arithmetic of the program never wraps.
* Objects reached through pointers (`ImageLoaderThread::Node`, `Data`) live in a store indexed by
  address; `none` is the null pointer, and an address without an object is a dangling one.
  Functions that would read through a null or dangling pointer return `none`.
* The owner thread (user interface, catalog, navigator) and the worker thread are interleaved at
  the granularity the mutex and the event loop give them: a call on the owner side, the locked
  block of the worker, and the delivery of a completion signal are the atomic actions.
-/

namespace Vp2

/-! ## Definitions -/

/-! ### `surrounding` (window.cpp) -/

/-- First loop of `surrounding`: `for (int i=0; i<above; ++i)`, with `n` iterations left and loop
counter `i`. The Boolean is `true` when the loop left through `return ret`. -/
def surroundingAbove (cur count : Int) : Nat → Int → Finset Int → Finset Int × Bool
  | 0, _, ret => (ret, false)
  | n + 1, i, ret =>
    let index := cur + i + 1
    if index ≥ count then
      let index := index - count
      if index ∈ ret then (ret, true)
      else surroundingAbove cur count n (i + 1) (insert index ret)
    else surroundingAbove cur count n (i + 1) (insert index ret)

/-- Second loop of `surrounding`: `for (int i=0; i<below; ++i)`. The Boolean is `true` when the
loop left through `break`. -/
def surroundingBelow (cur count : Int) : Nat → Int → Finset Int → Finset Int × Bool
  | 0, _, ret => (ret, false)
  | n + 1, i, ret =>
    let index := cur - (i + 1)
    if index < 0 then
      let index := index + count
      if index ∈ ret then (ret, true)
      else surroundingBelow cur count n (i + 1) (insert index ret)
    else surroundingBelow cur count n (i + 1) (insert index ret)

/-- Body of `surrounding(cur, count, maxEntries)`: the returned set, whether the first loop
returned early, and whether the second loop broke off. The division is C++ integer division
(truncating). -/
def surroundingTrace (cur count maxEntries : Int) : Finset Int × Bool × Bool :=
  if count = 0 then (∅, false, false)
  else
    let cur := if cur = -1 then 0 else cur
    let maxEntries := min maxEntries count
    let above := (maxEntries * 2).tdiv 3
    let below := maxEntries - above
    let fwd := surroundingAbove cur count above.toNat 0 ∅
    if fwd.2 then (fwd.1, true, false)
    else
      let bwd := surroundingBelow cur count below.toNat 0 fwd.1
      (bwd.1, false, bwd.2)

/-- The set `surrounding(cur, count, maxEntries)` returns. -/
def surrounding (cur count maxEntries : Int) : Finset Int :=
  (surroundingTrace cur count maxEntries).1

/-- The `a` indices after `c`, modulo `count`. -/
def aboveSet (c count a : Int) : Finset Int :=
  (Finset.Icc 1 a).image (fun i => (c + i) % count)

/-- The `b` indices before `c`, modulo `count`. -/
def belowSet (c count b : Int) : Finset Int :=
  (Finset.Icc 1 b).image (fun i => (c - i) % count)

/-! ### The loader queue (threads.cpp) -/

/-- Model of `QSize`: a width and a height. -/
structure QSize where
  width : Int
  height : Int
  deriving DecidableEq, Repr

/-- Model of `ImageLoaderThread::Node` (threads.cpp): one queued request. `next` is the intrusive
link (`none` is the null pointer) and `userData` the token of the owning catalog entry. -/
structure Node where
  path : String
  size : QSize
  rotation : Int
  flags : Nat
  next : Option Nat
  userData : Nat
  deriving DecidableEq, Repr

/-- Model of `ImageLoaderThread`: the node storage reachable through `mFirst`/`mLast`, and the
members of the class. `heap a = none` means no node is allocated at address `a`. -/
structure ImageLoaderThread where
  heap : Nat → Option Node
  mFirst : Option Nat
  mLast : Option Nat
  mAborted : Bool
  mPending : Int

namespace ImageLoaderThread

/-- Model of `ImageLoaderThread::NoSmoothScale`. -/
def NoSmoothScale : Nat := 0x1
/-- Model of `ImageLoaderThread::HighPriority`. -/
def HighPriority : Nat := 0x2

/-- The state the constructor leaves: `mFirst(0), mLast(0), mAborted(false), mPending(0)`. -/
def init : ImageLoaderThread :=
  { heap := fun _ => none, mFirst := none, mLast := none, mAborted := false, mPending := 0 }

/-- The node `load` fills in before it takes the lock. `%` is the C++ remainder. -/
def newNode (p : String) (flags : Nat) (rotation : Int) (userData : Nat) (size : QSize) : Node :=
  let node : Node :=
    { next := none, flags := flags, rotation := rotation.tmod 360, size := size, path := p,
      userData := userData }
  if rotation.tmod 180 = 90 then { node with size := ⟨node.size.height, node.size.width⟩ }
  else node

/-- Model of `ImageLoaderThread::load`; `node` is the address `new Node` returned. The result is
`none` when the code would dereference a null or dangling `mLast`. -/
def load (t : ImageLoaderThread) (node : Nat) (p : String) (flags : Nat) (rotation : Int)
    (userData : Nat) (size : QSize) : Option ImageLoaderThread :=
  let n := newNode p flags rotation userData size
  let heap := Function.update t.heap node (some n)
  let mPending := t.mPending + 1
  match t.mFirst with
  | none => some { t with heap := heap, mFirst := some node, mLast := some node,
                          mPending := mPending }
  | some first =>
    if flags &&& HighPriority ≠ 0 then
      some { t with heap := Function.update heap node (some { n with next := some first }),
                    mFirst := some node, mPending := mPending }
    else
      match t.mLast with
      | none => none
      | some last =>
        match heap last with
        | none => none
        | some l =>
          some { t with heap := Function.update heap last (some { l with next := some node }),
                        mLast := some node, mPending := mPending }

/-- The search loop of `remove`: `while (n && n->userData != userData) { prev = n; n = n->next; }`
started with `prev` and `n`; returns the final `(prev, n)`. `none` when the fuel runs out or a
dangling node is read. -/
def findNode (heap : Nat → Option Node) (userData : Nat) :
    Nat → Option Nat → Option Nat → Option (Option Nat × Option Nat)
  | _, prev, none => some (prev, none)
  | 0, _, some _ => none
  | fuel + 1, prev, some n =>
    match heap n with
    | none => none
    | some nd =>
      if nd.userData ≠ userData then findNode heap userData fuel (some n) nd.next
      else some (prev, some n)

/-- Model of `ImageLoaderThread::remove`: the value returned and the state left. -/
def remove (t : ImageLoaderThread) (fuel : Nat) (userData : Nat) :
    Option (Bool × ImageLoaderThread) :=
  match findNode t.heap userData fuel none t.mFirst with
  | none => none
  | some (_, none) => some (false, t)
  | some (prev, some n) =>
    match t.heap n with
    | none => none
    | some nd =>
      let unlinked : Option ImageLoaderThread :=
        if some n = t.mFirst ∧ some n = t.mLast then
          some { t with mFirst := none, mLast := none }
        else if some n = t.mLast then
          match prev with
          | none => none
          | some p =>
            match t.heap p with
            | none => none
            | some pd =>
              some { t with mLast := some p,
                            heap := Function.update t.heap p (some { pd with next := none }) }
        else if some n = t.mFirst then
          some { t with mFirst := nd.next }
        else
          match prev with
          | none => none
          | some p =>
            match t.heap p with
            | none => none
            | some pd =>
              some { t with heap := Function.update t.heap p (some { pd with next := nd.next }) }
      unlinked.map fun u =>
        (true, { u with mPending := u.mPending - 1, heap := Function.update u.heap n none })

/-- The locked block of `run` when a node is available: unlink the head and count it out. Returns
the address of the node taken (still allocated: `run` deletes it after emitting the result).
`none` when the queue is empty (the worker waits) or the head is dangling. -/
def takeFirst (t : ImageLoaderThread) : Option (Nat × ImageLoaderThread) :=
  match t.mFirst with
  | none => none
  | some node =>
    match t.heap node with
    | none => none
    | some nd =>
      let t1 := { t with mFirst := nd.next }
      let t2 := if t1.mFirst = none then { t1 with mLast := none } else t1
      some (node, { t2 with mPending := t2.mPending - 1 })

/-- The end of an iteration of `run`: `delete node`. -/
def deleteNode (t : ImageLoaderThread) (node : Nat) : ImageLoaderThread :=
  { t with heap := Function.update t.heap node none }

end ImageLoaderThread

/-- The nodes `q`, each at its address and with its link erased, are linked in this order from
`p`, the link of the last one being `r`. -/
def Seg (heap : Nat → Option Node) : Option Nat → List (Nat × Node) → Option Nat → Prop
  | p, [], r => p = r
  | p, (a, x) :: q, r =>
    p = some a ∧ x.next = none ∧ ∃ nx, heap a = some { x with next := nx } ∧ Seg heap nx q r

/-- Address of the last node of `q`. -/
def lastAddr (q : List (Nat × Node)) : Option Nat := q.getLast?.map Prod.fst

/-- The queue of `t` holds exactly the nodes `q`, head first: they are linked from `mFirst`, the
last link is null, and `mLast` points at the last node. -/
def Pending (t : ImageLoaderThread) (q : List (Nat × Node)) : Prop :=
  Seg t.heap t.mFirst q none ∧ t.mLast = lastAddr q


/-- Addresses of the nodes of `q`. -/
def addrs (q : List (Nat × Node)) : List Nat := q.map Prod.fst

/-- One action on the loader queue: the three entry points the owner and the worker use, and the
end of a worker iteration. -/
inductive QueueOp where
  | load (node : Nat) (p : String) (flags : Nat) (rotation : Int) (userData : Nat) (size : QSize)
  | remove (userData : Nat)
  | take
  | finish
  deriving DecidableEq, Repr

/-- A node leaving the queue: cancelled by `remove`, or taken by the worker. -/
inductive QueueEvent where
  | cancelled (node : Nat)
  | taken (node : Nat)
  deriving DecidableEq, Repr

/-- Address of the node an event is about. -/
def QueueEvent.node : QueueEvent → Nat
  | .cancelled n => n
  | .taken n => n

/-- The queue together with the local variable `node` of `ImageLoaderThread::run`. -/
structure QueueRun where
  thread : ImageLoaderThread
  node : Option Nat

/-- One action. `load` fails when `new` could not have returned the address; `take` is the locked
block of `run` (entered with `node = 0`); `finish` is the rest of the iteration, ending in
`delete node`. The events name the node that left the queue. -/
def stepQueue (fuel : Nat) (s : QueueRun) : QueueOp → Option (QueueRun × List QueueEvent)
  | .load node p flags rotation userData size =>
    if (s.thread.heap node).isSome then none
    else (s.thread.load node p flags rotation userData size).map fun t =>
      ({ s with thread := t }, [])
  | .remove userData =>
    match s.thread.remove fuel userData with
    | none => none
    | some (false, t) => some ({ s with thread := t }, [])
    | some (true, t) =>
      match ImageLoaderThread.findNode s.thread.heap userData fuel none s.thread.mFirst with
      | some (_, some n) => some ({ s with thread := t }, [QueueEvent.cancelled n])
      | _ => some ({ s with thread := t }, [])
  | .take =>
    match s.node with
    | some _ => none
    | none =>
      (s.thread.takeFirst).map fun r =>
        ({ thread := r.2, node := some r.1 }, [QueueEvent.taken r.1])
  | .finish =>
    match s.node with
    | none => none
    | some w => some ({ thread := s.thread.deleteNode w, node := none }, [])

/-- A sequence of actions, with the events in the order they happened. -/
def runQueue (fuel : Nat) : QueueRun → List QueueOp → Option (QueueRun × List QueueEvent)
  | s, [] => some (s, [])
  | s, op :: ops =>
    match stepQueue fuel s op with
    | none => none
    | some (s1, e1) =>
      match runQueue fuel s1 ops with
      | none => none
      | some (s2, e2) => some (s2, e1 ++ e2)

/-- The queue of `s` holds `q`, and the node the worker is busy with is allocated and no longer
linked. -/
def RunOk (s : QueueRun) (q : List (Nat × Node)) : Prop :=
  Pending s.thread q ∧ ∀ w, s.node = some w → s.thread.heap w ≠ none ∧ w ∉ addrs q

/-- A request for `a.jpg`, token 10, normal priority. -/
def exampleNode : Node := ImageLoaderThread.newNode "a.jpg" 0 0 10 ⟨0, 0⟩

/-- A queue holding `exampleNode` alone, at address 1. -/
def exampleThread : ImageLoaderThread :=
  { heap := fun a => if a = 1 then some exampleNode else none,
    mFirst := some 1, mLast := some 1, mAborted := false, mPending := 1 }

/-- The value of `prev` after the search loop of `remove` has walked over `pre`. -/
def prevAfter (pre : List (Nat × Node)) (prev : Option Nat) : Option Nat :=
  match lastAddr pre with
  | some l => some l
  | none => prev

open ImageLoaderThread

/-! ### Flags (flags.h) -/

namespace Flags

def AutoZoomEnabled : Nat := 0x000001
def FirstImage : Nat := 0x000002
def UpdateImagesPending : Nat := 0x000004
def ManuallySetIndex : Nat := 0x000008
def IgnoreFailed : Nat := 0x000010
def DetectFileType : Nat := 0x000020
def NoSmoothScale : Nat := 0x000040
def Closing : Nat := 0x000080
def InNextPrev : Nat := 0x000100
def DisplayFileName : Nat := 0x000200
def DisplayThumbnails : Nat := 0x000400
def HidePointer : Nat := 0x000800
def XKludge : Nat := 0x001000

/-- Model of `Flags::test`: `d.flags & flag`. -/
def test (flags flag : Nat) : Bool := decide (flags &&& flag ≠ 0)

/-- Model of `Flags::unset`: `d.flags &= ~flag` on a 32-bit `uint`. -/
def unset (flags flag : Nat) : Nat := flags &&& (0xFFFFFFFF ^^^ flag)

/-- Model of `Flags::set`. -/
def set (flags flag : Nat) (enable : Bool) : Nat :=
  if enable then flags ||| flag else unset flags flag

end Flags

/-! ### The catalog and the navigator (window.h, window.cpp) -/

/-- Model of `QSize()`: the invalid size Qt constructs by default. -/
def QSize.invalid : QSize := ⟨-1, -1⟩

/-- Model of `QSize::scale(s, Qt::KeepAspectRatio)` as Qt implements it. -/
def QSize.scale (sz s : QSize) : QSize :=
  if sz.width = 0 ∨ sz.height = 0 then s
  else
    let rw := (s.height * sz.width).tdiv sz.height
    if rw ≤ s.width then ⟨rw, s.height⟩
    else ⟨s.width, (s.width * sz.height).tdiv sz.width⟩

/-- Model of `QImage`, as far as the navigator looks at it: `none` is the null image, `some s` a
decoded image of size `s`. -/
abbrev QImage := Option QSize

/-- Model of `QImage::size()`. -/
def QImage.size (image : QImage) : QSize := image.getD ⟨0, 0⟩

/-- Model of `struct Data` (window.h): one catalog entry. `movie` is the `QMovie*`. -/
structure Data where
  path : String
  image : QImage
  movie : Option Nat
  rotation : Int
  flags : Nat
  deriving DecidableEq, Repr

namespace Data

def Failed : Nat := 0x1
def Seen : Nat := 0x2
def Network : Nat := 0x4

/-- Model of `Data()` followed by the assignment of the path, as `Window::addFile` does. -/
def create (path : String) : Data :=
  { path := path, image := none, movie := none, rotation := 0, flags := 0 }

/-- Model of `Data::clear`: the value returned and the entry left. -/
def clear (d : Data) : Bool × Data :=
  if d.image.isSome then (true, { d with image := none })
  else if d.movie.isSome then (true, { d with movie := none })
  else (false, d)

end Data

/-- The requests queued in `d.imageLoaderThread`, head first, as the owner thread sees them
through `load` and `remove`. `load_spec`, `remove_spec` and `takeFirst_spec` show that
the linked list of `ImageLoaderThread` behaves like this list. -/
abbrev LoaderQueue := List Node

namespace LoaderQueue

/-- Model of `ImageLoaderThread::load` on the list of queued requests. -/
def load (q : LoaderQueue) (p : String) (flags : Nat) (rotation : Int) (userData : Nat)
    (size : QSize) : LoaderQueue :=
  if flags &&& ImageLoaderThread.HighPriority ≠ 0
    then ImageLoaderThread.newNode p flags rotation userData size :: q
    else q ++ [ImageLoaderThread.newNode p flags rotation userData size]

/-- Model of `ImageLoaderThread::remove` on the list of queued requests: the first request
carrying the token is dropped. -/
def remove : LoaderQueue → Nat → LoaderQueue
  | [], _ => []
  | x :: q, userData => if x.userData = userData then q else x :: remove q userData

/-- The locked block of `ImageLoaderThread::run` on the list of queued requests. -/
def take : LoaderQueue → Option (Node × LoaderQueue)
  | [] => none
  | x :: q => some (x, q)

end LoaderQueue

/-- Model of `enum Sort` (window.h). -/
inductive SortOrder where
  | None
  | Alphabetically
  | Size
  | CreationDate
  | Random
  | Natural
  deriving DecidableEq, Repr

/-- The members `d` of `Window` the navigator works on, with the `Flags` base class. `heap` is
the storage of the `Data` objects (`none`: nothing allocated, or deleted), `data` the list of
their addresses, `loading` the hash from entry to requested index. `viewportSize` and `visible`
stand for `viewport()->size()` and `isVisible()`, `updateImagesTimer` for
`d.updateImagesTimer.isActive()`. -/
structure Window where
  flags : Nat
  heap : Nat → Option Data
  loading : Nat → Option Int
  data : List Nat
  current : Int
  history : List Int
  maxImages : Int
  imagesInMemory : Int
  imageLoaderThread : LoaderQueue
  viewportSize : QSize
  visible : Bool
  updateImagesTimer : Bool
  sort : SortOrder

/-- The order in which `foreach` visits a `QSet<int>`. Qt leaves it unspecified; the model visits
the members in ascending order. -/
def foreachOrder (s : Finset Int) : List Int :=
  Quot.liftOn s.val (List.insertionSort (· ≤ ·)) (fun a b h =>
    List.eq_of_perm_of_sorted
      ((List.perm_insertionSort _ a).trans (h.trans (List.perm_insertionSort _ b).symm))
      (List.sorted_insertionSort _ a) (List.sorted_insertionSort _ b))

/-- First loop of `Window::bound`: `while (cnt < 0) cnt += s;`. -/
def boundUp (s : Int) : Nat → Int → Int
  | 0, cnt => cnt
  | fuel + 1, cnt => if cnt < 0 then boundUp s fuel (cnt + s) else cnt

/-- Second loop of `Window::bound`: `while (cnt >= s) cnt -= s;`. -/
def boundDown (s : Int) : Nat → Int → Int
  | 0, cnt => cnt
  | fuel + 1, cnt => if cnt ≥ s then boundDown s fuel (cnt - s) else cnt

/-- The loop of `Window::setCurrentIndex` that cuts the history:
`while (d.history.size() > Max) d.history.takeLast();` with `Max = 1024`. -/
def trimHistory : Nat → List Int → List Int
  | 0, h => h
  | fuel + 1, h => if h.length > 1024 then trimHistory fuel h.dropLast else h

namespace Window

/-- The state the constructor leaves when the stored settings have their default values and no
option is given: `FirstImage` and `AutoZoomEnabled` set, no entry, 30 images at most, no sort
order. -/
def init : Window :=
  { flags := Flags.FirstImage ||| Flags.AutoZoomEnabled,
    heap := fun _ => none, loading := fun _ => none, data := [], current := -1, history := [],
    maxImages := 30, imagesInMemory := 0, imageLoaderThread := [],
    viewportSize := ⟨800, 600⟩, visible := true, updateImagesTimer := false,
    sort := SortOrder.None }

/-- Model of `Flags::test` on the window's flags. -/
def test (w : Window) (flag : Nat) : Bool := Flags.test w.flags flag

/-- Model of `Window::bound`. Each loop gets as many iterations as the distance it has to cover,
which is enough since `s ≥ 1`. -/
def bound (w : Window) (cnt : Int) : Int :=
  let s : Int := w.data.length
  if s = 0 then -1
  else
    let cnt := boundUp s cnt.natAbs cnt
    boundDown s cnt.natAbs cnt

/-- Model of `Window::rightSize`. -/
def rightSize (w : Window) (siz widgetSize : QSize) : Bool :=
  if !w.test Flags.AutoZoomEnabled || siz == widgetSize then true
  else siz.scale widgetSize == siz

/-- Model of `d.data.at(index)` and the entry it points to; `none` when the index is out of range or
the entry has been deleted. -/
def entryAt (w : Window) (index : Int) : Option (Nat × Data) :=
  if index < 0 then none
  else
    match w.data[index.toNat]? with
    | none => none
    | some dt => (w.heap dt).map fun d => (dt, d)

/-- The end of `Window::load`: `d.loading[dt] = index` and the request handed to the loader. -/
def request (w : Window) (dt : Nat) (d : Data) (index : Int) (flags : Nat) (size : QSize) :
    Window :=
  { w with loading := Function.update w.loading dt (some index),
           imageLoaderThread := w.imageLoaderThread.load d.path flags d.rotation dt size }

/-- Model of `Window::load`. -/
def load (w : Window) (index : Int) : Option Window :=
  match w.entryAt index with
  | none => none
  | some (dt, d) =>
    if d.flags &&& Data.Failed ≠ 0 ∨ (w.loading dt).isSome then some w
    else
      let flags : Nat := 0
      let flags := if w.test Flags.NoSmoothScale then flags ||| ImageLoaderThread.NoSmoothScale
                   else flags
      let flags :=
        if index = w.current ∨ index = w.bound (w.current - 1) ∨ index = w.bound (w.current + 1)
        then flags ||| ImageLoaderThread.HighPriority else flags
      if w.test Flags.AutoZoomEnabled then
        let size := w.viewportSize
        if d.image.isSome ∧ (!w.visible ∨ w.rightSize (QImage.size d.image) size) then some w
        else some (w.request dt d index flags size)
      else if d.image.isSome then some w
      else some (w.request dt d index flags QSize.invalid)

/-- The loop of `Window::updateImages`: `foreach(int i, sur) if (i != d.current) load(i);`. -/
def loadEach : List Int → Window → Option Window
  | [], w => some w
  | i :: rest, w =>
    if i ≠ w.current then
      match w.load i with
      | none => none
      | some w1 => loadEach rest w1
    else loadEach rest w

/-- Model of `Window::updateImages`. -/
def updateImages (w : Window) : Option Window :=
  if w.data.isEmpty then some w
  else
    match w.load w.current with
    | none => none
    | some w1 =>
      if w1.test Flags.FirstImage then some w1
      else loadEach (foreachOrder (surrounding w1.current w1.data.length w1.maxImages)) w1

/-- The statement `if (dt->clear()) --d.imagesInMemory;` for the entry `d` at address `dt`. -/
def clearEntry (w : Window) (dt : Nat) (d : Data) : Window :=
  { w with heap := Function.update w.heap dt (some d.clear.2),
           imagesInMemory := if d.clear.1 then w.imagesInMemory - 1 else w.imagesInMemory }

/-- The body of the eviction loop of `Window::setCurrentIndex` for an index `r` that passed the
test `r != index && !surr.contains(r)`. -/
def evict (w : Window) (r : Int) : Option Window :=
  match w.entryAt r with
  | none => none
  | some (dt, d) =>
    if d.flags &&& Data.Network = 0 then
      some (clearEntry { w with imageLoaderThread := w.imageLoaderThread.remove dt,
                                loading := Function.update w.loading dt none } dt d)
    else some w

/-- The eviction loop of `Window::setCurrentIndex`: `foreach(int r, remove) ...`. -/
def evictEach (index : Int) (surr : Finset Int) : List Int → Window → Option Window
  | [], w => some w
  | r :: rest, w =>
    if r ≠ index ∧ r ∉ surr then
      match w.evict r with
      | none => none
      | some w1 => evictEach index surr rest w1
    else evictEach index surr rest w

/-- Model of `Window::setCurrentIndex`. -/
def setCurrentIndex (w : Window) (index : Int) : Option Window :=
  if index = w.current then some w
  else
    let history := index :: w.history
    let w := { w with history := trimHistory history.length history,
                      flags := Flags.set w.flags Flags.ManuallySetIndex
                                 (decide (w.data.length > 1)) }
    let index := max 0 index
    if w.data.isEmpty then some { w with current := -1 }
    else
      let surr := surrounding index w.data.length w.maxImages
      let remove := surrounding w.current w.data.length w.maxImages
      let w := { w with current := index }
      match evictEach index surr (foreachOrder remove) w with
      | none => none
      | some w1 => w1.updateImages

/-- Model of `Window::moveCurrentIndexBy`. -/
def moveCurrentIndexBy (w : Window) (count : Int) : Option Window :=
  w.setCurrentIndex (w.bound (w.current + count))

/-- Model of `Window::modifyIndexes`. -/
def modifyIndexes (w : Window) (index added : Int) : Window :=
  { w with loading := fun dt => (w.loading dt).map fun v => if v ≥ index then v + added else v,
           history := w.history.map fun v => if v ≥ index then v + added else v }

/-- The block `if (test(FirstImage)) { unset(FirstImage); updateImages(); }` of both completion
handlers. -/
def firstImageDone (w : Window) : Option Window :=
  if w.test Flags.FirstImage then
    updateImages { w with flags := Flags.unset w.flags Flags.FirstImage }
  else some w

/-- The statements `if (dt->image.isNull()) ++d.imagesInMemory; dt->image = image;` of
`Window::onImageLoaded` for the entry `d` at address `dt`. -/
def storeImage (w : Window) (dt : Nat) (d : Data) (image : QImage) : Window :=
  { w with imagesInMemory := if d.image.isNone then w.imagesInMemory + 1 else w.imagesInMemory,
           heap := Function.update w.heap dt (some { d with image := image }) }

/-- The branch `if (idx == d.current) { if (!rightSize(...)) load(d.current); ... }` of
`Window::onImageLoaded`; the other branches only repaint. -/
def reloadIfWrongSize (w : Window) (idx : Int) (image : QImage) : Option Window :=
  if idx = w.current then
    if !w.rightSize (QImage.size image) w.viewportSize then w.load w.current else some w
  else some w

/-- Model of `Window::onImageLoaded`; `userData` is the token the loader hands back. -/
def onImageLoaded (w : Window) (userData : Nat) (image : QImage) : Option Window :=
  let idx := (w.loading userData).getD (-1)
  let w := { w with loading := Function.update w.loading userData none }
  if idx = -1 then some w
  else
    match w.heap userData with
    | none => none
    | some dt =>
      match (w.storeImage userData dt image).reloadIfWrongSize idx image with
      | none => none
      | some w1 => w1.firstImageDone

/-- The end of `Window::onImageLoadError`: with `IgnoreFailed` the entry is deleted, the cursor
stepped back when it lies behind the entry and the indices are shifted; otherwise the flags of
the entry become `Failed`. -/
def failEntry (w : Window) (userData : Nat) (idx : Int) : Option Window :=
  if w.test Flags.IgnoreFailed then
    let w2 := { w with heap := Function.update w.heap userData none }
    let w3 := if w2.current > idx then { w2 with current := w2.current - 1 } else w2
    some (w3.modifyIndexes idx (-1))
  else
    match w.heap userData with
    | none => none
    | some dt =>
      some { w with heap := Function.update w.heap userData (some { dt with flags := Data.Failed }) }

/-- Model of `Window::onImageLoadError`. -/
def onImageLoadError (w : Window) (userData : Nat) : Option Window :=
  let idx := (w.loading userData).getD (-1)
  let w := { w with loading := Function.update w.loading userData none }
  if idx = -1 then some w
  else
    match w.heap userData with
    | none => none
    | some dt =>
      match (w.clearEntry userData dt).firstImageDone with
      | none => none
      | some w1 => w1.failEntry userData idx

/-- The branch of `Window::addNode` on `it == d.data.end()`: append, or insert at `it`, shift the
indices held elsewhere and move the cursor along. -/
def insertNode (w : Window) (dt : Nat) (it : Nat) : Window :=
  if it = w.data.length then { w with data := w.data ++ [dt] }
  else
    let index : Int := it
    let w1 := modifyIndexes { w with data := w.data.insertIdx it dt } index 1
    if w1.current ≥ index ∧ w1.test Flags.ManuallySetIndex
      then { w1 with current := w1.current + 1 } else w1

/-- Model of `Window::addNode` for the entry at address `dt`, from the point where the `switch` on
`d.sort` has found the position `it` (`it = d.data.size()` stands for `d.data.end()`). -/
def addNode (w : Window) (dt : Nat) (it : Nat) : Option Window :=
  let w1 := w.insertNode dt it
  match (if w1.data.length = 1 then w1.setCurrentIndex 0 else some w1) with
  | none => none
  | some w3 => if (w3.data.length : Int) ≤ w3.maxImages then w3.updateImages else some w3

/-- Model of `Window::addFile` with `d.sort == None`: a new entry at the fresh address `dt`,
appended. -/
def addFile (w : Window) (dt : Nat) (path : String) : Option Window :=
  if (w.heap dt).isSome then none
  else addNode { w with heap := Function.update w.heap dt (some (Data.create path)) } dt w.data.length

/-- Indices of the entries without the `Network` flag that are loaded (hold an image) or loading
(have a request in the loading map or in the queue). -/
def occupied (w : Window) : List Nat :=
  (List.range w.data.length).filter fun i =>
    match w.data[i]? with
    | none => false
    | some dt =>
      match w.heap dt with
      | none => false
      | some d =>
        decide (d.flags &&& Data.Network = 0) &&
          (d.image.isSome || (w.loading dt).isSome ||
            w.imageLoaderThread.any fun x => decide (x.userData = dt))

/-- The entry the eviction loop of `Window::setCurrentIndex` clears at index `r`: the entry at `r`
unless it carries the `Network` flag. -/
def evictTarget (w : Window) (r : Int) : Option Nat :=
  match w.entryAt r with
  | some (dt, d) => if d.flags &&& Data.Network = 0 then some dt else none
  | none => none

/-- Whether `setCurrentIndex(index)` clears an entry one of whose requests is in flight. -/
def evictsInFlight (w : Window) (index : Int) (inFlight : List Node) : Bool :=
  decide (index ≠ w.current) &&
  (foreachOrder (surrounding w.current w.data.length w.maxImages)).any fun r =>
    decide (r ≠ max 0 index ∧ r ∉ surrounding (max 0 index) w.data.length w.maxImages) &&
      match w.evictTarget r with
      | some dt => inFlight.any fun x => decide (x.userData = dt)
      | none => false

end Window

/-- The owner thread's state together with the requests the worker has taken from the queue and
whose completion signal has not been delivered yet. -/
structure System where
  window : Window
  inFlight : List Node

/-- What can happen next: a call from the user interface, the worker taking the head of the
queue, or the delivery of the completion signal of a request in flight. -/
inductive Action where
  | addFile (dt : Nat) (path : String)
  | setCurrentIndex (index : Int)
  | moveCurrentIndexBy (count : Int)
  | take
  | imageLoaded (userData : Nat) (image : QSize)
  | loadError (userData : Nat)
  deriving DecidableEq, Repr

/-- Drops the first request in flight carrying the token; `none` when there is none. -/
def deliver : List Node → Nat → Option (List Node)
  | [], _ => none
  | x :: rest, userData =>
    if x.userData = userData then some rest
    else (deliver rest userData).map fun r => x :: r

/-- Tokens of the requests queued, followed by those of the requests in flight. -/
def outstandingTokens (q : LoaderQueue) (inFlight : List Node) : List Nat :=
  q.map Node.userData ++ inFlight.map Node.userData

/-- The requests queued or in flight belong to different entries, and each of these entries is a
key of the loading map. -/
def Tracked (w : Window) (inFlight : List Node) : Prop :=
  (outstandingTokens w.imageLoaderThread inFlight).Nodup ∧
  ∀ tok ∈ outstandingTokens w.imageLoaderThread inFlight, (w.loading tok).isSome = true

namespace System

/-- One action; `none` when it cannot happen in this state or the code would read a missing
entry. -/
def step (s : System) : Action → Option System
  | .addFile dt path => (s.window.addFile dt path).map fun w => { s with window := w }
  | .setCurrentIndex index => (s.window.setCurrentIndex index).map fun w => { s with window := w }
  | .moveCurrentIndexBy count =>
    (s.window.moveCurrentIndexBy count).map fun w => { s with window := w }
  | .take =>
    match s.window.imageLoaderThread.take with
    | none => none
    | some (x, q) =>
      some { window := { s.window with imageLoaderThread := q }, inFlight := s.inFlight ++ [x] }
  | .imageLoaded userData image =>
    match deliver s.inFlight userData with
    | none => none
    | some rest =>
      (s.window.onImageLoaded userData (some image)).map fun w =>
        { window := w, inFlight := rest }
  | .loadError userData =>
    match deliver s.inFlight userData with
    | none => none
    | some rest =>
      (s.window.onImageLoadError userData).map fun w => { window := w, inFlight := rest }

/-- A sequence of actions. -/
def run : System → List Action → Option System
  | s, [] => some s
  | s, a :: rest =>
    match s.step a with
    | none => none
    | some s1 => run s1 rest

/-- The action clears no entry one of whose requests is in flight. -/
def quiet (s : System) : Action → Bool
  | .setCurrentIndex index => !s.window.evictsInFlight index s.inFlight
  | .moveCurrentIndexBy count =>
    !s.window.evictsInFlight (s.window.bound (s.window.current + count)) s.inFlight
  | _ => true

/-- Every action of the sequence is quiet in the state it is taken in. -/
def quietRun : System → List Action → Bool
  | _, [] => true
  | s, a :: rest =>
    s.quiet a &&
      match s.step a with
      | some s1 => quietRun s1 rest
      | none => true

/-- Number of catalog entries without the `Network` flag that hold a decoded image. -/
def residentCount (s : System) : Nat :=
  (s.window.data.filter fun dt =>
    match s.window.heap dt with
    | some d => d.image.isSome && decide (d.flags &&& Data.Network = 0)
    | none => false).length

/-- Number of requests carrying the token that are queued or in flight. -/
def outstanding (s : System) (userData : Nat) : Nat :=
  (s.window.imageLoaderThread.filter fun x => x.userData = userData).length
    + (s.inFlight.filter fun x => x.userData = userData).length

/-- The viewer started with `--max-images 1`, before any file is added. -/
def start : System := ⟨{ Window.init with maxImages := 1 }, []⟩

/-- Five files are added; the worker decodes the first image, then the one before it (index 4,
reached by wrapping), which `updateImages` requested once the first image was there. -/
def browse : List Action :=
  [.addFile 100 "a.jpg", .addFile 101 "b.jpg", .addFile 102 "c.jpg", .addFile 103 "d.jpg",
   .addFile 104 "e.jpg", .take, .imageLoaded 100 ⟨800, 600⟩, .take, .imageLoaded 104 ⟨800, 600⟩]

/-- After `browse` the user jumps to index 2 and the worker decodes the two images requested
there. -/
def browseAndJump : List Action :=
  browse ++ [.setCurrentIndex 2, .take, .imageLoaded 101 ⟨800, 600⟩, .take,
             .imageLoaded 102 ⟨800, 600⟩]

/-- Five files are added and the first image arrives; the worker takes the request for index 4
and is still decoding it while the user jumps to index 2 and back to index 0. -/
def jumpWhileDecoding : List Action :=
  [.addFile 100 "a.jpg", .addFile 101 "b.jpg", .addFile 102 "c.jpg", .addFile 103 "d.jpg",
   .addFile 104 "e.jpg", .take, .imageLoaded 100 ⟨800, 600⟩, .take,
   .setCurrentIndex 2, .setCurrentIndex 0]


/-- Five files are added and the first image arrives; the worker takes the request for index 4
and is decoding it. -/
def decoding : List Action :=
  [.addFile 100 "a.jpg", .addFile 101 "b.jpg", .addFile 102 "c.jpg", .addFile 103 "d.jpg",
   .addFile 104 "e.jpg", .take, .imageLoaded 100 ⟨800, 600⟩, .take]

end System

/-! ### Removal and history navigation (window.cpp) -/

namespace Window

/-- Model of `Window::removeFile` for the entry at address `dt`, without the copy to the backup
directory and the removal of the file on disk; `none` when the entry has been deleted before
(the code reads `dt->path`). `List.indexOf` returns the length where `QList::indexOf` returns
`-1`, and `qBound(0, c, s - 1)` is `qMax(0, qMin(s - 1, c))`. -/
def removeFile (w : Window) (dt : Nat) : Option Window :=
  match w.heap dt with
  | none => none
  | some _ =>
    if w.test Flags.Closing then some w
    else
      let index := w.data.indexOf dt
      let w1 :=
        if index < w.data.length then
          let data := w.data.eraseIdx index
          let current := if w.current ≥ (index : Int) then w.current - 1 else w.current
          let current := if data.isEmpty then -1 else max 0 (min ((data.length : Int) - 1) current)
          { w with data := data, current := current, heap := Function.update w.heap dt none }
        else w
      some { w1 with updateImagesTimer := true }

/-- The three statements `setCurrentIndex(d.history.first()); d.history.takeFirst();
unset(InNextPrev);` that end `Window::back` and `Window::forward`; `none` when a list that the
code takes the first element of is empty. -/
def visitFirst (w : Window) : Option Window :=
  match w.history with
  | [] => none
  | first :: _ =>
    match w.setCurrentIndex first with
    | none => none
    | some w1 =>
      match w1.history with
      | [] => none
      | _ :: rest =>
        some { w1 with history := rest, flags := Flags.unset w1.flags Flags.InNextPrev }

/-- Model of `Window::back`. -/
def back (w : Window) : Option Window :=
  match w.history with
  | [] => some w
  | first :: rest =>
    visitFirst { w with history := rest ++ [first],
                        flags := Flags.set w.flags Flags.InNextPrev true }

/-- Model of `Window::forward`. -/
def forward (w : Window) : Option Window :=
  match w.history.getLast? with
  | none => some w
  | some last =>
    visitFirst { w with history := last :: w.history.dropLast,
                        flags := Flags.set w.flags Flags.InNextPrev true }

/-- A sequence of calls of `setCurrentIndex`, one for each target in turn. -/
def moves : Window → List Int → Option Window
  | w, [] => some w
  | w, index :: rest =>
    match w.setCurrentIndex index with
    | none => none
    | some w1 => moves w1 rest

/-- Every entry of the catalog is allocated: no pointer in `d.data` dangles. -/
def Allocated (w : Window) : Prop := ∀ dt ∈ w.data, (w.heap dt).isSome = true

/-- What `load`, `updateImages` and the eviction loop of `setCurrentIndex` leave as it is: the
catalog, the cursor, the history, the settings, and the path and the flags of every entry. -/
def Kept (w w' : Window) : Prop :=
  w'.data = w.data ∧ w'.current = w.current ∧ w'.history = w.history ∧
  w'.maxImages = w.maxImages ∧ w'.flags = w.flags ∧
  ∀ dt, (w'.heap dt).map (fun d => (d.path, d.flags)) = (w.heap dt).map (fun d => (d.path, d.flags))

/-- What `load` and `updateImages` do beyond `Kept`: the entries stay as they are and the keys
of the loading map keep their values. -/
def Grown (w w' : Window) : Prop :=
  Kept w w' ∧ w'.heap = w.heap ∧ ∀ tok v, w.loading tok = some v → w'.loading tok = some v

/-- The entry at address `tok` carries the `Failed` flag and the window was started without
`--ignore-failed`. -/
def FailedAt (w : Window) (tok : Nat) : Prop :=
  w.test Flags.IgnoreFailed = false ∧ ∃ d, w.heap tok = some d ∧ d.flags &&& Data.Failed ≠ 0

/-- A catalog of three entries with the cursor on the first one; the requests for the other two
have been taken by the worker and are being decoded, and the user has been at index 2 and at
index 1 before. A fourth entry is allocated and not yet in the catalog. -/
def sample : Window :=
  { Window.init with
      flags := Flags.AutoZoomEnabled ||| Flags.ManuallySetIndex,
      heap := fun a =>
        if a = 100 then some (Data.create "a.jpg")
        else if a = 101 then some (Data.create "b.jpg")
        else if a = 102 then some (Data.create "c.jpg")
        else if a = 103 then some (Data.create "d.jpg")
        else none,
      data := [100, 101, 102],
      current := 0,
      loading := fun a => if a = 101 then some 1 else if a = 102 then some 2 else none,
      history := [1, 2, 0] }

/-- The state `sample` of a viewer started with `--ignore-failed`. -/
def sampleIgnoreFailed : Window :=
  { sample with flags := sample.flags ||| Flags.IgnoreFailed }

end Window

namespace System

/-- The viewer started without options, before any file is added. -/
def startDefault : System := ⟨Window.init, []⟩

/-- The viewer started with `--ignore-failed`, before any file is added. -/
def startIgnoreFailed : System :=
  ⟨{ Window.init with flags := Window.init.flags ||| Flags.IgnoreFailed }, []⟩

/-- Three files are added, the worker takes the request for the first one and fails to decode
it. -/
def firstFails : List Action :=
  [.addFile 100 "a.jpg", .addFile 101 "b.jpg", .addFile 102 "c.jpg", .take, .loadError 100]

end System

/-! ### The sort comparators and the insertion position (window.cpp) -/

/-- Model of `QString` and `QStringRef`: the UTF-16 code units of the text. -/
abbrev QString := List Nat

/-- The UTF-16 code units of a character. -/
def utf16 (c : Char) : List Nat :=
  if c.toNat < 0x10000 then [c.toNat]
  else [0xD800 + (c.toNat - 0x10000) / 0x400, 0xDC00 + (c.toNat - 0x10000) % 0x400]

/-- The `QString` holding a text. -/
def QString.fromString (s : String) : QString := s.toList.flatMap utf16

/-- Modelled from the spec: `QChar::isNumber` of the Qt library, as the test for the digit
characters `0` to `9` that the spec speaks of. Qt's function also accepts the other characters of
the Unicode number categories, for which `toUInt` computes no decimal value. -/
def isNumber (c : Nat) : Bool := decide (0x30 ≤ c ∧ c ≤ 0x39)

/-- Model of `QChar::toLatin1` as Qt implements it, `ucs > 0xff ? 0 : char(ucs)`, with a signed
`char`. -/
def toLatin1 (c : Nat) : Int := if c > 0xff then 0 else if c ≥ 0x80 then (c : Int) - 256 else c

/-- The value an `int` holds after an arithmetic operation with the exact result `x`, on a
two's-complement machine: `x` modulo `2^32`, in the range from `-2^31` to `2^31 - 1`. -/
def wrapInt (x : Int) : Int := (x + 2147483648) % 4294967296 - 2147483648

/-- The loop of `toUInt`, with the loop index `i` and the value of `number`. -/
def toUIntLoop : List Nat → Nat → Int → Int
  | [], _, number => number
  | c :: rest, i, number =>
    let number := if i > 0 then wrapInt (number * 10) else number
    toUIntLoop rest (i + 1) (wrapInt (number + (toLatin1 c - 0x30)))

/-- Model of `toUInt`. -/
def toUInt (ref : QString) : Int := toUIntLoop ref 0 0

/-- A `Section` together with the text its `QStringRef` reads: the code units of the run and the
value of `integer`. -/
structure Section where
  ref : QString
  integer : Int
  deriving DecidableEq, Repr

/-- Model of the constructor `Section(const QStringRef &r, bool number)` on the text `r` reads. -/
def Section.create (r : QString) (number : Bool) : Section :=
  { ref := r, integer := if number then toUInt r else -1 }

/-- Model of `QStringRef::compare` and of the comparison behind `QString::operator<`, case
sensitive, as Qt implements it (`ucstrcmp`): the difference of the first two code units that
differ, or else the difference of the lengths. -/
def QString.compare : QString → QString → Int
  | [], bs => -(bs.length : Int)
  | _ :: as, [] => (as.length : Int) + 1
  | a :: as, b :: bs => if a ≠ b then (a : Int) - b else QString.compare as bs

/-- Model of `qBound(min, val, max)` as Qt implements it: `qMax(min, qMin(max, val))`. -/
def qBound (min val max : Int) : Int := Max.max min (Min.min max val)

/-- Model of `Section::compare`, in the branch for Qt 4.5 and later, on two sections whose texts
have been read. -/
def Section.compare (s other : Section) : Int :=
  if s.integer ≥ 0 ∧ other.integer ≥ 0 then
    if s.integer < other.integer then -1
    else if s.integer > other.integer then 1
    else 0
  else qBound (-1) (QString.compare s.ref other.ref) 1

/-- The local `enum { Unset, Number, NotNumber }` of `encode`. -/
inductive EncodeState where
  | Unset
  | Number
  | NotNumber
  deriving DecidableEq, Repr

/-- The local variables of `encode` while its loop runs, with the text of the run that is being
read in place of its start: `run` holds the code units from index `last` up to the loop index. -/
structure EncodeVars where
  state : EncodeState
  run : QString
  ret : List Section
  deriving DecidableEq, Repr

/-- The body of the loop of `encode` on `EncodeVars`, for the code unit `c` at the loop index. -/
def encodeStep (v : EncodeVars) (c : Nat) : EncodeVars :=
  let number := isNumber c
  if v.state = EncodeState.Unset then
    { v with state := if number then EncodeState.Number else EncodeState.NotNumber,
             run := v.run ++ [c] }
  else if number != (v.state == EncodeState.Number) then
    { state := if number then EncodeState.Number else EncodeState.NotNumber,
      run := [c],
      ret := v.ret ++ [Section.create v.run (!number)] }
  else { v with run := v.run ++ [c] }

/-- The two statements after the loop of `encode` on `EncodeVars`: the last section is
appended. -/
def encodeFinish (v : EncodeVars) : List Section :=
  v.ret ++ [Section.create v.run (v.state == EncodeState.Number)]

/-- The sections the loop of `encode` cuts a text into, each with its text. `encodeNew_read`
shows that these are the sections `encodeNew` builds, read in the string they were cut from. -/
def encodeText (string : QString) : List Section :=
  encodeFinish (string.foldl encodeStep ⟨EncodeState.Unset, [], []⟩)

/-- The loop and the last statement of `compareDataNaturally` on two lists of sections whose
texts have been read, walked in step; when one of them is used up the loop index has reached
`qMin(l.size(), r.size())` and `l.size() < r.size()` holds exactly when sections of `r` alone are
left. -/
def compareSections : List Section → List Section → Bool
  | a :: l, b :: r =>
    if a.compare b = -1 then true
    else if a.compare b = 1 then false
    else compareSections l r
  | l, r => decide (l.length < r.length)

/-- The order of two paths by the sections of their own texts: what `compareDataNaturally`
computes for two entries that `encode` meets for the first time (`compareDataNaturally_fresh`). -/
def compareTextNaturally (left right : Data) : Bool :=
  compareSections (encodeText (QString.fromString left.path))
    (encodeText (QString.fromString right.path))

/-- Model of `QStringRef`: the address of the string it points into (here the address of the
entry whose `path` the string is), the position and the size of the piece. It holds no copy of
the text. -/
structure QStringRef where
  string : Nat
  position : Nat
  size : Nat
  deriving DecidableEq, Repr

/-- Model of `struct Section`: the `QStringRef` and the value of `integer`. -/
structure RefSection where
  ref : QStringRef
  integer : Int
  deriving DecidableEq, Repr

/-- Model of the constructor `Section(const QStringRef &r, bool number)`; `text` is the string
`r` points into, read by `toUInt` when the constructor runs. -/
def RefSection.create (text : QString) (r : QStringRef) (number : Bool) : RefSection :=
  { ref := r, integer := if number then toUInt ((text.drop r.position).take r.size) else -1 }

/-- The section with the text its `QStringRef` reads in the text `text`. -/
def RefSection.readIn (text : QString) (s : RefSection) : Section :=
  { ref := (text.drop s.ref.position).take s.ref.size, integer := s.integer }

/-- The local variables `state`, `last` and `ret` of `encode`. -/
structure EncodeLocals where
  state : EncodeState
  last : Nat
  ret : List RefSection
  deriving DecidableEq, Repr

/-- The body of the loop of `encode` at the loop index `i`, for the string at address `string`
with the text `text`. -/
def encodeBody (string : Nat) (text : QString) (v : EncodeLocals) (i : Nat) : EncodeLocals :=
  let number := isNumber (text.getD i 0)
  if v.state = EncodeState.Unset then
    { v with state := if number then EncodeState.Number else EncodeState.NotNumber }
  else if number != (v.state == EncodeState.Number) then
    { state := if number then EncodeState.Number else EncodeState.NotNumber,
      last := i,
      ret := v.ret ++ [RefSection.create text ⟨string, v.last, i - v.last⟩ (!number)] }
  else v

/-- The branch of `encode` for a string that is not a key of the hash: the loop over the indices
of the text and the two statements after it. -/
def encodeNew (string : Nat) (text : QString) : List RefSection :=
  let v := (List.range text.length).foldl (encodeBody string text) ⟨EncodeState.Unset, 0, []⟩
  v.ret ++ [RefSection.create text ⟨string, v.last, text.length - v.last⟩
              (v.state == EncodeState.Number)]

/-- The function-static `QHash<const QString*, QList<Section> > data` of `encode`, keyed by the
address of the string. Nothing is ever taken out of it. -/
abbrev SectionCache := Nat → Option (List RefSection)

/-- Model of `encode`: the sections returned and the hash left. A string that is a key of the
hash is not read; for any other string the sections are built from its text and stored. `none`
when the string that is to be read has been deleted. -/
def encode (data : SectionCache) (heap : Nat → Option Data) (string : Nat) :
    Option (List RefSection × SectionCache) :=
  match data string with
  | none =>
    match heap string with
    | none => none
    | some d =>
      let ret := encodeNew string (QString.fromString d.path)
      some (ret, Function.update data string (some ret))
  | some ret => some (ret, data)

/-- What a `QStringRef` reads when it is compared: the piece of the text that stands at its
address now. `none` when the string has been deleted or ends before the piece does. -/
def QStringRef.read (heap : Nat → Option Data) (r : QStringRef) : Option QString :=
  match heap r.string with
  | none => none
  | some d =>
    let text := QString.fromString d.path
    if r.position + r.size ≤ text.length then some ((text.drop r.position).take r.size)
    else none

/-- Model of `Section::compare`, in the branch for Qt 4.5 and later. The texts are read only
when one of the two values is negative. -/
def RefSection.compare (heap : Nat → Option Data) (s other : RefSection) : Option Int :=
  if s.integer ≥ 0 ∧ other.integer ≥ 0 then
    some (if s.integer < other.integer then -1
          else if s.integer > other.integer then 1
          else 0)
  else
    match s.ref.read heap, other.ref.read heap with
    | some a, some b => some (qBound (-1) (QString.compare a b) 1)
    | _, _ => none

/-- The loop and the last statement of `compareDataNaturally` on the two section lists. -/
def compareRefSections (heap : Nat → Option Data) :
    List RefSection → List RefSection → Option Bool
  | a :: l, b :: r =>
    match a.compare heap b with
    | none => none
    | some c =>
      if c = -1 then some true
      else if c = 1 then some false
      else compareRefSections heap l r
  | l, r => some (decide (l.length < r.length))

/-- Model of `compareDataNaturally` for the entries at the addresses `left` and `right`: the
value returned and the hash of `encode` afterwards. -/
def compareDataNaturally (data : SectionCache) (heap : Nat → Option Data) (left right : Nat) :
    Option (Bool × SectionCache) :=
  match encode data heap left with
  | none => none
  | some (l, data1) =>
    match encode data1 heap right with
    | none => none
    | some (r, data2) => (compareRefSections heap l r).map fun b => (b, data2)

/-- The hash of `encode` holds nothing for the address, or the sections of the path that stands
at the address now. -/
def SectionCache.Fresh (data : SectionCache) (heap : Nat → Option Data) (string : Nat) : Prop :=
  data string = none ∨
    ∃ d, heap string = some d ∧ data string = some (encodeNew string (QString.fromString d.path))

/-- Model of `compareDataAlphabetically`: `left->path < right->path`. -/
def compareDataAlphabetically (left right : Data) : Bool :=
  decide (QString.compare (QString.fromString left.path) (QString.fromString right.path) < 0)

/-- Model of `compareDataBySize`; `size` stands for `QFileInfo(path).size()`, which the function
asks once for each entry address and keeps in a static hash. -/
def compareDataBySize (size : String → Int) (left right : Data) : Bool :=
  decide (size left.path > size right.path)

/-- Model of `compareDataByCreationDate`; `created` stands for
`QFileInfo(path).created().toTime_t()`, which the function asks once for each entry address and
keeps in a static hash. -/
def compareDataByCreationDate (created : String → Nat) (left right : Data) : Bool :=
  decide (created left.path > created right.path)

/-- The loop of `qLowerBound` as Qt implements it, on the list `l` with the offset `begin` and the
length `n` of the range still searched; `fuel` bounds the number of iterations. -/
def qLowerBoundLoop {α : Type} (lessThan : α → α → Bool) (l : List α) (value : α) :
    Nat → Nat → Nat → Nat
  | 0, begin, _ => begin
  | fuel + 1, begin, n =>
    if n > 0 then
      let half := n / 2
      let middle := begin + half
      match l[middle]? with
      | none => begin
      | some m =>
        if lessThan m value then qLowerBoundLoop lessThan l value fuel (middle + 1) (n - (half + 1))
        else qLowerBoundLoop lessThan l value fuel begin half
    else begin

/-- Model of `qLowerBound(begin, end, value, lessThan)` over a whole list: the position found,
`l.length` standing for `end`. The range halves in each iteration, so `l.length` iterations are
enough. -/
def qLowerBound {α : Type} (lessThan : α → α → Bool) (l : List α) (value : α) : Nat :=
  qLowerBoundLoop lessThan l value l.length 0 l.length

/-- The loop of `qLowerBound` for a comparator that works on a state of its own (a static hash)
and reads the entries it is given: the position and the state left, `none` when a comparison
reads a deleted entry. -/
def qLowerBoundLoopWith {σ α : Type} (lessThan : σ → α → α → Option (Bool × σ)) (l : List α)
    (value : α) : Nat → σ → Nat → Nat → Option (Nat × σ)
  | 0, s, begin, _ => some (begin, s)
  | fuel + 1, s, begin, n =>
    if n > 0 then
      let half := n / 2
      let middle := begin + half
      match l[middle]? with
      | none => some (begin, s)
      | some m =>
        match lessThan s m value with
        | none => none
        | some (less, s1) =>
          if less then
            qLowerBoundLoopWith lessThan l value fuel s1 (middle + 1) (n - (half + 1))
          else qLowerBoundLoopWith lessThan l value fuel s1 begin half
    else some (begin, s)

/-- Model of `qLowerBound(begin, end, value, lessThan)` over a whole list, for a comparator with
a state. -/
def qLowerBoundWith {σ α : Type} (lessThan : σ → α → α → Option (Bool × σ)) (l : List α)
    (value : α) (s : σ) : Option (Nat × σ) :=
  qLowerBoundLoopWith lessThan l value l.length s 0 l.length

/-- The entries the pointers of a list point to; `none` when one of them dangles. -/
def derefAll (heap : Nat → Option Data) : List Nat → Option (List Data)
  | [] => some []
  | dt :: rest =>
    match heap dt, derefAll heap rest with
    | some d, some ds => some (d :: ds)
    | _, _ => none

/-- The exact decimal value of a run of digits. -/
def decimal (r : QString) : Nat := r.foldl (fun n c => n * 10 + (c - 0x30)) 0

/-- A non-empty run of digits. -/
def isDigitRun (r : QString) : Bool := !r.isEmpty && r.all isNumber

/-- Every run of digits that `encodeText` cuts out of the path has a value below `2^31`. -/
def digitRunsFit (p : QString) : Bool :=
  (encodeText p).all fun s => !isDigitRun s.ref || decide (decimal s.ref < 2147483648)

/-- What `Section::compare` relies on: a section is either a non-empty run of digits whose
`integer` is not negative, or a run without digits whose `integer` is `-1`. -/
def Section.Fit (s : Section) : Prop :=
  (isDigitRun s.ref = true ∧ 0 ≤ s.integer) ∨ ((∀ c ∈ s.ref, isNumber c = false) ∧ s.integer = -1)

/-- What `encodeText` produces: a section is either a non-empty run of digits with the value `toUInt`
gives it, or a run without digits with the value `-1`. -/
def Section.Run (s : Section) : Prop :=
  (isDigitRun s.ref = true ∧ s.integer = toUInt s.ref) ∨
  ((∀ c ∈ s.ref, isNumber c = false) ∧ s.integer = -1)

/-- Two sections are runs of different kinds: one of digits, one without digits. -/
def Section.Alternate (a b : Section) : Prop := isDigitRun a.ref ≠ isDigitRun b.ref

/-- What holds of the local variables of `encodeText` whenever the loop condition is tested. -/
def EncodeVars.Inv (v : EncodeVars) : Prop :=
  (∀ s ∈ v.ret, s.Run) ∧
  (v.state = EncodeState.Unset → v.run = [] ∧ v.ret = []) ∧
  (v.state = EncodeState.Number → isDigitRun v.run = true) ∧
  (v.state = EncodeState.NotNumber → v.run ≠ [] ∧ ∀ c ∈ v.run, isNumber c = false) ∧
  v.ret.Chain' Section.Alternate ∧
  ∀ s, v.ret.getLast? = some s →
    (isDigitRun s.ref = true ↔ v.state = EncodeState.NotNumber)

namespace Window

/-- The entries of the catalog in their order; `none` when a pointer in `d.data` dangles. -/
def entries (w : Window) : Option (List Data) := derefAll w.heap w.data

/-- The `switch` on `d.sort` in `Window::addNode`: the position `it` for the entry at address
`dt`, with `d.data.size()` standing for `d.data.end()`, and the hash of `encode` afterwards.
`cache` is that hash before the call, `size` and `created` stand for the file sizes and creation
dates `QFileInfo` reports and `rand` for the value `rand()` returns. The result is `none` when
the new entry has been deleted, when `compareDataNaturally` reads a deleted entry, or when
another comparator is used and an entry of the catalog has been deleted (the search may read
it). -/
def addNodeIterator (w : Window) (cache : SectionCache) (size : String → Int)
    (created : String → Nat) (rand : Nat) (dt : Nat) : Option (Nat × SectionCache) :=
  match w.heap dt with
  | none => none
  | some d =>
    if w.data.isEmpty then some (w.data.length, cache)
    else
      match w.sort with
      | SortOrder.Natural =>
        qLowerBoundWith (fun data left right => compareDataNaturally data w.heap left right)
          w.data dt cache
      | SortOrder.Alphabetically =>
        w.entries.map fun ds => (qLowerBound compareDataAlphabetically ds d, cache)
      | SortOrder.Size =>
        w.entries.map fun ds => (qLowerBound (compareDataBySize size) ds d, cache)
      | SortOrder.CreationDate =>
        w.entries.map fun ds => (qLowerBound (compareDataByCreationDate created) ds d, cache)
      | SortOrder.Random => some (rand % w.data.length, cache)
      | SortOrder.None => some (w.data.length, cache)

/-- Model of `Window::addNode` with the `switch` on `d.sort` in front: the window and the hash
of `encode` afterwards. -/
def addNodeSwitch (w : Window) (cache : SectionCache) (size : String → Int)
    (created : String → Nat) (rand : Nat) (dt : Nat) : Option (Window × SectionCache) :=
  match w.addNodeIterator cache size created rand dt with
  | none => none
  | some (it, cache1) => (w.addNode dt it).map fun w1 => (w1, cache1)

/-- Model of `Window::addFile` under any sort order: a new entry at the address `dt`, which
holds no entry, handed to `addNode`. -/
def addFileSorted (w : Window) (cache : SectionCache) (size : String → Int)
    (created : String → Nat) (rand : Nat) (dt : Nat) (path : String) :
    Option (Window × SectionCache) :=
  if (w.heap dt).isSome then none
  else
    addNodeSwitch { w with heap := Function.update w.heap dt (some (Data.create path)) } cache
      size created rand dt

/-- The order of two entries by their paths under Alphabetical and Natural order: what the
comparator of the `switch` in `addNode` computes, under Natural order for entries that `encode`
meets for the first time. -/
def lessThanOf : SortOrder → Data → Data → Bool
  | SortOrder.Natural => compareTextNaturally
  | _ => compareDataAlphabetically

/-- No entry of the list is strictly less than an entry before it. -/
def Ordered (lessThan : Data → Data → Bool) (ds : List Data) : Prop :=
  ds.Pairwise fun a b => lessThan b a = false

/-- A viewer started with `--sort=natural` whose catalog holds `10` and `3000000000`; the entry
for `9` is allocated and not yet in the catalog. -/
def overflowSample : Window :=
  { Window.init with
      flags := Flags.AutoZoomEnabled,
      sort := SortOrder.Natural,
      heap := fun a =>
        if a = 100 then some (Data.create "10")
        else if a = 101 then some (Data.create "3000000000")
        else if a = 102 then some (Data.create "9")
        else none,
      data := [100, 101],
      current := 0 }

/-- A viewer started with `--sort=natural` whose catalog holds `img2.png` and `img10.png`; the
entry for `img7.png` is allocated and not yet in the catalog. -/
def naturalSample : Window :=
  { Window.init with
      flags := Flags.AutoZoomEnabled,
      sort := SortOrder.Natural,
      heap := fun a =>
        if a = 100 then some (Data.create "img2.png")
        else if a = 101 then some (Data.create "img10.png")
        else if a = 102 then some (Data.create "img7.png")
        else none,
      data := [100, 101],
      current := 0 }

end Window

/-! ### Network entries, the image counter and the cursor (window.cpp) -/

namespace Window

/-- The loop of `Window::clearImages`:
`foreach(Data *dt, d.data) if (!(dt->flags & Data::Network)) dt->clear();`. -/
def clearEach : List Nat → Window → Option Window
  | [], w => some w
  | dt :: rest, w =>
    match w.heap dt with
    | none => none
    | some d =>
      if d.flags &&& Data.Network = 0 then
        clearEach rest { w with heap := Function.update w.heap dt (some d.clear.2) }
      else clearEach rest w

/-- Model of `Window::clearImages`; `ImageLoaderThread::clear` empties the queue. -/
def clearImages (w : Window) : Option Window :=
  match clearEach w.data { w with imageLoaderThread := [] } with
  | none => none
  | some w1 => updateImages { w1 with imagesInMemory := 0 }

/-- Model of `Window::onNetworkReplyFinished`: `dt` is the address `new Data` returns, `image`
what `reader.read()` yields (the null image when the reply is empty or cannot be decoded) and
`url` the text of `reply->url()`; `cache`, `size`, `created` and `rand` are handed on to
`addNode`. -/
def onNetworkReplyFinished (w : Window) (cache : SectionCache) (size : String → Int)
    (created : String → Nat) (rand : Nat) (dt : Nat) (image : QImage) (url : String) :
    Option (Window × SectionCache) :=
  if (w.heap dt).isSome then none
  else
    let node : Data :=
      { path := url, image := image, movie := none, rotation := 0, flags := Data.Network }
    let node := if node.image.isNone then { node with flags := node.flags ||| Data.Failed }
                else node
    let w1 := { w with heap := Function.update w.heap dt (some node),
                       imagesInMemory := if node.image.isNone then w.imagesInMemory
                                         else w.imagesInMemory + 1 }
    w1.addNodeSwitch cache size created rand dt

/-- Number of catalog entries whose image is not null. -/
def imageCount (w : Window) : Nat :=
  (w.data.filter fun dt =>
    match w.heap dt with
    | some d => d.image.isSome
    | none => false).length

/-- The statements of `Window::setCurrentIndex` from `d.history.prepend(index)` to
`d.current = index`, on a non-empty catalog; the eviction loop and `updateImages` follow. -/
def moveCursor (w : Window) (index : Int) : Window :=
  let history := index :: w.history
  { w with history := trimHistory history.length history,
           flags := Flags.set w.flags Flags.ManuallySetIndex (decide (w.data.length > 1)),
           current := max 0 index }

/-- The requests in the queue that carry the token of the entry at address `tok`. -/
def requestsOf (w : Window) (tok : Nat) : List Node :=
  w.imageLoaderThread.filter fun x => decide (x.userData = tok)

/-- The entry at address `tok` is a key of the loading map of `w'` and is none of `w`. -/
def newKey (w w' : Window) (tok : Nat) : Bool :=
  (w.loading tok).isNone && (w'.loading tok).isSome

/-- What `setCurrentIndex` and `clearImages` leave of the entries carrying the `Network` flag:
the entry itself, its value in the loading map, and its requests in the queue. -/
def NetworkKept (w w' : Window) : Prop :=
  ∀ dt d, w.heap dt = some d → d.flags &&& Data.Network ≠ 0 →
    w'.heap dt = some d ∧ (∀ v, w.loading dt = some v → w'.loading dt = some v) ∧
    (w.imageLoaderThread.filter fun x => decide (x.userData = dt)).Sublist
      (w'.imageLoaderThread.filter fun x => decide (x.userData = dt))

/-- Three files are added; the user goes to the last one, marks it for deletion, returns to
the first one and purges, which calls `removeFile` for the entry marked. -/
def purgedLast : Option Window :=
  ((((Window.init.addFile 100 "a.jpg").bind fun w => w.addFile 101 "b.jpg").bind
    fun w => w.addFile 102 "c.jpg").bind fun w => w.setCurrentIndex 2).bind
    fun w => (w.setCurrentIndex 0).bind fun w => w.removeFile 102

/-- Two files are added and the image of the first one arrives. -/
def loadedFirst : Option Window :=
  (System.run System.start
    [.addFile 100 "a.jpg", .addFile 101 "b.jpg", .take, .imageLoaded 100 ⟨800, 600⟩]).map
    fun s => s.window

/-- The viewer is started with one address on the network and the reply holds an image of the
size of the viewport. -/
def networkFirst : Option Window :=
  (Window.init.onNetworkReplyFinished (fun _ => none) (fun _ => 0) (fun _ => 0) 0 100
    (some ⟨800, 600⟩) "http://example.org/a.jpg").map fun r => r.1

/-- A catalog of five entries, budget 1, cursor on the first entry: the entry at index 4, the
one `surrounding` yields for the cursor, came from the network and holds its image, has a value
in the loading map and a request in the queue. -/
def networkSample : Window :=
  { Window.init with
      flags := Flags.AutoZoomEnabled ||| Flags.ManuallySetIndex,
      heap := fun a =>
        if a = 100 then some (Data.create "a.jpg")
        else if a = 101 then some (Data.create "b.jpg")
        else if a = 102 then some (Data.create "c.jpg")
        else if a = 103 then some (Data.create "d.jpg")
        else if a = 104 then
          some { path := "http://example.org/e.jpg", image := some ⟨800, 600⟩, movie := none,
                 rotation := 0, flags := Data.Network }
        else none,
      data := [100, 101, 102, 103, 104],
      current := 0,
      maxImages := 1,
      imagesInMemory := 1,
      loading := fun a => if a = 104 then some 4 else none,
      imageLoaderThread :=
        [ImageLoaderThread.newNode "http://example.org/e.jpg" 2 0 104 ⟨800, 600⟩] }

/-- A viewer started with `--sort=natural`: `img5.png` and `img10.png` are added; the user goes
to `img10.png` at index 1, marks it for deletion and purges, which calls `removeFile` for it;
then `img2.png` is added at the address `img10.png` had. -/
def staleInsert : Option (Window × SectionCache) :=
  ((((Window.addFileSorted { Window.init with sort := SortOrder.Natural } (fun _ => none)
        (fun _ => 0) (fun _ => 0) 0 100 "img5.png").bind
      fun r => r.1.addFileSorted r.2 (fun _ => 0) (fun _ => 0) 0 101 "img10.png").bind
      fun r => (r.1.setCurrentIndex 1).map fun w => (w, r.2)).bind
      fun r => (r.1.removeFile 101).map fun w => (w, r.2)).bind
      fun r => r.1.addFileSorted r.2 (fun _ => 0) (fun _ => 0) 0 101 "img2.png"

end Window

/-! ### Search (window.cpp) -/

/-- Whether the text `s` starts with the text `t`. -/
def startsWith : QString → QString → Bool
  | _, [] => true
  | [], _ :: _ => false
  | a :: s, b :: t => a == b && startsWith s t

/-- The lower-case form of an ASCII letter; every other code unit is left as it is. -/
def foldAscii (c : Nat) : Nat := if 0x41 ≤ c ∧ c ≤ 0x5A then c + 0x20 else c

/-- Model of `QString::contains(string, Qt::CaseInsensitive)` for ASCII text: some position of
the path starts with the string, letters compared without regard to case. Qt folds the case of
the other letters of Unicode as well. -/
def containsAscii (path string : QString) : Bool :=
  (path.map foldAscii).tails.any fun t => startsWith t (string.map foldAscii)

namespace Window

/-- The loop of `Window::indexOf`; `contains` stands for
`QString::contains(string, Qt::CaseInsensitive)`. `none` when the fuel runs out or the entry read
is out of range or deleted. -/
def indexOfLoop (w : Window) (contains : QString → QString → Bool) (string : QString) :
    Nat → Int → Option Int
  | 0, _ => none
  | fuel + 1, index =>
    if index < w.data.length then
      match w.entryAt index with
      | none => none
      | some (_, d) =>
        if contains (QString.fromString d.path) string then some index
        else indexOfLoop w contains string fuel (index + 1)
    else some (-1)

/-- Model of `Window::indexOf`. The loop gets one iteration more than there are indices from
`index` to the end of the catalog. -/
def indexOf (w : Window) (contains : QString → QString → Bool) (string : QString)
    (index : Int) : Option Int :=
  w.indexOfLoop contains string (((w.data.length : Int) - index).toNat + 1) index

/-- The loop of `Window::lastIndexOf`. -/
def lastIndexOfLoop (w : Window) (contains : QString → QString → Bool) (string : QString) :
    Nat → Int → Option Int
  | 0, _ => none
  | fuel + 1, index =>
    if index ≥ 0 then
      match w.entryAt index with
      | none => none
      | some (_, d) =>
        if contains (QString.fromString d.path) string then some index
        else lastIndexOfLoop w contains string fuel (index - 1)
    else some (-1)

/-- Model of `Window::lastIndexOf`. The loop gets one iteration more than there are indices from
`index` down to `0`. -/
def lastIndexOf (w : Window) (contains : QString → QString → Bool) (string : QString)
    (index : Int) : Option Int :=
  w.lastIndexOfLoop contains string ((index + 1).toNat + 1) index

/-- Model of `Window::searchNext`: the value returned and the state left; `text` is
`d.lineEdit->text()`. -/
def searchNext (w : Window) (contains : QString → QString → Bool) (text : QString) :
    Option (Bool × Window) :=
  if text.isEmpty then some (false, w)
  else
    match w.indexOf contains text (w.current + 1) with
    | none => none
    | some i =>
      match (if i = -1 then w.indexOf contains text 0 else some i) with
      | none => none
      | some i =>
        if i ≠ -1 then (w.setCurrentIndex i).map fun w1 => (true, w1)
        else some (true, w)

/-- Model of `Window::searchPrevious`. -/
def searchPrevious (w : Window) (contains : QString → QString → Bool) (text : QString) :
    Option (Bool × Window) :=
  if text.isEmpty then some (false, w)
  else
    match w.lastIndexOf contains text (w.current - 1) with
    | none => none
    | some i =>
      match (if i = -1 then w.lastIndexOf contains text ((w.data.length : Int) - 1)
             else some i) with
      | none => none
      | some i =>
        if i ≠ -1 then (w.setCurrentIndex i).map fun w1 => (true, w1)
        else some (true, w)

/-- Whether the path of the entry at `index` contains the text. -/
def pathMatches (w : Window) (contains : QString → QString → Bool) (text : QString)
    (index : Int) : Bool :=
  match w.entryAt index with
  | some (_, d) => contains (QString.fromString d.path) text
  | none => false

/-- A catalog of five entries of which only the one at index 1 contains `beach`, with the
cursor at `current`; no image is loaded and no request pending. -/
def searchSample (current : Int) : Window :=
  { Window.init with
      flags := Flags.AutoZoomEnabled ||| Flags.ManuallySetIndex,
      heap := fun a =>
        if a = 100 then some (Data.create "alps.jpg")
        else if a = 101 then some (Data.create "Beach.JPG")
        else if a = 102 then some (Data.create "city.jpg")
        else if a = 103 then some (Data.create "dunes.jpg")
        else if a = 104 then some (Data.create "elbe.jpg")
        else none,
      data := [100, 101, 102, 103, 104],
      current := current }

end Window

/-! ### The index buffer and the rotation keys (window.cpp) -/

/-- Model of `QString::toInt(&ok)` as Qt implements it, for a text that is empty or made of the
digits `0` to `9`: the value returned and `ok`. The empty text and a value above `INT_MAX` give
`0` and `false`. Signs and white space, which Qt accepts as well, are not modelled: the digit
keys put none into the buffer. -/
def QString.toInt (s : QString) : Int × Bool :=
  if isDigitRun s ∧ decimal s ≤ 2147483647 then ((decimal s : Int), true) else (0, false)

/-- Model of `QString::toUInt(&ok)` as Qt implements it, for a text that is empty or made of the
digits `0` to `9`; the limit is `UINT_MAX`. -/
def QString.toUInt (s : QString) : Int × Bool :=
  if isDigitRun s ∧ decimal s ≤ 4294967295 then ((decimal s : Int), true) else (0, false)

/-- The members of `d` the digit keys work on; a timer is `true` while it is running. -/
structure IndexInput where
  indexBuffer : QString
  indexBufferTimer : Bool
  indexBufferClearTimer : Bool
  deriving DecidableEq, Repr

/-- The `forever` loop of the digit keys in `Window::keyPressEvent`, for a catalog of `size`
entries: the buffer it leaves. `Q_ASSERT(ok)` is compiled out of a release build. `none` when the
fuel runs out. -/
def indexBufferLoop (size : Int) : Nat → QString → Option QString
  | 0, _ => none
  | fuel + 1, indexBuffer =>
    let i := (QString.toInt indexBuffer).1 - 1
    if i ≥ size then indexBufferLoop size fuel (indexBuffer.drop 1)
    else some indexBuffer

namespace Window

/-- The case of the keys `0` to `9` in `Window::keyPressEvent`; `text` is `e->text()`. The loop
gets one iteration more than the buffer has characters. -/
def keyPressDigit (w : Window) (s : IndexInput) (text : QString) : Option IndexInput :=
  if w.data.isEmpty ∨ text.isEmpty then some s
  else
    let indexBuffer := s.indexBuffer ++ text
    match indexBufferLoop w.data.length (indexBuffer.length + 1) indexBuffer with
    | none => none
    | some indexBuffer =>
      some { indexBuffer := indexBuffer, indexBufferTimer := true,
             indexBufferClearTimer := !indexBuffer.isEmpty || s.indexBufferClearTimer }

/-- A sequence of digit key presses, no timer firing in between. -/
def keyPressDigits (w : Window) : IndexInput → List QString → Option IndexInput
  | s, [] => some s
  | s, text :: rest =>
    match w.keyPressDigit s text with
    | none => none
    | some s1 => keyPressDigits w s1 rest

/-- The branch of `Window::timerEvent` for `d.indexBufferTimer`. The subtraction is done on
`uint` and the result converted to `int`. -/
def indexBufferTimeout (w : Window) (s : IndexInput) : Option (Window × IndexInput) :=
  let s1 := { s with indexBufferTimer := false }
  let r := QString.toUInt s.indexBuffer
  let i := wrapInt (r.1 - 1)
  if r.2 ∧ i ≥ 0 ∧ i < w.data.length then (w.setCurrentIndex i).map fun w1 => (w1, s1)
  else some (w, s1)

/-- Model of `QImage::transformed` for a rotation by a quarter turn, as far as the size goes:
width and height change places. -/
def quarterTurn (image : QImage) : QImage := image.map fun s => ⟨s.height, s.width⟩

/-- Model of `Window::rotateLeft`; `none` when the entry under the cursor is out of range or
deleted. -/
def rotateLeft (w : Window) : Option Window :=
  if w.current ≠ -1 then
    match w.entryAt w.current with
    | none => none
    | some (dt, d) =>
      let d := if d.rotation = 0 then { d with rotation := 270 }
               else { d with rotation := d.rotation - 90 }
      let d := if d.image.isSome then { d with image := quarterTurn d.image } else d
      some { w with heap := Function.update w.heap dt (some d) }
  else some w

/-- Model of `Window::rotateRight`. -/
def rotateRight (w : Window) : Option Window :=
  if w.current ≠ -1 then
    match w.entryAt w.current with
    | none => none
    | some (dt, d) =>
      let d := if d.rotation = 270 then { d with rotation := 0 }
               else { d with rotation := d.rotation + 90 }
      let d := if d.image.isSome then { d with image := quarterTurn d.image } else d
      some { w with heap := Function.update w.heap dt (some d) }
  else some w

/-- The rotation field of the entry at address `dt`. -/
def rotationOf (w : Window) (dt : Nat) : Option Int := (w.heap dt).map Data.rotation

/-- The empty index buffer with both timers stopped. -/
def noInput : IndexInput := ⟨[], false, false⟩

end Window

/-! ### The file-name options of the command line (window.cpp) -/

/-- Model of `enum Type` (window.cpp), the kinds of command-line options; `Sorting` stands for
`Sort`. -/
inductive OptionType where
  | Help | Slideshow | Fullscreen | ShowNormal | Randomize | Sorting | DetectFileType | Color
  | DisplayFileName | HideFileName | DisplayThumbnails | XErrorKludge | HidePointer | Name | IName
  | Ignore | IIgnore | Opacity | QuitTimer | AutoZoom | Recurse | MaxImageCount | MaxThreadCount
  | DashDash | Dash | MaxSize | MinSize | IgnoreFailed | NoSmoothScale | BypassX11 | NumTypes
  deriving DecidableEq, Repr

/-- Model of `enum ExtraArg` in `Window::parseArgs`. -/
inductive ExtraArg where
  | No | One | Two | Optional
  deriving DecidableEq, Repr

/-- One row of the table `options[]` in `Window::parseArgs`; `none` is the null pointer. -/
structure OptionRow where
  shortOpt : Option String
  longOpt : Option String
  type : OptionType
  extraArg : ExtraArg
  description : Option String
  deriving DecidableEq, Repr

/-- The table `options[]` of `Window::parseArgs`, with its closing row. -/
def options : List OptionRow :=
  [ ⟨some "-h", some "--help", .Help, .No, some "Display this help"⟩,
    ⟨some "-s", some "--slideshow", .Slideshow, .Optional,
      some "Start slideshow (optional seconds argument)"⟩,
    ⟨some "-f", some "--fullscreen", .Fullscreen, .No, some "Display full screen"⟩,
    ⟨none, some "--show-normal", .ShowNormal, .No, some "Show normal"⟩,
    ⟨some "-z", some "--randomize", .Randomize, .No,
      some "Randomize order of images, same as --sort random"⟩,
    ⟨some "-o", some "--sort", .Sorting, .One,
      some "Set sorting (size|s, filename|f, random|r, creationdate|d, natural|n)"⟩,
    ⟨none, some "--detect-filetype", .DetectFileType, .No,
      some "Detect file type (don't trust extension)"⟩,
    ⟨none, some "--backgroundcolor", .Color, .One,
      some "Background color. E.g. --backgroundcolor red"⟩,
    ⟨none, some "--display-file-name", .DisplayFileName, .No, some "Display file name"⟩,
    ⟨none, some "--hide-file-name", .DisplayFileName, .No, some "Hide file name"⟩,
    ⟨none, some "--display-thumbnails", .DisplayFileName, .No, some "Display thumbnails"⟩,
    ⟨none, some "--hide-thumbnails", .DisplayFileName, .No, some "Hide thumbnails"⟩,
    ⟨none, some "--xerror-kludge", .XErrorKludge, .No,
      some "Use this if you have problems with background painting"⟩,
    ⟨some "-p", some "--hide-pointer", .HidePointer, .No, some "Hide pointer"⟩,
    ⟨some "-n", some "--name", .Name, .One,
      some "Load only files matching arg in directories (case sensitive)"⟩,
    ⟨some "-u", some "--iname", .IName, .One,
      some "Load only files matching arg in directories (case insensitive)"⟩,
    ⟨none, some "--ignore", .Ignore, .One,
      some "Don't load files matching arg in directories (case sensitive)"⟩,
    ⟨none, some "--iignore", .Ignore, .One,
      some "Don't load files matching arg in directories (case insensitive)"⟩,
    ⟨none, some "--opacity", .Opacity, .One, some "Set opacity of window (in percentage)"⟩,
    ⟨none, some "--quit-timer", .QuitTimer, .One,
      some "Quit after [arg] minutes of inactivity (default 5). 0 means disable"⟩,
    ⟨some "-Z", some "--auto-zoom", .AutoZoom, .No, some "Auto zoom"⟩,
    ⟨some "-r", some "--recurse", .Recurse, .No, some "Recurse subdirectories"⟩,
    ⟨none, some "--max-images", .MaxImageCount, .One,
      some "Limit number of images to keep in memory to argument"⟩,
    ⟨none, some "--max-threads", .MaxThreadCount, .One,
      some "Limit number of threads to run concurrently to argument"⟩,
    ⟨none, some "--max-size", .MaxSize, .One,
      some "Don't load images that are larger than [arg] kb"⟩,
    ⟨none, some "--min-size", .MinSize, .One,
      some "Only load images that are larger than or equal to [arg] kb"⟩,
    ⟨none, some "--ignore-failed", .IgnoreFailed, .No, some "Ignore images that fail to load"⟩,
    ⟨none, some "--bypass-x11", .BypassX11, .No, some "Bypass X11 window management"⟩,
    ⟨none, some "--no-smoothscale", .NoSmoothScale, .No, some "Don't smoothscale images"⟩,
    ⟨none, some "-", .Dash, .No, some "Read pictures/directories from stdin"⟩,
    ⟨none, some "--", .DashDash, .No,
      some "Treat everything after this argument as file names or directories"⟩,
    ⟨none, none, .NumTypes, .No, none⟩ ]

/-- The lookup loop of `Window::parseArgs`,
`while (options[option].description) { if (arg == shortOpt || arg == longOpt) break; ++option; }`,
on the rows from `options[option]` on: the row it stops at. `arg` starts with `-`, so it differs
from a null pointer. Past the closing row there is nothing to read. -/
def findOption (arg : String) : List OptionRow → Option OptionRow
  | [] => none
  | row :: rest =>
    if row.description.isSome then
      if some arg = row.shortOpt ∨ some arg = row.longOpt then some row
      else findOption arg rest
    else some row

/-- Model of `Qt::CaseSensitivity`. -/
inductive CaseSensitivity where
  | CaseInsensitive
  | CaseSensitive
  deriving DecidableEq, Repr

/-- What `parseArgs` sets of a `QRegExp`: the pattern and the case sensitivity (the pattern
is always read as a wildcard). -/
structure QRegExp where
  pattern : String
  caseSensitivity : CaseSensitivity
  deriving DecidableEq, Repr

/-- The members `regexp` and `ignoreRegexp` of `d`. -/
structure Filters where
  regexp : QRegExp
  ignoreRegexp : QRegExp
  deriving DecidableEq, Repr

/-- Two `QRegExp()` as Qt constructs them: empty pattern, case sensitive. -/
def Filters.init : Filters := ⟨⟨"", .CaseSensitive⟩, ⟨"", .CaseSensitive⟩⟩

/-- The cases `::Name`, `::IName` and `::Ignore`, `::IIgnore` of the `switch` in
`Window::parseArgs`, for the option `arg` followed by `pattern` (`args.at(++i)`); the other cases
leave the two expressions as they are. -/
def parseFilterOption (f : Filters) (arg pattern : String) : Option Filters :=
  match findOption arg options with
  | none => none
  | some row =>
    match row.type with
    | .Name | .IName =>
      some { f with regexp :=
        ⟨pattern, if row.type = .IName then .CaseInsensitive else .CaseSensitive⟩ }
    | .Ignore | .IIgnore =>
      some { f with ignoreRegexp :=
        ⟨pattern, if row.type = .Ignore then .CaseInsensitive else .CaseSensitive⟩ }
    | _ => some f

/-! ## Theorems -/

/-! ### The prefetch window -/

theorem Icc_one_succ (i : Int) (hi : 0 ≤ i) :
    Finset.Icc (1 : Int) (i + 1) = insert (i + 1) (Finset.Icc 1 i) := by
  ext x
  simp only [Finset.mem_Icc, Finset.mem_insert]
  omega

theorem aboveSet_succ (c count i : Int) (hi : 0 ≤ i) :
    aboveSet c count (i + 1) = insert ((c + (i + 1)) % count) (aboveSet c count i) := by
  unfold aboveSet
  rw [Icc_one_succ i hi, Finset.image_insert]

theorem belowSet_succ (c count i : Int) (hi : 0 ≤ i) :
    belowSet c count (i + 1) = insert ((c - (i + 1)) % count) (belowSet c count i) := by
  unfold belowSet
  rw [Icc_one_succ i hi, Finset.image_insert]

theorem emod_wrap_high (x count : Int) (h1 : count ≤ x) (h2 : x < 2 * count) :
    x % count = x - count := by
  have h : x = (x - count) + 1 * count := by ring
  rw [h, Int.add_mul_emod_self]
  have : x - count + 1 * count - count = x - count := by ring
  rw [this]
  exact Int.emod_eq_of_lt (by omega) (by omega)

theorem emod_wrap_low (x count : Int) (h1 : x < 0) (h2 : -count ≤ x) :
    x % count = x + count := by
  have h : x = (x + count) + (-1) * count := by ring
  rw [h, Int.add_mul_emod_self]
  have : x + count + -1 * count + count = x + count := by ring
  rw [this]
  exact Int.emod_eq_of_lt (by omega) (by omega)

theorem emod_eq_gap (count x y : Int) (hxy : x < y)
    (h : x % count = y % count) : count ≤ y - x := by
  have h' : (y - x) % count = 0 :=
    (Int.emod_eq_emod_iff_emod_sub_eq_zero).mp h.symm
  exact Int.le_of_dvd (by omega) (Int.dvd_of_emod_eq_zero h')

theorem not_mem_aboveSet (c count i k : Int) (hik : i < k) (hk : k - 1 < count) :
    (c + k) % count ∉ aboveSet c count i := by
  intro hmem
  unfold aboveSet at hmem
  rcases Finset.mem_image.mp hmem with ⟨j, hj, hjk⟩
  rw [Finset.mem_Icc] at hj
  have := emod_eq_gap count (c + j) (c + k) (by omega) hjk
  omega

theorem not_mem_belowSet (c count i k : Int) (hik : i < k) (hk : k - 1 < count) :
    (c - k) % count ∉ belowSet c count i := by
  intro hmem
  unfold belowSet at hmem
  rcases Finset.mem_image.mp hmem with ⟨j, hj, hjk⟩
  rw [Finset.mem_Icc] at hj
  have := emod_eq_gap count (c - k) (c - j) (by omega) hjk.symm
  omega

theorem surroundingAbove_eq (c count : Int) (hc0 : 0 ≤ c) (hc : c < count) :
    ∀ (n : Nat) (i : Int), 0 ≤ i → i + n < count →
      surroundingAbove c count n i (aboveSet c count i)
        = (aboveSet c count (i + n), false) := by
  intro n
  induction n with
  | zero => intro i _ _; simp [surroundingAbove]
  | succ n ih =>
    intro i hi hin
    have hstep := ih (i + 1) (by omega) (by push_cast at hin ⊢; omega)
    have hset := aboveSet_succ c count i hi
    have hnot := not_mem_aboveSet c count i (i + 1) (by omega) (by push_cast at hin; omega)
    have hidx : i + 1 + (n : Int) = i + ((n + 1 : Nat) : Int) := by push_cast; ring
    rw [hidx] at hstep
    unfold surroundingAbove
    simp only []
    by_cases hge : c + i + 1 ≥ count
    · have hw : (c + (i + 1)) % count = c + i + 1 - count := by
        rw [← add_assoc]
        exact emod_wrap_high _ _ hge (by push_cast at hin; omega)
      rw [hw] at hset hnot
      rw [if_pos hge, if_neg hnot, ← hset]
      exact hstep
    · have hw : (c + (i + 1)) % count = c + i + 1 := by
        rw [← add_assoc]
        exact Int.emod_eq_of_lt (by omega) (by omega)
      rw [hw] at hset
      rw [if_neg hge, ← hset]
      exact hstep

theorem surroundingBelow_eq (c count a : Int) (hc0 : 0 ≤ c) (hc : c < count) (ha : 0 ≤ a) :
    ∀ (n : Nat) (i : Int), 0 ≤ i → a + (i + n) ≤ count →
      (surroundingBelow c count n i (aboveSet c count a ∪ belowSet c count i)).1
        = aboveSet c count a ∪ belowSet c count (i + n) := by
  intro n
  induction n with
  | zero => intro i _ _; simp [surroundingBelow]
  | succ n ih =>
    intro i hi hin
    push_cast at hin
    have hstep := ih (i + 1) (by omega) (by omega)
    have hset := belowSet_succ c count i hi
    have hidx : i + 1 + (n : Int) = i + ((n + 1 : Nat) : Int) := by push_cast; ring
    rw [hidx] at hstep
    unfold surroundingBelow
    simp only []
    by_cases hlt : c - (i + 1) < 0
    · have hw : (c - (i + 1)) % count = c - (i + 1) + count :=
        emod_wrap_low _ _ hlt (by omega)
      rw [hw] at hset
      rw [if_pos hlt]
      by_cases hmem : c - (i + 1) + count ∈ aboveSet c count a ∪ belowSet c count i
      · rw [if_pos hmem]
        have hn : n = 0 := by
          rcases Finset.mem_union.mp hmem with h | h
          · unfold aboveSet at h
            rcases Finset.mem_image.mp h with ⟨j, hj, hjk⟩
            rw [Finset.mem_Icc] at hj
            rw [← hw] at hjk
            have := emod_eq_gap count (c - (i + 1)) (c + j) (by omega) hjk.symm
            omega
          · exfalso
            rw [← hw] at h
            exact not_mem_belowSet c count i (i + 1) (by omega) (by omega) h
        subst hn
        simp only [Nat.cast_zero, zero_add, Nat.cast_one]
        rw [hset, Finset.union_insert, Finset.insert_eq_of_mem hmem]
      · rw [if_neg hmem, ← Finset.union_insert, ← hset]
        exact hstep
    · have hw : (c - (i + 1)) % count = c - (i + 1) :=
        Int.emod_eq_of_lt (by omega) (by omega)
      rw [hw] at hset
      rw [if_neg hlt, ← Finset.union_insert, ← hset]
      exact hstep

theorem surroundingBelow_noBreak (c count a : Int) (hc0 : 0 ≤ c) (hc : c < count) (ha : 0 ≤ a) :
    ∀ (n : Nat) (i : Int), 0 ≤ i → i + n ≤ count → (a + (i + n) < count ∨ a = 0) →
      surroundingBelow c count n i (aboveSet c count a ∪ belowSet c count i)
        = (aboveSet c count a ∪ belowSet c count (i + n), false) := by
  intro n
  induction n with
  | zero => intro i _ _ _; simp [surroundingBelow]
  | succ n ih =>
    intro i hi hin hlt'
    push_cast at hin hlt'
    have hstep := ih (i + 1) (by omega) (by omega) (by omega)
    have hset := belowSet_succ c count i hi
    have hidx : i + 1 + (n : Int) = i + ((n + 1 : Nat) : Int) := by push_cast; ring
    rw [hidx] at hstep
    unfold surroundingBelow
    simp only []
    by_cases hlt : c - (i + 1) < 0
    · have hw : (c - (i + 1)) % count = c - (i + 1) + count :=
        emod_wrap_low _ _ hlt (by omega)
      rw [hw] at hset
      rw [if_pos hlt]
      have hmem : c - (i + 1) + count ∉ aboveSet c count a ∪ belowSet c count i := by
        intro hmem
        rcases Finset.mem_union.mp hmem with h | h
        · unfold aboveSet at h
          rcases Finset.mem_image.mp h with ⟨j, hj, hjk⟩
          rw [Finset.mem_Icc] at hj
          rw [← hw] at hjk
          have := emod_eq_gap count (c - (i + 1)) (c + j) (by omega) hjk.symm
          omega
        · rw [← hw] at h
          exact not_mem_belowSet c count i (i + 1) (by omega) (by omega) h
      rw [if_neg hmem, ← Finset.union_insert, ← hset]
      exact hstep
    · have hw : (c - (i + 1)) % count = c - (i + 1) :=
        Int.emod_eq_of_lt (by omega) (by omega)
      rw [hw] at hset
      rw [if_neg hlt, ← Finset.union_insert, ← hset]
      exact hstep

theorem aboveSet_zero (c count : Int) : aboveSet c count 0 = ∅ := by
  unfold aboveSet; rfl

theorem belowSet_zero (c count : Int) : belowSet c count 0 = ∅ := by
  unfold belowSet; rfl

/-- The values the code derives from `maxEntries`, for a non-negative budget. -/
theorem window_split (count maxEntries : Int) (hcount : 0 < count) (hmax : 0 ≤ maxEntries) :
    (min maxEntries count * 2).tdiv 3 = 2 * min maxEntries count / 3 ∧
    0 ≤ 2 * min maxEntries count / 3 ∧
    2 * min maxEntries count / 3 < count ∧
    0 ≤ min maxEntries count - 2 * min maxEntries count / 3 ∧
    2 * min maxEntries count / 3 + (min maxEntries count - 2 * min maxEntries count / 3) ≤ count := by
  have hm0 : 0 ≤ min maxEntries count := le_min hmax hcount.le
  have hmc : min maxEntries count ≤ count := min_le_right _ _
  refine ⟨?_, ?_, ?_, ?_, ?_⟩
  · rw [mul_comm, Int.tdiv_eq_ediv (by omega) (by omega)]
  · omega
  · omega
  · omega
  · omega

theorem surroundingTrace_eq (cur count maxEntries : Int) (hcount : 0 < count)
    (hcur : -1 ≤ cur) (hlt : cur < count) (hmax : 0 ≤ maxEntries) :
    surroundingTrace cur count maxEntries
      = (aboveSet (if cur = -1 then 0 else cur) count (2 * min maxEntries count / 3)
          ∪ belowSet (if cur = -1 then 0 else cur) count
              (min maxEntries count - 2 * min maxEntries count / 3),
         false,
         (surroundingBelow (if cur = -1 then 0 else cur) count
            (min maxEntries count - 2 * min maxEntries count / 3).toNat 0
            (aboveSet (if cur = -1 then 0 else cur) count (2 * min maxEntries count / 3))).2) := by
  obtain ⟨hdiv, ha0, hac, hb0, hab⟩ := window_split count maxEntries hcount hmax
  have hc0 : 0 ≤ (if cur = -1 then 0 else cur) := by split <;> omega
  have hc : (if cur = -1 then 0 else cur) < count := by split <;> omega
  unfold surroundingTrace
  simp only [if_neg (ne_of_gt hcount)]
  generalize (if cur = -1 then (0 : Int) else cur) = c at hc0 hc ⊢
  generalize min maxEntries count = m at hdiv ha0 hac hb0 hab ⊢
  have hfwd := surroundingAbove_eq c count hc0 hc (2 * m / 3).toNat 0 le_rfl
    (by rw [Int.toNat_of_nonneg ha0]; omega)
  rw [aboveSet_zero, Int.toNat_of_nonneg ha0, zero_add] at hfwd
  have hbwd := surroundingBelow_eq c count (2 * m / 3) hc0 hc ha0 (m - 2 * m / 3).toNat 0 le_rfl
    (by rw [Int.toNat_of_nonneg hb0]; omega)
  rw [belowSet_zero, Finset.union_empty, Int.toNat_of_nonneg hb0, zero_add] at hbwd
  simp [hdiv, hfwd, hbwd]

theorem card_aboveSet (c count a : Int) (ha : 0 ≤ a) (hac : a ≤ count) :
    ((aboveSet c count a).card : Int) = a := by
  unfold aboveSet
  rw [Finset.card_image_of_injOn, Int.card_Icc]
  · rw [Int.toNat_of_nonneg (by omega)]; ring
  · intro i hi j hj hij
    simp only [Finset.coe_Icc, Set.mem_Icc] at hi hj
    simp only at hij
    rcases lt_trichotomy i j with h | h | h
    · have := emod_eq_gap count (c + i) (c + j) (by omega) hij
      omega
    · exact h
    · have := emod_eq_gap count (c + j) (c + i) (by omega) hij.symm
      omega

theorem card_belowSet (c count b : Int) (hb : 0 ≤ b) (hbc : b ≤ count) :
    ((belowSet c count b).card : Int) = b := by
  unfold belowSet
  rw [Finset.card_image_of_injOn, Int.card_Icc]
  · rw [Int.toNat_of_nonneg (by omega)]; ring
  · intro i hi j hj hij
    simp only [Finset.coe_Icc, Set.mem_Icc] at hi hj
    simp only at hij
    rcases lt_trichotomy i j with h | h | h
    · have := emod_eq_gap count (c - j) (c - i) (by omega) hij.symm
      omega
    · exact h
    · have := emod_eq_gap count (c - i) (c - j) (by omega) hij
      omega

theorem disjoint_above_below (c count a b : Int) (hab : a + b < count) :
    Disjoint (aboveSet c count a) (belowSet c count b) := by
  rw [Finset.disjoint_left]
  intro x hxa hxb
  unfold aboveSet at hxa
  unfold belowSet at hxb
  rcases Finset.mem_image.mp hxa with ⟨i, hi, rfl⟩
  rcases Finset.mem_image.mp hxb with ⟨j, hj, hjx⟩
  rw [Finset.mem_Icc] at hi hj
  have := emod_eq_gap count (c - j) (c + i) (by omega) hjx
  omega

theorem card_window (c count a b : Int) (ha : 0 ≤ a) (hb : 0 ≤ b)
    (hab : a + b < count ∨ (a = 0 ∧ b ≤ count)) :
    ((aboveSet c count a ∪ belowSet c count b).card : Int) = a + b := by
  rcases hab with hab | ⟨rfl, hbc⟩
  · rw [Finset.card_union_of_disjoint (disjoint_above_below c count a b hab)]
    push_cast
    rw [card_aboveSet c count a ha (by omega), card_belowSet c count b hb (by omega)]
  · rw [aboveSet_zero, Finset.empty_union, card_belowSet c count b hb hbc]; ring

theorem card_window_le (c count a b : Int) (ha : 0 ≤ a) (hb : 0 ≤ b) :
    ((aboveSet c count a ∪ belowSet c count b).card : Int) ≤ a + b := by
  have h1 : (aboveSet c count a).card ≤ (Finset.Icc (1 : Int) a).card := Finset.card_image_le
  have h2 : (belowSet c count b).card ≤ (Finset.Icc (1 : Int) b).card := Finset.card_image_le
  have h3 := Finset.card_union_le (aboveSet c count a) (belowSet c count b)
  rw [Int.card_Icc] at h1 h2
  have e1 : ((a + 1 - 1).toNat : Int) = a := by rw [Int.toNat_of_nonneg (by omega)]; ring
  have e2 : ((b + 1 - 1).toNat : Int) = b := by rw [Int.toNat_of_nonneg (by omega)]; ring
  have h1' : ((aboveSet c count a).card : Int) ≤ ((a + 1 - 1).toNat : Int) := by exact_mod_cast h1
  have h2' : ((belowSet c count b).card : Int) ≤ ((b + 1 - 1).toNat : Int) := by exact_mod_cast h2
  have h3' : ((aboveSet c count a ∪ belowSet c count b).card : Int)
      ≤ (aboveSet c count a).card + (belowSet c count b).card := by exact_mod_cast h3
  omega

theorem window_full_drop_last (c count a b : Int) (ha : 1 ≤ a) (hb : 1 ≤ b)
    (hab : a + b = count) :
    aboveSet c count a ∪ belowSet c count b = aboveSet c count a ∪ belowSet c count (b - 1) := by
  have hs := belowSet_succ c count (b - 1) (by omega)
  rw [sub_add_cancel] at hs
  have hmem : (c - b) % count ∈ aboveSet c count a := by
    unfold aboveSet
    refine Finset.mem_image.mpr ⟨a, Finset.mem_Icc.mpr ⟨ha, le_rfl⟩, ?_⟩
    have : c + a = (c - b) + count := by omega
    rw [this, Int.add_emod_self]
  rw [hs, Finset.union_insert, Finset.insert_eq_of_mem (Finset.mem_union_left _ hmem)]

theorem window_mem_range (c count a b x : Int) (hcount : 0 < count)
    (hx : x ∈ aboveSet c count a ∪ belowSet c count b) : 0 ≤ x ∧ x < count := by
  rcases Finset.mem_union.mp hx with h | h
  · unfold aboveSet at h
    rcases Finset.mem_image.mp h with ⟨i, _, rfl⟩
    exact ⟨Int.emod_nonneg _ (by omega), Int.emod_lt_of_pos _ hcount⟩
  · unfold belowSet at h
    rcases Finset.mem_image.mp h with ⟨i, _, rfl⟩
    exact ⟨Int.emod_nonneg _ (by omega), Int.emod_lt_of_pos _ hcount⟩

/-- C1: for a non-empty catalog, a cursor in range (`-1` read as `0`) and a non-negative budget,
`surrounding` is exactly the `above = ⌊2m/3⌋` indices after the cursor together with the
`below = m - above` indices before it, all modulo `count`, where `m = min maxEntries count`;
for `count = 0` it is empty. In particular an early stop never loses an index of that set. -/
theorem surrounding_exact (cur count maxEntries : Int) :
    surrounding cur 0 maxEntries = ∅ ∧
    (0 < count → -1 ≤ cur → cur < count → 0 ≤ maxEntries →
      surrounding cur count maxEntries
        = (Finset.Icc 1 (2 * min maxEntries count / 3)).image
              (fun i => ((if cur = -1 then 0 else cur) + i) % count)
          ∪ (Finset.Icc 1 (min maxEntries count - 2 * min maxEntries count / 3)).image
              (fun i => ((if cur = -1 then 0 else cur) - i) % count)) := by
  refine ⟨by simp [surrounding, surroundingTrace], ?_⟩
  intro hcount hcur hlt hmax
  unfold surrounding
  rw [surroundingTrace_eq cur count maxEntries hcount hcur hlt hmax]
  rfl

theorem surrounding_exact_witness :
    (0 : Int) < 7 ∧ (-1 : Int) ≤ 4 ∧ (4 : Int) < 7 ∧ (0 : Int) ≤ 5 ∧
    surrounding 4 7 5
      = (Finset.Icc 1 (2 * min 5 7 / 3)).image (fun i => ((if (4 : Int) = -1 then 0 else 4) + i) % 7)
        ∪ (Finset.Icc 1 (min 5 7 - 2 * min 5 7 / 3)).image
            (fun i => ((if (4 : Int) = -1 then 0 else 4) - i) % 7) :=
  ⟨by decide, by decide, by decide, by decide,
    (surrounding_exact 4 7 5).2 (by decide) (by decide) (by decide) (by decide)⟩

/-- C2 (as stated, refuted): for five entries, budget 3 and cursor 2 the window is not `{1, 2, 3}`. -/
theorem window_scenario_not_123 : insert 2 (surrounding 2 5 3) ≠ ({1, 2, 3} : Finset Int) := by
  decide

/-- C2 (amended): for five entries, budget 3 and cursor 2, `surrounding` yields the two following
indices 3 and 4 and the one preceding index 1, so the window with the cursor is `{1, 2, 3, 4}`. -/
theorem window_scenario : surrounding 2 5 3 = {1, 3, 4} ∧
    insert 2 (surrounding 2 5 3) = ({1, 2, 3, 4} : Finset Int) := by
  decide

/-- C3 (as stated, refuted): with cursor 2, three entries and budget 3 neither early-stop branch is
taken, yet the set has 2 members, not `min 3 3 = 3`. -/
theorem surrounding_size_counterexample :
    ¬ ((surroundingTrace 2 3 3).2 = (false, false) →
        ((surrounding 2 3 3).card : Int) = min 3 3) := by
  decide

/-- C3 (amended): for a cursor in `[-1, count)`, `count > 0` and a non-negative budget, the set has
exactly `min maxEntries count` members whenever `maxEntries < count` or `count = 1`, and then no
early-stop branch is taken; when `maxEntries ≥ count ≥ 2` it has `count - 1` members whether or
not a branch is taken; the forward early return is never taken; in every case the set has at most
`min maxEntries count` members and each member is a valid index. -/
theorem surrounding_size (cur count maxEntries : Int) (hcount : 0 < count)
    (hcur : -1 ≤ cur) (hlt : cur < count) (hmax : 0 ≤ maxEntries) :
    ((maxEntries < count ∨ count = 1) →
        ((surrounding cur count maxEntries).card : Int) = min maxEntries count ∧
        (surroundingTrace cur count maxEntries).2 = (false, false)) ∧
    (count ≤ maxEntries → 2 ≤ count →
        ((surrounding cur count maxEntries).card : Int) = count - 1) ∧
    (surroundingTrace cur count maxEntries).2.1 = false ∧
    ((surrounding cur count maxEntries).card : Int) ≤ min maxEntries count ∧
    ∀ x ∈ surrounding cur count maxEntries, 0 ≤ x ∧ x < count := by
  obtain ⟨_, ha0, hac, hb0, hab⟩ := window_split count maxEntries hcount hmax
  have hc0 : 0 ≤ (if cur = -1 then 0 else cur) := by split <;> omega
  have hc : (if cur = -1 then 0 else cur) < count := by split <;> omega
  have hm0 : 0 ≤ min maxEntries count := le_min hmax hcount.le
  have hmc : min maxEntries count ≤ count := min_le_right _ _
  unfold surrounding
  rw [surroundingTrace_eq cur count maxEntries hcount hcur hlt hmax]
  simp only
  generalize (if cur = -1 then (0 : Int) else cur) = c at hc0 hc ⊢
  refine ⟨?_, ?_, trivial, ?_, ?_⟩
  · intro hsmall
    have hcase : 2 * min maxEntries count / 3
          + (min maxEntries count - 2 * min maxEntries count / 3) < count ∨
        (2 * min maxEntries count / 3 = 0 ∧
          min maxEntries count - 2 * min maxEntries count / 3 ≤ count) := by
      rcases hsmall with h | h
      · left
        have : min maxEntries count = maxEntries := min_eq_left h.le
        omega
      · right; omega
    constructor
    · rw [card_window c count _ _ ha0 hb0 hcase]; ring
    · have hno := surroundingBelow_noBreak c count (2 * min maxEntries count / 3) hc0 hc ha0
        (min maxEntries count - 2 * min maxEntries count / 3).toNat 0 le_rfl
        (by rw [Int.toNat_of_nonneg hb0]; omega)
        (by rw [Int.toNat_of_nonneg hb0]; omega)
      rw [belowSet_zero, Finset.union_empty] at hno
      rw [hno]
  · intro hbig h2
    have hm : min maxEntries count = count := min_eq_right hbig
    rw [hm] at ha0 hac hb0 hab ⊢
    rw [window_full_drop_last c count _ _ (by omega) (by omega) (by omega),
      card_window c count _ _ ha0 (by omega) (Or.inl (by omega))]
    ring
  · have := card_window_le c count _ _ ha0 hb0
    omega
  · intro x hx
    exact window_mem_range c count _ _ x hcount hx

theorem surrounding_size_witness :
    (0 : Int) < 5 ∧ (-1 : Int) ≤ 2 ∧ (2 : Int) < 5 ∧ (0 : Int) ≤ 3 ∧
    ((((3 : Int) < 5 ∨ (5 : Int) = 1) →
        ((surrounding 2 5 3).card : Int) = min 3 5 ∧
        (surroundingTrace 2 5 3).2 = (false, false)) ∧
    ((5 : Int) ≤ 3 → (2 : Int) ≤ 5 → ((surrounding 2 5 3).card : Int) = 5 - 1) ∧
    (surroundingTrace 2 5 3).2.1 = false ∧
    ((surrounding 2 5 3).card : Int) ≤ min 3 5 ∧
    ∀ x ∈ surrounding 2 5 3, 0 ≤ x ∧ x < 5) :=
  ⟨by decide, by decide, by decide, by decide,
    surrounding_size 2 5 3 (by decide) (by decide) (by decide) (by decide)⟩

/-! ### The loader queue -/

theorem node_with_next_inj (x y : Node) (nx ny : Option Nat) (hx : x.next = none)
    (hy : y.next = none) (h : ({ x with next := nx } : Node) = { y with next := ny }) :
    x = y ∧ nx = ny := by
  cases x; cases y
  simp only [Node.mk.injEq] at h hx hy ⊢
  obtain ⟨h1, h2, h3, h4, h5, h6⟩ := h
  subst hx hy
  exact ⟨⟨h1, h2, h3, h4, rfl, h6⟩, h5⟩

theorem seg_append (heap : Nat → Option Node) (q1 q2 : List (Nat × Node)) :
    ∀ (p r : Option Nat),
      Seg heap p (q1 ++ q2) r ↔ ∃ m, Seg heap p q1 m ∧ Seg heap m q2 r := by
  induction q1 with
  | nil =>
    intro p r
    simp only [List.nil_append, Seg]
    constructor
    · intro h; exact ⟨p, rfl, h⟩
    · rintro ⟨m, rfl, h⟩; exact h
  | cons ax q1 ih =>
    intro p r
    obtain ⟨a, x⟩ := ax
    simp only [List.cons_append, Seg]
    constructor
    · rintro ⟨hp, hx, nx, hh, hs⟩
      obtain ⟨m, h1, h2⟩ := (ih nx r).mp hs
      exact ⟨m, ⟨hp, hx, nx, hh, h1⟩, h2⟩
    · rintro ⟨m, ⟨hp, hx, nx, hh, h1⟩, h2⟩
      exact ⟨hp, hx, nx, hh, (ih nx r).mpr ⟨m, h1, h2⟩⟩

theorem seg_frame (heap heap' : Nat → Option Node) (q : List (Nat × Node)) :
    ∀ (p r : Option Nat), (∀ a ∈ addrs q, heap' a = heap a) →
      Seg heap p q r → Seg heap' p q r := by
  induction q with
  | nil => intro p r _ h; exact h
  | cons ax q ih =>
    intro p r hfr h
    obtain ⟨a, x⟩ := ax
    obtain ⟨hp, hx, nx, hh, hs⟩ := h
    refine ⟨hp, hx, nx, ?_, ih nx r (fun b hb => hfr b (List.mem_cons_of_mem _ hb)) hs⟩
    rw [hfr a (List.mem_cons_self _ _)]
    exact hh

theorem seg_allocated (heap : Nat → Option Node) (q : List (Nat × Node)) :
    ∀ (p r : Option Nat), Seg heap p q r → ∀ a ∈ addrs q, heap a ≠ none := by
  induction q with
  | nil => intro p r _ a ha; cases ha
  | cons ax q ih =>
    intro p r h b hb
    obtain ⟨a, x⟩ := ax
    obtain ⟨_, _, nx, hh, hs⟩ := h
    rcases List.mem_cons.mp hb with rfl | hb'
    · rw [hh]; exact Option.some_ne_none _
    · exact ih nx r hs b hb'

theorem seg_det (heap : Nat → Option Node) (q1 : List (Nat × Node)) :
    ∀ (q2 : List (Nat × Node)) (p : Option Nat),
      Seg heap p q1 none → Seg heap p q2 none → q1 = q2 := by
  induction q1 with
  | nil =>
    intro q2 p h1 h2
    cases q2 with
    | nil => rfl
    | cons by_ q2 =>
      obtain ⟨b, y⟩ := by_
      have hp : p = none := h1
      have := h2.1
      rw [hp] at this
      cases this
  | cons ax q1 ih =>
    intro q2 p h1 h2
    obtain ⟨a, x⟩ := ax
    obtain ⟨hp, hx, nx, hh, hs⟩ := h1
    cases q2 with
    | nil =>
      have hp2 : p = none := h2
      rw [hp2] at hp
      cases hp
    | cons by_ q2 =>
      obtain ⟨b, y⟩ := by_
      obtain ⟨hp2, hy, ny, hh2, hs2⟩ := h2
      have hab : a = b := by
        rw [hp] at hp2
        exact Option.some.inj hp2
      subst hab
      rw [hh] at hh2
      obtain ⟨hxy, hn⟩ := node_with_next_inj x y nx ny hx hy (Option.some.inj hh2)
      subst hxy hn
      rw [ih q2 nx hs hs2]

theorem seg_nodup (heap : Nat → Option Node) (q : List (Nat × Node)) :
    ∀ (p : Option Nat), Seg heap p q none → (addrs q).Nodup := by
  induction q with
  | nil => intro p _; exact List.nodup_nil
  | cons ax q ih =>
    intro p h
    obtain ⟨a, x⟩ := ax
    obtain ⟨hp, hx, nx, hh, hs⟩ := h
    refine List.nodup_cons.mpr ⟨?_, ih nx hs⟩
    intro hmem
    obtain ⟨⟨a', x'⟩, hmem', ha'⟩ := List.mem_map.mp hmem
    simp only at ha'
    subst ha'
    obtain ⟨l1, l2, rfl⟩ := List.append_of_mem hmem'
    obtain ⟨m, _, h2⟩ := (seg_append heap l1 ((a', x') :: l2) nx none).mp hs
    obtain ⟨_, hx', nx', hh', hs'⟩ := h2
    rw [hh] at hh'
    obtain ⟨_, hn⟩ := node_with_next_inj x x' nx nx' hx hx' (Option.some.inj hh')
    subst hn
    have := seg_det heap _ _ nx hs hs'
    have hlen := congrArg List.length this
    simp at hlen
    omega

theorem newNode_next (p : String) (flags : Nat) (rotation : Int) (userData : Nat) (size : QSize) :
    (newNode p flags rotation userData size).next = none := by
  unfold newNode
  simp only
  split <;> rfl

theorem node_with_next_self (x : Node) : ({ x with next := x.next } : Node) = x := by
  cases x; rfl

theorem lastAddr_concat (pre : List (Nat × Node)) (l : Nat) (x : Node) :
    lastAddr (pre ++ [(l, x)]) = some l := by
  simp [lastAddr]

theorem lastAddr_cons_cons (ax by_ : Nat × Node) (q : List (Nat × Node)) :
    lastAddr (ax :: by_ :: q) = lastAddr (by_ :: q) := by
  simp [lastAddr, List.getLast?_cons_cons]

theorem not_mem_addrs_of_fresh (heap : Nat → Option Node) (q : List (Nat × Node))
    (p r : Option Nat) (hs : Seg heap p q r) (node : Nat) (hfresh : heap node = none) :
    node ∉ addrs q :=
  fun hmem => seg_allocated heap q p r hs node hmem hfresh

/-- What `load` does to a well-formed queue. -/
theorem load_spec (t : ImageLoaderThread) (q : List (Nat × Node)) (node : Nat) (p : String)
    (flags : Nat) (rotation : Int) (userData : Nat) (size : QSize)
    (h : Pending t q) (hfresh : t.heap node = none) :
    ∃ t', t.load node p flags rotation userData size = some t' ∧
      Pending t' (if flags &&& HighPriority ≠ 0
                    then (node, newNode p flags rotation userData size) :: q
                    else q ++ [(node, newNode p flags rotation userData size)]) ∧
      t'.mPending = t.mPending + 1 ∧ t'.mAborted = t.mAborted ∧
      (∀ a, a ∉ addrs q → a ≠ node → t'.heap a = t.heap a) := by
  obtain ⟨hseg, hlast⟩ := h
  have hnx := newNode_next p flags rotation userData size
  set n := newNode p flags rotation userData size with hn
  have hnself : ({ n with next := none } : Node) = n := by
    have := node_with_next_self n
    rw [hnx] at this
    exact this
  have hnotin := not_mem_addrs_of_fresh t.heap q _ _ hseg node hfresh
  rcases List.eq_nil_or_concat q with rfl | ⟨pre, ⟨l, xl⟩, hq⟩
  · -- empty queue
    have hF : t.mFirst = none := hseg
    have hload : t.load node p flags rotation userData size
        = some { t with heap := Function.update t.heap node (some n), mFirst := some node,
                        mLast := some node, mPending := t.mPending + 1 } := by
      simp only [load, hF]
    refine ⟨_, hload, ⟨?_, ?_⟩, rfl, rfl, ?_⟩
    · have : (if flags &&& HighPriority ≠ 0 then [(node, n)] else [] ++ [(node, n)])
          = [(node, n)] := by split <;> rfl
      rw [this]
      refine ⟨rfl, hnx, none, ?_, rfl⟩
      simp only [Function.update_same, hnself]
    · have : (if flags &&& HighPriority ≠ 0 then [(node, n)] else [] ++ [(node, n)])
          = [(node, n)] := by split <;> rfl
      rw [this]; rfl
    · intro a _ ha
      simp only [Function.update_noteq ha]
  · -- non-empty queue, last node `l`
    rw [List.concat_eq_append] at hq
    subst hq
    rw [lastAddr_concat] at hlast
    obtain ⟨m, hpre, hl⟩ := (seg_append t.heap pre [(l, xl)] t.mFirst none).mp hseg
    obtain ⟨hm, hxl, nl, hhl, hnl⟩ := hl
    have hnl' : nl = none := hnl
    subst hnl' hm
    have hnodup := seg_nodup t.heap _ _ hseg
    have hlnode : l ≠ node := by
      intro e; rw [e, hfresh] at hhl; cases hhl
    have hlpre : l ∉ addrs pre := by
      intro hmem
      simp only [addrs, List.map_append, List.map_cons, List.map_nil] at hnodup
      exact (List.disjoint_of_nodup_append hnodup) hmem (List.mem_singleton_self l)
    obtain ⟨f, hF⟩ : ∃ f, t.mFirst = some f := by
      cases pre with
      | nil => exact ⟨l, hpre⟩
      | cons ax pre' => exact ⟨ax.1, hpre.1⟩
    by_cases hhigh : flags &&& HighPriority ≠ 0
    · rw [if_pos hhigh]
      have hload : t.load node p flags rotation userData size
          = some { t with
              heap := Function.update (Function.update t.heap node (some n)) node
                        (some { n with next := some f }),
              mFirst := some node, mPending := t.mPending + 1 } := by
        simp only [load, hF, if_pos hhigh]
      refine ⟨_, hload, ⟨?_, ?_⟩, rfl, rfl, ?_⟩
      · refine ⟨rfl, hnx, some f, by simp only [Function.update_same], ?_⟩
        rw [← hF]
        refine seg_frame t.heap _ _ _ _ ?_ hseg
        intro a ha
        have : a ≠ node := fun e => hnotin (e ▸ ha)
        simp only [Function.update_noteq this]
      · simp only [hlast]
        cases pre with
        | nil => rfl
        | cons ax pre' =>
          rw [List.cons_append, lastAddr_cons_cons, ← List.cons_append, lastAddr_concat]
      · intro a _ ha
        simp only [Function.update_noteq ha]
    · rw [if_neg hhigh]
      have hl0 : Function.update t.heap node (some n) l
          = some { xl with next := none } := by
        rw [Function.update_noteq hlnode]; exact hhl
      have hload : t.load node p flags rotation userData size
          = some { t with
              heap := Function.update (Function.update t.heap node (some n)) l
                        (some { xl with next := some node }),
              mLast := some node, mPending := t.mPending + 1 } := by
        simp only [load, hF, if_neg hhigh, hlast, ← hn, hl0]
      refine ⟨_, hload, ⟨?_, ?_⟩, rfl, rfl, ?_⟩
      · rw [List.append_assoc]
        refine (seg_append _ pre _ t.mFirst none).mpr ⟨some l, ?_, ?_⟩
        · refine seg_frame t.heap _ _ _ _ ?_ hpre
          intro a ha
          have h1 : a ≠ l := fun e => hlpre (e ▸ ha)
          have h2 : a ≠ node := by
            intro e
            apply hnotin
            rw [← e]
            simp only [addrs, List.map_append, List.mem_append]
            exact Or.inl ha
          simp only [Function.update_noteq h1, Function.update_noteq h2]
        · refine ⟨rfl, hxl, some node, by simp only [Function.update_same], ?_⟩
          refine ⟨rfl, hnx, none, ?_, rfl⟩
          simp only [Function.update_noteq hlnode.symm, Function.update_same, hnself]
      · simp only
        rw [lastAddr_concat]
      · intro a ha hne
        have h1 : a ≠ l := by
          intro e
          apply ha
          rw [e]
          simp [addrs]
        simp only [Function.update_noteq h1, Function.update_noteq hne]

theorem prevAfter_cons (a : Nat) (x : Node) (pre : List (Nat × Node)) (prev : Option Nat) :
    prevAfter ((a, x) :: pre) prev = prevAfter pre (some a) := by
  cases pre with
  | nil => rfl
  | cons by_ pre' =>
    unfold prevAfter
    rw [lastAddr_cons_cons]
    have : ∃ l, lastAddr (by_ :: pre') = some l := by
      rcases List.eq_nil_or_concat (by_ :: pre') with h | ⟨i, ⟨l, xl⟩, h⟩
      · cases h
      · rw [h, List.concat_eq_append, lastAddr_concat]; exact ⟨l, rfl⟩
    obtain ⟨l, hl⟩ := this
    rw [hl]

theorem findNode_seg (heap : Nat → Option Node) (tok : Nat) (pre : List (Nat × Node)) :
    ∀ (p prev r : Option Nat) (fuel : Nat), Seg heap p pre r →
      (∀ y ∈ pre, y.2.userData ≠ tok) →
      findNode heap tok (pre.length + fuel) prev p = findNode heap tok fuel (prevAfter pre prev) r := by
  induction pre with
  | nil =>
    intro p prev r fuel h _
    have hp : p = r := h
    subst hp
    simp [prevAfter, lastAddr]
  | cons ax pre ih =>
    intro p prev r fuel h hne
    obtain ⟨a, x⟩ := ax
    obtain ⟨hp, _, nx, hh, hs⟩ := h
    subst hp
    have hax : x.userData ≠ tok := hne (a, x) (List.mem_cons_self _ _)
    have hlen : ((a, x) :: pre).length + fuel = (pre.length + fuel) + 1 := by
      simp only [List.length_cons]; omega
    rw [hlen, prevAfter_cons]
    simp only [findNode, hh]
    rw [if_pos hax]
    exact ih nx (some a) r fuel hs (fun y hy => hne y (List.mem_cons_of_mem _ hy))

theorem split_first_match (tok : Nat) (q : List (Nat × Node)) :
    (∀ y ∈ q, y.2.userData ≠ tok) ∨
    ∃ pre n x post, q = pre ++ (n, x) :: post ∧ (∀ y ∈ pre, y.2.userData ≠ tok) ∧
      x.userData = tok := by
  induction q with
  | nil => left; intro y hy; cases hy
  | cons ax q ih =>
    obtain ⟨a, x⟩ := ax
    by_cases hx : x.userData = tok
    · right; exact ⟨[], a, x, q, rfl, fun y hy => absurd hy (List.not_mem_nil y), hx⟩
    · rcases ih with h | ⟨pre, n, z, post, rfl, hpre, hz⟩
      · left
        intro y hy
        rcases List.mem_cons.mp hy with rfl | hy'
        · exact hx
        · exact h y hy'
      · right
        refine ⟨(a, x) :: pre, n, z, post, rfl, ?_, hz⟩
        intro y hy
        rcases List.mem_cons.mp hy with rfl | hy'
        · exact hx
        · exact hpre y hy'

theorem lastAddr_append_cons (pre post : List (Nat × Node)) (ax : Nat × Node) :
    lastAddr (pre ++ ax :: post) = lastAddr (ax :: post) := by
  obtain ⟨l, hl⟩ : ∃ l, (ax :: post).getLast? = some l := by
    rw [List.getLast?_eq_getLast _ (List.cons_ne_nil _ _)]; exact ⟨_, rfl⟩
  simp [lastAddr, List.getLast?_append, hl]

theorem lastAddr_mem (q : List (Nat × Node)) (l : Nat) (h : lastAddr q = some l) :
    l ∈ addrs q := by
  rcases List.eq_nil_or_concat q with rfl | ⟨pre, ⟨l', xl⟩, rfl⟩
  · cases h
  · rw [List.concat_eq_append, lastAddr_concat] at h
    cases h
    simp [addrs]

theorem lastAddr_ne_nil (q : List (Nat × Node)) (hq : q ≠ []) : ∃ l, lastAddr q = some l := by
  rcases List.eq_nil_or_concat q with rfl | ⟨pre, ⟨l, xl⟩, rfl⟩
  · exact absurd rfl hq
  · rw [List.concat_eq_append, lastAddr_concat]; exact ⟨l, rfl⟩

theorem findNode_null (heap : Nat → Option Node) (tok fuel : Nat) (prev : Option Nat) :
    findNode heap tok fuel prev none = some (prev, none) := by
  cases fuel <;> rfl

theorem addrs_append (q1 q2 : List (Nat × Node)) : addrs (q1 ++ q2) = addrs q1 ++ addrs q2 := by
  simp [addrs]

theorem addrs_cons (a : Nat) (x : Node) (q : List (Nat × Node)) :
    addrs ((a, x) :: q) = a :: addrs q := rfl

theorem findNode_short (heap : Nat → Option Node) (tok : Nat) (pre : List (Nat × Node)) :
    ∀ (p prev : Option Nat) (n : Nat) (fuel : Nat), Seg heap p pre (some n) →
      (∀ y ∈ pre, y.2.userData ≠ tok) → fuel ≤ pre.length →
      findNode heap tok fuel prev p = none := by
  induction pre with
  | nil =>
    intro p prev n fuel h _ hf
    have hp : p = some n := h
    subst hp
    have : fuel = 0 := by simpa using hf
    subst this
    rfl
  | cons ax pre ih =>
    intro p prev n fuel h hne hf
    obtain ⟨a, x⟩ := ax
    obtain ⟨hp, _, nx, hh, hs⟩ := h
    subst hp
    cases fuel with
    | zero => rfl
    | succ k =>
      have hax : x.userData ≠ tok := hne (a, x) (List.mem_cons_self _ _)
      simp only [findNode, hh]
      rw [if_pos hax]
      exact ih nx (some a) n k hs (fun y hy => hne y (List.mem_cons_of_mem _ hy))
        (by simpa using hf)

theorem remove_none_of_findNode (t : ImageLoaderThread) (fuel tok : Nat)
    (h : findNode t.heap tok fuel none t.mFirst = none) : t.remove fuel tok = none := by
  simp only [remove, h]

/-- What `remove` does to a well-formed queue, given fuel for the search loop. -/
theorem remove_spec (t : ImageLoaderThread) (q : List (Nat × Node)) (fuel tok : Nat)
    (h : Pending t q) (hfuel : q.length ≤ fuel ∨ t.remove fuel tok ≠ none) :
    ((∀ y ∈ q, y.2.userData ≠ tok) ∧ t.remove fuel tok = some (false, t)) ∨
    (∃ pre n x post t', q = pre ++ (n, x) :: post ∧ (∀ y ∈ pre, y.2.userData ≠ tok) ∧
        x.userData = tok ∧ t.remove fuel tok = some (true, t') ∧ Pending t' (pre ++ post) ∧
        t'.mPending = t.mPending - 1 ∧ t'.mAborted = t.mAborted ∧ t'.heap n = none ∧
        (∀ a, a ∉ addrs q → t'.heap a = t.heap a)) := by
  obtain ⟨hseg, hlast⟩ := h
  rcases split_first_match tok q with hno | ⟨pre, n, x, post, rfl, hpre, hx⟩
  · left
    refine ⟨hno, ?_⟩
    have hfuel : q.length ≤ fuel := by
      rcases hfuel with h | h
      · exact h
      · by_contra hlt
        rcases List.eq_nil_or_concat q with rfl | ⟨pre, ⟨l, xl⟩, rfl⟩
        · exact hlt (Nat.zero_le _)
        · rw [List.concat_eq_append] at hseg hno hlt
          obtain ⟨m, hsegpre, hl⟩ := (seg_append t.heap pre [(l, xl)] t.mFirst none).mp hseg
          have hm : m = some l := hl.1
          subst hm
          apply h
          apply remove_none_of_findNode
          apply findNode_short t.heap tok pre t.mFirst none l fuel hsegpre
            (fun y hy => hno y (List.mem_append_left _ hy))
          simp only [List.length_append, List.length_singleton] at hlt
          omega
    have hf := findNode_seg t.heap tok q t.mFirst none none (fuel - q.length) hseg hno
    rw [Nat.add_sub_cancel' hfuel, findNode_null] at hf
    simp only [remove, hf]
  · right
    have hnd := seg_nodup t.heap _ _ hseg
    rw [addrs_append, addrs_cons] at hnd
    obtain ⟨hndpre, hndrest, hdisj⟩ := List.nodup_append.mp hnd
    obtain ⟨hnpost, hndpost⟩ := List.nodup_cons.mp hndrest
    have hnpre : n ∉ addrs pre := fun hmem => hdisj hmem (List.mem_cons_self _ _)
    obtain ⟨m, hsegpre, hrest⟩ := (seg_append t.heap pre ((n, x) :: post) t.mFirst none).mp hseg
    obtain ⟨hm, hxn, nn, hhn, hpost⟩ := hrest
    subst hm
    obtain ⟨k, hk⟩ : ∃ k, fuel = pre.length + (k + 1) := by
      refine ⟨fuel - pre.length - 1, ?_⟩
      rcases hfuel with h | h
      · simp only [List.length_append, List.length_cons] at h
        omega
      · by_contra hlt
        apply h
        apply remove_none_of_findNode
        exact findNode_short t.heap tok pre t.mFirst none n fuel hsegpre hpre (by omega)
    have hfind : findNode t.heap tok fuel none t.mFirst = some (prevAfter pre none, some n) := by
      rw [hk, findNode_seg t.heap tok pre t.mFirst none (some n) (k + 1) hsegpre hpre]
      simp only [findNode, hhn, hx, ne_eq, not_true_eq_false, if_false]
    rw [lastAddr_append_cons] at hlast
    refine ⟨pre, n, x, post, ?_⟩
    rcases List.eq_nil_or_concat pre with rfl | ⟨pre', ⟨p, xp⟩, rfl⟩
    · -- the node found is the head
      have hF : t.mFirst = some n := hsegpre
      rw [hF] at hfind
      rcases List.eq_nil_or_concat post with rfl | ⟨post', ⟨l, xl⟩, rfl⟩
      · -- and the only node
        have hL : t.mLast = some n := hlast
        have hrem : t.remove fuel tok = some (true,
            { t with mFirst := none, mLast := none, mPending := t.mPending - 1,
                     heap := Function.update t.heap n none }) := by
          simp only [remove, hfind, hhn, hF, hL, and_self, if_true, Option.map_some']
        have hnn : nn = none := hpost
        refine ⟨_, rfl, hpre, hx, hrem, ⟨rfl, rfl⟩, rfl, rfl, ?_, ?_⟩
        · simp only [Function.update_same]
        · intro a ha
          have : a ≠ n := fun e => ha (by rw [e]; simp [addrs])
          simp only [Function.update_noteq this]
      · -- followed by others
        rw [List.concat_eq_append] at hlast hpost hnpost
        have hL : t.mLast = some l := by
          rw [hlast, ← List.cons_append, lastAddr_concat]
        have hln : l ≠ n := by
          intro e; apply hnpost; rw [← e]; simp [addrs]
        have hrem : t.remove fuel tok = some (true,
            { t with mFirst := nn, mPending := t.mPending - 1,
                     heap := Function.update t.heap n none }) := by
          have c1 : ¬ (some n = some n ∧ some n = some l) := by
            rintro ⟨_, e⟩; exact hln (Option.some.inj e).symm
          have c2 : ¬ (some n = some l) := fun e => hln (Option.some.inj e).symm
          simp only [remove, hfind, hhn, hF, hL, if_neg c1, if_neg c2, if_true, true_and,
            Option.map_some']
        refine ⟨_, rfl, hpre, hx, hrem, ⟨?_, ?_⟩, rfl, rfl, ?_, ?_⟩
        · rw [List.nil_append, List.concat_eq_append]
          refine seg_frame t.heap _ _ _ _ ?_ hpost
          intro a ha
          have : a ≠ n := fun e => hnpost (e ▸ ha)
          simp only [Function.update_noteq this]
        · rw [List.nil_append, List.concat_eq_append, lastAddr_concat]
          exact hL
        · simp only [Function.update_same]
        · intro a ha
          have : a ≠ n := fun e => ha (by rw [e]; simp [addrs])
          simp only [Function.update_noteq this]
    · -- the node found has a predecessor `p`
      rw [List.concat_eq_append] at hsegpre hnpre hndpre hpre hdisj hfind ⊢
      obtain ⟨mp, hsegpre', hp⟩ := (seg_append t.heap pre' [(p, xp)] t.mFirst (some n)).mp hsegpre
      obtain ⟨hmp, hxp, pn, hhp, hpn⟩ := hp
      have hpn' : pn = some n := hpn
      subst hmp hpn'
      rw [addrs_append] at hndpre hnpre hdisj
      have hpn : p ≠ n := by
        intro e; apply hnpre; rw [← e]; simp [addrs]
      have hppre : p ∉ addrs pre' := by
        intro hmem
        exact (List.disjoint_of_nodup_append hndpre) hmem (by simp [addrs])
      have hprev : prevAfter (pre' ++ [(p, xp)]) none = some p := by
        unfold prevAfter; rw [lastAddr_concat]
      rw [hprev] at hfind
      obtain ⟨f, hF, hfn⟩ : ∃ f, t.mFirst = some f ∧ f ≠ n := by
        cases pre' with
        | nil => exact ⟨p, hsegpre', hpn⟩
        | cons ax pre'' =>
          refine ⟨ax.1, hsegpre'.1, ?_⟩
          intro e; apply hnpre; rw [← e]; simp [addrs]
      have cF : ¬ (some n = some f) := fun e => hfn (Option.some.inj e).symm
      rw [hF] at hfind
      rcases List.eq_nil_or_concat post with rfl | ⟨post', ⟨l, xl⟩, rfl⟩
      · -- and is the last node
        have hL : t.mLast = some n := hlast
        have hnn : nn = none := hpost
        have hrem : t.remove fuel tok = some (true,
            { t with mLast := some p, mPending := t.mPending - 1,
                     heap := Function.update
                       (Function.update t.heap p (some { xp with next := none })) n none }) := by
          have c1 : ¬ (some n = some f ∧ some n = some n) := fun e => cF e.1
          simp only [remove, hfind, hhn, hF, hL, if_neg c1, if_true, hhp, and_true, if_neg cF,
            Option.map_some']
        refine ⟨_, rfl, hpre, hx, hrem, ⟨?_, ?_⟩, rfl, rfl, ?_, ?_⟩
        · rw [List.append_nil]
          refine (seg_append _ pre' _ t.mFirst none).mpr ⟨some p, ?_, ?_⟩
          · refine seg_frame t.heap _ _ _ _ ?_ hsegpre'
            intro a ha
            have h1 : a ≠ n := fun e => hnpre (by rw [← e]; exact List.mem_append_left _ ha)
            have h2 : a ≠ p := fun e => hppre (e ▸ ha)
            simp only [Function.update_noteq h1, Function.update_noteq h2]
          · refine ⟨rfl, hxp, none, ?_, rfl⟩
            simp only [Function.update_noteq hpn, Function.update_same]
        · rw [List.append_nil, lastAddr_concat]
        · simp only [Function.update_same]
        · intro a ha
          have h1 : a ≠ n := fun e => ha (by rw [e]; simp [addrs])
          have h2 : a ≠ p := fun e => ha (by rw [e]; simp [addrs])
          simp only [Function.update_noteq h1, Function.update_noteq h2]
      · -- and is followed by others
        rw [List.concat_eq_append] at hlast hpost hnpost hdisj
        have hL : t.mLast = some l := by
          rw [hlast, ← List.cons_append, lastAddr_concat]
        have hln : l ≠ n := by
          intro e; apply hnpost; rw [← e]; simp [addrs]
        have hrem : t.remove fuel tok = some (true,
            { t with mPending := t.mPending - 1,
                     heap := Function.update
                       (Function.update t.heap p (some { xp with next := nn })) n none }) := by
          have c1 : ¬ (some n = some f ∧ some n = some l) := fun e => cF e.1
          have c2 : ¬ (some n = some l) := fun e => hln (Option.some.inj e).symm
          simp only [remove, hfind, hhn, hF, hL, if_neg c1, if_neg c2, if_neg cF, hhp,
            Option.map_some']
        refine ⟨_, rfl, hpre, hx, hrem, ⟨?_, ?_⟩, rfl, rfl, ?_, ?_⟩
        · rw [List.concat_eq_append, List.append_assoc]
          refine (seg_append _ pre' _ t.mFirst none).mpr ⟨some p, ?_, ?_⟩
          · refine seg_frame t.heap _ _ _ _ ?_ hsegpre'
            intro a ha
            have h1 : a ≠ n := fun e => hnpre (by rw [← e]; exact List.mem_append_left _ ha)
            have h2 : a ≠ p := fun e => hppre (e ▸ ha)
            simp only [Function.update_noteq h1, Function.update_noteq h2]
          · refine ⟨rfl, hxp, nn, ?_, ?_⟩
            · simp only [Function.update_noteq hpn, Function.update_same]
            · refine seg_frame t.heap _ _ _ _ ?_ hpost
              intro a ha
              have h1 : a ≠ n := fun e => hnpost (e ▸ ha)
              have h2 : a ≠ p := by
                intro e
                have hp1 : p ∈ addrs pre' ++ addrs [(p, xp)] := by simp [addrs]
                exact hdisj hp1 (List.mem_cons_of_mem _ (e ▸ ha))
              simp only [Function.update_noteq h1, Function.update_noteq h2]
        · simp only
          rw [hL, List.concat_eq_append, ← List.append_assoc, lastAddr_concat]
        · simp only [Function.update_same]
        · intro a ha
          have h1 : a ≠ n := fun e => ha (by rw [e]; simp [addrs])
          have h2 : a ≠ p := fun e => ha (by rw [e]; simp [addrs])
          simp only [Function.update_noteq h1, Function.update_noteq h2]


/-- What the locked block of `run` does to a well-formed queue. -/
theorem takeFirst_spec (t : ImageLoaderThread) (a : Nat) (x : Node) (q : List (Nat × Node))
    (h : Pending t ((a, x) :: q)) :
    ∃ t', t.takeFirst = some (a, t') ∧ Pending t' q ∧ t'.mPending = t.mPending - 1 ∧
      t'.heap = t.heap ∧ t'.mAborted = t.mAborted := by
  obtain ⟨⟨hF, hx, nx, hh, hs⟩, hlast⟩ := h
  cases q with
  | nil =>
    have hnx : nx = none := hs
    subst hnx
    refine ⟨{ t with mFirst := none, mLast := none, mPending := t.mPending - 1 }, ?_,
      ⟨rfl, rfl⟩, rfl, rfl, rfl⟩
    simp only [takeFirst, hF, hh, if_true]
  | cons by_ q' =>
    obtain ⟨b, y⟩ := by_
    have hnx : nx = some b := hs.1
    subst hnx
    refine ⟨{ t with mFirst := some b, mPending := t.mPending - 1 }, ?_,
      ⟨hs, ?_⟩, rfl, rfl, rfl⟩
    · simp only [takeFirst, hF, hh]
      rfl
    · rw [lastAddr_cons_cons] at hlast
      exact hlast

theorem takeFirst_empty (t : ImageLoaderThread) (h : Pending t []) : t.takeFirst = none := by
  have hF : t.mFirst = none := h.1
  simp only [takeFirst, hF]


theorem sublist_pair_filter (l : List Nat) (a b n : Nat) (h : [a, b].Sublist l)
    (ha : n ≠ a) (hb : n ≠ b) : [a, b].Sublist (l.filter (fun c => decide (c ≠ n))) := by
  have := h.filter (fun c => decide (c ≠ n))
  have e : [a, b].filter (fun c => decide (c ≠ n)) = [a, b] := by
    simp [List.filter, ha.symm, hb.symm]
  rw [e] at this
  exact this

theorem filter_ne_split (pre post : List Nat) (n : Nat) (h : (pre ++ n :: post).Nodup) :
    (pre ++ n :: post).filter (fun c => decide (c ≠ n)) = pre ++ post := by
  obtain ⟨h1, h2, h3⟩ := List.nodup_append.mp h
  obtain ⟨h4, _⟩ := List.nodup_cons.mp h2
  have hpre : n ∉ pre := fun hm => h3 hm (List.mem_cons_self _ _)
  rw [List.filter_append, List.filter_cons]
  simp only [ne_eq, not_true_eq_false, decide_False, Bool.false_eq_true, if_false]
  rw [List.filter_eq_self.mpr, List.filter_eq_self.mpr]
  · intro c hc
    simp only [decide_eq_true_eq]
    exact fun e => h4 (e ▸ hc)
  · intro c hc
    simp only [decide_eq_true_eq]
    exact fun e => hpre (e ▸ hc)

theorem sublist_pair_head (l : List Nat) (a b h : Nat) (hs : [a, b].Sublist (h :: l))
    (hnd : (h :: l).Nodup) : h ≠ b := by
  obtain ⟨hh, _⟩ := List.nodup_cons.mp hnd
  intro e
  subst e
  cases hs with
  | cons _ hs' => exact hh (hs'.subset (by simp))
  | cons₂ _ hs' => exact hh (hs'.subset (by simp))

theorem sublist_pair_ne (l : List Nat) (a b : Nat) (hs : [a, b].Sublist l) (hnd : l.Nodup) :
    a ≠ b := by
  intro e
  subst e
  have := hs.nodup hnd
  simp at this

/-- Effect of a `load` action on a well-formed queue. -/
theorem stepQueue_load_spec (fuel : Nat) (s s' : QueueRun) (q : List (Nat × Node)) (node : Nat)
    (p : String) (flags : Nat) (rotation : Int) (userData : Nat) (size : QSize)
    (evs : List QueueEvent) (hok : RunOk s q)
    (hstep : stepQueue fuel s (QueueOp.load node p flags rotation userData size) = some (s', evs)) :
    evs = [] ∧ node ∉ addrs q ∧
      RunOk s' (if flags &&& HighPriority ≠ 0
                  then (node, newNode p flags rotation userData size) :: q
                  else q ++ [(node, newNode p flags rotation userData size)]) := by
  obtain ⟨hpend, hworker⟩ := hok
  simp only [stepQueue] at hstep
  split at hstep
  · cases hstep
  · rename_i hfree
    have hfresh : s.thread.heap node = none := by
      cases hx : s.thread.heap node with
      | none => rfl
      | some v => rw [hx] at hfree; exact absurd rfl hfree
    obtain ⟨t', hload, hp', _, _, hframe⟩ :=
      load_spec s.thread q node p flags rotation userData size hpend hfresh
    rw [hload] at hstep
    simp only [Option.map_some', Option.some.injEq, Prod.mk.injEq] at hstep
    obtain ⟨hs', hevs⟩ := hstep
    subst hs'
    refine ⟨hevs.symm, not_mem_addrs_of_fresh _ _ _ _ hpend.1 node hfresh, hp', ?_⟩
    intro w hw
    obtain ⟨hw1, hw2⟩ := hworker w hw
    have hwn : w ≠ node := fun e => hw1 (e ▸ hfresh)
    refine ⟨?_, ?_⟩
    · simp only
      rw [hframe w hw2 hwn]; exact hw1
    · split
      · rw [addrs_cons]
        intro hm
        rcases List.mem_cons.mp hm with e | hm'
        · exact hwn e
        · exact hw2 hm'
      · rw [addrs_append]
        intro hm
        rcases List.mem_append.mp hm with hm' | hm'
        · exact hw2 hm'
        · simp only [addrs, List.map_cons, List.map_nil, List.mem_singleton] at hm'
          exact hwn hm'

/-- Effect of one action on a well-formed queue, in terms of the addresses linked. -/
theorem stepQueue_spec (fuel : Nat) (s s' : QueueRun) (q : List (Nat × Node)) (op : QueueOp)
    (evs : List QueueEvent) (hok : RunOk s q) (hstep : stepQueue fuel s op = some (s', evs)) :
    (evs = [] ∧ ∃ q', RunOk s' q' ∧ ∀ l : List Nat, l.Sublist (addrs q) → l.Sublist (addrs q')) ∨
    (∃ n, (evs = [QueueEvent.cancelled n] ∨
            (evs = [QueueEvent.taken n] ∧ ∃ rest, addrs q = n :: rest)) ∧
          ∃ q', RunOk s' q' ∧ addrs q' = (addrs q).filter (fun c => decide (c ≠ n))) := by
  obtain ⟨hpend, hworker⟩ := hok
  have hnd := seg_nodup _ _ _ hpend.1
  cases op with
  | load node p flags rotation userData size =>
    left
    obtain ⟨hevs, _, hok1⟩ :=
      stepQueue_load_spec fuel s s' q node p flags rotation userData size evs ⟨hpend, hworker⟩ hstep
    refine ⟨hevs, _, hok1, ?_⟩
    intro l hl
    split
    · rw [addrs_cons]; exact hl.cons _
    · rw [addrs_append]; exact hl.trans (List.sublist_append_left _ _)
  | remove userData =>
    simp only [stepQueue] at hstep
    have hsome : s.thread.remove fuel userData ≠ none := by
      intro e
      rw [e] at hstep
      cases hstep
    rcases remove_spec s.thread q fuel userData hpend (Or.inr hsome) with
      ⟨_, hrem⟩ | ⟨pre, n, x, post, t', rfl, hpre, hx, hrem, hp', _, _, hn, hframe⟩
    · left
      rw [hrem] at hstep
      simp only [Option.some.injEq, Prod.mk.injEq] at hstep
      obtain ⟨hs', hevs⟩ := hstep
      subst hs'
      exact ⟨hevs.symm, q, ⟨hpend, hworker⟩, fun l hl => hl⟩
    · right
      obtain ⟨m, hsegpre, hrest⟩ :=
        (seg_append s.thread.heap pre ((n, x) :: post) s.thread.mFirst none).mp hpend.1
      obtain ⟨hm, _, nn, hhn, _⟩ := hrest
      subst hm
      obtain ⟨k, hk⟩ : ∃ k, fuel = pre.length + (k + 1) := by
        refine ⟨fuel - pre.length - 1, ?_⟩
        by_contra hlt
        apply hsome
        apply remove_none_of_findNode
        exact findNode_short s.thread.heap userData pre s.thread.mFirst none n fuel hsegpre hpre
          (by omega)
      have hfind : findNode s.thread.heap userData fuel none s.thread.mFirst
          = some (prevAfter pre none, some n) := by
        rw [hk, findNode_seg s.thread.heap userData pre s.thread.mFirst none (some n) (k + 1)
          hsegpre hpre]
        simp only [findNode, hhn, hx, ne_eq, not_true_eq_false, if_false]
      rw [hrem, hfind] at hstep
      simp only [Option.some.injEq, Prod.mk.injEq] at hstep
      obtain ⟨hs', hevs⟩ := hstep
      subst hs'
      refine ⟨n, Or.inl hevs.symm, pre ++ post, ⟨hp', ?_⟩, ?_⟩
      · intro w hw
        obtain ⟨hw1, hw2⟩ := hworker w hw
        refine ⟨?_, ?_⟩
        · simp only
          rw [hframe w hw2]; exact hw1
        · intro hm
          apply hw2
          rw [addrs_append] at hm ⊢
          rcases List.mem_append.mp hm with h1 | h1
          · exact List.mem_append_left _ h1
          · exact List.mem_append_right _ (List.mem_cons_of_mem _ h1)
      · simp only [addrs_append, addrs_cons] at hnd ⊢
        rw [filter_ne_split _ _ _ hnd]
  | take =>
    right
    simp only [stepQueue] at hstep
    cases hnode : s.node with
    | some w => rw [hnode] at hstep; cases hstep
    | none =>
      rw [hnode] at hstep
      cases q with
      | nil =>
        rw [takeFirst_empty s.thread hpend] at hstep
        cases hstep
      | cons ax q' =>
        obtain ⟨a, x⟩ := ax
        obtain ⟨t', htake, hp', _, hheap, _⟩ := takeFirst_spec s.thread a x q' hpend
        rw [htake] at hstep
        simp only [Option.map_some', Option.some.injEq, Prod.mk.injEq] at hstep
        obtain ⟨hs', hevs⟩ := hstep
        subst hs'
        rw [addrs_cons] at hnd
        obtain ⟨hnotin, _⟩ := List.nodup_cons.mp hnd
        refine ⟨a, Or.inr ⟨hevs.symm, addrs q', rfl⟩, q', ⟨hp', ?_⟩, ?_⟩
        · intro w hw
          simp only [Option.some.injEq] at hw
          subst hw
          refine ⟨?_, hnotin⟩
          simp only
          rw [hheap]
          exact seg_allocated _ _ _ _ hpend.1 a (List.mem_cons_self _ _)
        · have := filter_ne_split [] (addrs q') a hnd
          rw [addrs_cons]
          exact this.symm
  | finish =>
    left
    simp only [stepQueue] at hstep
    cases hnode : s.node with
    | none => rw [hnode] at hstep; cases hstep
    | some w =>
      rw [hnode] at hstep
      simp only [Option.some.injEq, Prod.mk.injEq] at hstep
      obtain ⟨hs', hevs⟩ := hstep
      subst hs'
      obtain ⟨_, hw2⟩ := hworker w hnode
      refine ⟨hevs.symm, q, ⟨⟨?_, hpend.2⟩, ?_⟩, fun l hl => hl⟩
      · refine seg_frame s.thread.heap _ _ _ _ ?_ hpend.1
        intro a ha
        have : a ≠ w := fun e => hw2 (e ▸ ha)
        simp only [deleteNode, Function.update_noteq this]
      · intro w' hw'
        cases hw'

/-- While `a` is linked ahead of `b`, the worker never takes `b`: in every run the first event
about `b`, if it is a take, comes after an event about `a`. -/
theorem runQueue_order (fuel : Nat) (a b : Nat) :
    ∀ (ops : List QueueOp) (s s' : QueueRun) (q : List (Nat × Node)) (log : List QueueEvent),
      RunOk s q → [a, b].Sublist (addrs q) → runQueue fuel s ops = some (s', log) →
      ∀ l1 l2, log = l1 ++ QueueEvent.taken b :: l2 → (∀ e ∈ l1, e.node ≠ b) →
        ∃ e ∈ l1, e.node = a := by
  intro ops
  induction ops with
  | nil =>
    intro s s' q log _ _ hrun l1 l2 hlog _
    simp only [runQueue, Option.some.injEq, Prod.mk.injEq] at hrun
    rw [← hrun.2] at hlog
    cases l1 <;> cases hlog
  | cons op ops ih =>
    intro s s' q log hok hsub hrun l1 l2 hlog hfirst
    simp only [runQueue] at hrun
    cases hstep : stepQueue fuel s op with
    | none => rw [hstep] at hrun; cases hrun
    | some r1 =>
      obtain ⟨s1, e1⟩ := r1
      rw [hstep] at hrun
      simp only at hrun
      cases hrest : runQueue fuel s1 ops with
      | none => rw [hrest] at hrun; cases hrun
      | some r2 =>
        obtain ⟨s2, e2⟩ := r2
        rw [hrest] at hrun
        simp only [Option.some.injEq, Prod.mk.injEq] at hrun
        obtain ⟨_, hlog'⟩ := hrun
        subst hlog'
        have hnd := seg_nodup _ _ _ hok.1.1
        have hab := sublist_pair_ne _ a b hsub hnd
        rcases stepQueue_spec fuel s s1 q op e1 hok hstep with
          ⟨rfl, q1, hok1, hmono⟩ | ⟨n, hev, q1, hok1, hq1⟩
        · exact ih s1 s2 q1 e2 hok1 (hmono _ hsub) hrest l1 l2 hlog hfirst
        · obtain ⟨ev, he1, hnode⟩ : ∃ ev, e1 = [ev] ∧ ev.node = n := by
            rcases hev with h | ⟨h, _⟩
            · exact ⟨_, h, rfl⟩
            · exact ⟨_, h, rfl⟩
          subst he1
          cases l1 with
          | nil =>
            exfalso
            simp only [List.nil_append, List.singleton_append, List.cons.injEq] at hlog
            obtain ⟨hevb, _⟩ := hlog
            subst hevb
            rcases hev with h | ⟨_, rest, hrest'⟩
            · simp at h
            · have hnb : n = b := hnode.symm
              subst hnb
              rw [hrest'] at hsub hnd
              exact sublist_pair_head rest a n n hsub hnd rfl
          | cons e l1' =>
            simp only [List.singleton_append, List.cons_append, List.cons.injEq] at hlog
            obtain ⟨hee, hlog2⟩ := hlog
            subst hee
            by_cases hna : n = a
            · exact ⟨ev, List.mem_cons_self _ _, hnode.trans hna⟩
            · have hnb : n ≠ b := by
                intro e
                exact hfirst ev (List.mem_cons_self _ _) (hnode.trans e)
              have hsub1 : [a, b].Sublist (addrs q1) := by
                rw [hq1]
                exact sublist_pair_filter _ a b n hsub hna hnb
              obtain ⟨e', he', hea⟩ := ih s1 s2 q1 e2 hok1 hsub1 hrest l1' l2 hlog2
                (fun e he => hfirst e (List.mem_cons_of_mem _ he))
              exact ⟨e', List.mem_cons_of_mem _ he', hea⟩


theorem newNode_flags (p : String) (flags : Nat) (rotation : Int) (userData : Nat) (size : QSize) :
    (newNode p flags rotation userData size).flags = flags := by
  unfold newNode
  simp only
  split <;> rfl

theorem newNode_userData (p : String) (flags : Nat) (rotation : Int) (userData : Nat)
    (size : QSize) : (newNode p flags rotation userData size).userData = userData := by
  unfold newNode
  simp only
  split <;> rfl

theorem exampleThread_pending : Pending exampleThread [(1, exampleNode)] :=
  ⟨⟨rfl, rfl, none, rfl, rfl⟩, rfl⟩

/-- C7: on a queue holding the items `q`, `ImageLoaderThread::load` of an item `x` leaves the
queue `x` followed by `q` when `x` carries `HighPriority`, and `q` followed by `x` otherwise; the
pending count grows by one. The items of `q` keep their contents and their order. -/
theorem load_queue_position (t : ImageLoaderThread) (q : List (Nat × Node)) (node : Nat)
    (p : String) (flags : Nat) (rotation : Int) (userData : Nat) (size : QSize)
    (h : Pending t q) (hfresh : t.heap node = none) :
    ∃ t', t.load node p flags rotation userData size = some t' ∧
      ((newNode p flags rotation userData size).flags &&& HighPriority ≠ 0 →
        Pending t' ((node, newNode p flags rotation userData size) :: q)) ∧
      ((newNode p flags rotation userData size).flags &&& HighPriority = 0 →
        Pending t' (q ++ [(node, newNode p flags rotation userData size)])) ∧
      t'.mPending = t.mPending + 1 := by
  obtain ⟨t', hload, hp, hcount, _, _⟩ :=
    load_spec t q node p flags rotation userData size h hfresh
  rw [newNode_flags]
  refine ⟨t', hload, ?_, ?_, hcount⟩
  · intro hhigh
    rw [if_pos hhigh] at hp
    exact hp
  · intro hlow
    rw [if_neg (not_not.mpr hlow)] at hp
    exact hp

theorem load_queue_position_witness :
    Pending exampleThread [(1, exampleNode)] ∧ exampleThread.heap 2 = none ∧
    ∃ t', exampleThread.load 2 "b.jpg" HighPriority 90 11 ⟨640, 480⟩ = some t' ∧
      ((newNode "b.jpg" HighPriority 90 11 ⟨640, 480⟩).flags &&& HighPriority ≠ 0 →
        Pending t' ((2, newNode "b.jpg" HighPriority 90 11 ⟨640, 480⟩) :: [(1, exampleNode)])) ∧
      ((newNode "b.jpg" HighPriority 90 11 ⟨640, 480⟩).flags &&& HighPriority = 0 →
        Pending t' ([(1, exampleNode)] ++ [(2, newNode "b.jpg" HighPriority 90 11 ⟨640, 480⟩)])) ∧
      t'.mPending = exampleThread.mPending + 1 :=
  ⟨exampleThread_pending, rfl,
    load_queue_position exampleThread [(1, exampleNode)] 2 "b.jpg" HighPriority 90 11 ⟨640, 480⟩
      exampleThread_pending rfl⟩

/-- C8 (as stated, refuted): two `HighPriority` items are pushed on the empty queue, first the one
at address 1 and then the one at address 2; neither is cancelled, and the worker takes the one
pushed later first. -/
theorem high_priority_not_fifo :
    (runQueue 8 ⟨ImageLoaderThread.init, none⟩
        [QueueOp.load 1 "a.jpg" HighPriority 0 10 ⟨0, 0⟩,
         QueueOp.load 2 "b.jpg" HighPriority 0 11 ⟨0, 0⟩,
         QueueOp.take, QueueOp.finish, QueueOp.take]).map Prod.snd
      = some [QueueEvent.taken 2, QueueEvent.taken 1] := by
  decide

/-- C8 (amended): an item is pushed (node `node`) while the item at `ax` is pending. In every run
that follows, if the new item is Normal then, before the worker takes it, the item at `ax` has
been taken or cancelled (first in, first out behind everything pending); if the new item is
`HighPriority` then, before the worker takes the item at `ax`, the new one has been taken or
cancelled (last in, first out, also when both are `HighPriority`). -/
theorem queue_pop_order (fuel : Nat) (s s' : QueueRun) (q : List (Nat × Node)) (ax node : Nat)
    (p : String) (flags : Nat) (rotation : Int) (userData : Nat) (size : QSize)
    (ops : List QueueOp) (log : List QueueEvent)
    (hok : RunOk s q) (hx : ax ∈ addrs q)
    (hrun : runQueue fuel s (QueueOp.load node p flags rotation userData size :: ops)
      = some (s', log)) :
    (flags &&& HighPriority = 0 →
      ∀ l1 l2, log = l1 ++ QueueEvent.taken node :: l2 → (∀ e ∈ l1, e.node ≠ node) →
        QueueEvent.taken ax ∈ l1 ∨ QueueEvent.cancelled ax ∈ l1) ∧
    (flags &&& HighPriority ≠ 0 →
      ∀ l1 l2, log = l1 ++ QueueEvent.taken ax :: l2 → (∀ e ∈ l1, e.node ≠ ax) →
        QueueEvent.taken node ∈ l1 ∨ QueueEvent.cancelled node ∈ l1) := by
  have hev : ∀ (l : List QueueEvent) (n : Nat), (∃ e ∈ l, e.node = n) →
      QueueEvent.taken n ∈ l ∨ QueueEvent.cancelled n ∈ l := by
    rintro l n ⟨e, he, hn⟩
    cases e with
    | cancelled m => right; simp only [QueueEvent.node] at hn; rw [← hn]; exact he
    | taken m => left; simp only [QueueEvent.node] at hn; rw [← hn]; exact he
  simp only [runQueue] at hrun
  cases hstep : stepQueue fuel s (QueueOp.load node p flags rotation userData size) with
  | none => rw [hstep] at hrun; cases hrun
  | some r1 =>
    obtain ⟨s1, e1⟩ := r1
    rw [hstep] at hrun
    simp only at hrun
    cases hrest : runQueue fuel s1 ops with
    | none => rw [hrest] at hrun; cases hrun
    | some r2 =>
      obtain ⟨s2, e2⟩ := r2
      rw [hrest] at hrun
      simp only [Option.some.injEq, Prod.mk.injEq] at hrun
      obtain ⟨_, hlog'⟩ := hrun
      obtain ⟨he1, _, hok1⟩ :=
        stepQueue_load_spec fuel s s1 q node p flags rotation userData size e1 hok hstep
      subst he1
      rw [List.nil_append] at hlog'
      subst hlog'
      have hsingle : [ax].Sublist (addrs q) := List.singleton_sublist.mpr hx
      constructor
      · intro hlow
        rw [if_neg (not_not.mpr hlow)] at hok1
        have hsub : [ax, node].Sublist (addrs (q ++ [(node, newNode p flags rotation userData size)])) := by
          rw [addrs_append]
          exact hsingle.append (List.Sublist.refl [node])
        intro l1 l2 hl hfirst
        exact hev l1 ax (runQueue_order fuel ax node ops s1 s2 _ e2 hok1 hsub hrest l1 l2 hl hfirst)
      · intro hhigh
        rw [if_pos hhigh] at hok1
        have hsub : [node, ax].Sublist (addrs ((node, newNode p flags rotation userData size) :: q)) := by
          rw [addrs_cons]
          exact hsingle.cons₂ node
        intro l1 l2 hl hfirst
        exact hev l1 node (runQueue_order fuel node ax ops s1 s2 _ e2 hok1 hsub hrest l1 l2 hl hfirst)

theorem queue_pop_order_witness :
    RunOk ⟨exampleThread, none⟩ [(1, exampleNode)] ∧ 1 ∈ addrs [(1, exampleNode)] ∧
    ∃ s' log,
      runQueue 8 ⟨exampleThread, none⟩
        (QueueOp.load 2 "b.jpg" 0 0 11 ⟨0, 0⟩ :: [QueueOp.take, QueueOp.finish, QueueOp.take])
        = some (s', log) ∧
      log = [QueueEvent.taken 1, QueueEvent.taken 2] ∧
      ((0 &&& HighPriority = 0 →
        ∀ l1 l2, log = l1 ++ QueueEvent.taken 2 :: l2 → (∀ e ∈ l1, e.node ≠ 2) →
          QueueEvent.taken 1 ∈ l1 ∨ QueueEvent.cancelled 1 ∈ l1) ∧
      (0 &&& HighPriority ≠ 0 →
        ∀ l1 l2, log = l1 ++ QueueEvent.taken 1 :: l2 → (∀ e ∈ l1, e.node ≠ 1) →
          QueueEvent.taken 2 ∈ l1 ∨ QueueEvent.cancelled 2 ∈ l1)) := by
  have hok : RunOk ⟨exampleThread, none⟩ [(1, exampleNode)] :=
    ⟨exampleThread_pending, fun w hw => by cases hw⟩
  have hsome : (runQueue 8 ⟨exampleThread, none⟩
      (QueueOp.load 2 "b.jpg" 0 0 11 ⟨0, 0⟩ :: [QueueOp.take, QueueOp.finish, QueueOp.take])).isSome
      = true := by decide
  have hlog : (runQueue 8 ⟨exampleThread, none⟩
      (QueueOp.load 2 "b.jpg" 0 0 11 ⟨0, 0⟩ :: [QueueOp.take, QueueOp.finish, QueueOp.take])).map
      Prod.snd = some [QueueEvent.taken 1, QueueEvent.taken 2] := by decide
  obtain ⟨⟨s', log⟩, hrun⟩ := Option.isSome_iff_exists.mp hsome
  rw [hrun] at hlog
  simp only [Option.map_some', Option.some.injEq] at hlog
  exact ⟨hok, by decide, s', log, hrun, hlog,
    queue_pop_order 8 ⟨exampleThread, none⟩ s' [(1, exampleNode)] 1 2 "b.jpg" 0 0 11 ⟨0, 0⟩
      [QueueOp.take, QueueOp.finish, QueueOp.take] log hok (by decide) hrun⟩

/-- C9: on a queue holding the items `q`, `remove(t)` with fuel for its search returns `true`
exactly when an item of `q` carries the token; it then unlinks the first such item from the head,
keeps the others in order and counts the pending number down by one; with no match the state is
unchanged. -/
theorem remove_first_match (t : ImageLoaderThread) (q : List (Nat × Node)) (fuel tok : Nat)
    (h : Pending t q) (hfuel : q.length ≤ fuel) :
    ∃ b t', t.remove fuel tok = some (b, t') ∧
      (b = true ↔ ∃ y ∈ q, y.2.userData = tok) ∧
      ((∀ y ∈ q, y.2.userData ≠ tok) → t' = t) ∧
      ((∃ y ∈ q, y.2.userData = tok) →
        ∃ pre n x post, q = pre ++ (n, x) :: post ∧ (∀ y ∈ pre, y.2.userData ≠ tok) ∧
          x.userData = tok ∧ Pending t' (pre ++ post) ∧ t'.mPending = t.mPending - 1) := by
  rcases remove_spec t q fuel tok h (Or.inl hfuel) with
    ⟨hno, hrem⟩ | ⟨pre, n, x, post, t', hq, hpre, hx, hrem, hp', hcount, _, _, _⟩
  · refine ⟨false, t, hrem, ?_, fun _ => rfl, ?_⟩
    · constructor
      · intro hb; cases hb
      · rintro ⟨y, hy, hyt⟩; exact absurd hyt (hno y hy)
    · rintro ⟨y, hy, hyt⟩; exact absurd hyt (hno y hy)
  · have hex : ∃ y ∈ q, y.2.userData = tok :=
      ⟨(n, x), by rw [hq]; exact List.mem_append_right _ (List.mem_cons_self _ _), hx⟩
    refine ⟨true, t', hrem, ?_, ?_, ?_⟩
    · exact ⟨fun _ => hex, fun _ => rfl⟩
    · intro hno
      obtain ⟨y, hy, hyt⟩ := hex
      exact absurd hyt (hno y hy)
    · intro _
      exact ⟨pre, n, x, post, hq, hpre, hx, hp', hcount⟩

theorem remove_first_match_witness :
    Pending exampleThread [(1, exampleNode)] ∧ [(1, exampleNode)].length ≤ 4 ∧
    ∃ b t', exampleThread.remove 4 10 = some (b, t') ∧
      (b = true ↔ ∃ y ∈ [(1, exampleNode)], y.2.userData = 10) ∧
      ((∀ y ∈ [(1, exampleNode)], y.2.userData ≠ 10) → t' = exampleThread) ∧
      ((∃ y ∈ [(1, exampleNode)], y.2.userData = 10) →
        ∃ pre n x post, [(1, exampleNode)] = pre ++ (n, x) :: post ∧
          (∀ y ∈ pre, y.2.userData ≠ 10) ∧
          x.userData = 10 ∧ Pending t' (pre ++ post) ∧ t'.mPending = exampleThread.mPending - 1) :=
  ⟨exampleThread_pending, by decide,
    remove_first_match exampleThread [(1, exampleNode)] 4 10 exampleThread_pending (by decide)⟩

/-! ### The loader queue as the owner thread sees it -/

theorem loaderQueue_remove_none (q : LoaderQueue) (tok : Nat)
    (h : ∀ x ∈ q, x.userData ≠ tok) : LoaderQueue.remove q tok = q := by
  induction q with
  | nil => rfl
  | cons x q ih =>
    rw [LoaderQueue.remove, if_neg (h x (List.mem_cons_self _ _)),
      ih (fun y hy => h y (List.mem_cons_of_mem _ hy))]

theorem loaderQueue_remove_first (pre post : LoaderQueue) (x : Node) (tok : Nat)
    (hpre : ∀ y ∈ pre, y.userData ≠ tok) (hx : x.userData = tok) :
    LoaderQueue.remove (pre ++ x :: post) tok = pre ++ post := by
  induction pre with
  | nil => simp only [List.nil_append, LoaderQueue.remove, if_pos hx]
  | cons y pre ih =>
    rw [List.cons_append, LoaderQueue.remove, if_neg (hpre y (List.mem_cons_self _ _)),
      ih (fun z hz => hpre z (List.mem_cons_of_mem _ hz)), List.cons_append]

/-- On the linked list, `ImageLoaderThread::load` is `LoaderQueue.load` on the requests queued. -/
theorem load_refines (t : ImageLoaderThread) (q : List (Nat × Node)) (node : Nat) (p : String)
    (flags : Nat) (rotation : Int) (userData : Nat) (size : QSize)
    (h : Pending t q) (hfresh : t.heap node = none) :
    ∃ t' q', t.load node p flags rotation userData size = some t' ∧ Pending t' q' ∧
      q'.map Prod.snd = LoaderQueue.load (q.map Prod.snd) p flags rotation userData size := by
  obtain ⟨t', hload, hp, _⟩ := load_spec t q node p flags rotation userData size h hfresh
  refine ⟨t', _, hload, hp, ?_⟩
  unfold LoaderQueue.load
  split <;> simp

/-- On the linked list, `ImageLoaderThread::remove` is `LoaderQueue.remove` on the requests
queued. -/
theorem remove_refines (t : ImageLoaderThread) (q : List (Nat × Node)) (fuel tok : Nat)
    (h : Pending t q) (hfuel : q.length ≤ fuel) :
    ∃ b t' q', t.remove fuel tok = some (b, t') ∧ Pending t' q' ∧
      q'.map Prod.snd = LoaderQueue.remove (q.map Prod.snd) tok := by
  rcases remove_spec t q fuel tok h (Or.inl hfuel) with
    ⟨hno, hrem⟩ | ⟨pre, n, x, post, t', hq, hpre, hx, hrem, hp', _⟩
  · refine ⟨false, t, q, hrem, h, ?_⟩
    rw [loaderQueue_remove_none]
    intro y hy
    obtain ⟨z, hz, rfl⟩ := List.mem_map.mp hy
    exact hno z hz
  · refine ⟨true, t', pre ++ post, hrem, hp', ?_⟩
    subst hq
    rw [List.map_append, List.map_append, List.map_cons, loaderQueue_remove_first _ _ _ _ ?_ hx]
    intro y hy
    obtain ⟨z, hz, rfl⟩ := List.mem_map.mp hy
    exact hpre z hz

/-- The locked block of `ImageLoaderThread::run` on the linked list is `LoaderQueue.take` on the
requests queued. -/
theorem take_refines (t : ImageLoaderThread) (q : List (Nat × Node)) (h : Pending t q) :
    (LoaderQueue.take (q.map Prod.snd) = none ∧ t.takeFirst = none) ∨
    ∃ a x q' t', q = (a, x) :: q' ∧ t.takeFirst = some (a, t') ∧ Pending t' q' ∧
      LoaderQueue.take (q.map Prod.snd) = some (x, q'.map Prod.snd) := by
  cases q with
  | nil => exact Or.inl ⟨rfl, takeFirst_empty t h⟩
  | cons ax q' =>
    obtain ⟨a, x⟩ := ax
    obtain ⟨t', htake, hp, _⟩ := takeFirst_spec t a x q' h
    exact Or.inr ⟨a, x, q', t', rfl, htake, hp, rfl⟩

/-! ### The navigator -/

/-- C4 (the code breaks the bound): started with `--max-images 1`, after `browseAndJump` three
entries without the `Network` flag hold a decoded image, and the counter agrees. -/
theorem resident_bound_exceeded :
    (System.start.run System.browseAndJump).map
        (fun s => (s.residentCount, s.window.imagesInMemory, s.window.maxImages))
      = some (3, 3, 1) := by
  decide

/-- C5 (the code misses the old cursor): after `browse` the loaded or loading entries are those at
0 and 4, the window of cursor 0; `setCurrentIndex(2)` clears index 4 and counts it out, requests 1
and 2, and leaves the image at index 0, outside the new window `{1, 2}`, in memory. -/
theorem eviction_misses_old_cursor :
    (System.start.run System.browse).map (fun s => (s.window.occupied, s.window.current,
        s.window.imagesInMemory)) = some ([0, 4], 0, 2) ∧
    insert 0 (surrounding 0 5 1) = ({0, 4} : Finset Int) ∧
    ((System.start.run System.browse).bind fun s => s.window.setCurrentIndex 2).map
        (fun w => (w.occupied, w.current, w.imagesInMemory)) = some ([0, 1, 2], 2, 1) ∧
    insert 2 (surrounding 2 5 1) = ({1, 2} : Finset Int) := by
  decide

/-- C10: a completion, success or failure, for a token that is not a key of the loading map
leaves the whole state as it is: catalog, entries, counter, cursor, history and loading map. -/
theorem stale_completion_noop (w : Window) (userData : Nat) (image : QImage)
    (h : w.loading userData = none) :
    w.onImageLoaded userData image = some w ∧ w.onImageLoadError userData = some w := by
  have hupd : Function.update w.loading userData none = w.loading := by
    rw [← h]; exact Function.update_eq_self _ _
  constructor
  · simp only [Window.onImageLoaded, h, Option.getD_none, hupd, if_true]
  · simp only [Window.onImageLoadError, h, Option.getD_none, hupd, if_true]

theorem stale_completion_noop_witness :
    Window.init.loading 7 = none ∧
    Window.init.onImageLoaded 7 (some ⟨800, 600⟩) = some Window.init ∧
    Window.init.onImageLoadError 7 = some Window.init :=
  ⟨rfl, stale_completion_noop Window.init 7 (some ⟨800, 600⟩) rfl⟩

/-! ### One tracked request per entry -/

theorem tracked_congr (w w' : Window) (F : List Node)
    (hq : w'.imageLoaderThread = w.imageLoaderThread) (hl : w'.loading = w.loading)
    (h : Tracked w F) : Tracked w' F := by
  unfold Tracked at h ⊢
  rw [hq, hl]
  exact h

theorem loaderQueue_load_tokens (q : LoaderQueue) (p : String) (flags : Nat) (rotation : Int)
    (userData : Nat) (size : QSize) :
    ((LoaderQueue.load q p flags rotation userData size).map Node.userData).Perm
      (userData :: q.map Node.userData) := by
  unfold LoaderQueue.load
  split
  · rw [List.map_cons, newNode_userData]
  · rw [List.map_append, List.map_cons, List.map_nil, newNode_userData]
    exact List.perm_append_singleton _ _

theorem tracked_request (w : Window) (F : List Node) (dt : Nat) (d : Data) (index : Int)
    (flags : Nat) (size : QSize) (h : Tracked w F) (hnew : w.loading dt = none) :
    Tracked (w.request dt d index flags size) F := by
  obtain ⟨hnd, hkeys⟩ := h
  have hnot : dt ∉ outstandingTokens w.imageLoaderThread F := by
    intro hmem
    have := hkeys dt hmem
    rw [hnew] at this
    cases this
  have hperm : (outstandingTokens (w.request dt d index flags size).imageLoaderThread F).Perm
      (dt :: outstandingTokens w.imageLoaderThread F) := by
    unfold outstandingTokens
    exact (loaderQueue_load_tokens _ _ _ _ _ _).append_right _
  refine ⟨hperm.nodup_iff.mpr (List.nodup_cons.mpr ⟨hnot, hnd⟩), ?_⟩
  intro tok htok
  have htok' := hperm.mem_iff.mp htok
  show (Function.update w.loading dt (some index) tok).isSome = true
  by_cases e : tok = dt
  · subst e; rw [Function.update_same]; rfl
  · rw [Function.update_noteq e]
    rcases List.mem_cons.mp htok' with h1 | h1
    · exact absurd h1 e
    · exact hkeys tok h1

theorem tracked_load (w w' : Window) (F : List Node) (index : Int) (h : Tracked w F)
    (hload : w.load index = some w') : Tracked w' F := by
  unfold Window.load at hload
  cases hat : w.entryAt index with
  | none => rw [hat] at hload; cases hload
  | some r =>
    obtain ⟨dt, d⟩ := r
    rw [hat] at hload
    simp only at hload
    split at hload
    · cases hload; exact h
    · rename_i hguard
      have hnew : w.loading dt = none := by
        cases hl : w.loading dt with
        | none => rfl
        | some v => exact absurd (Or.inr (by rw [hl]; rfl)) hguard
      split at hload
      · split at hload
        · cases hload; exact h
        · cases hload; exact tracked_request w F dt d index _ _ h hnew
      · split at hload
        · cases hload; exact h
        · cases hload; exact tracked_request w F dt d index _ _ h hnew

theorem tracked_loadEach (F : List Node) (l : List Int) :
    ∀ (w w' : Window), Tracked w F → Window.loadEach l w = some w' → Tracked w' F := by
  induction l with
  | nil =>
    intro w w' h hl
    simp only [Window.loadEach, Option.some.injEq] at hl
    subst hl; exact h
  | cons i rest ih =>
    intro w w' h hl
    simp only [Window.loadEach] at hl
    split at hl
    · cases hload : w.load i with
      | none => rw [hload] at hl; cases hl
      | some w1 =>
        rw [hload] at hl
        exact ih w1 w' (tracked_load w w1 F i h hload) hl
    · exact ih w w' h hl

theorem tracked_updateImages (w w' : Window) (F : List Node) (h : Tracked w F)
    (hu : w.updateImages = some w') : Tracked w' F := by
  unfold Window.updateImages at hu
  split at hu
  · cases hu; exact h
  · cases hload : w.load w.current with
    | none => rw [hload] at hu; cases hu
    | some w1 =>
      rw [hload] at hu
      simp only at hu
      have h1 := tracked_load w w1 F _ h hload
      split at hu
      · cases hu; exact h1
      · exact tracked_loadEach F _ w1 w' h1 hu

theorem loaderQueue_remove_tokens (q : LoaderQueue) (tok : Nat) :
    (LoaderQueue.remove q tok).map Node.userData = (q.map Node.userData).erase tok := by
  induction q with
  | nil => rfl
  | cons x q ih =>
    rw [LoaderQueue.remove, List.map_cons]
    by_cases hx : x.userData = tok
    · rw [if_pos hx, hx, List.erase_cons_head]
    · rw [if_neg hx, List.map_cons, ih, List.erase_cons_tail]
      simpa using hx

theorem data_clear_flags (d : Data) : d.clear.2.flags = d.flags := by
  unfold Data.clear
  split
  · rfl
  · split <;> rfl

theorem entryAt_of_data_heap (w w' : Window) (r : Int) (hd : w'.data = w.data)
    (hh : ∀ a, (w'.heap a).map Data.flags = (w.heap a).map Data.flags) :
    w'.evictTarget r = w.evictTarget r := by
  unfold Window.evictTarget Window.entryAt
  rw [hd]
  by_cases hr : r < 0
  · simp only [if_pos hr]
  · simp only [if_neg hr]
    cases hdt : w.data[r.toNat]? with
    | none => rfl
    | some dt =>
      simp only
      have := hh dt
      cases h1 : w.heap dt with
      | none =>
        rw [h1] at this
        cases h2 : w'.heap dt with
        | none => rfl
        | some d' => rw [h2] at this; cases this
      | some d =>
        rw [h1] at this
        cases h2 : w'.heap dt with
        | none => rw [h2] at this; cases this
        | some d' =>
          rw [h2] at this
          simp only [Option.map_some', Option.some.injEq] at this
          simp only [Option.map_some', this]

theorem evict_effect (w w' : Window) (r : Int) (hev : w.evict r = some w') :
    w'.data = w.data ∧ (∀ a, (w'.heap a).map Data.flags = (w.heap a).map Data.flags) ∧
    (w.evictTarget r = none → w'.imageLoaderThread = w.imageLoaderThread ∧ w'.loading = w.loading) ∧
    (∀ dt, w.evictTarget r = some dt →
      w'.imageLoaderThread = w.imageLoaderThread.remove dt ∧
      w'.loading = Function.update w.loading dt none) := by
  unfold Window.evict at hev
  unfold Window.evictTarget
  cases hat : w.entryAt r with
  | none => rw [hat] at hev; cases hev
  | some e =>
    obtain ⟨dt, d⟩ := e
    rw [hat] at hev
    simp only at hev ⊢
    have hheap : w.heap dt = some d := by
      unfold Window.entryAt at hat
      split at hat
      · cases hat
      · cases hdt : w.data[r.toNat]? with
        | none => rw [hdt] at hat; cases hat
        | some dt' =>
          rw [hdt] at hat
          simp only at hat
          cases hh : w.heap dt' with
          | none => rw [hh] at hat; cases hat
          | some d' =>
            rw [hh] at hat
            simp only [Option.map_some', Option.some.injEq, Prod.mk.injEq] at hat
            obtain ⟨e1, e2⟩ := hat
            subst e1 e2
            exact hh
    by_cases hnet : d.flags &&& Data.Network = 0
    · rw [if_pos hnet] at hev
      simp only [Option.some.injEq] at hev
      subst hev
      rw [if_pos hnet]
      refine ⟨rfl, ?_, fun h => (Option.some_ne_none _ h).elim, ?_⟩
      · intro a
        by_cases ha : a = dt
        · subst ha
          simp only [Window.clearEntry, Function.update_same, hheap, Option.map_some',
            data_clear_flags]
        · simp only [Window.clearEntry, Function.update_noteq ha]
      · intro dt' hdt'
        simp only [Option.some.injEq] at hdt'
        subst hdt'
        exact ⟨rfl, rfl⟩
    · rw [if_neg hnet] at hev
      simp only [Option.some.injEq] at hev
      subst hev
      rw [if_neg hnet]
      exact ⟨rfl, fun _ => rfl, fun _ => ⟨rfl, rfl⟩,
        fun dt' h => (Option.some_ne_none _ h.symm).elim⟩

theorem tracked_evict (w w' : Window) (F : List Node) (r : Int) (h : Tracked w F)
    (hev : w.evict r = some w')
    (hquiet : ∀ dt, w.evictTarget r = some dt → dt ∉ F.map Node.userData) :
    Tracked w' F := by
  obtain ⟨_, _, hnone, hsome⟩ := evict_effect w w' r hev
  cases ht : w.evictTarget r with
  | none =>
    obtain ⟨hq, hl⟩ := hnone ht
    exact tracked_congr w w' F hq hl h
  | some dt =>
    obtain ⟨hq, hl⟩ := hsome dt ht
    obtain ⟨hnd, hkeys⟩ := h
    unfold outstandingTokens at hnd hkeys
    unfold Tracked outstandingTokens
    rw [hq, hl, loaderQueue_remove_tokens]
    have hqnd : (w.imageLoaderThread.map Node.userData).Nodup := (List.nodup_append.mp hnd).1
    have hsub : ((w.imageLoaderThread.map Node.userData).erase dt ++ F.map Node.userData).Sublist
        (w.imageLoaderThread.map Node.userData ++ F.map Node.userData) :=
      (List.erase_sublist _ _).append_right _
    refine ⟨hnd.sublist hsub, ?_⟩
    intro tok htok
    have hne : tok ≠ dt := by
      intro e
      subst e
      rcases List.mem_append.mp htok with h1 | h1
      · exact (hqnd.not_mem_erase) h1
      · exact hquiet tok ht h1
    rw [Function.update_noteq hne]
    exact hkeys tok (hsub.subset htok)

theorem tracked_evictEach (F : List Node) (index : Int) (surr : Finset Int) (l : List Int) :
    ∀ (w w' : Window), Tracked w F → Window.evictEach index surr l w = some w' →
      (∀ r ∈ l, r ≠ index ∧ r ∉ surr → ∀ dt, w.evictTarget r = some dt →
        dt ∉ F.map Node.userData) →
      Tracked w' F := by
  induction l with
  | nil =>
    intro w w' h hl _
    simp only [Window.evictEach, Option.some.injEq] at hl
    subst hl; exact h
  | cons r rest ih =>
    intro w w' h hl hquiet
    simp only [Window.evictEach] at hl
    split at hl
    · rename_i htest
      cases hev : w.evict r with
      | none => rw [hev] at hl; cases hl
      | some w1 =>
        rw [hev] at hl
        obtain ⟨hd, hh, _, _⟩ := evict_effect w w1 r hev
        refine ih w1 w' (tracked_evict w w1 F r h hev
          (hquiet r (List.mem_cons_self _ _) htest)) hl ?_
        intro r' hr' htest' dt hdt
        rw [entryAt_of_data_heap w w1 r' hd hh] at hdt
        exact hquiet r' (List.mem_cons_of_mem _ hr') htest' dt hdt
    · exact ih w w' h hl (fun r' hr' => hquiet r' (List.mem_cons_of_mem _ hr'))

theorem tracked_setCurrentIndex (w w' : Window) (F : List Node) (index : Int)
    (h : Tracked w F) (hquiet : w.evictsInFlight index F = false)
    (hset : w.setCurrentIndex index = some w') : Tracked w' F := by
  unfold Window.setCurrentIndex at hset
  by_cases hcur : index = w.current
  · rw [if_pos hcur] at hset
    cases hset; exact h
  · rw [if_neg hcur] at hset
    simp only at hset
    split at hset
    · cases hset
      exact tracked_congr w _ F rfl rfl h
    · cases hev : Window.evictEach (max 0 index)
          (surrounding (max 0 index) w.data.length w.maxImages)
          (foreachOrder (surrounding w.current w.data.length w.maxImages))
          { w with history := trimHistory (index :: w.history).length (index :: w.history),
                   flags := Flags.set w.flags Flags.ManuallySetIndex (decide (w.data.length > 1)),
                   current := max 0 index } with
      | none => rw [hev] at hset; cases hset
      | some w1 =>
        rw [hev] at hset
        refine tracked_updateImages w1 w' F ?_ hset
        refine tracked_evictEach F _ _ _ _ w1 ?_ hev ?_
        · exact tracked_congr w _ F rfl rfl h
        intro r hr htest dt hdt
        have ht : w.evictTarget r = some dt := hdt
        unfold Window.evictsInFlight at hquiet
        simp only [Bool.and_eq_false_imp, decide_eq_true_eq, List.any_eq_false] at hquiet
        have := hquiet hcur r hr
        simp only [Bool.and_eq_true, decide_eq_true_eq, not_and] at this
        have h2 := this htest
        rw [ht] at h2
        simp only [List.any_eq_true, decide_eq_true_eq, not_exists, not_and] at h2
        intro hmem
        obtain ⟨x, hx, hxt⟩ := List.mem_map.mp hmem
        exact h2 x hx hxt

theorem tracked_modifyIndexes (w : Window) (F : List Node) (index added : Int)
    (h : Tracked w F) : Tracked (w.modifyIndexes index added) F := by
  obtain ⟨hnd, hkeys⟩ := h
  refine ⟨hnd, ?_⟩
  intro tok htok
  have := hkeys tok htok
  show ((w.loading tok).map fun v => if v ≥ index then v + added else v).isSome = true
  rw [Option.isSome_map']
  exact this

theorem evictTarget_single (w : Window) (r : Int) (hlen : w.data.length = 1) (hr : r ≠ 0) :
    w.evictTarget r = none := by
  unfold Window.evictTarget Window.entryAt
  by_cases hneg : r < 0
  · simp only [if_pos hneg]
  · simp only [if_neg hneg]
    have hidx : w.data[r.toNat]? = none := by
      apply List.getElem?_eq_none
      rw [hlen]
      omega
    rw [hidx]

theorem evictsInFlight_single (w : Window) (F : List Node) (hlen : w.data.length = 1) :
    w.evictsInFlight 0 F = false := by
  unfold Window.evictsInFlight
  simp only [Bool.and_eq_false_imp, decide_eq_true_eq, List.any_eq_false]
  intro _ r _
  simp only [Bool.and_eq_true, decide_eq_true_eq, not_and]
  intro htest
  have hr : r ≠ 0 := by
    have := htest.1
    simpa using this
  rw [evictTarget_single w r hlen hr]
  simp

theorem tracked_insertNode (w : Window) (F : List Node) (dt it : Nat) (h : Tracked w F) :
    Tracked (w.insertNode dt it) F := by
  unfold Window.insertNode
  split
  · exact tracked_congr w _ F rfl rfl h
  · have hm : Tracked (Window.modifyIndexes { w with data := w.data.insertIdx it dt } (it : Int) 1)
        F := tracked_modifyIndexes _ F _ _ (tracked_congr w _ F rfl rfl h)
    simp only
    split
    · exact tracked_congr _ _ F rfl rfl hm
    · exact hm

theorem tracked_addNode (w w' : Window) (F : List Node) (dt it : Nat) (h : Tracked w F)
    (hadd : w.addNode dt it = some w') : Tracked w' F := by
  unfold Window.addNode at hadd
  simp only at hadd
  have h1 := tracked_insertNode w F dt it h
  generalize w.insertNode dt it = w1 at hadd h1
  by_cases hlen : w1.data.length = 1
  · rw [if_pos hlen] at hadd
    cases hset : w1.setCurrentIndex 0 with
    | none => rw [hset] at hadd; cases hadd
    | some w3 =>
      rw [hset] at hadd
      simp only at hadd
      have h3 := tracked_setCurrentIndex w1 w3 F 0 h1 (evictsInFlight_single w1 F hlen) hset
      split at hadd
      · exact tracked_updateImages w3 w' F h3 hadd
      · cases hadd; exact h3
  · rw [if_neg hlen] at hadd
    simp only at hadd
    split at hadd
    · exact tracked_updateImages w1 w' F h1 hadd
    · cases hadd; exact h1

theorem tracked_addFile (w w' : Window) (F : List Node) (dt : Nat) (path : String)
    (h : Tracked w F) (hadd : w.addFile dt path = some w') : Tracked w' F := by
  unfold Window.addFile at hadd
  split at hadd
  · cases hadd
  · exact tracked_addNode
      { w with heap := Function.update w.heap dt (some (Data.create path)) } w' F dt
      w.data.length (tracked_congr w _ F rfl rfl h) hadd

theorem deliver_tokens (F : List Node) (tok : Nat) :
    ∀ (F' : List Node), deliver F tok = some F' →
      tok ∈ F.map Node.userData ∧ F'.map Node.userData = (F.map Node.userData).erase tok := by
  induction F with
  | nil => intro F' h; cases h
  | cons x rest ih =>
    intro F' h
    simp only [deliver] at h
    by_cases hx : x.userData = tok
    · rw [if_pos hx] at h
      cases h
      rw [List.map_cons, hx]
      exact ⟨List.mem_cons_self _ _, (List.erase_cons_head _ _).symm⟩
    · rw [if_neg hx] at h
      cases hd : deliver rest tok with
      | none => rw [hd] at h; cases h
      | some r =>
        rw [hd] at h
        simp only [Option.map_some', Option.some.injEq] at h
        subst h
        obtain ⟨hmem, hr⟩ := ih r hd
        refine ⟨List.mem_cons_of_mem _ hmem, ?_⟩
        rw [List.map_cons, List.map_cons, hr, List.erase_cons_tail]
        simpa using hx

/-- The first thing both completion handlers do: the token leaves the loading map, and with it
the request just delivered leaves the set of requests in flight. -/
theorem tracked_deliver (w : Window) (F F' : List Node) (tok : Nat) (h : Tracked w F)
    (hd : deliver F tok = some F') :
    Tracked { w with loading := Function.update w.loading tok none } F' := by
  obtain ⟨hnd, hkeys⟩ := h
  obtain ⟨hmem, htoks⟩ := deliver_tokens F tok F' hd
  unfold outstandingTokens at hnd hkeys
  unfold Tracked outstandingTokens
  simp only
  rw [htoks]
  obtain ⟨_, hFnd, hdisj⟩ := List.nodup_append.mp hnd
  have hsub : (w.imageLoaderThread.map Node.userData ++ (F.map Node.userData).erase tok).Sublist
      (w.imageLoaderThread.map Node.userData ++ F.map Node.userData) :=
    (List.erase_sublist _ _).append_left _
  refine ⟨hnd.sublist hsub, ?_⟩
  intro t ht
  have hne : t ≠ tok := by
    intro e
    subst e
    rcases List.mem_append.mp ht with h1 | h1
    · exact hdisj h1 hmem
    · exact hFnd.not_mem_erase h1
  rw [Function.update_noteq hne]
  exact hkeys t (hsub.subset ht)

theorem tracked_firstImageDone (w w' : Window) (F : List Node) (h : Tracked w F)
    (hf : w.firstImageDone = some w') : Tracked w' F := by
  unfold Window.firstImageDone at hf
  split at hf
  · refine tracked_updateImages _ w' F ?_ hf
    exact tracked_congr w _ F rfl rfl h
  · cases hf; exact h

theorem tracked_reloadIfWrongSize (w w' : Window) (F : List Node) (idx : Int) (image : QImage)
    (h : Tracked w F) (hr : w.reloadIfWrongSize idx image = some w') : Tracked w' F := by
  unfold Window.reloadIfWrongSize at hr
  split at hr
  · split at hr
    · exact tracked_load w w' F _ h hr
    · cases hr; exact h
  · cases hr; exact h

theorem tracked_failEntry (w w' : Window) (F : List Node) (tok : Nat) (idx : Int)
    (h : Tracked w F) (hf : w.failEntry tok idx = some w') : Tracked w' F := by
  unfold Window.failEntry at hf
  split at hf
  · simp only [Option.some.injEq] at hf
    subst hf
    apply tracked_modifyIndexes
    split
    · exact tracked_congr w _ F rfl rfl h
    · exact tracked_congr w _ F rfl rfl h
  · cases hh : w.heap tok with
    | none => rw [hh] at hf; cases hf
    | some dt =>
      rw [hh] at hf
      cases hf
      exact tracked_congr w _ F rfl rfl h

theorem tracked_onImageLoaded (w w' : Window) (F F' : List Node) (tok : Nat) (image : QImage)
    (h : Tracked w F) (hd : deliver F tok = some F')
    (hon : w.onImageLoaded tok image = some w') : Tracked w' F' := by
  have h0 := tracked_deliver w F F' tok h hd
  unfold Window.onImageLoaded at hon
  simp only at hon
  split at hon
  · cases hon; exact h0
  · cases hheap : w.heap tok with
    | none => rw [hheap] at hon; cases hon
    | some dt =>
      rw [hheap] at hon
      simp only at hon
      cases hre : (Window.storeImage { w with loading := Function.update w.loading tok none }
          tok dt image).reloadIfWrongSize ((w.loading tok).getD (-1)) image with
      | none => rw [hre] at hon; cases hon
      | some w1 =>
        rw [hre] at hon
        simp only at hon
        refine tracked_firstImageDone w1 w' F' ?_ hon
        refine tracked_reloadIfWrongSize _ w1 F' _ image ?_ hre
        exact tracked_congr _ _ F' rfl rfl h0

theorem tracked_onImageLoadError (w w' : Window) (F F' : List Node) (tok : Nat)
    (h : Tracked w F) (hd : deliver F tok = some F')
    (hon : w.onImageLoadError tok = some w') : Tracked w' F' := by
  have h0 := tracked_deliver w F F' tok h hd
  unfold Window.onImageLoadError at hon
  simp only at hon
  split at hon
  · cases hon; exact h0
  · cases hheap : w.heap tok with
    | none => rw [hheap] at hon; cases hon
    | some dt =>
      rw [hheap] at hon
      simp only at hon
      cases hfi : (Window.clearEntry { w with loading := Function.update w.loading tok none }
          tok dt).firstImageDone with
      | none => rw [hfi] at hon; cases hon
      | some w1 =>
        rw [hfi] at hon
        simp only at hon
        refine tracked_failEntry w1 w' F' tok _ ?_ hon
        refine tracked_firstImageDone _ w1 F' ?_ hfi
        exact tracked_congr _ _ F' rfl rfl h0

theorem tracked_take (w : Window) (F : List Node) (x : Node) (q : LoaderQueue)
    (h : Tracked w F) (ht : w.imageLoaderThread.take = some (x, q)) :
    Tracked { w with imageLoaderThread := q } (F ++ [x]) := by
  obtain ⟨hnd, hkeys⟩ := h
  have hq : w.imageLoaderThread = x :: q := by
    cases hw : w.imageLoaderThread with
    | nil => rw [hw] at ht; cases ht
    | cons y q' =>
      rw [hw] at ht
      simp only [LoaderQueue.take, Option.some.injEq, Prod.mk.injEq] at ht
      rw [ht.1, ht.2]
  unfold outstandingTokens at hnd hkeys
  rw [hq] at hnd hkeys
  have hperm : (q.map Node.userData ++ (F ++ [x]).map Node.userData).Perm
      ((x :: q).map Node.userData ++ F.map Node.userData) := by
    rw [List.map_append, List.map_cons, List.map_cons, List.map_nil, List.cons_append]
    have : (q.map Node.userData ++ (F.map Node.userData ++ [x.userData])).Perm
        (x.userData :: (q.map Node.userData ++ F.map Node.userData)) := by
      rw [← List.append_assoc]
      exact List.perm_append_singleton _ _
    exact this
  unfold Tracked outstandingTokens
  exact ⟨hperm.nodup_iff.mpr hnd, fun tok htok => hkeys tok (hperm.mem_iff.mp htok)⟩

/-- Every quiet action keeps the requests queued or in flight tracked, one per entry. -/
theorem tracked_step (s s' : System) (a : Action) (h : Tracked s.window s.inFlight)
    (hquiet : s.quiet a = true) (hstep : s.step a = some s') :
    Tracked s'.window s'.inFlight := by
  cases a with
  | addFile dt path =>
    simp only [System.step] at hstep
    cases hadd : s.window.addFile dt path with
    | none => rw [hadd] at hstep; cases hstep
    | some w' =>
      rw [hadd] at hstep
      cases hstep
      exact tracked_addFile s.window w' s.inFlight dt path h hadd
  | setCurrentIndex index =>
    simp only [System.step] at hstep
    simp only [System.quiet, Bool.not_eq_true'] at hquiet
    cases hset : s.window.setCurrentIndex index with
    | none => rw [hset] at hstep; cases hstep
    | some w' =>
      rw [hset] at hstep
      cases hstep
      exact tracked_setCurrentIndex s.window w' s.inFlight index h hquiet hset
  | moveCurrentIndexBy count =>
    simp only [System.step] at hstep
    simp only [System.quiet, Bool.not_eq_true'] at hquiet
    cases hset : s.window.moveCurrentIndexBy count with
    | none => rw [hset] at hstep; cases hstep
    | some w' =>
      rw [hset] at hstep
      cases hstep
      exact tracked_setCurrentIndex s.window w' s.inFlight _ h hquiet hset
  | take =>
    simp only [System.step] at hstep
    cases ht : s.window.imageLoaderThread.take with
    | none => rw [ht] at hstep; cases hstep
    | some r =>
      obtain ⟨x, q⟩ := r
      rw [ht] at hstep
      cases hstep
      exact tracked_take s.window s.inFlight x q h ht
  | imageLoaded userData image =>
    simp only [System.step] at hstep
    cases hd : deliver s.inFlight userData with
    | none => rw [hd] at hstep; cases hstep
    | some rest =>
      rw [hd] at hstep
      simp only at hstep
      cases hon : s.window.onImageLoaded userData (some image) with
      | none => rw [hon] at hstep; cases hstep
      | some w' =>
        rw [hon] at hstep
        cases hstep
        exact tracked_onImageLoaded s.window w' s.inFlight rest userData _ h hd hon
  | loadError userData =>
    simp only [System.step] at hstep
    cases hd : deliver s.inFlight userData with
    | none => rw [hd] at hstep; cases hstep
    | some rest =>
      rw [hd] at hstep
      simp only at hstep
      cases hon : s.window.onImageLoadError userData with
      | none => rw [hon] at hstep; cases hstep
      | some w' =>
        rw [hon] at hstep
        cases hstep
        exact tracked_onImageLoadError s.window w' s.inFlight rest userData h hd hon

theorem tracked_run (actions : List Action) :
    ∀ (s s' : System), Tracked s.window s.inFlight → s.quietRun actions = true →
      s.run actions = some s' → Tracked s'.window s'.inFlight := by
  induction actions with
  | nil =>
    intro s s' h _ hrun
    simp only [System.run, Option.some.injEq] at hrun
    subst hrun; exact h
  | cons a rest ih =>
    intro s s' h hq hrun
    simp only [System.run] at hrun
    simp only [System.quietRun, Bool.and_eq_true] at hq
    cases hstep : s.step a with
    | none => rw [hstep] at hrun; cases hrun
    | some s1 =>
      rw [hstep] at hrun hq
      exact ih s1 s' (tracked_step s s1 a h hq.1 hstep) hq.2 hrun

theorem outstanding_le_one_of_tracked (s : System) (tok : Nat)
    (h : Tracked s.window s.inFlight) : s.outstanding tok ≤ 1 := by
  have hcount : ∀ l : List Node,
      (l.filter fun x => decide (x.userData = tok)).length = (l.map Node.userData).count tok := by
    intro l
    induction l with
    | nil => rfl
    | cons x l ih =>
      rw [List.map_cons, List.count_cons, List.filter_cons]
      by_cases hx : x.userData = tok
      · simp only [hx, decide_True, if_true, List.length_cons, ih, beq_self_eq_true]
      · have hx' : (x.userData == tok) = false := by simpa using hx
        simp only [hx, decide_False, Bool.false_eq_true, if_false, ih, hx', add_zero]
  unfold System.outstanding
  rw [hcount, hcount, ← List.count_append]
  exact List.nodup_iff_count_le_one.mp h.1 tok

/-- C6 (as stated, refuted): after `jumpWhileDecoding` the entry with token 104 has one request in
flight and a second one queued. The jump to index 2 is not quiet: it evicts that entry while its
request is in flight. -/
theorem two_requests_outstanding :
    (System.start.run System.jumpWhileDecoding).map
        (fun s => (s.outstanding 104, s.window.imageLoaderThread.map (fun x => x.userData),
                   s.inFlight.map (fun x => x.userData)))
      = some (2, [104, 102], [104]) ∧
    System.start.quietRun System.jumpWhileDecoding = false := by
  decide

/-- C6 (amended): start without requests and let the user add files and move the cursor, the
worker take requests and completions be delivered, in any order, such that no cursor move evicts
an entry while a request of that entry is in flight. Then in the state reached every token has at
most one request queued or in flight. -/
theorem outstanding_at_most_one (s s' : System) (actions : List Action) (tok : Nat)
    (hqueue : s.window.imageLoaderThread = []) (hflight : s.inFlight = [])
    (hquiet : s.quietRun actions = true) (hrun : s.run actions = some s') :
    s'.outstanding tok ≤ 1 := by
  have h0 : Tracked s.window s.inFlight := by
    unfold Tracked outstandingTokens
    rw [hqueue, hflight]
    exact ⟨List.nodup_nil, fun t ht => absurd ht (List.not_mem_nil t)⟩
  exact outstanding_le_one_of_tracked s' tok (tracked_run actions s s' h0 hquiet hrun)

theorem outstanding_at_most_one_witness :
    System.start.window.imageLoaderThread = [] ∧ System.start.inFlight = [] ∧
    System.start.quietRun System.decoding = true ∧
    ∃ s', System.start.run System.decoding = some s' ∧ s'.outstanding 104 = 1 ∧
      s'.outstanding 104 ≤ 1 := by
  have hsome : (System.start.run System.decoding).isSome = true := by decide
  have hone : (System.start.run System.decoding).map (fun s => s.outstanding 104) = some 1 := by
    decide
  obtain ⟨s', hrun⟩ := Option.isSome_iff_exists.mp hsome
  rw [hrun] at hone
  simp only [Option.map_some', Option.some.injEq] at hone
  exact ⟨rfl, rfl, by decide, s', hrun, hone,
    outstanding_at_most_one System.start s' System.decoding 104 rfl rfl (by decide) hrun⟩

/-! ### What the loader calls and the eviction loop leave as it is -/

theorem kept_refl (w : Window) : Window.Kept w w :=
  ⟨rfl, rfl, rfl, rfl, rfl, fun _ => rfl⟩

theorem kept_trans (w w1 w2 : Window) (h1 : Window.Kept w w1) (h2 : Window.Kept w1 w2) :
    Window.Kept w w2 := by
  obtain ⟨a1, b1, c1, d1, e1, f1⟩ := h1
  obtain ⟨a2, b2, c2, d2, e2, f2⟩ := h2
  exact ⟨a2.trans a1, b2.trans b1, c2.trans c1, d2.trans d1, e2.trans e1,
    fun dt => (f2 dt).trans (f1 dt)⟩

theorem grown_refl (w : Window) : Window.Grown w w :=
  ⟨kept_refl w, rfl, fun _ _ h => h⟩

theorem grown_trans (w w1 w2 : Window) (h1 : Window.Grown w w1) (h2 : Window.Grown w1 w2) :
    Window.Grown w w2 :=
  ⟨kept_trans w w1 w2 h1.1 h2.1, h2.2.1.trans h1.2.1,
    fun tok v h => h2.2.2 tok v (h1.2.2 tok v h)⟩

theorem allocated_of_kept (w w' : Window) (h : Window.Kept w w') (hA : w.Allocated) :
    w'.Allocated := by
  intro dt hdt
  rw [h.1] at hdt
  have h1 := hA dt hdt
  have h2 := h.2.2.2.2.2 dt
  cases hw : w.heap dt with
  | none => rw [hw] at h1; cases h1
  | some d =>
    rw [hw] at h2
    cases hw' : w'.heap dt with
    | none => rw [hw'] at h2; cases h2
    | some d' => rfl

theorem grown_request (w : Window) (dt : Nat) (d : Data) (index : Int) (flags : Nat)
    (size : QSize) (hnew : w.loading dt = none) :
    Window.Grown w (w.request dt d index flags size) := by
  refine ⟨⟨rfl, rfl, rfl, rfl, rfl, fun _ => rfl⟩, rfl, ?_⟩
  intro tok v htok
  have hne : tok ≠ dt := by
    intro e
    rw [e, hnew] at htok
    cases htok
  simp only [Window.request, Function.update_noteq hne, htok]

theorem grown_load (w w' : Window) (index : Int) (hload : w.load index = some w') :
    Window.Grown w w' := by
  unfold Window.load at hload
  cases hat : w.entryAt index with
  | none => rw [hat] at hload; cases hload
  | some r =>
    obtain ⟨dt, d⟩ := r
    rw [hat] at hload
    simp only at hload
    split at hload
    · cases hload; exact grown_refl w
    · rename_i hguard
      have hnew : w.loading dt = none := by
        cases hl : w.loading dt with
        | none => rfl
        | some v => exact absurd (Or.inr (by rw [hl]; rfl)) hguard
      split at hload
      · split at hload
        · cases hload; exact grown_refl w
        · cases hload; exact grown_request w dt d index _ _ hnew
      · split at hload
        · cases hload; exact grown_refl w
        · cases hload; exact grown_request w dt d index _ _ hnew

theorem grown_loadEach (l : List Int) :
    ∀ (w w' : Window), Window.loadEach l w = some w' → Window.Grown w w' := by
  induction l with
  | nil =>
    intro w w' hl
    simp only [Window.loadEach, Option.some.injEq] at hl
    subst hl; exact grown_refl w
  | cons i rest ih =>
    intro w w' hl
    simp only [Window.loadEach] at hl
    split at hl
    · cases hload : w.load i with
      | none => rw [hload] at hl; cases hl
      | some w1 =>
        rw [hload] at hl
        exact grown_trans w w1 w' (grown_load w w1 i hload) (ih w1 w' hl)
    · exact ih w w' hl

theorem grown_updateImages (w w' : Window) (hu : w.updateImages = some w') :
    Window.Grown w w' := by
  unfold Window.updateImages at hu
  split at hu
  · cases hu; exact grown_refl w
  · cases hload : w.load w.current with
    | none => rw [hload] at hu; cases hu
    | some w1 =>
      rw [hload] at hu
      simp only at hu
      have h1 := grown_load w w1 _ hload
      split at hu
      · cases hu; exact h1
      · exact grown_trans w w1 w' h1 (grown_loadEach _ w1 w' hu)

theorem data_clear_path (d : Data) : d.clear.2.path = d.path := by
  unfold Data.clear
  split
  · rfl
  · split <;> rfl

theorem entryAt_heap (w : Window) (r : Int) (dt : Nat) (d : Data)
    (hat : w.entryAt r = some (dt, d)) :
    0 ≤ r ∧ w.data[r.toNat]? = some dt ∧ w.heap dt = some d := by
  unfold Window.entryAt at hat
  split at hat
  · cases hat
  · rename_i hr
    cases hdt : w.data[r.toNat]? with
    | none => rw [hdt] at hat; cases hat
    | some dt' =>
      rw [hdt] at hat
      simp only at hat
      cases hh : w.heap dt' with
      | none => rw [hh] at hat; cases hat
      | some d' =>
        rw [hh] at hat
        simp only [Option.map_some', Option.some.injEq, Prod.mk.injEq] at hat
        obtain ⟨e1, e2⟩ := hat
        subst e1 e2
        exact ⟨by omega, rfl, hh⟩

theorem kept_evict (w w' : Window) (r : Int) (hev : w.evict r = some w') :
    Window.Kept w w' := by
  unfold Window.evict at hev
  cases hat : w.entryAt r with
  | none => rw [hat] at hev; cases hev
  | some e =>
    obtain ⟨dt, d⟩ := e
    rw [hat] at hev
    simp only at hev
    have hheap := (entryAt_heap w r dt d hat).2.2
    split at hev
    · cases hev
      refine ⟨rfl, rfl, rfl, rfl, rfl, ?_⟩
      intro a
      by_cases ha : a = dt
      · subst ha
        simp only [Window.clearEntry, Function.update_same, hheap, Option.map_some',
          data_clear_flags, data_clear_path]
      · simp only [Window.clearEntry, Function.update_noteq ha]
    · cases hev; exact kept_refl w

theorem kept_evictEach (index : Int) (surr : Finset Int) (l : List Int) :
    ∀ (w w' : Window), Window.evictEach index surr l w = some w' → Window.Kept w w' := by
  induction l with
  | nil =>
    intro w w' hl
    simp only [Window.evictEach, Option.some.injEq] at hl
    subst hl; exact kept_refl w
  | cons r rest ih =>
    intro w w' hl
    simp only [Window.evictEach] at hl
    split at hl
    · cases hev : w.evict r with
      | none => rw [hev] at hl; cases hl
      | some w1 =>
        rw [hev] at hl
        exact kept_trans w w1 w' (kept_evict w w1 r hev) (ih w1 w' hl)
    · exact ih w w' hl

/-! ### The navigator on a catalog without dangling entries -/

theorem mem_foreachOrder (s : Finset Int) (x : Int) : x ∈ foreachOrder s ↔ x ∈ s := by
  obtain ⟨m, nd⟩ := s
  induction m using Quot.inductionOn with
  | h l =>
    show x ∈ List.insertionSort (· ≤ ·) l ↔ x ∈ l
    exact (List.perm_insertionSort _ l).mem_iff

theorem surroundingAbove_range (cur count : Int) (hc0 : 0 ≤ cur) (hc : cur < count) :
    ∀ (n : Nat) (i : Int) (ret : Finset Int), 0 ≤ i → i + n ≤ count →
      (∀ x ∈ ret, 0 ≤ x ∧ x < count) →
      ∀ x ∈ (surroundingAbove cur count n i ret).1, 0 ≤ x ∧ x < count := by
  intro n
  induction n with
  | zero => intro i ret _ _ hret x hx; exact hret x hx
  | succ n ih =>
    intro i ret hi hin hret x hx
    simp only [surroundingAbove] at hx
    have hstep : ∀ y, 0 ≤ y → y < count → ∀ z ∈ insert y ret, 0 ≤ z ∧ z < count := by
      intro y hy0 hy1 z hz
      rcases Finset.mem_insert.mp hz with e | hz
      · subst e; exact ⟨hy0, hy1⟩
      · exact hret z hz
    push_cast at hin
    split at hx
    · split at hx
      · exact hret x hx
      · exact ih (i + 1) _ (by omega) (by omega) (hstep _ (by omega) (by omega)) x hx
    · exact ih (i + 1) _ (by omega) (by omega) (hstep _ (by omega) (by omega)) x hx

theorem surroundingBelow_range (cur count : Int) (hc0 : 0 ≤ cur) (hc : cur < count) :
    ∀ (n : Nat) (i : Int) (ret : Finset Int), 0 ≤ i → i + n ≤ count →
      (∀ x ∈ ret, 0 ≤ x ∧ x < count) →
      ∀ x ∈ (surroundingBelow cur count n i ret).1, 0 ≤ x ∧ x < count := by
  intro n
  induction n with
  | zero => intro i ret _ _ hret x hx; exact hret x hx
  | succ n ih =>
    intro i ret hi hin hret x hx
    simp only [surroundingBelow] at hx
    have hstep : ∀ y, 0 ≤ y → y < count → ∀ z ∈ insert y ret, 0 ≤ z ∧ z < count := by
      intro y hy0 hy1 z hz
      rcases Finset.mem_insert.mp hz with e | hz
      · subst e; exact ⟨hy0, hy1⟩
      · exact hret z hz
    push_cast at hin
    split at hx
    · split at hx
      · exact hret x hx
      · exact ih (i + 1) _ (by omega) (by omega) (hstep _ (by omega) (by omega)) x hx
    · exact ih (i + 1) _ (by omega) (by omega) (hstep _ (by omega) (by omega)) x hx

theorem split_le_count (m count : Int) (hcount : 0 < count) (hm : m ≤ count) :
    (((m * 2).tdiv 3).toNat : Int) ≤ count ∧ ((m - (m * 2).tdiv 3).toNat : Int) ≤ count := by
  by_cases h0 : 0 ≤ m
  · have e : (m * 2).tdiv 3 = m * 2 / 3 := Int.tdiv_eq_ediv (by omega) (by omega)
    rw [e]
    omega
  · have e : (m * 2).tdiv 3 = -((-(m * 2)) / 3) := by
      have e1 : m * 2 = -(-(m * 2)) := by omega
      rw [e1, Int.neg_tdiv, Int.tdiv_eq_ediv (by omega) (by omega)]
      simp
    rw [e]
    omega

theorem surrounding_range (cur count maxEntries x : Int) (hcount : 0 < count) (hcur : -1 ≤ cur)
    (hlt : cur < count) (hx : x ∈ surrounding cur count maxEntries) : 0 ≤ x ∧ x < count := by
  unfold surrounding surroundingTrace at hx
  simp only [if_neg (ne_of_gt hcount)] at hx
  have hc0 : 0 ≤ (if cur = -1 then 0 else cur) := by split <;> omega
  have hc : (if cur = -1 then 0 else cur) < count := by split <;> omega
  obtain ⟨ha, hb⟩ := split_le_count (min maxEntries count) count hcount (min_le_right _ _)
  generalize (if cur = -1 then (0 : Int) else cur) = c at hc0 hc hx
  have hfwd := surroundingAbove_range c count hc0 hc
    ((min maxEntries count * 2).tdiv 3).toNat 0 ∅ le_rfl (by omega)
    (fun y hy => absurd hy (Finset.not_mem_empty y))
  split at hx
  · exact hfwd x hx
  · exact surroundingBelow_range c count hc0 hc _ 0 _ le_rfl (by omega) hfwd x hx

theorem entryAt_some (w : Window) (i : Int) (hA : w.Allocated) (h0 : 0 ≤ i)
    (h1 : i < w.data.length) : ∃ dt d, w.entryAt i = some (dt, d) := by
  have hlt : i.toNat < w.data.length := by omega
  have hget : w.data[i.toNat]? = some (w.data[i.toNat]) := List.getElem?_eq_getElem hlt
  have hall := hA _ (List.getElem_mem hlt)
  cases hh : w.heap (w.data[i.toNat]) with
  | none => rw [hh] at hall; cases hall
  | some d =>
    refine ⟨w.data[i.toNat], d, ?_⟩
    unfold Window.entryAt
    rw [if_neg (by omega), hget]
    simp only [hh, Option.map_some']

theorem load_some (w : Window) (i : Int) (hA : w.Allocated) (h0 : 0 ≤ i)
    (h1 : i < w.data.length) : ∃ w', w.load i = some w' := by
  obtain ⟨dt, d, hat⟩ := entryAt_some w i hA h0 h1
  unfold Window.load
  rw [hat]
  simp only
  split
  · exact ⟨_, rfl⟩
  · split
    · split
      · exact ⟨_, rfl⟩
      · exact ⟨_, rfl⟩
    · split
      · exact ⟨_, rfl⟩
      · exact ⟨_, rfl⟩

theorem loadEach_some (l : List Int) :
    ∀ (w : Window), w.Allocated → (∀ i ∈ l, 0 ≤ i ∧ i < w.data.length) →
      ∃ w', Window.loadEach l w = some w' := by
  induction l with
  | nil => intro w _ _; exact ⟨w, rfl⟩
  | cons i rest ih =>
    intro w hA hl
    simp only [Window.loadEach]
    have hrest : ∀ j ∈ rest, 0 ≤ j ∧ j < w.data.length :=
      fun j hj => hl j (List.mem_cons_of_mem _ hj)
    split
    · obtain ⟨w1, h1⟩ := load_some w i hA (hl i (List.mem_cons_self _ _)).1
        (hl i (List.mem_cons_self _ _)).2
      rw [h1]
      have hg := grown_load w w1 i h1
      refine ih w1 (allocated_of_kept w w1 hg.1 hA) ?_
      rw [hg.1.1]
      exact hrest
    · exact ih w hA hrest

theorem updateImages_some (w : Window) (hA : w.Allocated)
    (hcur : w.data ≠ [] → 0 ≤ w.current ∧ w.current < w.data.length) :
    ∃ w', w.updateImages = some w' := by
  unfold Window.updateImages
  split
  · exact ⟨w, rfl⟩
  · rename_i hne
    have hne' : w.data ≠ [] := by
      intro e
      rw [e] at hne
      exact hne rfl
    obtain ⟨h0, h1⟩ := hcur hne'
    obtain ⟨w1, hl⟩ := load_some w w.current hA h0 h1
    rw [hl]
    simp only
    have hg := grown_load w w1 _ hl
    split
    · exact ⟨w1, rfl⟩
    · refine loadEach_some _ w1 (allocated_of_kept w w1 hg.1 hA) ?_
      intro i hi
      rw [mem_foreachOrder] at hi
      rw [hg.1.1, hg.1.2.1] at hi
      rw [hg.1.1]
      exact surrounding_range _ _ _ i (by omega) (by omega) h1 hi

theorem evict_some (w : Window) (r : Int) (hA : w.Allocated) (h0 : 0 ≤ r)
    (h1 : r < w.data.length) : ∃ w', w.evict r = some w' := by
  obtain ⟨dt, d, hat⟩ := entryAt_some w r hA h0 h1
  unfold Window.evict
  rw [hat]
  simp only
  split
  · exact ⟨_, rfl⟩
  · exact ⟨_, rfl⟩

theorem evictEach_some (index : Int) (surr : Finset Int) (l : List Int) :
    ∀ (w : Window), w.Allocated → (∀ i ∈ l, 0 ≤ i ∧ i < w.data.length) →
      ∃ w', Window.evictEach index surr l w = some w' := by
  induction l with
  | nil => intro w _ _; exact ⟨w, rfl⟩
  | cons r rest ih =>
    intro w hA hl
    simp only [Window.evictEach]
    have hrest : ∀ j ∈ rest, 0 ≤ j ∧ j < w.data.length :=
      fun j hj => hl j (List.mem_cons_of_mem _ hj)
    split
    · obtain ⟨w1, h1⟩ := evict_some w r hA (hl r (List.mem_cons_self _ _)).1
        (hl r (List.mem_cons_self _ _)).2
      rw [h1]
      have hk := kept_evict w w1 r h1
      refine ih w1 (allocated_of_kept w w1 hk hA) ?_
      rw [hk.1]
      exact hrest
    · exact ih w hA hrest

theorem trimHistory_eq_take (fuel : Nat) :
    ∀ h : List Int, h.length ≤ 1024 + fuel → trimHistory fuel h = h.take 1024 := by
  induction fuel with
  | zero =>
    intro h hl
    simp only [trimHistory]
    exact (List.take_of_length_le (by omega)).symm
  | succ fuel ih =>
    intro h hl
    simp only [trimHistory]
    split
    · rename_i hgt
      rw [ih h.dropLast (by rw [List.length_dropLast]; omega), List.dropLast_eq_take,
        List.take_take, min_eq_left (by omega)]
    · exact (List.take_of_length_le (by omega)).symm

theorem setCurrentIndex_effect (w w' : Window) (index : Int) (hne : index ≠ w.current)
    (h : w.setCurrentIndex index = some w') :
    w'.data = w.data ∧ w'.maxImages = w.maxImages ∧
    w'.history = (index :: w.history).take 1024 ∧
    w'.current = (if w.data = [] then -1 else max 0 index) ∧
    w'.flags = Flags.set w.flags Flags.ManuallySetIndex (decide (w.data.length > 1)) ∧
    ∀ dt, (w'.heap dt).map (fun d => (d.path, d.flags))
      = (w.heap dt).map (fun d => (d.path, d.flags)) := by
  unfold Window.setCurrentIndex at h
  rw [if_neg hne] at h
  simp only at h
  have htrim : trimHistory (index :: w.history).length (index :: w.history)
      = (index :: w.history).take 1024 := trimHistory_eq_take _ _ (by omega)
  split at h
  · rename_i hemp
    have hnil : w.data = [] := List.isEmpty_iff.mp hemp
    cases h
    exact ⟨rfl, rfl, htrim, by rw [if_pos hnil], rfl, fun _ => rfl⟩
  · rename_i hemp
    have hnil : w.data ≠ [] := fun e => hemp (List.isEmpty_iff.mpr e)
    split at h
    · cases h
    · rename_i w1 hev
      have hk := kept_evictEach _ _ _ _ _ hev
      have hg := grown_updateImages w1 w' h
      have hkk := kept_trans _ _ _ hk hg.1
      obtain ⟨a, b, c, d, e, f⟩ := hkk
      exact ⟨a, d, c.trans htrim, by rw [if_neg hnil]; exact b, e, f⟩

theorem setCurrentIndex_some (w : Window) (index : Int) (hA : w.Allocated)
    (hcur : -1 ≤ w.current ∧ w.current < w.data.length)
    (hidx : index < w.data.length ∨ w.data = []) :
    ∃ w', w.setCurrentIndex index = some w' := by
  unfold Window.setCurrentIndex
  split
  · exact ⟨w, rfl⟩
  · simp only
    split
    · exact ⟨_, rfl⟩
    · rename_i hemp
      have hnil : w.data ≠ [] := fun e => hemp (List.isEmpty_iff.mpr e)
      have hlen : 0 < w.data.length := List.length_pos.mpr hnil
      have hi : index < w.data.length := hidx.resolve_right hnil
      obtain ⟨w1, hev⟩ := evictEach_some (max 0 index)
        (surrounding (max 0 index) w.data.length w.maxImages)
        (foreachOrder (surrounding w.current w.data.length w.maxImages))
        { w with history := trimHistory (index :: w.history).length (index :: w.history),
                 flags := Flags.set w.flags Flags.ManuallySetIndex (decide (w.data.length > 1)),
                 current := max 0 index }
        hA (by
          intro i hi'
          rw [mem_foreachOrder] at hi'
          exact surrounding_range w.current w.data.length w.maxImages i
            (by exact_mod_cast hlen) hcur.1 hcur.2 hi')
      rw [hev]
      simp only
      have hk := kept_evictEach _ _ _ _ _ hev
      refine updateImages_some w1 (allocated_of_kept _ _ hk hA) ?_
      intro _
      rw [hk.1, hk.2.1]
      show 0 ≤ max 0 index ∧ max 0 index < (w.data.length : Int)
      omega

/-! ### Insertion, failed loads and the indices held elsewhere -/

theorem getElem?_insertIdx_shift (x : Nat) :
    ∀ (l : List Nat) (p i a : Nat), p ≤ l.length → l[i]? = some a →
      (l.insertIdx p x)[if p ≤ i then i + 1 else i]? = some a := by
  intro l
  induction l with
  | nil => intro p i a _ h; simp at h
  | cons y l ih =>
    intro p i a hp h
    cases p with
    | zero => simpa using h
    | succ p =>
      cases i with
      | zero => simpa using h
      | succ i =>
        have := ih p i a (by simpa using hp) (by simpa using h)
        by_cases hpi : p ≤ i
        · rw [if_pos hpi] at this
          rw [if_pos (by omega)]
          simpa using this
        · rw [if_neg hpi] at this
          rw [if_neg (by omega)]
          simpa using this

theorem insertNode_inner (w : Window) (dt it : Nat) (hit : it < w.data.length) :
    (w.insertNode dt it).data = w.data.insertIdx it dt ∧
    (w.insertNode dt it).history = w.history.map (fun v => if v ≥ (it : Int) then v + 1 else v) ∧
    (w.insertNode dt it).loading
      = (fun tok => (w.loading tok).map fun v => if v ≥ (it : Int) then v + 1 else v) ∧
    (w.insertNode dt it).heap = w.heap ∧
    (w.insertNode dt it).current
      = (if w.current ≥ (it : Int) ∧ w.test Flags.ManuallySetIndex then w.current + 1
         else w.current) := by
  unfold Window.insertNode
  rw [if_neg (by omega)]
  simp only
  split
  · rename_i h
    have h' : w.current ≥ (it : Int) ∧ w.test Flags.ManuallySetIndex = true := h
    refine ⟨rfl, rfl, rfl, rfl, ?_⟩
    rw [if_pos h']
    rfl
  · rename_i h
    have h' : ¬ (w.current ≥ (it : Int) ∧ w.test Flags.ManuallySetIndex = true) := h
    refine ⟨rfl, rfl, rfl, rfl, ?_⟩
    rw [if_neg h']
    rfl

/-- C11: when `addNode` inserts the new entry at a position `it` that is not the end of the
catalog, the history becomes the old one with every entry `v ≥ it` replaced by `v + 1` and the
others unchanged, every key of the loading map keeps its value `v` when `v < it` and gets
`v + 1` when `v ≥ it`, and a value that was the index of its entry is the index of that entry in
the new catalog. The call returns whenever no catalog entry dangles and the cursor is in
range. -/
theorem addNode_reindex (w : Window) (dt it : Nat) (hit : it < w.data.length) :
    (∀ w', w.addNode dt it = some w' →
      w'.data = w.data.insertIdx it dt ∧
      w'.history = w.history.map (fun v => if v ≥ (it : Int) then v + 1 else v) ∧
      (∀ tok v, w.loading tok = some v →
        w'.loading tok = some (if v ≥ (it : Int) then v + 1 else v)) ∧
      (∀ tok v, w.loading tok = some v → 0 ≤ v → w.data[v.toNat]? = some tok →
        w'.data[(if v ≥ (it : Int) then v + 1 else v).toNat]? = some tok)) ∧
    (w.Allocated → (w.heap dt).isSome = true → 0 ≤ w.current → w.current < w.data.length →
      ∃ w', w.addNode dt it = some w') := by
  obtain ⟨hd, hh, hl, hheap, hc⟩ := insertNode_inner w dt it hit
  have hlen : (w.insertNode dt it).data.length = w.data.length + 1 := by
    rw [hd, List.length_insertIdx _ _ (by omega)]
  have hadd : w.addNode dt it
      = if ((w.insertNode dt it).data.length : Int) ≤ (w.insertNode dt it).maxImages
          then (w.insertNode dt it).updateImages else some (w.insertNode dt it) := by
    unfold Window.addNode
    simp only
    rw [if_neg (by omega)]
  have hidx : ∀ tok v, w.loading tok = some v → 0 ≤ v → w.data[v.toNat]? = some tok →
      (w.insertNode dt it).data[(if v ≥ (it : Int) then v + 1 else v).toNat]? = some tok := by
    intro tok v _ hv hat
    rw [hd]
    have := getElem?_insertIdx_shift dt w.data it v.toNat tok (by omega) hat
    by_cases hvi : v ≥ (it : Int)
    · rw [if_pos hvi]
      rw [if_pos (by omega)] at this
      have e : (v + 1).toNat = v.toNat + 1 := by omega
      rw [e]; exact this
    · rw [if_neg hvi]
      rw [if_neg (by omega)] at this
      exact this
  have hload : ∀ tok v, w.loading tok = some v →
      (w.insertNode dt it).loading tok = some (if v ≥ (it : Int) then v + 1 else v) := by
    intro tok v h
    rw [hl]
    simp only [h, Option.map_some']
  constructor
  · intro w' hres
    rw [hadd] at hres
    split at hres
    · have hg := grown_updateImages _ _ hres
      refine ⟨hg.1.1.trans hd, hg.1.2.2.1.trans hh, ?_, ?_⟩
      · intro tok v h
        exact hg.2.2 tok _ (hload tok v h)
      · intro tok v h hv hat
        rw [hg.1.1]
        exact hidx tok v h hv hat
    · cases hres
      exact ⟨hd, hh, hload, hidx⟩
  · intro hA hdt hc0 hc1
    rw [hadd]
    split
    · refine updateImages_some _ ?_ ?_
      · intro a ha
        rw [hd] at ha
        rw [hheap]
        rcases List.mem_insertIdx (by omega) |>.mp ha with e | ha
        · rw [e]; exact hdt
        · exact hA a ha
      · intro _
        rw [hc, hlen]
        split <;> (push_cast; omega)
    · exact ⟨_, rfl⟩

theorem addNode_reindex_witness :
    1 < Window.sample.data.length ∧
    ((∀ w', Window.sample.addNode 103 1 = some w' →
      w'.data = Window.sample.data.insertIdx 1 103 ∧
      w'.history = Window.sample.history.map (fun v => if v ≥ ((1 : Nat) : Int) then v + 1 else v) ∧
      (∀ tok v, Window.sample.loading tok = some v →
        w'.loading tok = some (if v ≥ ((1 : Nat) : Int) then v + 1 else v)) ∧
      (∀ tok v, Window.sample.loading tok = some v → 0 ≤ v →
        Window.sample.data[v.toNat]? = some tok →
        w'.data[(if v ≥ ((1 : Nat) : Int) then v + 1 else v).toNat]? = some tok)) ∧
    (Window.sample.Allocated → (Window.sample.heap 103).isSome = true →
      0 ≤ Window.sample.current → Window.sample.current < Window.sample.data.length →
      ∃ w', Window.sample.addNode 103 1 = some w')) :=
  ⟨by decide, addNode_reindex Window.sample 103 1 (by decide)⟩

theorem test_ignoreFailed_unset_firstImage (f : Nat) :
    Flags.test (Flags.unset f Flags.FirstImage) Flags.IgnoreFailed
      = Flags.test f Flags.IgnoreFailed := by
  unfold Flags.test Flags.unset Flags.FirstImage Flags.IgnoreFailed
  rw [Nat.and_assoc]
  rfl

theorem test_ignoreFailed_set_manually (f : Nat) (b : Bool) :
    Flags.test (Flags.set f Flags.ManuallySetIndex b) Flags.IgnoreFailed
      = Flags.test f Flags.IgnoreFailed := by
  unfold Flags.test Flags.set Flags.unset Flags.ManuallySetIndex Flags.IgnoreFailed
  cases b
  · simp only [Bool.false_eq_true, if_false]
    rw [Nat.and_assoc]
    rfl
  · simp only [if_true]
    rw [Nat.and_distrib_right]
    have : (0x000008 : Nat) &&& 0x000010 = 0 := by decide
    rw [this, Nat.or_zero]

theorem firstImageDone_effect (w w1 : Window) (h : w.firstImageDone = some w1) :
    w1.data = w.data ∧ w1.history = w.history ∧ w1.heap = w.heap ∧ w1.current = w.current ∧
    (∀ tok v, w.loading tok = some v → w1.loading tok = some v) ∧
    w1.test Flags.IgnoreFailed = w.test Flags.IgnoreFailed ∧
    (w.test Flags.FirstImage = false → w1 = w) := by
  unfold Window.firstImageDone at h
  split at h
  · rename_i hf
    have hg := grown_updateImages _ _ h
    obtain ⟨⟨a, b, c, _, e, _⟩, hh, hl⟩ := hg
    refine ⟨a, c, hh, b, hl, ?_, ?_⟩
    · unfold Window.test
      rw [e]
      exact test_ignoreFailed_unset_firstImage _
    · intro hn
      rw [hn] at hf
      cases hf
  · cases h
    exact ⟨rfl, rfl, rfl, rfl, fun _ _ h => h, rfl, fun _ => rfl⟩

theorem onImageLoadError_steps (w w' : Window) (tok : Nat) (idx : Int)
    (hl : w.loading tok = some idx) (hne : idx ≠ -1)
    (hres : w.onImageLoadError tok = some w') :
    ∃ d w1, w.heap tok = some d ∧
      (Window.clearEntry { w with loading := Function.update w.loading tok none } tok
        d).firstImageDone = some w1 ∧
      w1.failEntry tok idx = some w' := by
  unfold Window.onImageLoadError at hres
  simp only [hl, Option.getD_some, if_neg hne] at hres
  cases hh : w.heap tok with
  | none => rw [hh] at hres; cases hres
  | some d =>
    rw [hh] at hres
    simp only at hres
    cases hf : (Window.clearEntry { w with loading := Function.update w.loading tok none } tok
        d).firstImageDone with
    | none => rw [hf] at hres; cases hres
    | some w1 =>
      rw [hf] at hres
      exact ⟨d, w1, rfl, hf, hres⟩

theorem onImageLoadError_data (w w' : Window) (tok : Nat)
    (hres : w.onImageLoadError tok = some w') : w'.data = w.data := by
  cases hl : w.loading tok with
  | none =>
    unfold Window.onImageLoadError at hres
    simp only [hl, Option.getD_none, if_true] at hres
    cases hres
    rfl
  | some idx =>
    by_cases hne : idx = -1
    · unfold Window.onImageLoadError at hres
      simp only [hl, Option.getD_some, hne, if_true] at hres
      cases hres
      rfl
    · obtain ⟨d, w1, _, hf, hfail⟩ := onImageLoadError_steps w w' tok idx hl hne hres
      have h1 := (firstImageDone_effect _ _ hf).1
      unfold Window.failEntry at hfail
      split at hfail
      · simp only [Option.some.injEq] at hfail
        subst hfail
        simp only [Window.modifyIndexes]
        split <;> exact h1
      · split at hfail
        · cases hfail
        · cases hfail
          exact h1

theorem failEntry_ignoreFailed (w : Window) (tok : Nat) (idx : Int)
    (hI : w.test Flags.IgnoreFailed = true) :
    ∃ w', w.failEntry tok idx = some w' ∧
      w'.history = w.history.map (fun v => if v ≥ idx then v - 1 else v) ∧
      w'.loading = (fun t => (w.loading t).map fun v => if v ≥ idx then v - 1 else v) ∧
      w'.data = w.data ∧ w'.heap = Function.update w.heap tok none := by
  unfold Window.failEntry
  rw [if_pos hI]
  simp only
  refine ⟨_, rfl, ?_⟩
  split <;> exact ⟨rfl, rfl, rfl, rfl⟩

/-- The call `removeFile(dt)` shifts nothing: the loading map and the history are the same
afterwards. -/
theorem removeFile_keeps_indices (w w' : Window) (dt : Nat) (h : w.removeFile dt = some w') :
    w'.loading = w.loading ∧ w'.history = w.history := by
  unfold Window.removeFile at h
  split at h
  · cases h
  · split at h
    · cases h; exact ⟨rfl, rfl⟩
    · simp only [Option.some.injEq] at h
      subst h
      split <;> exact ⟨rfl, rfl⟩

/-- C12, counterexample: in a viewer started with `--ignore-failed` the load of the entry at
index 1 fails. The history `[1, 2, 0]` becomes `[0, 1, 0]`: its entry equal to 1 has been
shifted to 0, neither removed (`[1, 0]`) nor left as it was (`[1, 1, 0]`). -/
theorem failed_entry_shifts_exact_match :
    (Window.sampleIgnoreFailed.onImageLoadError 101).map Window.history = some [0, 1, 0] ∧
    [0, 1, 0] ≠ [1, (0 : Int)] ∧ [0, 1, 0] ≠ [1, 1, (0 : Int)] := by
  decide

/-- C12, amended: when a load of the entry `tok`, requested at index `idx`, fails in a viewer
started with `--ignore-failed`, `onImageLoadError` replaces every history entry `v ≥ idx` by
`v - 1` and leaves those with `v < idx`, and does the same to the value of every other key of
the loading map; an index equal to `idx` is shifted like the larger ones. When the first image
has been shown before and the entry is allocated the call returns and the key of the entry is
gone from the loading map. -/
theorem failed_entry_reindex (w : Window) (tok : Nat) (idx : Int)
    (hI : w.test Flags.IgnoreFailed = true) (hl : w.loading tok = some idx) (hne : idx ≠ -1) :
    (∀ w', w.onImageLoadError tok = some w' →
      w'.history = w.history.map (fun v => if v ≥ idx then v - 1 else v) ∧
      ∀ t v, t ≠ tok → w.loading t = some v →
        w'.loading t = some (if v ≥ idx then v - 1 else v)) ∧
    (w.test Flags.FirstImage = false → (w.heap tok).isSome = true →
      ∃ w', w.onImageLoadError tok = some w' ∧ w'.loading tok = none) := by
  constructor
  · intro w' hres
    obtain ⟨d, w1, _, hf, hfail⟩ := onImageLoadError_steps w w' tok idx hl hne hres
    obtain ⟨_, hh, _, _, hload, hflag, _⟩ := firstImageDone_effect _ _ hf
    obtain ⟨w'', hfail', hhist, hloading, _, _⟩ :=
      failEntry_ignoreFailed w1 tok idx (hflag.trans hI)
    rw [hfail] at hfail'
    cases hfail'
    refine ⟨by rw [hhist, hh]; rfl, ?_⟩
    intro t v ht hv
    have h0 : (Window.clearEntry { w with loading := Function.update w.loading tok none } tok
        d).loading t = some v := by
      simp only [Window.clearEntry, Function.update_noteq ht, hv]
    rw [hloading]
    simp only [hload t v h0, Option.map_some']
  · intro hF htok
    cases hh : w.heap tok with
    | none => rw [hh] at htok; cases htok
    | some d =>
      have hfid : (Window.clearEntry { w with loading := Function.update w.loading tok none } tok
          d).firstImageDone
          = some (Window.clearEntry { w with loading := Function.update w.loading tok none } tok
              d) := by
        unfold Window.firstImageDone
        rw [if_neg]
        intro hc
        have : w.test Flags.FirstImage = true := hc
        rw [hF] at this
        cases this
      obtain ⟨w', hfail, _, hloading, _, _⟩ := failEntry_ignoreFailed
        (Window.clearEntry { w with loading := Function.update w.loading tok none } tok d)
        tok idx hI
      refine ⟨w', ?_, ?_⟩
      · unfold Window.onImageLoadError
        simp only [hl, Option.getD_some, if_neg hne, hh, hfid]
        exact hfail
      · rw [hloading]
        simp only [Window.clearEntry, Function.update_same, Option.map_none']

theorem failed_entry_reindex_witness :
    (Window.sampleIgnoreFailed.test Flags.IgnoreFailed = true ∧
      Window.sampleIgnoreFailed.loading 101 = some 1 ∧ (1 : Int) ≠ -1) ∧
    ((∀ w', Window.sampleIgnoreFailed.onImageLoadError 101 = some w' →
      w'.history = Window.sampleIgnoreFailed.history.map (fun v => if v ≥ 1 then v - 1 else v) ∧
      ∀ t v, t ≠ 101 → Window.sampleIgnoreFailed.loading t = some v →
        w'.loading t = some (if v ≥ 1 then v - 1 else v)) ∧
    (Window.sampleIgnoreFailed.test Flags.FirstImage = false →
      (Window.sampleIgnoreFailed.heap 101).isSome = true →
      ∃ w', Window.sampleIgnoreFailed.onImageLoadError 101 = some w' ∧ w'.loading 101 = none)) :=
  ⟨by decide, failed_entry_reindex Window.sampleIgnoreFailed 101 1 (by decide) (by decide)
    (by decide)⟩

/-- C13: three files are added to a viewer started with `--ignore-failed` and the first one
fails to load. The catalog still has its three entries in their places; the first of them has
been deleted and dangles, the history entry 0 has become -1, and `load(0)` reads the deleted
entry. -/
theorem failed_entry_stays_in_catalog :
    ((System.startIgnoreFailed.run System.firstFails).map fun s =>
        (s.window.data, (s.window.heap 100).isNone, s.window.current, s.window.history))
      = some ([100, 101, 102], true, 0, [-1]) ∧
    ((System.startIgnoreFailed.run System.firstFails).bind fun s =>
        s.window.load 0).isNone = true := by
  decide

/-! ### A failed entry is not requested again -/

theorem failedAt_congr (w w' : Window) (tok : Nat)
    (hf : w'.test Flags.IgnoreFailed = w.test Flags.IgnoreFailed)
    (hh : ∀ dt, (w'.heap dt).map (fun d => (d.path, d.flags))
      = (w.heap dt).map (fun d => (d.path, d.flags)))
    (h : w.FailedAt tok) : w'.FailedAt tok := by
  obtain ⟨h1, d, hd, hfl⟩ := h
  refine ⟨hf.trans h1, ?_⟩
  have := hh tok
  rw [hd] at this
  cases hw : w'.heap tok with
  | none => rw [hw] at this; cases this
  | some d' =>
    rw [hw] at this
    simp only [Option.map_some', Option.some.injEq, Prod.mk.injEq] at this
    exact ⟨d', rfl, by rw [this.2]; exact hfl⟩

theorem failedAt_of_kept (w w' : Window) (tok : Nat) (hk : Window.Kept w w')
    (h : w.FailedAt tok) : w'.FailedAt tok :=
  failedAt_congr w w' tok (by unfold Window.test; rw [hk.2.2.2.2.1]) hk.2.2.2.2.2 h

theorem load_failed_noop (w : Window) (tok : Nat) (index : Int) (d : Data)
    (h : w.FailedAt tok) (hat : w.entryAt index = some (tok, d)) : w.load index = some w := by
  obtain ⟨_, d', hd', hfl⟩ := h
  have hheap := (entryAt_heap w index tok d hat).2.2
  rw [hd'] at hheap
  cases hheap
  unfold Window.load
  rw [hat]
  simp only
  rw [if_pos (Or.inl hfl)]

theorem request_other (w : Window) (tok dt : Nat) (d : Data) (index : Int) (flags : Nat)
    (size : QSize) (hne : dt ≠ tok) :
    (w.request dt d index flags size).loading tok = w.loading tok ∧
    (w.request dt d index flags size).imageLoaderThread.filter (fun x => x.userData = tok)
      = w.imageLoaderThread.filter (fun x => x.userData = tok) := by
  refine ⟨?_, ?_⟩
  · simp only [Window.request, Function.update_noteq (Ne.symm hne)]
  · have hnode : ¬ (newNode d.path flags d.rotation dt size).userData = tok := by
      rw [newNode_userData]; exact hne
    simp only [Window.request, LoaderQueue.load]
    split
    · rw [List.filter_cons_of_neg (by simpa using hnode)]
    · rw [List.filter_append, List.filter_cons_of_neg (by simpa using hnode)]
      simp

theorem load_failed_untouched (w w' : Window) (tok : Nat) (index : Int)
    (h : w.FailedAt tok) (hload : w.load index = some w') :
    w'.loading tok = w.loading tok ∧
    w'.imageLoaderThread.filter (fun x => x.userData = tok)
      = w.imageLoaderThread.filter (fun x => x.userData = tok) := by
  cases hat : w.entryAt index with
  | none =>
    unfold Window.load at hload
    rw [hat] at hload
    cases hload
  | some r =>
    obtain ⟨dt, d⟩ := r
    by_cases hdt : dt = tok
    · subst hdt
      rw [load_failed_noop w dt index d h hat] at hload
      cases hload
      exact ⟨rfl, rfl⟩
    · unfold Window.load at hload
      rw [hat] at hload
      simp only at hload
      split at hload
      · cases hload; exact ⟨rfl, rfl⟩
      · split at hload
        · split at hload
          · cases hload; exact ⟨rfl, rfl⟩
          · cases hload; exact request_other w tok dt d index _ _ hdt
        · split at hload
          · cases hload; exact ⟨rfl, rfl⟩
          · cases hload; exact request_other w tok dt d index _ _ hdt

theorem loadEach_failed_untouched (tok : Nat) (l : List Int) :
    ∀ (w w' : Window), w.FailedAt tok → Window.loadEach l w = some w' →
      w'.loading tok = w.loading tok ∧
      w'.imageLoaderThread.filter (fun x => x.userData = tok)
        = w.imageLoaderThread.filter (fun x => x.userData = tok) := by
  induction l with
  | nil =>
    intro w w' _ hl
    simp only [Window.loadEach, Option.some.injEq] at hl
    subst hl; exact ⟨rfl, rfl⟩
  | cons i rest ih =>
    intro w w' h hl
    simp only [Window.loadEach] at hl
    split at hl
    · cases hload : w.load i with
      | none => rw [hload] at hl; cases hl
      | some w1 =>
        rw [hload] at hl
        have h1 := load_failed_untouched w w1 tok i h hload
        have h2 := ih w1 w' (failedAt_of_kept w w1 tok (grown_load w w1 i hload).1 h) hl
        exact ⟨h2.1.trans h1.1, h2.2.trans h1.2⟩
    · exact ih w w' h hl

theorem updateImages_failed_untouched (w w' : Window) (tok : Nat) (h : w.FailedAt tok)
    (hu : w.updateImages = some w') :
    w'.loading tok = w.loading tok ∧
    w'.imageLoaderThread.filter (fun x => x.userData = tok)
      = w.imageLoaderThread.filter (fun x => x.userData = tok) := by
  unfold Window.updateImages at hu
  split at hu
  · cases hu; exact ⟨rfl, rfl⟩
  · cases hload : w.load w.current with
    | none => rw [hload] at hu; cases hu
    | some w1 =>
      rw [hload] at hu
      simp only at hu
      have h1 := load_failed_untouched w w1 tok _ h hload
      split at hu
      · cases hu; exact h1
      · have h2 := loadEach_failed_untouched tok _ w1 w'
          (failedAt_of_kept w w1 tok (grown_load w w1 _ hload).1 h) hu
        exact ⟨h2.1.trans h1.1, h2.2.trans h1.2⟩

theorem failedAt_setCurrentIndex (w w' : Window) (tok : Nat) (index : Int) (h : w.FailedAt tok)
    (hs : w.setCurrentIndex index = some w') : w'.FailedAt tok := by
  by_cases hne : index = w.current
  · unfold Window.setCurrentIndex at hs
    rw [if_pos hne] at hs
    cases hs
    exact h
  · obtain ⟨_, _, _, _, hf, hh⟩ := setCurrentIndex_effect w w' index hne hs
    refine failedAt_congr w w' tok ?_ hh h
    unfold Window.test
    rw [hf]
    exact test_ignoreFailed_set_manually _ _

theorem failedAt_firstImageDone (w w' : Window) (tok : Nat) (h : w.FailedAt tok)
    (hs : w.firstImageDone = some w') : w'.FailedAt tok := by
  obtain ⟨_, _, hh, _, _, hf, _⟩ := firstImageDone_effect w w' hs
  exact failedAt_congr w w' tok hf (fun dt => by rw [hh]) h

theorem failedAt_addNode (w w' : Window) (tok dt it : Nat) (h : w.FailedAt tok)
    (hs : w.addNode dt it = some w') : w'.FailedAt tok := by
  have h1 : (w.insertNode dt it).FailedAt tok := by
    unfold Window.insertNode
    split
    · exact h
    · simp only
      split <;> exact h
  unfold Window.addNode at hs
  simp only at hs
  generalize w.insertNode dt it = w1 at h1 hs
  split at hs
  · cases hs
  · rename_i w3 h3
    have h3' : w3.FailedAt tok := by
      split at h3
      · exact failedAt_setCurrentIndex w1 w3 tok 0 h1 h3
      · cases h3; exact h1
    split at hs
    · exact failedAt_of_kept w3 w' tok (grown_updateImages w3 w' hs).1 h3'
    · cases hs; exact h3'

theorem failedAt_addFile (w w' : Window) (tok dt : Nat) (path : String) (h : w.FailedAt tok)
    (hs : w.addFile dt path = some w') : w'.FailedAt tok := by
  unfold Window.addFile at hs
  split at hs
  · cases hs
  · rename_i hfresh
    refine failedAt_addNode _ w' tok dt _ ?_ hs
    obtain ⟨h1, d, hd, hfl⟩ := h
    have hne : tok ≠ dt := by
      intro e
      rw [← e, hd] at hfresh
      exact hfresh rfl
    exact ⟨h1, d, by simp only [Function.update_noteq hne, hd], hfl⟩

theorem failedAt_onImageLoaded (w w' : Window) (tok userData : Nat) (image : QImage)
    (h : w.FailedAt tok) (hs : w.onImageLoaded userData image = some w') : w'.FailedAt tok := by
  unfold Window.onImageLoaded at hs
  simp only at hs
  split at hs
  · cases hs; exact h
  · cases hd : w.heap userData with
    | none => simp only [hd] at hs; cases hs
    | some dt =>
      simp only [hd] at hs
      split at hs
      · cases hs
      · rename_i w1 h1
        have hstore : (Window.storeImage
            { w with loading := Function.update w.loading userData none } userData dt
            image).FailedAt tok := by
          refine failedAt_congr w _ tok rfl ?_ h
          intro a
          by_cases ha : a = userData
          · subst ha
            simp only [Window.storeImage, Function.update_same, hd, Option.map_some']
          · simp only [Window.storeImage, Function.update_noteq ha]
        have hw1 : w1.FailedAt tok := by
          unfold Window.reloadIfWrongSize at h1
          split at h1
          · split at h1
            · exact failedAt_of_kept _ w1 tok (grown_load _ w1 _ h1).1 hstore
            · cases h1; exact hstore
          · cases h1; exact hstore
        exact failedAt_firstImageDone w1 w' tok hw1 hs

theorem failEntry_keep (w w' : Window) (tok : Nat) (idx : Int)
    (hI : w.test Flags.IgnoreFailed = false) (h : w.failEntry tok idx = some w') :
    ∃ d, w.heap tok = some d ∧
      w' = { w with heap := Function.update w.heap tok (some { d with flags := Data.Failed }) } := by
  unfold Window.failEntry at h
  rw [if_neg (by rw [hI]; exact Bool.false_ne_true)] at h
  cases hd : w.heap tok with
  | none => simp only [hd] at h; cases h
  | some d =>
    simp only [hd, Option.some.injEq] at h
    exact ⟨d, rfl, h.symm⟩

theorem failEntry_keep_some (w : Window) (tok : Nat) (idx : Int) (d : Data)
    (hI : w.test Flags.IgnoreFailed = false) (hd : w.heap tok = some d) :
    ∃ w', w.failEntry tok idx = some w' := by
  unfold Window.failEntry
  rw [if_neg (by rw [hI]; exact Bool.false_ne_true), hd]
  exact ⟨_, rfl⟩

theorem failedAt_onImageLoadError (w w' : Window) (tok userData : Nat)
    (h : w.FailedAt tok) (hs : w.onImageLoadError userData = some w') : w'.FailedAt tok := by
  cases hl : w.loading userData with
  | none =>
    unfold Window.onImageLoadError at hs
    simp only [hl, Option.getD_none, if_true] at hs
    cases hs
    exact h
  | some idx =>
    by_cases hne : idx = -1
    · unfold Window.onImageLoadError at hs
      simp only [hl, Option.getD_some, hne, if_true] at hs
      cases hs
      exact h
    · obtain ⟨d, w1, hd, hf, hfail⟩ := onImageLoadError_steps w w' userData idx hl hne hs
      have hclear : (Window.clearEntry
          { w with loading := Function.update w.loading userData none } userData d).FailedAt
          tok := by
        refine failedAt_congr w _ tok rfl ?_ h
        intro a
        by_cases ha : a = userData
        · subst ha
          simp only [Window.clearEntry, Function.update_same, hd, Option.map_some',
            data_clear_flags, data_clear_path]
        · simp only [Window.clearEntry, Function.update_noteq ha]
      have hw1 := failedAt_firstImageDone _ w1 tok hclear hf
      obtain ⟨d1, hd1, hw'⟩ := failEntry_keep w1 w' userData idx hw1.1 hfail
      subst hw'
      obtain ⟨hI, d2, hd2, hfl⟩ := hw1
      refine ⟨hI, ?_⟩
      by_cases ht : tok = userData
      · subst ht
        refine ⟨{ d1 with flags := Data.Failed }, by simp only [Function.update_same], ?_⟩
        show Data.Failed &&& Data.Failed ≠ 0
        decide
      · exact ⟨d2, by simp only [Function.update_noteq ht, hd2], hfl⟩

theorem failedAt_step (s s' : System) (a : Action) (tok : Nat) (h : s.window.FailedAt tok)
    (hs : s.step a = some s') : s'.window.FailedAt tok := by
  cases a with
  | addFile dt path =>
    simp only [System.step, Option.map_eq_some'] at hs
    obtain ⟨w', hw, rfl⟩ := hs
    exact failedAt_addFile _ w' tok dt path h hw
  | setCurrentIndex index =>
    simp only [System.step, Option.map_eq_some'] at hs
    obtain ⟨w', hw, rfl⟩ := hs
    exact failedAt_setCurrentIndex _ w' tok index h hw
  | moveCurrentIndexBy count =>
    simp only [System.step, Option.map_eq_some'] at hs
    obtain ⟨w', hw, rfl⟩ := hs
    exact failedAt_setCurrentIndex _ w' tok _ h hw
  | take =>
    simp only [System.step] at hs
    split at hs
    · cases hs
    · cases hs; exact h
  | imageLoaded userData image =>
    simp only [System.step] at hs
    split at hs
    · cases hs
    · simp only [Option.map_eq_some'] at hs
      obtain ⟨w', hw, rfl⟩ := hs
      exact failedAt_onImageLoaded _ w' tok userData _ h hw
  | loadError userData =>
    simp only [System.step] at hs
    split at hs
    · cases hs
    · simp only [Option.map_eq_some'] at hs
      obtain ⟨w', hw, rfl⟩ := hs
      exact failedAt_onImageLoadError _ w' tok userData h hw

theorem failedAt_run (tok : Nat) (actions : List Action) :
    ∀ (s s' : System), s.window.FailedAt tok → s.run actions = some s' →
      s'.window.FailedAt tok := by
  induction actions with
  | nil =>
    intro s s' h hr
    simp only [System.run, Option.some.injEq] at hr
    subst hr; exact h
  | cons a rest ih =>
    intro s s' h hr
    simp only [System.run] at hr
    cases hstep : s.step a with
    | none => rw [hstep] at hr; cases hr
    | some s1 =>
      rw [hstep] at hr
      exact ih s1 s' (failedAt_step s s1 a tok h hstep) hr

/-- Once `onImageLoadError` has returned in a viewer started without `--ignore-failed`: the
handler leaves the catalog list as it is and makes `Failed` the flags of the entry `tok`. In
every state reached from there by adding files, moving the cursor, worker pops and completion
deliveries the entry still carries the flag, `load(index)` for an index at which the entry stands
changes nothing, and a call of `updateImages` neither changes the entry's key in the loading map
nor the requests queued for it. What the handler itself has queued before it set the flag is not
covered. When the first image has been shown before and the entry is allocated,
`onImageLoadError` returns. -/
theorem failed_entry_not_reloaded (w : Window) (tok : Nat) (idx : Int) (F : List Node)
    (hI : w.test Flags.IgnoreFailed = false) (hl : w.loading tok = some idx) (hne : idx ≠ -1) :
    (∀ w', w.onImageLoadError tok = some w' →
      w'.data = w.data ∧ (∃ d, w'.heap tok = some d ∧ d.flags = Data.Failed) ∧
      ∀ (actions : List Action) (s : System), System.run ⟨w', F⟩ actions = some s →
        (∃ d, s.window.heap tok = some d ∧ d.flags &&& Data.Failed ≠ 0) ∧
        (∀ index d, s.window.entryAt index = some (tok, d) →
          s.window.load index = some s.window) ∧
        (∀ w2, s.window.updateImages = some w2 →
          w2.loading tok = s.window.loading tok ∧
          w2.imageLoaderThread.filter (fun x => x.userData = tok)
            = s.window.imageLoaderThread.filter (fun x => x.userData = tok))) ∧
    (w.test Flags.FirstImage = false → (w.heap tok).isSome = true →
      ∃ w', w.onImageLoadError tok = some w') := by
  constructor
  · intro w' hres
    obtain ⟨d, w1, hd, hf, hfail⟩ := onImageLoadError_steps w w' tok idx hl hne hres
    have hflag := (firstImageDone_effect _ _ hf).2.2.2.2.2.1
    have hI1 : w1.test Flags.IgnoreFailed = false := hflag.trans hI
    obtain ⟨d1, hd1, hw'⟩ := failEntry_keep w1 w' tok idx hI1 hfail
    have hfailed : w'.FailedAt tok := by
      subst hw'
      refine ⟨hI1, { d1 with flags := Data.Failed }, by simp only [Function.update_same], ?_⟩
      show Data.Failed &&& Data.Failed ≠ 0
      decide
    refine ⟨onImageLoadError_data w w' tok hres, ?_, ?_⟩
    · subst hw'
      exact ⟨{ d1 with flags := Data.Failed }, by simp only [Function.update_same], rfl⟩
    · intro actions s hrun
      have hs := failedAt_run tok actions ⟨w', F⟩ s hfailed hrun
      exact ⟨hs.2, fun index d hat => load_failed_noop s.window tok index d hs hat,
        fun w2 hu => updateImages_failed_untouched s.window w2 tok hs hu⟩
  · intro hF htok
    cases hh : w.heap tok with
    | none => rw [hh] at htok; cases htok
    | some d =>
      have hfid : (Window.clearEntry { w with loading := Function.update w.loading tok none } tok
          d).firstImageDone
          = some (Window.clearEntry { w with loading := Function.update w.loading tok none } tok
              d) := by
        unfold Window.firstImageDone
        rw [if_neg]
        intro hc
        have : w.test Flags.FirstImage = true := hc
        rw [hF] at this
        cases this
      have hIc : (Window.clearEntry { w with loading := Function.update w.loading tok none } tok
          d).test Flags.IgnoreFailed = false := hI
      obtain ⟨w', hfail⟩ := failEntry_keep_some _ tok idx d.clear.2 hIc
        (by simp only [Window.clearEntry, Function.update_same])
      refine ⟨w', ?_⟩
      unfold Window.onImageLoadError
      simp only [hl, Option.getD_some, if_neg hne, hh, hfid]
      exact hfail

theorem failed_entry_not_reloaded_witness :
    (Window.sample.test Flags.IgnoreFailed = false ∧ Window.sample.loading 101 = some 1 ∧
      (1 : Int) ≠ -1) ∧
    ((∀ w', Window.sample.onImageLoadError 101 = some w' →
      w'.data = Window.sample.data ∧ (∃ d, w'.heap 101 = some d ∧ d.flags = Data.Failed) ∧
      ∀ (actions : List Action) (s : System), System.run ⟨w', []⟩ actions = some s →
        (∃ d, s.window.heap 101 = some d ∧ d.flags &&& Data.Failed ≠ 0) ∧
        (∀ index d, s.window.entryAt index = some (101, d) →
          s.window.load index = some s.window) ∧
        (∀ w2, s.window.updateImages = some w2 →
          w2.loading 101 = s.window.loading 101 ∧
          w2.imageLoaderThread.filter (fun x => x.userData = 101)
            = s.window.imageLoaderThread.filter (fun x => x.userData = 101))) ∧
    (Window.sample.test Flags.FirstImage = false → (Window.sample.heap 101).isSome = true →
      ∃ w', Window.sample.onImageLoadError 101 = some w')) :=
  ⟨by decide, failed_entry_not_reloaded Window.sample 101 1 [] (by decide) (by decide)
    (by decide)⟩


/-- C14 (the code requests the failed entry again): in a viewer started without options three
files are added, the worker takes the request for the first one and fails to decode it. The
first image has not been shown, so `onImageLoadError` calls `updateImages` after it has taken
the entry out of the loading map and before it sets the flags: when the handler returns the
entry at index 0 carries `Failed`, is a key of the loading map again and has a new request in the
queue. The worker takes that request as well; only after the second failure is the entry left
alone. -/
theorem failed_entry_requested_again :
    (System.startDefault.run System.firstFails).map
        (fun s => (s.window.data, (s.window.heap 100).map Data.flags, s.window.loading 100))
      = some ([100, 101, 102], some Data.Failed, some (0 : Int)) ∧
    (System.startDefault.run System.firstFails).map
        (fun s => (s.window.imageLoaderThread.map Node.userData, s.inFlight.map Node.userData))
      = some ([102, 101, 100], []) ∧
    (System.startDefault.run (System.firstFails ++ [.take, .take, .take])).map
        (fun s => s.inFlight.map Node.userData) = some [102, 101, 100] ∧
    (System.startDefault.run
        (System.firstFails ++ [.take, .take, .take, .loadError 100])).map
        (fun s => ((s.window.heap 100).map Data.flags, s.window.loading 100,
          s.window.imageLoaderThread.map Node.userData, s.inFlight.map Node.userData))
      = some (some Data.Failed, none, [], [102, 101]) := by
  decide
/-! ### Cursor arithmetic and the history -/

theorem boundUp_eq (s : Int) (hs : 0 < s) :
    ∀ (fuel : Nat) (cnt : Int), cnt.natAbs ≤ fuel →
      boundUp s fuel cnt = if cnt < 0 then cnt % s else cnt := by
  intro fuel
  induction fuel with
  | zero =>
    intro cnt h
    have : cnt = 0 := by omega
    subst this
    simp [boundUp]
  | succ fuel ih =>
    intro cnt h
    simp only [boundUp]
    split
    · rename_i hneg
      by_cases hlt : cnt + s < 0
      · rw [ih (cnt + s) (by omega), if_pos hlt, Int.add_emod_self]
      · have h0 : boundUp s fuel (cnt + s) = cnt + s := by
          cases fuel with
          | zero => rfl
          | succ f => simp only [boundUp, if_neg hlt]
        rw [h0, ← Int.add_emod_self, Int.emod_eq_of_lt (by omega) (by omega)]
    · rfl

theorem boundDown_eq (s : Int) (hs : 0 < s) :
    ∀ (fuel : Nat) (cnt : Int), 0 ≤ cnt → cnt.natAbs ≤ fuel → boundDown s fuel cnt = cnt % s := by
  intro fuel
  induction fuel with
  | zero =>
    intro cnt h0 h
    have : cnt = 0 := by omega
    subst this
    simp [boundDown]
  | succ fuel ih =>
    intro cnt h0 h
    simp only [boundDown]
    split
    · rename_i hge
      rw [ih (cnt - s) (by omega) (by omega), Int.sub_emod, Int.emod_self, sub_zero,
        Int.emod_emod]
    · rw [Int.emod_eq_of_lt h0 (by omega)]

theorem bound_loops (s cnt : Int) (hs : 0 < s) (fuel1 fuel2 : Nat) (h1 : cnt.natAbs ≤ fuel1)
    (h2 : (boundUp s fuel1 cnt).natAbs ≤ fuel2) :
    boundDown s fuel2 (boundUp s fuel1 cnt) = cnt % s := by
  have hup := boundUp_eq s hs fuel1 cnt h1
  have hnn : 0 ≤ boundUp s fuel1 cnt := by
    rw [hup]
    split
    · exact Int.emod_nonneg _ (by omega)
    · omega
  rw [boundDown_eq s hs fuel2 _ hnn h2, hup]
  split
  · exact Int.emod_emod _ _
  · rfl

theorem bound_eq (w : Window) (cnt : Int) (hne : w.data ≠ []) :
    w.bound cnt = cnt % (w.data.length : Int) := by
  have hlen : 0 < w.data.length := List.length_pos.mpr hne
  unfold Window.bound
  simp only
  rw [if_neg (by omega)]
  exact bound_loops _ cnt (by omega) _ _ le_rfl le_rfl

/-- C18: on a non-empty catalog of size `n` with the cursor in range, the two loops of `bound`
leave by their conditions with the result `cnt mod n` as soon as they are given `|cnt|`
iterations, `bound(current + delta)` is the non-negative remainder of `current + delta` modulo
`n`, and `moveCurrentIndexBy(delta)` puts the cursor there: the value `r` with `0 ≤ r < n` and
`n` dividing `r - (current + delta)`. The move returns when no entry dangles. On an empty
catalog `bound` returns `-1`. The sum `current + delta` is taken exactly: the callers pass a
`delta` of at most `max(10, n / 10)` in absolute value, so it fits an `int`. -/
theorem moveCurrentIndexBy_mod (w : Window) (delta : Int) (hne : w.data ≠ [])
    (h0 : 0 ≤ w.current) (h1 : w.current < w.data.length) :
    (∀ (cnt : Int) (fuel1 fuel2 : Nat), cnt.natAbs ≤ fuel1 →
      (boundUp w.data.length fuel1 cnt).natAbs ≤ fuel2 →
      boundDown w.data.length fuel2 (boundUp w.data.length fuel1 cnt)
        = cnt % (w.data.length : Int)) ∧
    w.bound (w.current + delta) = (w.current + delta) % (w.data.length : Int) ∧
    (∀ w', w.moveCurrentIndexBy delta = some w' →
      w'.current = (w.current + delta) % (w.data.length : Int) ∧
      0 ≤ w'.current ∧ w'.current < w.data.length ∧
      (w.data.length : Int) ∣ w'.current - (w.current + delta)) ∧
    (w.Allocated → ∃ w', w.moveCurrentIndexBy delta = some w') ∧
    (∀ (v : Window) (cnt : Int), v.data = [] → v.bound cnt = -1) := by
  have hlen : 0 < w.data.length := List.length_pos.mpr hne
  have hn : (0 : Int) < w.data.length := by omega
  have hb := bound_eq w (w.current + delta) hne
  have hr0 := Int.emod_nonneg (w.current + delta) (ne_of_gt hn)
  have hr1 := Int.emod_lt_of_pos (w.current + delta) hn
  refine ⟨fun cnt f1 f2 a b => bound_loops _ cnt hn f1 f2 a b, hb, ?_, ?_, ?_⟩
  · intro w' hmove
    unfold Window.moveCurrentIndexBy at hmove
    rw [hb] at hmove
    have hcur : w'.current = (w.current + delta) % (w.data.length : Int) := by
      by_cases he : (w.current + delta) % (w.data.length : Int) = w.current
      · unfold Window.setCurrentIndex at hmove
        rw [if_pos he] at hmove
        cases hmove
        exact he.symm
      · have := (setCurrentIndex_effect w w' _ he hmove).2.2.2.1
        rw [this, if_neg hne, max_eq_right hr0]
    refine ⟨hcur, by rw [hcur]; exact hr0, by rw [hcur]; exact hr1, ?_⟩
    rw [hcur]
    refine ⟨-((w.current + delta) / (w.data.length : Int)), ?_⟩
    have := Int.emod_add_ediv (w.current + delta) (w.data.length : Int)
    rw [mul_neg]
    linarith
  · intro hA
    unfold Window.moveCurrentIndexBy
    rw [hb]
    exact setCurrentIndex_some w _ hA ⟨by omega, h1⟩ (Or.inl hr1)
  · intro v cnt hv
    unfold Window.bound
    simp only [hv, List.length_nil, Nat.cast_zero, if_true]

theorem moveCurrentIndexBy_mod_witness :
    (Window.sample.data ≠ [] ∧ 0 ≤ Window.sample.current ∧
      Window.sample.current < Window.sample.data.length) ∧
    ((∀ (cnt : Int) (fuel1 fuel2 : Nat), cnt.natAbs ≤ fuel1 →
      (boundUp Window.sample.data.length fuel1 cnt).natAbs ≤ fuel2 →
      boundDown Window.sample.data.length fuel2 (boundUp Window.sample.data.length fuel1 cnt)
        = cnt % (Window.sample.data.length : Int)) ∧
    Window.sample.bound (Window.sample.current + (-7))
      = (Window.sample.current + (-7)) % (Window.sample.data.length : Int) ∧
    (∀ w', Window.sample.moveCurrentIndexBy (-7) = some w' →
      w'.current = (Window.sample.current + (-7)) % (Window.sample.data.length : Int) ∧
      0 ≤ w'.current ∧ w'.current < Window.sample.data.length ∧
      (Window.sample.data.length : Int) ∣ w'.current - (Window.sample.current + (-7))) ∧
    (Window.sample.Allocated → ∃ w', Window.sample.moveCurrentIndexBy (-7) = some w') ∧
    (∀ (v : Window) (cnt : Int), v.data = [] → v.bound cnt = -1)) :=
  ⟨by decide, moveCurrentIndexBy_mod Window.sample (-7) (by decide) (by decide) (by decide)⟩

theorem take_append_take (A B : List Int) (n : Nat) :
    (A ++ B.take n).take n = (A ++ B).take n := by
  rw [List.take_append_eq_append_take, List.take_append_eq_append_take, List.take_take,
    min_eq_left (by omega)]

theorem allocated_congr (w w' : Window) (hd : w'.data = w.data)
    (hh : ∀ dt, (w'.heap dt).map (fun d => (d.path, d.flags))
      = (w.heap dt).map (fun d => (d.path, d.flags)))
    (hA : w.Allocated) : w'.Allocated := by
  intro dt hdt
  rw [hd] at hdt
  have h1 := hA dt hdt
  have h2 := hh dt
  cases hw : w.heap dt with
  | none => rw [hw] at h1; cases h1
  | some d =>
    rw [hw] at h2
    cases hw' : w'.heap dt with
    | none => rw [hw'] at h2; cases h2
    | some d' => rfl

theorem moves_history (targets : List Int) :
    ∀ (w : Window), w.Allocated → w.data ≠ [] → -1 ≤ w.current → w.current < w.data.length →
      w.history.length ≤ 1024 → List.Chain (fun a b => b ≠ a) w.current targets →
      (∀ t ∈ targets, 0 ≤ t ∧ t < w.data.length) →
      ∃ w', w.moves targets = some w' ∧
        w'.history = (targets.reverse ++ w.history).take 1024 := by
  induction targets with
  | nil =>
    intro w _ _ _ _ hh _ _
    exact ⟨w, rfl, by simp [List.take_of_length_le hh]⟩
  | cons t rest ih =>
    intro w hA hne h0 h1 hh hc hr
    obtain ⟨ht0, ht1⟩ := hr t (List.mem_cons_self _ _)
    have htc : t ≠ w.current := (List.chain_cons.mp hc).1
    obtain ⟨w1, hset⟩ := setCurrentIndex_some w t hA ⟨h0, h1⟩ (Or.inl ht1)
    obtain ⟨hd, _, hhist, hcur, _, hheap⟩ := setCurrentIndex_effect w w1 t htc hset
    rw [if_neg hne, max_eq_right ht0] at hcur
    obtain ⟨w', hmoves, hres⟩ := ih w1 (allocated_congr w w1 hd hheap hA) (by rw [hd]; exact hne)
      (by omega) (by rw [hd, hcur]; exact ht1)
      (by rw [hhist, List.length_take]; exact min_le_left _ _)
      (by rw [hcur]; exact (List.chain_cons.mp hc).2)
      (by rw [hd]; exact fun u hu => hr u (List.mem_cons_of_mem _ hu))
    refine ⟨w', ?_, ?_⟩
    · simp only [Window.moves, hset]
      exact hmoves
    · rw [hres, hhist, take_append_take, List.reverse_cons, List.append_assoc]
      rfl

/-- C19: on a non-empty catalog without dangling entries, with the cursor in range and an empty
history, any sequence of cursor moves, each to an index in range that differs from the cursor
at that time, returns and leaves as history the targets, most recent first, cut to the first
1024; so after more than 1024 moves the history has exactly 1024 entries. A call of
`setCurrentIndex` that moves the cursor, or that starts with a history of at most 1024 entries,
leaves a history of at most 1024 entries. -/
theorem history_bound (w : Window) (targets : List Int) (hA : w.Allocated) (hne : w.data ≠ [])
    (h0 : 0 ≤ w.current) (h1 : w.current < w.data.length) (hh : w.history = [])
    (hc : List.Chain (fun a b => b ≠ a) w.current targets)
    (hr : ∀ t ∈ targets, 0 ≤ t ∧ t < w.data.length) :
    (∃ w', w.moves targets = some w' ∧ w'.history = targets.reverse.take 1024 ∧
      (1024 < targets.length → w'.history.length = 1024)) ∧
    (∀ (v v' : Window) (index : Int), v.history.length ≤ 1024 ∨ index ≠ v.current →
      v.setCurrentIndex index = some v' → v'.history.length ≤ 1024) := by
  constructor
  · obtain ⟨w', hm, hres⟩ := moves_history targets w hA hne (by omega) h1
      (by rw [hh]; exact Nat.zero_le _) hc hr
    rw [hh, List.append_nil] at hres
    refine ⟨w', hm, hres, ?_⟩
    intro hlong
    rw [hres, List.length_take, List.length_reverse]
    omega
  · intro v v' index hv hset
    by_cases he : index = v.current
    · unfold Window.setCurrentIndex at hset
      rw [if_pos he] at hset
      cases hset
      exact hv.resolve_right (fun h => h he)
    · rw [(setCurrentIndex_effect v v' index he hset).2.2.1, List.length_take]
      exact min_le_left _ _

theorem history_bound_witness :
    (Window.Allocated { Window.sample with history := [] } ∧
      Window.sample.data ≠ [] ∧ 0 ≤ Window.sample.current ∧
      Window.sample.current < Window.sample.data.length ∧
      List.Chain (fun a b => b ≠ a) Window.sample.current [1, 2, 0, 1] ∧
      ∀ t ∈ [1, 2, 0, 1], 0 ≤ t ∧ t < (Window.sample.data.length : Int)) ∧
    ((∃ w', Window.moves { Window.sample with history := [] } [1, 2, 0, 1] = some w' ∧
        w'.history = [1, 2, 0, 1].reverse.take 1024 ∧
        (1024 < [1, 2, 0, (1 : Int)].length → w'.history.length = 1024)) ∧
      (∀ (v v' : Window) (index : Int), v.history.length ≤ 1024 ∨ index ≠ v.current →
        v.setCurrentIndex index = some v' → v'.history.length ≤ 1024)) :=
  have hA : Window.Allocated { Window.sample with history := [] } := by
    unfold Window.Allocated
    decide
  have hc : List.Chain (fun a b => b ≠ a) Window.sample.current [1, 2, 0, 1] :=
    .cons (by decide) (.cons (by decide) (.cons (by decide) (.cons (by decide) .nil)))
  ⟨⟨hA, by decide, by decide, by decide, hc, by decide⟩,
    history_bound { Window.sample with history := [] } [1, 2, 0, 1] hA (by decide) (by decide)
      (by decide) rfl hc (by decide)⟩

theorem visitFirst_history (w w' : Window) (h : w.visitFirst = some w') :
    w'.history.Sublist w.history := by
  unfold Window.visitFirst at h
  split at h
  · cases h
  · rename_i first rest hhist
    split at h
    · cases h
    · rename_i w1 hset
      have hw1 : w1.history = first :: rest ∨ w1.history = first :: (first :: rest).take 1023 := by
        by_cases he : first = w.current
        · unfold Window.setCurrentIndex at hset
          rw [if_pos he] at hset
          cases hset
          exact Or.inl hhist
        · right
          rw [(setCurrentIndex_effect w w1 first he hset).2.2.1, hhist]
          rfl
      split at h
      · cases h
      · rename_i x tl htl
        cases h
        show tl.Sublist w.history
        rw [hhist]
        rcases hw1 with e | e
        · rw [e] at htl
          cases htl
          exact List.sublist_cons_self _ _
        · rw [e] at htl
          cases htl
          exact List.take_sublist _ _

/-- C20: `back()` and `forward()` leave a history that is no longer than the one they start
from and whose entries, counted with their multiplicity, are among the entries it had. -/
theorem back_forward_history (w w' : Window) (h : w.back = some w' ∨ w.forward = some w') :
    w'.history.length ≤ w.history.length ∧
    Multiset.ofList w'.history ≤ Multiset.ofList w.history := by
  have key : ∃ l, l.Perm w.history ∧ w'.history.Sublist l := by
    rcases h with h | h
    · unfold Window.back at h
      split at h
      · cases h
        exact ⟨w.history, List.Perm.refl _, List.Sublist.refl _⟩
      · rename_i first rest hhist
        refine ⟨rest ++ [first], ?_, visitFirst_history _ w' h⟩
        rw [hhist]
        exact (List.perm_append_singleton first rest)
    · unfold Window.forward at h
      split at h
      · cases h
        exact ⟨w.history, List.Perm.refl _, List.Sublist.refl _⟩
      · rename_i last hlast
        refine ⟨last :: w.history.dropLast, ?_, visitFirst_history _ w' h⟩
        have hne : w.history ≠ [] := by
          intro e
          rw [e] at hlast
          cases hlast
        have hl : w.history.getLast hne = last := by
          rw [List.getLast?_eq_getLast _ hne] at hlast
          exact Option.some.inj hlast
        have := List.dropLast_append_getLast hne
        rw [hl] at this
        have hp : (last :: w.history.dropLast).Perm (w.history.dropLast ++ [last]) :=
          (List.perm_append_singleton last _).symm
        rw [this] at hp
        exact hp
  obtain ⟨l, hperm, hsub⟩ := key
  refine ⟨?_, ?_⟩
  · rw [← hperm.length_eq]
    exact hsub.length_le
  · rw [Multiset.coe_le]
    exact hsub.subperm.trans hperm.subperm

theorem back_forward_history_witness :
    ∃ w', (Window.sample.back = some w' ∨ Window.sample.forward = some w') ∧
      w'.history = [2, 0, 1] ∧
      w'.history.length ≤ Window.sample.history.length ∧
      Multiset.ofList w'.history ≤ Multiset.ofList Window.sample.history := by
  have hsome : Window.sample.back.isSome = true := by decide
  have hhist : Window.sample.back.map Window.history = some [2, 0, 1] := by decide
  obtain ⟨w', hback⟩ := Option.isSome_iff_exists.mp hsome
  rw [hback] at hhist
  simp only [Option.map_some', Option.some.injEq] at hhist
  exact ⟨w', Or.inl hback, hhist, back_forward_history Window.sample w' (Or.inl hback)⟩

/-! ### Comparing strings and sections -/

theorem compare_antisymm : ∀ a b : QString, QString.compare b a = -QString.compare a b := by
  intro a
  induction a with
  | nil =>
    intro b
    cases b with
    | nil => simp [QString.compare]
    | cons y bs => simp only [QString.compare, List.length_cons]; push_cast; omega
  | cons x as ih =>
    intro b
    cases b with
    | nil => simp only [QString.compare, List.length_cons]; push_cast; omega
    | cons y bs =>
      simp only [QString.compare]
      by_cases hxy : x = y
      · subst hxy
        simp only [ne_eq, not_true_eq_false, if_false]
        exact ih bs
      · rw [if_pos hxy, if_pos (Ne.symm hxy)]
        omega

theorem compare_le_trans : ∀ a b c : QString, QString.compare a b ≤ 0 →
    QString.compare b c ≤ 0 → QString.compare a c ≤ 0 := by
  intro a
  induction a with
  | nil =>
    intro b c _ _
    simp only [QString.compare]
    omega
  | cons x as ih =>
    intro b c h1 h2
    cases b with
    | nil => simp only [QString.compare] at h1; omega
    | cons y bs =>
      cases c with
      | nil => simp only [QString.compare] at h2; omega
      | cons z cs =>
        simp only [QString.compare] at h1 h2 ⊢
        by_cases hxy : x = y
        · subst hxy
          simp only [ne_eq, not_true_eq_false, if_false] at h1
          by_cases hxz : x = z
          · subst hxz
            simp only [ne_eq, not_true_eq_false, if_false] at h2 ⊢
            exact ih bs cs h1 h2
          · rw [if_pos hxz] at h2 ⊢
            exact h2
        · rw [if_pos hxy] at h1
          by_cases hyz : y = z
          · subst hyz
            rw [if_pos hxy]
            exact h1
          · rw [if_pos hyz] at h2
            have hxz : x ≠ z := by omega
            rw [if_pos hxz]
            omega

theorem compare_eq_zero : ∀ a b : QString, QString.compare a b = 0 → a = b := by
  intro a
  induction a with
  | nil =>
    intro b h
    cases b with
    | nil => rfl
    | cons y bs => simp only [QString.compare, List.length_cons] at h; push_cast at h; omega
  | cons x as ih =>
    intro b h
    cases b with
    | nil => simp only [QString.compare] at h; omega
    | cons y bs =>
      simp only [QString.compare] at h
      by_cases hxy : x = y
      · subst hxy
        simp only [ne_eq, not_true_eq_false, if_false] at h
        rw [ih bs h]
      · rw [if_pos hxy] at h
        omega

theorem compare_self (a : QString) : QString.compare a a = 0 := by
  have := compare_antisymm a a
  omega

theorem qBound_sign (v : Int) :
    (v < 0 → qBound (-1) v 1 = -1) ∧ (v = 0 → qBound (-1) v 1 = 0) ∧
    (0 < v → qBound (-1) v 1 = 1) := by
  unfold qBound
  refine ⟨fun h => ?_, fun h => ?_, fun h => ?_⟩ <;> omega

theorem section_compare_range (a b : Section) :
    a.compare b = -1 ∨ a.compare b = 0 ∨ a.compare b = 1 := by
  unfold Section.compare
  split
  · split
    · exact Or.inl rfl
    · split
      · exact Or.inr (Or.inr rfl)
      · exact Or.inr (Or.inl rfl)
  · obtain ⟨h1, h2, h3⟩ := qBound_sign (QString.compare a.ref b.ref)
    rcases lt_trichotomy (QString.compare a.ref b.ref) 0 with h | h | h
    · exact Or.inl (h1 h)
    · exact Or.inr (Or.inl (h2 h))
    · exact Or.inr (Or.inr (h3 h))

theorem section_compare_antisymm (a b : Section) : b.compare a = -a.compare b := by
  unfold Section.compare
  by_cases h : a.integer ≥ 0 ∧ b.integer ≥ 0
  · rw [if_pos h, if_pos ⟨h.2, h.1⟩]
    split_ifs <;> omega
  · rw [if_neg h, if_neg (fun h' => h ⟨h'.2, h'.1⟩)]
    have ha := compare_antisymm a.ref b.ref
    obtain ⟨h1, h2, h3⟩ := qBound_sign (QString.compare a.ref b.ref)
    obtain ⟨g1, g2, g3⟩ := qBound_sign (QString.compare b.ref a.ref)
    rcases lt_trichotomy (QString.compare a.ref b.ref) 0 with h | h | h
    · rw [h1 h, g3 (by omega)]; rfl
    · rw [h2 h, g2 (by omega)]; rfl
    · rw [h3 h, g1 (by omega)]

/-- A run without digits compares with every run of digits in the same way: it comes first when
it is empty or starts below `0`, and last otherwise. -/
theorem compare_mixed (x d : QString) (hx : ∀ c ∈ x, isNumber c = false)
    (hd : isDigitRun d = true) :
    (QString.compare x d < 0 ↔ (x = [] ∨ ∃ c tl, x = c :: tl ∧ c < 0x30)) ∧
    QString.compare x d ≠ 0 := by
  unfold isDigitRun at hd
  cases d with
  | nil => simp at hd
  | cons e ds =>
    have he : isNumber e = true := by
      simp only [List.isEmpty_cons, Bool.not_false, List.all_cons, Bool.true_and,
        Bool.and_eq_true] at hd
      exact hd.1
    unfold isNumber at he
    simp only [decide_eq_true_eq] at he
    cases x with
    | nil =>
      refine ⟨⟨fun _ => Or.inl rfl, fun _ => ?_⟩, ?_⟩ <;>
        (simp only [QString.compare, List.length_cons]; push_cast; omega)
    | cons c tl =>
      have hc := hx c (List.mem_cons_self _ _)
      unfold isNumber at hc
      simp only [decide_eq_false_iff_not, not_and, not_le] at hc
      have hce : c ≠ e := by omega
      simp only [QString.compare, if_pos hce]
      refine ⟨⟨fun h => Or.inr ⟨c, tl, rfl, by omega⟩, ?_⟩, by omega⟩
      rintro (h | ⟨c', tl', h, hlt⟩)
      · cases h
      · cases h
        omega

theorem section_compare_num (a b : Section) (ha : 0 ≤ a.integer) (hb : 0 ≤ b.integer) :
    a.compare b ≤ 0 ↔ a.integer ≤ b.integer := by
  unfold Section.compare
  rw [if_pos ⟨ha, hb⟩]
  split_ifs <;> omega

theorem section_compare_str (a b : Section) (h : ¬ (0 ≤ a.integer ∧ 0 ≤ b.integer)) :
    a.compare b ≤ 0 ↔ QString.compare a.ref b.ref ≤ 0 := by
  unfold Section.compare
  rw [if_neg (fun h' => h ⟨h'.1, h'.2⟩)]
  obtain ⟨h1, h2, h3⟩ := qBound_sign (QString.compare a.ref b.ref)
  rcases lt_trichotomy (QString.compare a.ref b.ref) 0 with g | g | g
  · rw [h1 g]; omega
  · rw [h2 g]; omega
  · rw [h3 g]; omega

theorem section_le_trans (x y z : Section) (hx : x.Fit) (hy : y.Fit) (hz : z.Fit)
    (h1 : x.compare y ≤ 0) (h2 : y.compare z ≤ 0) : x.compare z ≤ 0 := by
  rcases hx with ⟨dx, ix⟩ | ⟨nx, ix⟩ <;> rcases hy with ⟨dy, iy⟩ | ⟨ny, iy⟩ <;>
    rcases hz with ⟨dz, iz⟩ | ⟨nz, iz⟩
  · rw [section_compare_num _ _ ix iy] at h1
    rw [section_compare_num _ _ iy iz] at h2
    rw [section_compare_num _ _ ix iz]
    omega
  · rw [section_compare_str _ _ (by omega)] at h2
    rw [section_compare_str _ _ (by omega)]
    have my := compare_mixed z.ref y.ref nz dy
    have mx := compare_mixed z.ref x.ref nz dx
    have ay := compare_antisymm y.ref z.ref
    have ax := compare_antisymm x.ref z.ref
    by_contra hcon
    have : QString.compare z.ref x.ref < 0 := by omega
    have := my.1.mpr (mx.1.mp this)
    omega
  · rw [section_compare_str _ _ (by omega)] at h1 h2
    have mx := compare_mixed y.ref x.ref ny dx
    have mz := compare_mixed y.ref z.ref ny dz
    have ax := compare_antisymm x.ref y.ref
    have hz : QString.compare y.ref z.ref < 0 := by
      have := mz.2
      omega
    have := mx.1.mpr (mz.1.mp hz)
    omega
  · rw [section_compare_str _ _ (by omega)] at h1 h2
    rw [section_compare_str _ _ (by omega)]
    exact compare_le_trans _ _ _ h1 h2
  · rw [section_compare_str _ _ (by omega)] at h1
    rw [section_compare_str _ _ (by omega)]
    have my := compare_mixed x.ref y.ref nx dy
    have mz := compare_mixed x.ref z.ref nx dz
    have hy : QString.compare x.ref y.ref < 0 := by
      have := my.2
      omega
    have := mz.1.mpr (my.1.mp hy)
    omega
  · rw [section_compare_str _ _ (by omega)] at h1 h2
    rw [section_compare_str _ _ (by omega)]
    exact compare_le_trans _ _ _ h1 h2
  · rw [section_compare_str _ _ (by omega)] at h1 h2
    rw [section_compare_str _ _ (by omega)]
    exact compare_le_trans _ _ _ h1 h2
  · rw [section_compare_str _ _ (by omega)] at h1 h2
    rw [section_compare_str _ _ (by omega)]
    exact compare_le_trans _ _ _ h1 h2

theorem compareSections_cons (a b : Section) (l r : List Section) :
    compareSections (a :: l) (b :: r)
      = if a.compare b = -1 then true
        else if a.compare b = 1 then false else compareSections l r := by
  simp only [compareSections]

theorem compareSections_lt (a b : Section) (l r : List Section) (h : a.compare b = -1) :
    compareSections (a :: l) (b :: r) = true := by
  rw [compareSections_cons, if_pos h]

theorem compareSections_gt (a b : Section) (l r : List Section) (h : a.compare b = 1) :
    compareSections (a :: l) (b :: r) = false := by
  rw [compareSections_cons, if_neg (by rw [h]; decide), if_pos h]

theorem compareSections_eq (a b : Section) (l r : List Section) (h : a.compare b = 0) :
    compareSections (a :: l) (b :: r) = compareSections l r := by
  rw [compareSections_cons, if_neg (by rw [h]; decide), if_neg (by rw [h]; decide)]

theorem compareSections_nil_right (l : List Section) : compareSections l [] = false := by
  cases l <;> simp [compareSections]

theorem compareSections_nil_cons (b : Section) (r : List Section) :
    compareSections [] (b :: r) = true := by
  simp [compareSections]

/-- The function `compareSections` is asymmetric. -/
theorem compareSections_asymm : ∀ l r : List Section,
    compareSections l r = true → compareSections r l = false := by
  intro l
  induction l with
  | nil => intro r _; exact compareSections_nil_right r
  | cons a l ih =>
    intro r h
    cases r with
    | nil => rw [compareSections_nil_right] at h; cases h
    | cons b r =>
      have hanti := section_compare_antisymm a b
      rcases section_compare_range a b with e | e | e
      · exact compareSections_gt b a r l (by rw [hanti, e]; rfl)
      · rw [compareSections_eq a b l r e] at h
        rw [compareSections_eq b a r l (by rw [hanti, e]; rfl)]
        exact ih r h
      · rw [compareSections_gt a b l r e] at h
        cases h

/-- On lists of sections that fit, not being less is transitive. -/
theorem compareSections_notLess_trans : ∀ a b c : List Section,
    (∀ s ∈ a, s.Fit) → (∀ s ∈ b, s.Fit) → (∀ s ∈ c, s.Fit) →
    compareSections b a = false → compareSections c b = false →
    compareSections c a = false := by
  intro a
  induction a with
  | nil => intro b c _ _ _ _ _; exact compareSections_nil_right c
  | cons x as ih =>
    intro b c ha hb hc h1 h2
    cases b with
    | nil => rw [compareSections_nil_cons] at h1; cases h1
    | cons y bs =>
      cases c with
      | nil => rw [compareSections_nil_cons] at h2; cases h2
      | cons z cs =>
        have fx := ha x (List.mem_cons_self _ _)
        have fy := hb y (List.mem_cons_self _ _)
        have fz := hc z (List.mem_cons_self _ _)
        have hyx : 0 ≤ y.compare x := by
          rcases section_compare_range y x with e | e | e
          · rw [compareSections_lt y x bs as e] at h1; cases h1
          · omega
          · omega
        have hzy : 0 ≤ z.compare y := by
          rcases section_compare_range z y with e | e | e
          · rw [compareSections_lt z y cs bs e] at h2; cases h2
          · omega
          · omega
        have axy := section_compare_antisymm x y
        have ayz := section_compare_antisymm y z
        have axz := section_compare_antisymm x z
        have hzx : 0 ≤ z.compare x := by
          have := section_le_trans x y z fx fy fz (by omega) (by omega)
          omega
        rcases section_compare_range z x with e | e | e
        · omega
        · have eyx : y.compare x = 0 := by
            have := section_le_trans y z x fy fz fx (by omega) (by omega)
            omega
          have ezy : z.compare y = 0 := by
            have := section_le_trans z x y fz fx fy (by omega) (by omega)
            omega
          rw [compareSections_eq y x bs as eyx] at h1
          rw [compareSections_eq z y cs bs ezy] at h2
          rw [compareSections_eq z x cs as e]
          exact ih bs cs (fun s hs => ha s (List.mem_cons_of_mem _ hs))
            (fun s hs => hb s (List.mem_cons_of_mem _ hs))
            (fun s hs => hc s (List.mem_cons_of_mem _ hs)) h1 h2
        · exact compareSections_gt z x cs as e

/-! ### The runs `encodeText` cuts a path into -/

theorem isDigitRun_append_digit (r : QString) (c : Nat) (hc : isNumber c = true)
    (hr : r = [] ∨ isDigitRun r = true) : isDigitRun (r ++ [c]) = true := by
  cases r with
  | nil => simp [isDigitRun, hc]
  | cons x tl =>
    rcases hr with e | h
    · cases e
    · simp only [isDigitRun, List.isEmpty_cons, Bool.not_false, List.all_cons, Bool.true_and,
        Bool.and_eq_true, List.all_eq_true] at h
      simp only [isDigitRun, List.cons_append, List.isEmpty_cons, Bool.not_false, List.all_cons,
        List.all_append, List.all_nil, Bool.and_true, Bool.true_and, Bool.and_eq_true,
        List.all_eq_true]
      exact ⟨h.1, h.2, hc⟩

theorem isDigitRun_false_of_noDigits (r : QString) (h : ∀ c ∈ r, isNumber c = false) :
    isDigitRun r = false := by
  unfold isDigitRun
  cases r with
  | nil => rfl
  | cons c tl =>
    have := h c (List.mem_cons_self _ _)
    simp [this]

theorem encodeStep_inv (v : EncodeVars) (c : Nat) (h : v.Inv) : (encodeStep v c).Inv := by
  obtain ⟨hret, hU, hN, hNN, hch, hlast⟩ := h
  unfold encodeStep
  simp only
  split
  · rename_i hstate
    obtain ⟨hrun, hr⟩ := hU hstate
    refine ⟨hret, ?_, ?_, ?_, hch, ?_⟩
    · intro e
      split at e <;> cases e
    · intro e
      rw [hrun]
      by_cases hc : isNumber c = true
      · simp [isDigitRun, hc]
      · simp only [hc] at e
        cases e
    · intro e
      rw [hrun]
      by_cases hc : isNumber c = true
      · simp only [hc, if_true] at e
        cases e
      · simp only [Bool.not_eq_true] at hc
        simp [hc]
    · intro s hs
      rw [hr] at hs
      cases hs
  · rename_i hstate
    split
    · rename_i hchange
      by_cases hc : isNumber c = true
      · have hst : v.state = EncodeState.NotNumber := by
          cases hv : v.state with
          | Unset => exact absurd hv hstate
          | Number => rw [hv, hc] at hchange; simp at hchange
          | NotNumber => rfl
        obtain ⟨hne, hnd⟩ := hNN hst
        have hnew : (Section.create v.run (!isNumber c)).Run := by
          right
          simp only [Section.create, hc, Bool.not_true, Bool.false_eq_true, if_false]
          exact ⟨hnd, trivial⟩
        have hkind : isDigitRun (Section.create v.run (!isNumber c)).ref = false :=
          isDigitRun_false_of_noDigits _ hnd
        refine ⟨?_, ?_, ?_, ?_, ?_, ?_⟩
        · intro s hs
          rcases List.mem_append.mp hs with h | h
          · exact hret s h
          · rw [List.mem_singleton.mp h]; exact hnew
        · intro e; simp only [hc, if_true] at e; cases e
        · intro _; simp [isDigitRun, hc]
        · intro e; simp only [hc, if_true] at e; cases e
        · rw [List.chain'_append]
          refine ⟨hch, List.chain'_singleton _, ?_⟩
          intro x hx y hy
          simp only [List.head?_cons, Option.mem_def, Option.some.injEq] at hy
          subst hy
          have := (hlast x hx).mpr hst
          unfold Section.Alternate
          rw [this, hkind]
          decide
        · intro s hs
          simp only [List.getLast?_append, List.getLast?_singleton, Option.or,
            Option.some.injEq] at hs
          subst hs
          rw [hkind]
          simp [hc]
      · simp only [Bool.not_eq_true] at hc
        have hst : v.state = EncodeState.Number := by
          cases hv : v.state with
          | Unset => exact absurd hv hstate
          | Number => rfl
          | NotNumber => rw [hv, hc] at hchange; simp at hchange
        have hdr := hN hst
        have hnew : (Section.create v.run (!isNumber c)).Run := by
          left
          simp only [Section.create, hc, Bool.not_false, if_true]
          exact ⟨hdr, trivial⟩
        have hkind : isDigitRun (Section.create v.run (!isNumber c)).ref = true := hdr
        refine ⟨?_, ?_, ?_, ?_, ?_, ?_⟩
        · intro s hs
          rcases List.mem_append.mp hs with h | h
          · exact hret s h
          · rw [List.mem_singleton.mp h]; exact hnew
        · intro e; simp only [hc, Bool.false_eq_true, if_false] at e; cases e
        · intro e; simp only [hc, Bool.false_eq_true, if_false] at e; cases e
        · intro _
          exact ⟨List.cons_ne_nil _ _, fun x hx => by rw [List.mem_singleton.mp hx]; exact hc⟩
        · rw [List.chain'_append]
          refine ⟨hch, List.chain'_singleton _, ?_⟩
          intro x hx y hy
          simp only [List.head?_cons, Option.mem_def, Option.some.injEq] at hy
          subst hy
          have hx' : isDigitRun x.ref = false := by
            cases hd : isDigitRun x.ref with
            | false => rfl
            | true =>
              have := (hlast x hx).mp hd
              rw [hst] at this
              cases this
          unfold Section.Alternate
          rw [hx', hkind]
          decide
        · intro s hs
          simp only [List.getLast?_append, List.getLast?_singleton, Option.or,
            Option.some.injEq] at hs
          subst hs
          rw [hkind]
          simp [hc]
    · rename_i hsame
      by_cases hc : isNumber c = true
      · have hst : v.state = EncodeState.Number := by
          cases hv : v.state with
          | Unset => exact absurd hv hstate
          | Number => rfl
          | NotNumber => rw [hv, hc] at hsame; simp at hsame
        refine ⟨hret, fun e => absurd e hstate, ?_, ?_, hch, hlast⟩
        · intro _
          exact isDigitRun_append_digit v.run c hc (Or.inr (hN hst))
        · intro e
          rw [hst] at e
          cases e
      · simp only [Bool.not_eq_true] at hc
        have hst : v.state = EncodeState.NotNumber := by
          cases hv : v.state with
          | Unset => exact absurd hv hstate
          | Number => rw [hv, hc] at hsame; simp at hsame
          | NotNumber => rfl
        obtain ⟨hne, hnd⟩ := hNN hst
        refine ⟨hret, fun e => absurd e hstate, ?_, ?_, hch, hlast⟩
        · intro e
          rw [hst] at e
          cases e
        · intro _
          refine ⟨by simp, ?_⟩
          intro x hx
          rcases List.mem_append.mp hx with h | h
          · exact hnd x h
          · rw [List.mem_singleton.mp h]; exact hc

theorem encodeLoop_inv (l : List Nat) : ∀ v : EncodeVars, v.Inv → (l.foldl encodeStep v).Inv := by
  induction l with
  | nil => intro v h; exact h
  | cons c rest ih => intro v h; exact ih _ (encodeStep_inv v c h)

theorem encodeVars_init_inv : EncodeVars.Inv ⟨EncodeState.Unset, [], []⟩ :=
  ⟨fun s hs => absurd hs (List.not_mem_nil s), fun _ => ⟨rfl, rfl⟩, fun e => (by cases e),
    fun e => (by cases e), List.chain'_nil, fun s hs => (by cases hs)⟩

theorem encodeFinish_runs (v : EncodeVars) (h : v.Inv) :
    (∀ s ∈ encodeFinish v, s.Run) ∧ (encodeFinish v).Chain' Section.Alternate := by
  obtain ⟨hret, hU, hN, hNN, hch, hlast⟩ := h
  unfold encodeFinish
  have hfinal : (Section.create v.run (v.state == EncodeState.Number)).Run ∧
      (isDigitRun (Section.create v.run (v.state == EncodeState.Number)).ref = true
        ↔ v.state = EncodeState.Number) := by
    cases hv : v.state with
    | Unset =>
      obtain ⟨hrun, _⟩ := hU hv
      refine ⟨Or.inr ⟨?_, rfl⟩, ?_⟩
      · simp only [Section.create]
        rw [hrun]
        exact fun c hc => absurd hc (List.not_mem_nil c)
      · simp only [Section.create]
        rw [hrun]
        simp [isDigitRun]
    | Number =>
      exact ⟨Or.inl ⟨hN hv, rfl⟩, ⟨fun _ => rfl, fun _ => hN hv⟩⟩
    | NotNumber =>
      obtain ⟨_, hnd⟩ := hNN hv
      refine ⟨Or.inr ⟨hnd, rfl⟩, ?_⟩
      simp only [Section.create]
      rw [isDigitRun_false_of_noDigits _ hnd]
      simp
  constructor
  · intro s hs
    rcases List.mem_append.mp hs with h | h
    · exact hret s h
    · rw [List.mem_singleton.mp h]; exact hfinal.1
  · rw [List.chain'_append]
    refine ⟨hch, List.chain'_singleton _, ?_⟩
    intro x hx y hy
    simp only [List.head?_cons, Option.mem_def, Option.some.injEq] at hy
    subst hy
    unfold Section.Alternate
    have hx' := hlast x hx
    have hne : v.state ≠ EncodeState.Unset := by
      intro e
      rw [(hU e).2] at hx
      cases hx
    cases hd : isDigitRun x.ref with
    | true =>
      have hst := hx'.mp hd
      have : isDigitRun (Section.create v.run (v.state == EncodeState.Number)).ref = false := by
        cases hf : isDigitRun (Section.create v.run (v.state == EncodeState.Number)).ref with
        | false => rfl
        | true =>
          have := hfinal.2.mp hf
          rw [hst] at this
          cases this
      rw [this]
      decide
    | false =>
      have hst : v.state = EncodeState.Number := by
        cases hv : v.state with
        | Unset => exact absurd hv hne
        | Number => rfl
        | NotNumber =>
          have := hx'.mpr hv
          rw [hd] at this
          cases this
      rw [hfinal.2.mpr hst]
      decide

theorem encodeStep_flatten (v : EncodeVars) (c : Nat) :
    ((encodeStep v c).ret.map Section.ref).flatten ++ (encodeStep v c).run
      = (v.ret.map Section.ref).flatten ++ v.run ++ [c] := by
  unfold encodeStep
  simp only
  split
  · simp
  · split
    · simp [Section.create]
    · simp

theorem encodeLoop_flatten (l : List Nat) : ∀ v : EncodeVars,
    (((l.foldl encodeStep v).ret.map Section.ref).flatten ++ (l.foldl encodeStep v).run)
      = (v.ret.map Section.ref).flatten ++ v.run ++ l := by
  induction l with
  | nil => intro v; simp
  | cons c rest ih =>
    intro v
    rw [List.foldl_cons, ih, encodeStep_flatten]
    simp

/-- The sections of `encodeText`, put one after the other, give the string back; each of them is a
non-empty run of digits with the value `toUInt` computes or a run without digits with the value
`-1`; and neighbouring sections are runs of different kinds. -/
theorem encode_runs (p : QString) :
    ((encodeText p).map Section.ref).flatten = p ∧ (∀ s ∈ encodeText p, s.Run) ∧
    (encodeText p).Chain' Section.Alternate := by
  have hinv := encodeLoop_inv p _ encodeVars_init_inv
  refine ⟨?_, encodeFinish_runs _ hinv⟩
  have := encodeLoop_flatten p ⟨EncodeState.Unset, [], []⟩
  unfold encodeText encodeFinish
  simp only [List.map_append, List.flatten_append, List.map_cons, List.map_nil,
    List.flatten_cons, List.flatten_nil, List.append_nil, Section.create]
  simpa using this

theorem wrapInt_of_fit (x : Int) (h0 : 0 ≤ x) (h1 : x < 2147483648) : wrapInt x = x := by
  unfold wrapInt
  omega

theorem decimalFrom_ge (l : List Nat) : ∀ m : Nat,
    m ≤ l.foldl (fun n c => n * 10 + (c - 0x30)) m := by
  induction l with
  | nil => intro m; exact le_rfl
  | cons c rest ih =>
    intro m
    rw [List.foldl_cons]
    have := ih (m * 10 + (c - 0x30))
    omega

theorem toUIntLoop_exact (l : List Nat) : ∀ (i n : Nat), (i = 0 → n = 0) →
    (∀ c ∈ l, isNumber c = true) →
    l.foldl (fun n c => n * 10 + (c - 0x30)) n < 2147483648 →
    toUIntLoop l i n = ((l.foldl (fun n c => n * 10 + (c - 0x30)) n : Nat) : Int) := by
  induction l with
  | nil => intro i n _ _ _; rfl
  | cons c rest ih =>
    intro i n hi hd hfit
    rw [List.foldl_cons] at hfit ⊢
    have hc := hd c (List.mem_cons_self _ _)
    unfold isNumber at hc
    simp only [decide_eq_true_eq] at hc
    have hge := decimalFrom_ge rest (n * 10 + (c - 0x30))
    have hlat : toLatin1 c = (c : Int) := by
      unfold toLatin1
      rw [if_neg (by omega), if_neg (by omega)]
    have hstep : wrapInt ((if i > 0 then wrapInt ((n : Int) * 10) else (n : Int))
        + (toLatin1 c - 0x30)) = ((n * 10 + (c - 0x30) : Nat) : Int) := by
      rw [hlat]
      by_cases h0 : i > 0
      · rw [if_pos h0, wrapInt_of_fit ((n : Int) * 10) (by omega) (by omega),
          wrapInt_of_fit _ (by omega) (by omega)]
        omega
      · have hn : n = 0 := hi (by omega)
        subst hn
        rw [if_neg h0, wrapInt_of_fit _ (by omega) (by omega)]
        omega
    simp only [toUIntLoop]
    rw [hstep]
    exact ih (i + 1) _ (by omega) (fun x hx => hd x (List.mem_cons_of_mem _ hx)) hfit

theorem toUInt_eq_decimal (r : QString) (hd : ∀ c ∈ r, isNumber c = true)
    (hfit : decimal r < 2147483648) : toUInt r = (decimal r : Int) := by
  unfold toUInt decimal
  have := toUIntLoop_exact r 0 0 (fun _ => rfl) hd hfit
  simpa using this

theorem isDigitRun_digits (r : QString) (h : isDigitRun r = true) :
    r ≠ [] ∧ ∀ c ∈ r, isNumber c = true := by
  unfold isDigitRun at h
  simp only [Bool.and_eq_true, Bool.not_eq_true', List.all_eq_true] at h
  refine ⟨?_, h.2⟩
  intro e
  rw [e] at h
  simp at h

theorem encode_integer (p : QString) (hp : digitRunsFit p = true) (s : Section)
    (hs : s ∈ encodeText p) (hd : isDigitRun s.ref = true) : s.integer = (decimal s.ref : Int) := by
  have hrun := (encode_runs p).2.1 s hs
  unfold digitRunsFit at hp
  rw [List.all_eq_true] at hp
  have := hp s hs
  rw [hd] at this
  simp only [Bool.not_true, Bool.false_or, decide_eq_true_eq] at this
  rcases hrun with ⟨_, hi⟩ | ⟨hn, _⟩
  · rw [hi]
    exact toUInt_eq_decimal s.ref (isDigitRun_digits s.ref hd).2 this
  · rw [isDigitRun_false_of_noDigits _ hn] at hd
    cases hd

theorem encode_fit (p : QString) (hp : digitRunsFit p = true) : ∀ s ∈ encodeText p, s.Fit := by
  intro s hs
  rcases (encode_runs p).2.1 s hs with ⟨hd, hi⟩ | ⟨hn, hi⟩
  · left
    refine ⟨hd, ?_⟩
    rw [encode_integer p hp s hs hd]
    exact Int.natCast_nonneg _
  · exact Or.inr ⟨hn, hi⟩

/-- The order of paths by the sections of their own texts is a strict weak ordering on paths
all of whose runs of digits have a value below `2^31`: no path is less than itself, being less
is transitive, and so is the relation "neither is less than the other". Runs of different kinds
at the same position are covered. `compareDataNaturally` computes this order for entries whose
sections in the hash of `encode` are not stale. -/
theorem natural_strict_weak_order (a b c : Data)
    (ha : digitRunsFit (QString.fromString a.path) = true)
    (hb : digitRunsFit (QString.fromString b.path) = true)
    (hc : digitRunsFit (QString.fromString c.path) = true) :
    compareTextNaturally a a = false ∧
    (compareTextNaturally a b = true → compareTextNaturally b c = true →
      compareTextNaturally a c = true) ∧
    (compareTextNaturally a b = false → compareTextNaturally b a = false →
      compareTextNaturally b c = false → compareTextNaturally c b = false →
      compareTextNaturally a c = false ∧ compareTextNaturally c a = false) := by
  have fa := encode_fit _ ha
  have fb := encode_fit _ hb
  have fc := encode_fit _ hc
  unfold compareTextNaturally
  generalize encodeText (QString.fromString a.path) = A at fa
  generalize encodeText (QString.fromString b.path) = B at fb
  generalize encodeText (QString.fromString c.path) = C at fc
  refine ⟨?_, ?_, ?_⟩
  · cases h : compareSections A A with
    | false => rfl
    | true =>
      have := compareSections_asymm A A h
      rw [h] at this
      cases this
  · intro hab hbc
    cases h : compareSections A C with
    | true => rfl
    | false =>
      have hcb := compareSections_asymm B C hbc
      have := compareSections_notLess_trans B C A fb fc fa hcb h
      rw [hab] at this
      cases this
  · intro hab hba hbc hcb
    exact ⟨compareSections_notLess_trans C B A fc fb fa hbc hab,
      compareSections_notLess_trans A B C fa fb fc hba hcb⟩

theorem natural_strict_weak_order_witness :
    (digitRunsFit (QString.fromString (Data.create "img2.png").path) = true ∧
      digitRunsFit (QString.fromString (Data.create "7up.png").path) = true ∧
      digitRunsFit (QString.fromString (Data.create "img10.png").path) = true) ∧
    (compareTextNaturally (Data.create "img2.png") (Data.create "img2.png") = false ∧
    (compareTextNaturally (Data.create "img2.png") (Data.create "7up.png") = true →
      compareTextNaturally (Data.create "7up.png") (Data.create "img10.png") = true →
      compareTextNaturally (Data.create "img2.png") (Data.create "img10.png") = true) ∧
    (compareTextNaturally (Data.create "img2.png") (Data.create "7up.png") = false →
      compareTextNaturally (Data.create "7up.png") (Data.create "img2.png") = false →
      compareTextNaturally (Data.create "7up.png") (Data.create "img10.png") = false →
      compareTextNaturally (Data.create "img10.png") (Data.create "7up.png") = false →
      compareTextNaturally (Data.create "img2.png") (Data.create "img10.png") = false ∧
      compareTextNaturally (Data.create "img10.png") (Data.create "img2.png") = false)) :=
  ⟨by decide, natural_strict_weak_order (Data.create "img2.png") (Data.create "7up.png")
    (Data.create "img10.png") (by decide) (by decide) (by decide)⟩

/-! ### The hash of `encode` -/

theorem take_drop_succ (text : QString) (a k : Nat) (c : Nat) (h : text[a + k]? = some c) :
    (text.drop a).take (k + 1) = (text.drop a).take k ++ [c] := by
  rw [List.take_succ]
  congr 1
  rw [List.getElem?_drop, h]
  rfl

theorem take_succ_of_getElem (text : QString) (i c : Nat) (h : text[i]? = some c) :
    text.take (i + 1) = text.take i ++ [c] := by
  rw [List.take_succ, h]
  rfl

/-- The loop of `encode` on positions and the loop on texts go in step. -/
theorem encodeBody_inv (string : Nat) (text : QString) :
    ∀ i : Nat, i ≤ text.length →
      ((List.range i).foldl (encodeBody string text) ⟨EncodeState.Unset, 0, []⟩).state
        = ((text.take i).foldl encodeStep ⟨EncodeState.Unset, [], []⟩).state ∧
      ((List.range i).foldl (encodeBody string text) ⟨EncodeState.Unset, 0, []⟩).last ≤ i ∧
      ((text.take i).foldl encodeStep ⟨EncodeState.Unset, [], []⟩).run
        = (text.drop
            ((List.range i).foldl (encodeBody string text) ⟨EncodeState.Unset, 0, []⟩).last).take
          (i - ((List.range i).foldl (encodeBody string text) ⟨EncodeState.Unset, 0, []⟩).last) ∧
      ((text.take i).foldl encodeStep ⟨EncodeState.Unset, [], []⟩).ret
        = ((List.range i).foldl (encodeBody string text) ⟨EncodeState.Unset, 0, []⟩).ret.map
            (RefSection.readIn text) ∧
      ∀ r ∈ ((List.range i).foldl (encodeBody string text) ⟨EncodeState.Unset, 0, []⟩).ret,
        r.ref.string = string ∧ r.ref.position + r.ref.size ≤ i := by
  intro i
  induction i with
  | zero =>
    intro _
    simp
  | succ i ih =>
    intro hi
    obtain ⟨hs, hlast, hrun, hret, hrange⟩ := ih (by omega)
    have hget : text[i]? = some (text[i]) := List.getElem?_eq_getElem (by omega)
    have hgetD : text.getD i 0 = text[i] := by
      rw [List.getD_eq_getElem?_getD, hget]; rfl
    rw [List.range_succ, List.foldl_append, take_succ_of_getElem text i _ hget,
      List.foldl_append]
    simp only [List.foldl_cons, List.foldl_nil]
    generalize (List.range i).foldl (encodeBody string text) ⟨EncodeState.Unset, 0, []⟩ = vn
      at hs hlast hrun hret hrange ⊢
    generalize (text.take i).foldl encodeStep ⟨EncodeState.Unset, [], []⟩ = vo
      at hs hrun hret ⊢
    have hgrow : vo.run ++ [text[i]] = (text.drop vn.last).take (i + 1 - vn.last) := by
      have e : i + 1 - vn.last = (i - vn.last) + 1 := by omega
      rw [e, take_drop_succ text vn.last (i - vn.last) (text[i])
        (by rw [show vn.last + (i - vn.last) = i by omega]; exact hget), hrun]
    unfold encodeBody encodeStep
    rw [hgetD]
    simp only
    by_cases hU : vn.state = EncodeState.Unset
    · have hU' : vo.state = EncodeState.Unset := by rw [← hs]; exact hU
      rw [if_pos hU, if_pos hU']
      exact ⟨rfl, by show vn.last ≤ i + 1; omega, hgrow, hret,
        fun r hr => ⟨(hrange r hr).1, by have := (hrange r hr).2; omega⟩⟩
    · have hU' : ¬ vo.state = EncodeState.Unset := by rw [← hs]; exact hU
      rw [if_neg hU, if_neg hU', hs]
      by_cases hsw : (isNumber text[i] != (vo.state == EncodeState.Number)) = true
      · rw [if_pos hsw, if_pos hsw]
        refine ⟨rfl, by show i ≤ i + 1; omega, ?_, ?_, ?_⟩
        · show [text[i]] = (text.drop i).take (i + 1 - i)
          have e : i + 1 - i = 0 + 1 := by omega
          rw [e, take_drop_succ text i 0 (text[i]) (by simp)]
          simp
        · show vo.ret ++ [Section.create vo.run (!isNumber text[i])]
            = (vn.ret ++ [RefSection.create text ⟨string, vn.last, i - vn.last⟩
                (!isNumber text[i])]).map (RefSection.readIn text)
          rw [List.map_append, ← hret]
          congr 1
          simp only [List.map_cons, List.map_nil, RefSection.readIn, RefSection.create,
            Section.create, hrun]
        · intro r hr
          rcases List.mem_append.mp hr with h | h
          · exact ⟨(hrange r h).1, by have := (hrange r h).2; omega⟩
          · rw [List.mem_singleton] at h
            subst h
            exact ⟨rfl, by show vn.last + (i - vn.last) ≤ i + 1; omega⟩
      · rw [if_neg hsw, if_neg hsw]
        exact ⟨hs, by omega, hgrow, hret,
          fun r hr => ⟨(hrange r hr).1, by have := (hrange r hr).2; omega⟩⟩

/-- The sections `encode` builds for a string are, read in that string, the sections of its
text; each of them points into the string and lies within it. -/
theorem encodeNew_read (string : Nat) (text : QString) :
    (encodeNew string text).map (RefSection.readIn text) = encodeText text ∧
    ∀ r ∈ encodeNew string text,
      r.ref.string = string ∧ r.ref.position + r.ref.size ≤ text.length := by
  obtain ⟨hs, hlast, hrun, hret, hrange⟩ := encodeBody_inv string text text.length le_rfl
  rw [List.take_length] at hs hrun hret
  unfold encodeNew encodeText encodeFinish
  simp only
  generalize (List.range text.length).foldl (encodeBody string text)
    ⟨EncodeState.Unset, 0, []⟩ = vn at hs hlast hrun hret hrange ⊢
  generalize text.foldl encodeStep ⟨EncodeState.Unset, [], []⟩ = vo at hs hrun hret ⊢
  constructor
  · rw [List.map_append, ← hret, hs]
    congr 1
    simp only [List.map_cons, List.map_nil, RefSection.readIn, RefSection.create,
      Section.create, hrun]
  · intro r hr
    rcases List.mem_append.mp hr with h | h
    · exact hrange r h
    · rw [List.mem_singleton] at h
      subst h
      exact ⟨rfl, by show vn.last + (text.length - vn.last) ≤ text.length; omega⟩

theorem read_of_range (heap : Nat → Option Data) (d : Data) (r : RefSection)
    (hd : heap r.ref.string = some d)
    (hr : r.ref.position + r.ref.size ≤ (QString.fromString d.path).length) :
    r.ref.read heap = some (r.readIn (QString.fromString d.path)).ref := by
  unfold QStringRef.read
  rw [hd]
  simp only
  rw [if_pos hr]
  rfl

/-- With the texts read, `Section::compare` on the stored sections is `Section::compare` on the
sections with their texts. -/
theorem refSection_compare_read (heap : Nat → Option Data) (a b : RefSection) (ta tb : QString)
    (ha : a.ref.read heap = some (a.readIn ta).ref)
    (hb : b.ref.read heap = some (b.readIn tb).ref) :
    a.compare heap b = some ((a.readIn ta).compare (b.readIn tb)) := by
  unfold RefSection.compare Section.compare
  have ia : (a.readIn ta).integer = a.integer := rfl
  have ib : (b.readIn tb).integer = b.integer := rfl
  rw [ia, ib]
  split
  · rfl
  · rw [ha, hb]

theorem compareRefSections_read (heap : Nat → Option Data) (tl tr : QString) :
    ∀ (L R : List RefSection),
      (∀ a ∈ L, a.ref.read heap = some (a.readIn tl).ref) →
      (∀ b ∈ R, b.ref.read heap = some (b.readIn tr).ref) →
      compareRefSections heap L R
        = some (compareSections (L.map (RefSection.readIn tl)) (R.map (RefSection.readIn tr))) := by
  intro L
  induction L with
  | nil =>
    intro R _ _
    cases R <;> simp [compareRefSections, compareSections]
  | cons a L ih =>
    intro R hL hR
    cases R with
    | nil => simp [compareRefSections, compareSections]
    | cons b R =>
      simp only [compareRefSections, List.map_cons, compareSections]
      rw [refSection_compare_read heap a b tl tr (hL a (List.mem_cons_self _ _))
        (hR b (List.mem_cons_self _ _))]
      simp only
      split
      · rfl
      · split
        · rfl
        · exact ih R (fun x hx => hL x (List.mem_cons_of_mem _ hx))
            (fun x hx => hR x (List.mem_cons_of_mem _ hx))

/-- For a string whose sections in the hash are not stale `encode` returns the sections of its
text, and leaves a hash in which no entry has become stale. -/
theorem encode_fresh (data : SectionCache) (heap : Nat → Option Data) (a : Nat) (d : Data)
    (hd : heap a = some d) (hf : data.Fresh heap a) :
    ∃ data', encode data heap a = some (encodeNew a (QString.fromString d.path), data') ∧
      (∀ b, data.Fresh heap b → data'.Fresh heap b) ∧
      data' a = some (encodeNew a (QString.fromString d.path)) := by
  unfold encode
  rcases hf with hn | ⟨d', hd', hs⟩
  · rw [hn, hd]
    refine ⟨_, rfl, ?_, by simp⟩
    intro b hb
    by_cases e : b = a
    · subst e
      exact Or.inr ⟨d, hd, by simp⟩
    · unfold SectionCache.Fresh
      rw [Function.update_noteq e]
      exact hb
  · rw [hd] at hd'
    cases hd'
    rw [hs]
    exact ⟨data, rfl, fun _ h => h, hs⟩

/-- For two entries whose sections in the hash are not stale, `compareDataNaturally` returns the
order of the two paths by the sections of their own texts; no entry of the hash becomes
stale. -/
theorem compareDataNaturally_fresh (data : SectionCache) (heap : Nat → Option Data)
    (l r : Nat) (dl dr : Data) (hl : heap l = some dl) (hr : heap r = some dr)
    (hfl : data.Fresh heap l) (hfr : data.Fresh heap r) :
    ∃ data', compareDataNaturally data heap l r = some (compareTextNaturally dl dr, data') ∧
      ∀ b, data.Fresh heap b → data'.Fresh heap b := by
  obtain ⟨data1, h1, hp1, _⟩ := encode_fresh data heap l dl hl hfl
  obtain ⟨data2, h2, hp2, _⟩ := encode_fresh data1 heap r dr hr (hp1 r hfr)
  refine ⟨data2, ?_, fun b hb => hp2 b (hp1 b hb)⟩
  unfold compareDataNaturally
  rw [h1]
  simp only
  rw [h2]
  simp only
  obtain ⟨el, rl⟩ := encodeNew_read l (QString.fromString dl.path)
  obtain ⟨er, rr⟩ := encodeNew_read r (QString.fromString dr.path)
  rw [compareRefSections_read heap (QString.fromString dl.path) (QString.fromString dr.path)
    _ _
    (fun a ha => read_of_range heap dl a (by rw [(rl a ha).1]; exact hl) (rl a ha).2)
    (fun b hb => read_of_range heap dr b (by rw [(rr b hb).1]; exact hr) (rr b hb).2),
    el, er]
  rfl

/-- A search with a comparator that has a state finds what the search with a plain comparator
finds, when the two agree on every state that can come up. -/
theorem qLowerBoundLoopWith_eq {σ α : Type} (lessThan : σ → α → α → Option (Bool × σ))
    (lt : α → α → Bool) (I : σ → Prop) (l : List α) (value : α)
    (h : ∀ s, I s → ∀ m ∈ l, ∃ s', lessThan s m value = some (lt m value, s') ∧ I s') :
    ∀ (fuel : Nat) (s : σ) (b n : Nat), I s →
      ∃ s', qLowerBoundLoopWith lessThan l value fuel s b n
          = some (qLowerBoundLoop lt l value fuel b n, s') ∧ I s' := by
  intro fuel
  induction fuel with
  | zero => intro s b n hs; exact ⟨s, rfl, hs⟩
  | succ fuel ih =>
    intro s b n hs
    unfold qLowerBoundLoopWith qLowerBoundLoop
    by_cases hn : n > 0
    · rw [if_pos hn, if_pos hn]
      simp only
      cases hm : l[b + n / 2]? with
      | none => exact ⟨s, rfl, hs⟩
      | some m =>
        simp only
        obtain ⟨s1, h1, hs1⟩ := h s hs m (List.getElem?_mem hm)
        rw [h1]
        simp only
        cases lt m value with
        | true => simpa using ih s1 _ _ hs1
        | false => simpa using ih s1 _ _ hs1
    · rw [if_neg hn, if_neg hn]
      exact ⟨s, rfl, hs⟩

theorem qLowerBoundLoop_map {α β : Type} (f : α → β) (lt : β → β → Bool) (l : List α)
    (value : α) :
    ∀ (fuel b n : Nat),
      qLowerBoundLoop (fun x y => lt (f x) (f y)) l value fuel b n
        = qLowerBoundLoop lt (l.map f) (f value) fuel b n := by
  intro fuel
  induction fuel with
  | zero => intro b n; rfl
  | succ fuel ih =>
    intro b n
    unfold qLowerBoundLoop
    by_cases hn : n > 0
    · rw [if_pos hn, if_pos hn]
      simp only [List.getElem?_map]
      cases l[b + n / 2]? with
      | none => rfl
      | some m =>
        simp only [Option.map_some']
        rw [ih, ih]
    · rw [if_neg hn, if_neg hn]

theorem derefAll_eq_map (heap : Nat → Option Data) :
    ∀ (data : List Nat) (ds : List Data), derefAll heap data = some ds →
      ds = data.map (fun a => (heap a).getD (Data.create "")) ∧
      ∀ a ∈ data, (heap a).isSome = true := by
  intro data
  induction data with
  | nil =>
    intro ds h
    simp only [derefAll, Option.some.injEq] at h
    subst h
    exact ⟨rfl, fun a ha => absurd ha (List.not_mem_nil a)⟩
  | cons dt rest ih =>
    intro ds h
    simp only [derefAll] at h
    cases hh : heap dt with
    | none => rw [hh] at h; simp at h
    | some d =>
      cases hr : derefAll heap rest with
      | none => rw [hh, hr] at h; simp at h
      | some ds' =>
        rw [hh, hr] at h
        simp only [Option.some.injEq] at h
        subst h
        obtain ⟨e, hall⟩ := ih ds' hr
        refine ⟨by rw [e]; simp [hh], ?_⟩
        intro a ha
        rcases List.mem_cons.mp ha with rfl | ha
        · rw [hh]; rfl
        · exact hall a ha

/-! ### Numbers inside paths under the natural order -/

theorem decimalFrom_eq (y : List Nat) : ∀ m : Nat,
    y.foldl (fun n c => n * 10 + (c - 0x30)) m
      = m * 10 ^ y.length + y.foldl (fun n c => n * 10 + (c - 0x30)) 0 := by
  induction y with
  | nil => intro m; simp
  | cons c rest ih =>
    intro m
    rw [List.foldl_cons, List.foldl_cons, ih (m * 10 + (c - 0x30)), ih (0 * 10 + (c - 0x30)),
      List.length_cons, pow_succ]
    ring

theorem decimal_append (x y : QString) :
    decimal (x ++ y) = decimal x * 10 ^ y.length + decimal y := by
  unfold decimal
  rw [List.foldl_append, decimalFrom_eq y]

theorem decimal_lt_pow (y : QString) (hy : ∀ c ∈ y, isNumber c = true) :
    decimal y < 10 ^ y.length := by
  induction y using List.reverseRecOn with
  | nil => simp [decimal]
  | append_singleton rest c ih =>
    have hc := hy c (by simp)
    unfold isNumber at hc
    simp only [decide_eq_true_eq] at hc
    have := ih (fun x hx => hy x (by simp [hx]))
    have h1 : decimal [c] = c - 0x30 := by simp [decimal]
    rw [decimal_append, h1]
    simp only [List.length_append, List.length_singleton, pow_succ, pow_one, pow_zero, one_mul]
    omega

theorem qLowerBoundLoop_spec {α : Type} (lessThan : α → α → Bool) (l : List α) (value : α)
    (mono : ∀ (i j : Nat) (x y : α), i ≤ j → l[i]? = some x → l[j]? = some y →
      lessThan y value = true → lessThan x value = true) :
    ∀ (fuel start n : Nat), n ≤ fuel → start + n ≤ l.length →
      (∀ (i : Nat) (x : α), i < start → l[i]? = some x → lessThan x value = true) →
      (∀ (i : Nat) (x : α), start + n ≤ i → l[i]? = some x → lessThan x value = false) →
      qLowerBoundLoop lessThan l value fuel start n ≤ l.length ∧
      (∀ (i : Nat) (x : α), i < qLowerBoundLoop lessThan l value fuel start n →
        l[i]? = some x → lessThan x value = true) ∧
      (∀ (i : Nat) (x : α), qLowerBoundLoop lessThan l value fuel start n ≤ i →
        l[i]? = some x → lessThan x value = false) := by
  intro fuel
  induction fuel with
  | zero =>
    intro start n hn hlen hlo hhi
    have : n = 0 := by omega
    subst this
    exact ⟨by simpa [qLowerBoundLoop] using hlen, hlo, hhi⟩
  | succ fuel ih =>
    intro start n hn hlen hlo hhi
    simp only [qLowerBoundLoop]
    by_cases hpos : n > 0
    · rw [if_pos hpos]
      have hmid : start + n / 2 < l.length := by
        have := Nat.div_lt_self hpos (by omega : 1 < 2)
        omega
      have hget : l[start + n / 2]? = some (l[start + n / 2]) := List.getElem?_eq_getElem hmid
      rw [hget]
      simp only
      have hhalf := Nat.div_lt_self hpos (by omega : 1 < 2)
      by_cases hlt : lessThan (l[start + n / 2]) value = true
      · rw [if_pos hlt]
        refine ih (start + n / 2 + 1) (n - (n / 2 + 1)) (by omega) (by omega) ?_ ?_
        · intro i x hi hx
          exact mono i (start + n / 2) x _ (by omega) hx hget hlt
        · intro i x hi hx
          exact hhi i x (by omega) hx
      · rw [if_neg hlt]
        refine ih start (n / 2) (by omega) (by omega) hlo ?_
        intro i x hi hx
        cases hx' : lessThan x value with
        | false => rfl
        | true => exact absurd (mono (start + n / 2) i _ x hi hget hx hx') hlt
    · rw [if_neg hpos]
      have : n = 0 := by omega
      subst this
      exact ⟨by omega, hlo, hhi⟩

theorem insertIdx_eq_take_drop {α : Type} (x : α) : ∀ (l : List α) (p : Nat), p ≤ l.length →
    l.insertIdx p x = l.take p ++ x :: l.drop p := by
  intro l
  induction l with
  | nil =>
    intro p hp
    have : p = 0 := by simpa using hp
    subst this
    rfl
  | cons y l ih =>
    intro p hp
    cases p with
    | zero => rfl
    | succ p =>
      simp only [List.insertIdx_succ_cons, List.take_succ_cons, List.drop_succ_cons,
        List.cons_append]
      rw [ih p (by simpa using hp)]

/-- The position `qLowerBound` finds in a list in which no element is less than one before it,
for a comparison that is asymmetric and for which not being less is transitive: the elements
before it are less than the value, the others are not, and the list with the value put there is
still in order. -/
theorem qLowerBound_spec {α : Type} (lessThan : α → α → Bool) (l : List α) (value : α)
    (S : α → Prop) (hl : ∀ x ∈ l, S x) (hv : S value)
    (hasymm : ∀ a b, lessThan a b = true → lessThan b a = false)
    (htrans : ∀ a b c, S a → S b → S c → lessThan b a = false → lessThan c b = false →
      lessThan c a = false)
    (hord : l.Pairwise fun a b => lessThan b a = false) :
    qLowerBound lessThan l value ≤ l.length ∧
    (∀ x ∈ l.take (qLowerBound lessThan l value), lessThan x value = true) ∧
    (∀ x ∈ l.drop (qLowerBound lessThan l value), lessThan x value = false) ∧
    (l.insertIdx (qLowerBound lessThan l value) value).Pairwise
      (fun a b => lessThan b a = false) := by
  have mono : ∀ (i j : Nat) (x y : α), i ≤ j → l[i]? = some x → l[j]? = some y →
      lessThan y value = true → lessThan x value = true := by
    intro i j x y hij hx hy hyv
    rcases Nat.eq_or_lt_of_le hij with e | hlt
    · subst e
      rw [hx] at hy
      cases hy
      exact hyv
    · cases hxv : lessThan x value with
      | true => rfl
      | false =>
        obtain ⟨hi, ex⟩ := List.getElem?_eq_some_iff.mp hx
        obtain ⟨hj, ey⟩ := List.getElem?_eq_some_iff.mp hy
        have := (List.pairwise_iff_getElem.mp hord) i j hi hj hlt
        rw [ex, ey] at this
        have := htrans value x y hv (hl x (by rw [← ex]; exact List.getElem_mem hi))
          (hl y (by rw [← ey]; exact List.getElem_mem hj)) hxv this
        rw [hyv] at this
        cases this
  obtain ⟨hp, hlo, hhi⟩ := qLowerBoundLoop_spec lessThan l value mono l.length 0 l.length
    le_rfl (by omega) (fun i x hi _ => absurd hi (Nat.not_lt_zero i))
    (fun i x hi hx => by
      have := (List.getElem?_eq_some_iff.mp hx).1
      omega)
  have hp' : qLowerBound lessThan l value ≤ l.length := hp
  have hlo' : ∀ x ∈ l.take (qLowerBound lessThan l value), lessThan x value = true := by
    intro x hx
    obtain ⟨i, hi, ex⟩ := List.mem_take_iff_getElem.mp hx
    have hi' : i < l.length := by omega
    exact hlo i x (by unfold qLowerBound at hi; omega)
      (List.getElem?_eq_some_iff.mpr ⟨hi', ex⟩)
  have hhi' : ∀ x ∈ l.drop (qLowerBound lessThan l value), lessThan x value = false := by
    intro x hx
    obtain ⟨i, hi, ex⟩ := List.mem_drop_iff_getElem.mp hx
    have hi' : qLowerBoundLoop lessThan l value l.length 0 l.length + i < l.length := by
      unfold qLowerBound at hi
      omega
    exact hhi _ x (Nat.le_add_right _ i) (List.getElem?_eq_some_iff.mpr ⟨hi', ex⟩)
  refine ⟨hp', hlo', hhi', ?_⟩
  rw [insertIdx_eq_take_drop value l _ hp', List.pairwise_append]
  have hsplit : (l.take (qLowerBound lessThan l value)
      ++ l.drop (qLowerBound lessThan l value)).Pairwise (fun a b => lessThan b a = false) := by
    rw [List.take_append_drop]; exact hord
  rw [List.pairwise_append] at hsplit
  refine ⟨hsplit.1, List.pairwise_cons.mpr ⟨hhi', hsplit.2.1⟩, ?_⟩
  intro a ha b hb
  rcases List.mem_cons.mp hb with e | hb
  · rw [e]
    exact hasymm a value (hlo' a ha)
  · exact hsplit.2.2 a ha b hb

theorem alphabetically_asymm (a b : Data) (h : compareDataAlphabetically a b = true) :
    compareDataAlphabetically b a = false := by
  unfold compareDataAlphabetically at h ⊢
  simp only [decide_eq_true_eq] at h
  simp only [decide_eq_false_iff_not, not_lt]
  have := compare_antisymm (QString.fromString a.path) (QString.fromString b.path)
  omega

theorem alphabetically_notLess_trans (a b c : Data) (h1 : compareDataAlphabetically b a = false)
    (h2 : compareDataAlphabetically c b = false) : compareDataAlphabetically c a = false := by
  unfold compareDataAlphabetically at h1 h2 ⊢
  simp only [decide_eq_false_iff_not, not_lt] at h1 h2 ⊢
  have ab := compare_antisymm (QString.fromString a.path) (QString.fromString b.path)
  have bc := compare_antisymm (QString.fromString b.path) (QString.fromString c.path)
  have ac := compare_antisymm (QString.fromString a.path) (QString.fromString c.path)
  have := compare_le_trans (QString.fromString a.path) (QString.fromString b.path)
    (QString.fromString c.path) (by omega) (by omega)
  omega

theorem naturally_asymm (a b : Data) (h : compareTextNaturally a b = true) :
    compareTextNaturally b a = false :=
  compareSections_asymm _ _ h

theorem naturally_notLess_trans (a b c : Data)
    (ha : digitRunsFit (QString.fromString a.path) = true)
    (hb : digitRunsFit (QString.fromString b.path) = true)
    (hc : digitRunsFit (QString.fromString c.path) = true)
    (h1 : compareTextNaturally b a = false) (h2 : compareTextNaturally c b = false) :
    compareTextNaturally c a = false :=
  compareSections_notLess_trans _ _ _ (encode_fit _ ha) (encode_fit _ hb) (encode_fit _ hc) h1 h2

theorem lessThanOf_path (so : SortOrder) (a a' b b' : Data) (ha : a'.path = a.path)
    (hb : b'.path = b.path) : Window.lessThanOf so a' b' = Window.lessThanOf so a b := by
  cases so <;>
    simp only [Window.lessThanOf, compareTextNaturally, compareDataAlphabetically, ha, hb]

theorem derefAll_length (heap : Nat → Option Data) : ∀ (data : List Nat) (ds : List Data),
    derefAll heap data = some ds → ds.length = data.length := by
  intro data
  induction data with
  | nil => intro ds h; cases h; rfl
  | cons dt rest ih =>
    intro ds h
    simp only [derefAll] at h
    split at h
    · rename_i d ds' _ hr
      cases h
      simp [ih ds' hr]
    · cases h

theorem derefAll_insertIdx (heap : Nat → Option Data) (dt : Nat) (d : Data)
    (hdt : heap dt = some d) : ∀ (data : List Nat) (ds : List Data) (p : Nat),
    derefAll heap data = some ds → p ≤ data.length →
    derefAll heap (data.insertIdx p dt) = some (ds.insertIdx p d) := by
  intro data
  induction data with
  | nil =>
    intro ds p h hp
    cases h
    have : p = 0 := by simpa using hp
    subst this
    simp [derefAll, hdt]
  | cons x rest ih =>
    intro ds p h hp
    simp only [derefAll] at h
    split at h
    · rename_i dx ds' hx hr
      cases h
      cases p with
      | zero => simp [derefAll, hdt, hx, hr]
      | succ p =>
        rw [List.insertIdx_succ_cons, List.insertIdx_succ_cons]
        simp only [derefAll, hx, ih ds' p hr (by simpa using hp)]
    · cases h

theorem derefAll_kept (heap heap' : Nat → Option Data)
    (hh : ∀ a, (heap' a).map (fun d => (d.path, d.flags))
      = (heap a).map (fun d => (d.path, d.flags))) :
    ∀ (data : List Nat) (ds : List Data), derefAll heap data = some ds →
      ∃ ds', derefAll heap' data = some ds' ∧ ds'.map Data.path = ds.map Data.path := by
  intro data
  induction data with
  | nil => intro ds h; cases h; exact ⟨[], rfl, rfl⟩
  | cons x rest ih =>
    intro ds h
    simp only [derefAll] at h
    split at h
    · rename_i dx ds0 hx hr
      cases h
      obtain ⟨ds', hds', hp⟩ := ih ds0 hr
      have := hh x
      rw [hx] at this
      cases hx' : heap' x with
      | none => rw [hx'] at this; cases this
      | some dx' =>
        rw [hx'] at this
        simp only [Option.map_some', Option.some.injEq, Prod.mk.injEq] at this
        refine ⟨dx' :: ds', ?_, ?_⟩
        · simp only [derefAll, hx', hds']
        · simp only [List.map_cons, this.1, hp]
    · cases h

theorem ordered_of_paths (so : SortOrder) (ds ds' : List Data)
    (hp : ds'.map Data.path = ds.map Data.path)
    (h : Window.Ordered (Window.lessThanOf so) ds) : Window.Ordered (Window.lessThanOf so) ds' := by
  unfold Window.Ordered at h ⊢
  induction ds' generalizing ds with
  | nil => exact List.Pairwise.nil
  | cons a' tl' ih =>
    cases ds with
    | nil => simp at hp
    | cons a tl =>
      simp only [List.map_cons, List.cons.injEq] at hp
      obtain ⟨hhead, htail⟩ := List.pairwise_cons.mp h
      refine List.pairwise_cons.mpr ⟨?_, ih tl hp.2 htail⟩
      intro b' hb'
      have hmem : b'.path ∈ tl.map Data.path := by
        rw [← hp.2]
        exact List.mem_map_of_mem _ hb'
      obtain ⟨b, hb, hbp⟩ := List.mem_map.mp hmem
      rw [lessThanOf_path so b b' a a' hbp.symm hp.1]
      exact hhead b hb

theorem addNode_kept (w w' : Window) (dt it : Nat) (h : w.addNode dt it = some w') :
    w'.data = (w.insertNode dt it).data ∧
    ∀ a, (w'.heap a).map (fun d => (d.path, d.flags))
      = (w.heap a).map (fun d => (d.path, d.flags)) := by
  have hins : (w.insertNode dt it).heap = w.heap := by
    unfold Window.insertNode
    split
    · rfl
    · simp only
      split <;> rfl
  unfold Window.addNode at h
  simp only at h
  rw [← hins]
  generalize w.insertNode dt it = w1 at h
  split at h
  · cases h
  · rename_i w3 h3
    have h3' : w3.data = w1.data ∧ ∀ a, (w3.heap a).map (fun d => (d.path, d.flags))
        = (w1.heap a).map (fun d => (d.path, d.flags)) := by
      split at h3
      · by_cases he : (0 : Int) = w1.current
        · unfold Window.setCurrentIndex at h3
          rw [if_pos he] at h3
          cases h3
          exact ⟨rfl, fun _ => rfl⟩
        · obtain ⟨hd, _, _, _, _, hh⟩ := setCurrentIndex_effect w1 w3 0 he h3
          exact ⟨hd, hh⟩
      · cases h3
        exact ⟨rfl, fun _ => rfl⟩
    split at h
    · have hg := grown_updateImages w3 w' h
      exact ⟨hg.1.1.trans h3'.1, fun a => by rw [hg.2.1]; exact h3'.2 a⟩
    · cases h
      exact h3'

theorem insertNode_data (w : Window) (dt it : Nat) :
    (w.insertNode dt it).data = w.data.insertIdx it dt := by
  unfold Window.insertNode
  split
  · rename_i e
    rw [e, List.insertIdx_length_self]
  · simp only
    split <;> rfl

theorem qLowerBound_nil {α : Type} (lessThan : α → α → Bool) (value : α) :
    qLowerBound lessThan [] value = 0 := rfl

theorem fresh_of_paths (cache : SectionCache) (heap heap' : Nat → Option Data)
    (hheap : ∀ a, (heap' a).map (fun d => (d.path, d.flags))
      = (heap a).map (fun d => (d.path, d.flags)))
    (b : Nat) (h : cache.Fresh heap b) : cache.Fresh heap' b := by
  rcases h with h | ⟨d, hd, hs⟩
  · exact Or.inl h
  · right
    have hb := hheap b
    rw [hd] at hb
    cases hd' : heap' b with
    | none => rw [hd'] at hb; cases hb
    | some d' =>
      rw [hd'] at hb
      simp only [Option.map_some', Option.some.injEq, Prod.mk.injEq] at hb
      exact ⟨d', rfl, by rw [hb.1]; exact hs⟩

/-- The position the `switch` of `addNode` finds under Alphabetical order, and under Natural
order when the hash of `encode` holds no stale sections for the entries compared. -/
theorem addNodeIterator_eq (w : Window) (cache : SectionCache) (size : String → Int)
    (created : String → Nat) (rand dt : Nat) (ds : List Data) (d : Data)
    (hsort : w.sort = SortOrder.Alphabetically ∨
      (w.sort = SortOrder.Natural ∧ ∀ a ∈ dt :: w.data, cache.Fresh w.heap a))
    (hent : w.entries = some ds) (hdt : w.heap dt = some d) :
    ∃ cache', w.addNodeIterator cache size created rand dt
        = some (qLowerBound (Window.lessThanOf w.sort) ds d, cache') ∧
      ∀ b, cache.Fresh w.heap b → cache'.Fresh w.heap b := by
  have hlen := derefAll_length w.heap w.data ds hent
  unfold Window.addNodeIterator
  rw [hdt]
  simp only
  cases hdata : w.data with
  | nil =>
    rw [hdata] at hlen
    have hds : ds = [] := List.length_eq_zero.mp hlen
    subst hds
    exact ⟨cache, by simp [qLowerBound_nil], fun _ h => h⟩
  | cons x tl =>
    simp only [List.isEmpty_cons, Bool.false_eq_true, if_false]
    rcases hsort with h | ⟨h, hfresh⟩
    · rw [h, hent]
      exact ⟨cache, rfl, fun _ hb => hb⟩
    · rw [h]
      simp only
      rw [← hdata]
      obtain ⟨hmap, hall⟩ := derefAll_eq_map w.heap w.data ds hent
      have hstep : ∀ s : SectionCache, (∀ b, cache.Fresh w.heap b → s.Fresh w.heap b) →
          ∀ m ∈ w.data, ∃ s', compareDataNaturally s w.heap m dt
              = some (compareTextNaturally ((w.heap m).getD (Data.create ""))
                  ((w.heap dt).getD (Data.create "")), s') ∧
            (∀ b, cache.Fresh w.heap b → s'.Fresh w.heap b) := by
        intro s hs m hm
        have hm' := hall m hm
        cases hhm : w.heap m with
        | none => rw [hhm] at hm'; cases hm'
        | some dm =>
          obtain ⟨s', h1, h2⟩ := compareDataNaturally_fresh s w.heap m dt dm d hhm hdt
            (hs m (hfresh m (List.mem_cons_of_mem _ hm)))
            (hs dt (hfresh dt (List.mem_cons_self _ _)))
          refine ⟨s', ?_, fun b hb => h2 b (hs b hb)⟩
          rw [h1, hdt]
          rfl
      obtain ⟨cache', hq, hI⟩ := qLowerBoundLoopWith_eq
        (fun data left right => compareDataNaturally data w.heap left right)
        (fun x y => compareTextNaturally ((w.heap x).getD (Data.create ""))
          ((w.heap y).getD (Data.create "")))
        (fun s => ∀ b, cache.Fresh w.heap b → s.Fresh w.heap b) w.data dt hstep
        w.data.length cache 0 w.data.length (fun _ hb => hb)
      refine ⟨cache', ?_, hI⟩
      unfold qLowerBoundWith
      rw [hq]
      have hm2 := qLowerBoundLoop_map (fun a => (w.heap a).getD (Data.create ""))
        compareTextNaturally w.data dt w.data.length 0 w.data.length
      rw [hm2, ← hmap, hdt]
      unfold qLowerBound
      rw [hlen]
      rfl

/-- C17, counterexample: under Natural order the catalog `10`, `3000000000` is in order, since
the second path is not less than the first. `addNode` puts `9` at the end, after `10`, although
`9` is less than `10`: the value of `3000000000` does not fit an `int`, so that path is compared
as text, is less than `9`, and misleads the search. The hash of `encode` is empty at the start,
so no sections are stale. -/
theorem natural_insert_unsorted :
    (compareDataNaturally (fun _ => none) Window.overflowSample.heap 101 100).map Prod.fst
      = some false ∧
    (Window.overflowSample.addNodeSwitch (fun _ => none) (fun _ => 0) (fun _ => 0) 0 102).map
      (fun r => r.1.data) = some [100, 101, 102] ∧
    (compareDataNaturally (fun _ => none) Window.overflowSample.heap 102 100).map Prod.fst
      = some true := by
  refine ⟨?_, ?_, ?_⟩ <;> (set_option maxRecDepth 20000 in decide)

/-- C17, amended: under Alphabetical order, and under Natural order when the runs of digits of
the paths of the catalog and of the new entry have values below `2^31` and the hash of `encode`
holds, for each of these entries, nothing or the sections of its present path, `addNode` keeps
the catalog in order. If no entry is strictly less than an entry before it, the new catalog list
is the old one with the new entry put in at a position `p`, every entry before `p` is strictly
less than the new entry and no entry from `p` on is, and again no entry is strictly less than an
entry before it. No entry of the hash becomes stale, and under Natural order
`compareDataNaturally` on two entries of the new catalog returns their order by path. -/
theorem addNode_keeps_sorted (w w' : Window) (cache cache' : SectionCache)
    (size : String → Int) (created : String → Nat)
    (rand dt : Nat) (ds : List Data) (d : Data)
    (hsort : w.sort = SortOrder.Alphabetically ∨
      (w.sort = SortOrder.Natural ∧
        (∀ x ∈ d :: ds, digitRunsFit (QString.fromString x.path) = true) ∧
        ∀ a ∈ dt :: w.data, cache.Fresh w.heap a))
    (hent : w.entries = some ds) (hdt : w.heap dt = some d)
    (hord : Window.Ordered (Window.lessThanOf w.sort) ds)
    (hadd : w.addNodeSwitch cache size created rand dt = some (w', cache')) :
    ∃ p, p ≤ ds.length ∧ w'.data = w.data.insertIdx p dt ∧
      (∀ x ∈ ds.take p, Window.lessThanOf w.sort x d = true) ∧
      (∀ x ∈ ds.drop p, Window.lessThanOf w.sort x d = false) ∧
      (∃ ds', w'.entries = some ds' ∧
        ds'.map Data.path = (ds.insertIdx p d).map Data.path ∧
        Window.Ordered (Window.lessThanOf w.sort) ds') ∧
      (∀ b, cache.Fresh w.heap b → cache'.Fresh w'.heap b) ∧
      (w.sort = SortOrder.Natural → ∀ a ∈ w'.data, ∀ b ∈ w'.data,
        ∃ da db c, w'.heap a = some da ∧ w'.heap b = some db ∧
          compareDataNaturally cache' w'.heap a b
            = some (Window.lessThanOf w.sort da db, c)) := by
  have hsort' : w.sort = SortOrder.Alphabetically ∨
      (w.sort = SortOrder.Natural ∧ ∀ a ∈ dt :: w.data, cache.Fresh w.heap a) :=
    hsort.imp id (fun h => ⟨h.1, h.2.2⟩)
  have hspec : qLowerBound (Window.lessThanOf w.sort) ds d ≤ ds.length ∧
      (∀ x ∈ ds.take (qLowerBound (Window.lessThanOf w.sort) ds d),
        Window.lessThanOf w.sort x d = true) ∧
      (∀ x ∈ ds.drop (qLowerBound (Window.lessThanOf w.sort) ds d),
        Window.lessThanOf w.sort x d = false) ∧
      (ds.insertIdx (qLowerBound (Window.lessThanOf w.sort) ds d) d).Pairwise
        (fun a b => Window.lessThanOf w.sort b a = false) := by
    rcases hsort with h | ⟨h, hfit, _⟩
    · rw [h]
      exact qLowerBound_spec compareDataAlphabetically ds d (fun _ => True)
        (fun _ _ => trivial) trivial alphabetically_asymm
        (fun a b c _ _ _ => alphabetically_notLess_trans a b c) (by rw [h] at hord; exact hord)
    · rw [h]
      exact qLowerBound_spec compareTextNaturally ds d
        (fun x => digitRunsFit (QString.fromString x.path) = true)
        (fun x hx => hfit x (List.mem_cons_of_mem _ hx)) (hfit d (List.mem_cons_self _ _))
        naturally_asymm naturally_notLess_trans (by rw [h] at hord; exact hord)
  obtain ⟨hp, hlo, hhi, hpair⟩ := hspec
  obtain ⟨cache1, hit, hfresh1⟩ := addNodeIterator_eq w cache size created rand dt ds d hsort'
    hent hdt
  unfold Window.addNodeSwitch at hadd
  rw [hit] at hadd
  simp only at hadd
  cases hnode : w.addNode dt (qLowerBound (Window.lessThanOf w.sort) ds d) with
  | none => rw [hnode] at hadd; cases hadd
  | some w1 =>
    rw [hnode] at hadd
    simp only [Option.map_some', Option.some.injEq, Prod.mk.injEq] at hadd
    obtain ⟨e1, e2⟩ := hadd
    subst e1 e2
    obtain ⟨hdata, hheap⟩ := addNode_kept w w1 dt _ hnode
    rw [insertNode_data] at hdata
    have hlen := derefAll_length w.heap w.data ds hent
    have hins := derefAll_insertIdx w.heap dt d hdt w.data ds
      (qLowerBound (Window.lessThanOf w.sort) ds d) hent (by omega)
    obtain ⟨ds', hds', hpaths⟩ := derefAll_kept w.heap w1.heap hheap _ _ hins
    have hent' : w1.entries = some ds' := by
      unfold Window.entries
      rw [hdata]
      exact hds'
    have hfresh' : ∀ b, cache.Fresh w.heap b → cache1.Fresh w1.heap b :=
      fun b hb => fresh_of_paths cache1 w.heap w1.heap hheap b (hfresh1 b hb)
    refine ⟨_, hp, hdata, hlo, hhi,
      ⟨ds', hent', hpaths, ordered_of_paths w.sort _ ds' hpaths hpair⟩, hfresh', ?_⟩
    intro hnat a ha b hb
    obtain ⟨_, hall⟩ := derefAll_eq_map w1.heap w1.data ds' hent'
    have hmem : ∀ x ∈ w1.data, x ∈ dt :: w.data := by
      intro x hx
      rw [hdata] at hx
      rcases List.mem_insertIdx (by omega) |>.mp hx with h | h
      · rw [h]; exact List.mem_cons_self _ _
      · exact List.mem_cons_of_mem _ h
    have hfr : ∀ x ∈ dt :: w.data, cache.Fresh w.heap x := by
      rcases hsort with h | ⟨_, _, h⟩
      · rw [h] at hnat; cases hnat
      · exact h
    cases hha : w1.heap a with
    | none => have := hall a ha; rw [hha] at this; cases this
    | some da =>
      cases hhb : w1.heap b with
      | none => have := hall b hb; rw [hhb] at this; cases this
      | some db =>
        obtain ⟨c, hc, _⟩ := compareDataNaturally_fresh cache1 w1.heap a b da db hha hhb
          (hfresh' a (hfr a (hmem a ha))) (hfresh' b (hfr b (hmem b hb)))
        refine ⟨da, db, c, rfl, rfl, ?_⟩
        rw [hc, hnat]
        rfl

theorem addNode_keeps_sorted_witness :
    ∃ w' cache', Window.naturalSample.addNodeSwitch (fun _ => none) (fun _ => 0) (fun _ => 0) 0
        102 = some (w', cache') ∧
      w'.data = [100, 102, 101] ∧
      ∃ p, p ≤ [Data.create "img2.png", Data.create "img10.png"].length ∧
        w'.data = Window.naturalSample.data.insertIdx p 102 ∧
        (∀ x ∈ [Data.create "img2.png", Data.create "img10.png"].take p,
          Window.lessThanOf Window.naturalSample.sort x (Data.create "img7.png") = true) ∧
        (∀ x ∈ [Data.create "img2.png", Data.create "img10.png"].drop p,
          Window.lessThanOf Window.naturalSample.sort x (Data.create "img7.png") = false) ∧
        (∃ ds', w'.entries = some ds' ∧
          ds'.map Data.path
            = ([Data.create "img2.png", Data.create "img10.png"].insertIdx p
                (Data.create "img7.png")).map Data.path ∧
          Window.Ordered (Window.lessThanOf Window.naturalSample.sort) ds') ∧
        (∀ b, SectionCache.Fresh (fun _ => none) Window.naturalSample.heap b →
          cache'.Fresh w'.heap b) ∧
        (Window.naturalSample.sort = SortOrder.Natural → ∀ a ∈ w'.data, ∀ b ∈ w'.data,
          ∃ da db c, w'.heap a = some da ∧ w'.heap b = some db ∧
            compareDataNaturally cache' w'.heap a b
              = some (Window.lessThanOf Window.naturalSample.sort da db, c)) := by
  have hsome : (Window.naturalSample.addNodeSwitch (fun _ => none) (fun _ => 0) (fun _ => 0) 0
      102).isSome = true := by decide
  have hdata : (Window.naturalSample.addNodeSwitch (fun _ => none) (fun _ => 0) (fun _ => 0) 0
      102).map (fun r => r.1.data) = some [100, 102, 101] := by decide
  obtain ⟨⟨w', cache'⟩, hadd⟩ := Option.isSome_iff_exists.mp hsome
  rw [hadd] at hdata
  simp only [Option.map_some', Option.some.injEq] at hdata
  have hfit : ∀ x ∈ [Data.create "img7.png", Data.create "img2.png", Data.create "img10.png"],
      digitRunsFit (QString.fromString x.path) = true := by decide
  have hord : Window.Ordered (Window.lessThanOf Window.naturalSample.sort)
      [Data.create "img2.png", Data.create "img10.png"] :=
    List.Pairwise.cons (by decide) (List.Pairwise.cons (by decide) List.Pairwise.nil)
  exact ⟨w', cache', hadd, hdata,
    addNode_keeps_sorted Window.naturalSample w' (fun _ => none) cache' (fun _ => 0)
      (fun _ => 0) 0 102
      [Data.create "img2.png", Data.create "img10.png"] (Data.create "img7.png")
      (Or.inr ⟨rfl, hfit, fun _ _ => Or.inl rfl⟩) (by decide) (by decide) hord hadd⟩

/-! ### Stale sections in the hash of `encode` (C16) -/

/-- The same slip misleads the search of `addNode`: under Natural order `img5.png` and
`img10.png` are added, `img10.png` is removed and `img2.png` is added at the address it had. The
sections cut from `img10.png` are read in `img2.png`, the value 10 of the second one is kept, and
the catalog is left as `img5.png`, `img2.png`. -/
theorem stale_sections_insert :
    Window.staleInsert.map
        (fun r => (r.1.data, r.1.data.map fun a => (r.1.heap a).map Data.path, r.2 101))
      = some ([100, 101], [some "img5.png", some "img2.png"],
          some [⟨⟨101, 0, 3⟩, -1⟩, ⟨⟨101, 3, 2⟩, 10⟩, ⟨⟨101, 5, 4⟩, -1⟩]) ∧
    (Window.staleInsert.bind fun r => compareDataNaturally r.2 r.1.heap 100 101).map Prod.fst
      = some true ∧
    compareTextNaturally (Data.create "img2.png") (Data.create "img5.png") = true := by
  decide

/-! ### The size of the target resident set (C30) -/

theorem not_mem_aboveSet_self (c count a : Int) (hc0 : 0 ≤ c) (hc : c < count)
    (hac : a < count) : c ∉ aboveSet c count a := by
  intro hmem
  unfold aboveSet at hmem
  rcases Finset.mem_image.mp hmem with ⟨i, hi, hic⟩
  rw [Finset.mem_Icc] at hi
  have h := emod_eq_gap count c (c + i) (by omega)
    (by rw [hic]; exact Int.emod_eq_of_lt hc0 hc)
  omega

theorem not_mem_belowSet_self (c count b : Int) (hc0 : 0 ≤ c) (hc : c < count)
    (hbc : b < count) : c ∉ belowSet c count b := by
  intro hmem
  unfold belowSet at hmem
  rcases Finset.mem_image.mp hmem with ⟨i, hi, hic⟩
  rw [Finset.mem_Icc] at hi
  have h := emod_eq_gap count (c - i) c (by omega)
    (by rw [hic]; exact (Int.emod_eq_of_lt hc0 hc).symm)
  omega

/-- C30: for at least two entries, a cursor in `[0, count)` and a non-negative budget,
`surrounding(cur, count, maxEntries)` has exactly `min maxEntries (count - 1)` members, the cursor
is not one of them, and whenever `maxEntries < count` the set together with the cursor has
`maxEntries + 1` members. -/
theorem surrounding_card_excludes_cursor (cur count maxEntries : Int) (hcount : 2 ≤ count)
    (hcur : 0 ≤ cur) (hlt : cur < count) (hmax : 0 ≤ maxEntries) :
    ((surrounding cur count maxEntries).card : Int) = min maxEntries (count - 1) ∧
    cur ∉ surrounding cur count maxEntries ∧
    (maxEntries < count →
      ((insert cur (surrounding cur count maxEntries)).card : Int) = maxEntries + 1) := by
  obtain ⟨_, ha0, hac, hb0, hab⟩ := window_split count maxEntries (by omega) hmax
  have hne : cur ≠ -1 := by omega
  have hcard : ((surrounding cur count maxEntries).card : Int) = min maxEntries (count - 1) := by
    unfold surrounding
    rw [surroundingTrace_eq cur count maxEntries (by omega) (by omega) hlt hmax]
    simp only [if_neg hne]
    rcases lt_or_le maxEntries count with hsmall | hbig
    · have hm : min maxEntries count = maxEntries := min_eq_left hsmall.le
      have hm1 : min maxEntries (count - 1) = maxEntries := min_eq_left (by omega)
      rw [hm] at ha0 hb0 ⊢
      rw [card_window cur count _ _ ha0 hb0 (Or.inl (by omega)), hm1]
      ring
    · have hm : min maxEntries count = count := min_eq_right hbig
      have hm1 : min maxEntries (count - 1) = count - 1 := min_eq_right (by omega)
      rw [hm] at ha0 hac hb0 hab ⊢
      rw [window_full_drop_last cur count _ _ (by omega) (by omega) (by omega),
        card_window cur count _ _ ha0 (by omega) (Or.inl (by omega)), hm1]
      ring
  have hnot : cur ∉ surrounding cur count maxEntries := by
    unfold surrounding
    rw [surroundingTrace_eq cur count maxEntries (by omega) (by omega) hlt hmax]
    simp only [if_neg hne]
    intro hmem
    rcases Finset.mem_union.mp hmem with h | h
    · exact not_mem_aboveSet_self cur count _ hcur hlt hac h
    · have hm0 : 0 ≤ min maxEntries count := le_min hmax (by omega)
      have hmc : min maxEntries count ≤ count := min_le_right _ _
      exact not_mem_belowSet_self cur count _ hcur hlt (by omega) h
  refine ⟨hcard, hnot, ?_⟩
  intro hsmall
  rw [Finset.card_insert_of_not_mem hnot]
  have hm1 : min maxEntries (count - 1) = maxEntries := min_eq_left (by omega)
  push_cast
  rw [hcard, hm1]

theorem surrounding_card_excludes_cursor_witness :
    (2 : Int) ≤ 5 ∧ (0 : Int) ≤ 2 ∧ (2 : Int) < 5 ∧ (0 : Int) ≤ 3 ∧
    ((surrounding 2 5 3).card : Int) = min 3 (5 - 1) ∧
    (2 : Int) ∉ surrounding 2 5 3 ∧
    ((3 : Int) < 5 → ((insert 2 (surrounding 2 5 3)).card : Int) = 3 + 1) :=
  ⟨by decide, by decide, by decide, by decide,
   surrounding_card_excludes_cursor 2 5 3 (by decide) (by decide) (by decide) (by decide)⟩

/-! ### What `load` and `updateImages` enqueue (C28, C29) -/

/-- The flags `load` computes for the request of the index `index`. -/
theorem load_flags_high (w : Window) (index : Int) :
    ((if index = w.current ∨ index = w.bound (w.current - 1) ∨ index = w.bound (w.current + 1)
        then (if w.test Flags.NoSmoothScale then (0 : Nat) ||| ImageLoaderThread.NoSmoothScale
              else 0) ||| ImageLoaderThread.HighPriority
        else (if w.test Flags.NoSmoothScale then (0 : Nat) ||| ImageLoaderThread.NoSmoothScale
              else 0)) &&& ImageLoaderThread.HighPriority ≠ 0) ↔
      (index = w.current ∨ index = w.bound (w.current - 1) ∨ index = w.bound (w.current + 1)) := by
  by_cases hadj : index = w.current ∨ index = w.bound (w.current - 1) ∨
      index = w.bound (w.current + 1)
  · rw [if_pos hadj]
    constructor
    · intro _; exact hadj
    · intro _
      split <;> decide
  · rw [if_neg hadj]
    constructor
    · intro h
      exfalso
      revert h
      split <;> decide
    · intro h; exact absurd h hadj

/-- What a successful `load` does: nothing, or one request for the entry at the index, whose
flags carry `HighPriority` exactly for the cursor and its two neighbours. -/
theorem load_cases (w w' : Window) (index : Int) (h : w.load index = some w') :
    ∃ dt d, w.entryAt index = some (dt, d) ∧
      (w' = w ∨
        (d.flags &&& Data.Failed = 0 ∧ w.loading dt = none ∧
          (w.test Flags.AutoZoomEnabled = false → d.image = none) ∧
          ∃ flags size, w' = w.request dt d index flags size ∧
            (flags &&& ImageLoaderThread.HighPriority ≠ 0 ↔
              (index = w.current ∨ index = w.bound (w.current - 1) ∨
                index = w.bound (w.current + 1))))) := by
  unfold Window.load at h
  cases hat : w.entryAt index with
  | none => rw [hat] at h; cases h
  | some r =>
    obtain ⟨dt, d⟩ := r
    rw [hat] at h
    simp only at h
    refine ⟨dt, d, rfl, ?_⟩
    split at h
    · left; cases h; rfl
    · rename_i hcond
      have hF : d.flags &&& Data.Failed = 0 := by
        by_contra hne; exact hcond (Or.inl hne)
      have hL : w.loading dt = none := by
        cases hl : w.loading dt with
        | none => rfl
        | some v => exact absurd (Or.inr (by rw [hl]; rfl)) hcond
      split at h
      · rename_i hz
        split at h
        · left; cases h; rfl
        · right
          cases h
          exact ⟨hF, hL, (fun hz' => by rw [hz'] at hz; cases hz), _, _, rfl,
            load_flags_high w index⟩
      · split at h
        · left; cases h; rfl
        · rename_i himg
          right
          have hI : d.image = none := by
            cases hi : d.image with
            | none => rfl
            | some s => exact absurd (by rw [hi]; rfl) himg
          cases h
          exact ⟨hF, hL, (fun _ => hI), _, _, rfl, load_flags_high w index⟩

theorem request_queue (w : Window) (dt : Nat) (d : Data) (index : Int) (flags : Nat)
    (size : QSize) :
    (w.request dt d index flags size).imageLoaderThread
      = w.imageLoaderThread.load d.path flags d.rotation dt size := rfl

/-- C29: whenever `load(index)` enqueues a request (the queue of the loader changes), the new
request belongs to the entry at `index`, which becomes a key of the loading map with value
`index`; its flags carry `HighPriority` exactly when `index` is the cursor, `bound(current - 1)`
or `bound(current + 1)`, and then the request is put at the head of the queue; for every other
index the flag is absent and the request is put at the tail. -/
theorem load_priority (w w' : Window) (index : Int) (h : w.load index = some w')
    (hq : w'.imageLoaderThread ≠ w.imageLoaderThread) :
    ∃ x : Node,
      (x.flags &&& ImageLoaderThread.HighPriority ≠ 0 ↔
        (index = w.current ∨ index = w.bound (w.current - 1) ∨
          index = w.bound (w.current + 1))) ∧
      (x.flags &&& ImageLoaderThread.HighPriority ≠ 0 →
        w'.imageLoaderThread = x :: w.imageLoaderThread) ∧
      (x.flags &&& ImageLoaderThread.HighPriority = 0 →
        w'.imageLoaderThread = w.imageLoaderThread ++ [x]) ∧
      (∃ d, w.entryAt index = some (x.userData, d)) ∧
      w'.loading x.userData = some index := by
  obtain ⟨dt, d, hat, hcase⟩ := load_cases w w' index h
  rcases hcase with rfl | ⟨_, _, _, flags, size, rfl, hflags⟩
  · exact absurd rfl hq
  · refine ⟨ImageLoaderThread.newNode d.path flags d.rotation dt size, ?_, ?_, ?_, ?_, ?_⟩
    · rw [newNode_flags]; exact hflags
    · rw [newNode_flags]
      intro hh
      rw [request_queue]
      unfold LoaderQueue.load
      rw [if_pos hh]
    · rw [newNode_flags]
      intro hh
      rw [request_queue]
      unfold LoaderQueue.load
      rw [if_neg (by rw [hh]; exact fun hne => hne rfl)]
    · rw [newNode_userData]; exact ⟨d, hat⟩
    · rw [newNode_userData]
      show Function.update w.loading dt (some index) dt = some index
      exact Function.update_same _ _ _

theorem load_priority_witness :
    Window.sample.load 0
        = some (Window.sample.request 100 (Data.create "a.jpg") 0 2 ⟨800, 600⟩) ∧
    (Window.sample.request 100 (Data.create "a.jpg") 0 2 ⟨800, 600⟩).imageLoaderThread
        ≠ Window.sample.imageLoaderThread ∧
    ∃ x : Node,
      (x.flags &&& ImageLoaderThread.HighPriority ≠ 0 ↔
        ((0 : Int) = Window.sample.current ∨
          (0 : Int) = Window.sample.bound (Window.sample.current - 1) ∨
          (0 : Int) = Window.sample.bound (Window.sample.current + 1))) ∧
      (x.flags &&& ImageLoaderThread.HighPriority ≠ 0 →
        (Window.sample.request 100 (Data.create "a.jpg") 0 2 ⟨800, 600⟩).imageLoaderThread
          = x :: Window.sample.imageLoaderThread) ∧
      (x.flags &&& ImageLoaderThread.HighPriority = 0 →
        (Window.sample.request 100 (Data.create "a.jpg") 0 2 ⟨800, 600⟩).imageLoaderThread
          = Window.sample.imageLoaderThread ++ [x]) ∧
      (∃ d, Window.sample.entryAt 0 = some (x.userData, d)) ∧
      (Window.sample.request 100 (Data.create "a.jpg") 0 2 ⟨800, 600⟩).loading x.userData
        = some 0 :=
  ⟨rfl, by decide,
   load_priority Window.sample (Window.sample.request 100 (Data.create "a.jpg") 0 2 ⟨800, 600⟩) 0
     rfl (by decide)⟩

theorem entryAt_of_grown (w w' : Window) (h : Window.Grown w w') (i : Int) :
    w'.entryAt i = w.entryAt i := by
  unfold Window.entryAt
  rw [h.1.1, h.2.1]

theorem test_of_kept (w w' : Window) (h : Window.Kept w w') (flag : Nat) :
    w'.test flag = w.test flag := by
  unfold Window.test
  rw [h.2.2.2.2.1]

/-- What `load` does without auto-zoom: the entry at the index gets a request unless it is
`Failed`, already a key of the loading map, or holds an image; no other key is added, and the
only request added to the queue is the one of this entry. -/
theorem load_plain_spec (w w' : Window) (index : Int)
    (hz : w.test Flags.AutoZoomEnabled = false) (h : w.load index = some w') :
    ∃ dt d, w.entryAt index = some (dt, d) ∧
      (d.flags &&& Data.Failed = 0 → d.image = none → (w'.loading dt).isSome = true) ∧
      (∀ tok v, w.loading tok = none → w'.loading tok = some v →
        v = index ∧ tok = dt ∧ d.flags &&& Data.Failed = 0 ∧ d.image = none) ∧
      (∀ x ∈ w'.imageLoaderThread, x ∈ w.imageLoaderThread ∨
        (x.userData = dt ∧ w.loading dt = none ∧ w'.loading dt = some index)) := by
  obtain ⟨dt, d, hat, hcase⟩ := load_cases w w' index h
  refine ⟨dt, d, hat, ?_⟩
  rcases hcase with rfl | ⟨hF, hL, hI, flags, size, rfl, _⟩
  · refine ⟨?_, ?_, ?_⟩
    · intro hF hI
      unfold Window.load at h
      rw [hat] at h
      simp only [hz, Bool.false_eq_true, if_false, hI, Option.isSome_none] at h
      by_contra hl
      rw [if_neg (by
        intro hc
        rcases hc with hc | hc
        · exact hc hF
        · exact hl hc)] at h
      have hq := congrArg (fun u : Window => u.loading dt) (Option.some.inj h)
      simp only [Window.request, Function.update_same] at hq
      rw [← hq] at hl
      exact hl rfl
    · intro tok v h0 h1
      rw [h0] at h1; cases h1
    · intro x hx; exact Or.inl hx
  · have hup : (w.request dt d index flags size).loading dt = some index := by
      show Function.update w.loading dt (some index) dt = some index
      exact Function.update_same _ _ _
    refine ⟨?_, ?_, ?_⟩
    · intro _ _
      rw [hup]; rfl
    · intro tok v h0 h1
      by_cases htok : tok = dt
      · subst htok
        rw [hup] at h1
        cases h1
        exact ⟨rfl, rfl, hF, hI hz⟩
      · have : (w.request dt d index flags size).loading tok = w.loading tok := by
          show Function.update w.loading dt (some index) tok = w.loading tok
          exact Function.update_noteq htok _ _
        rw [this, h0] at h1; cases h1
    · intro x hx
      rw [request_queue] at hx
      unfold LoaderQueue.load at hx
      split at hx
      · rcases List.mem_cons.mp hx with rfl | hx
        · right; exact ⟨newNode_userData _ _ _ _ _, hL, hup⟩
        · left; exact hx
      · rcases List.mem_append.mp hx with hx | hx
        · left; exact hx
        · right
          rw [List.mem_singleton] at hx
          subst hx
          exact ⟨newNode_userData _ _ _ _ _, hL, hup⟩

/-- The loop of `updateImages` without auto-zoom, over the indices `l`. -/
theorem loadEach_plain_spec (l : List Int) :
    ∀ (w w' : Window), w.test Flags.AutoZoomEnabled = false → Window.loadEach l w = some w' →
      (∀ i ∈ l, i ≠ w.current → ∀ dt d, w.entryAt i = some (dt, d) →
        d.flags &&& Data.Failed = 0 → d.image = none → (w'.loading dt).isSome = true) ∧
      (∀ tok v, w.loading tok = none → w'.loading tok = some v →
        v ∈ l ∧ ∃ d, w.entryAt v = some (tok, d) ∧ d.flags &&& Data.Failed = 0 ∧
          d.image = none) ∧
      (∀ x ∈ w'.imageLoaderThread, x ∈ w.imageLoaderThread ∨
        (w.loading x.userData = none ∧ (w'.loading x.userData).isSome = true)) := by
  induction l with
  | nil =>
    intro w w' _ hl
    simp only [Window.loadEach, Option.some.injEq] at hl
    subst hl
    refine ⟨fun i hi => absurd hi (List.not_mem_nil i), ?_, fun x hx => Or.inl hx⟩
    intro tok v h0 h1
    rw [h0] at h1; cases h1
  | cons i rest ih =>
    intro w w' hz hl
    simp only [Window.loadEach] at hl
    split at hl
    · rename_i hi
      cases hload : w.load i with
      | none => rw [hload] at hl; cases hl
      | some w1 =>
        rw [hload] at hl
        simp only at hl
        have hg1 := grown_load w w1 i hload
        have hg2 := grown_loadEach rest w1 w' hl
        have hz1 : w1.test Flags.AutoZoomEnabled = false := by
          rw [test_of_kept w w1 hg1.1]; exact hz
        obtain ⟨dt, d, hat, ha, hb, hc⟩ := load_plain_spec w w1 i hz hload
        obtain ⟨iha, ihb, ihc⟩ := ih w1 w' hz1 hl
        refine ⟨?_, ?_, ?_⟩
        · intro j hj hjc dt' d' hat' hF hI
          rcases List.mem_cons.mp hj with rfl | hj
          · rw [hat] at hat'
            cases hat'
            have h1 := ha hF hI
            cases hv : w1.loading dt with
            | none => rw [hv] at h1; cases h1
            | some v => rw [hg2.2.2 dt v hv]; rfl
          · exact iha j hj (by rw [hg1.1.2.1]; exact hjc) dt' d'
              (by rw [entryAt_of_grown w w1 hg1]; exact hat') hF hI
        · intro tok v h0 h1
          cases hv : w1.loading tok with
          | none =>
            obtain ⟨hm, d', hat', hF, hI⟩ := ihb tok v hv h1
            exact ⟨List.mem_cons_of_mem _ hm, d',
              by rw [← entryAt_of_grown w w1 hg1]; exact hat', hF, hI⟩
          | some v1 =>
            have h2 := hg2.2.2 tok v1 hv
            rw [h1] at h2
            cases h2
            obtain ⟨e1, e2, hF, hI⟩ := hb tok v h0 hv
            subst e1 e2
            exact ⟨List.mem_cons_self _ _, d, hat, hF, hI⟩
        · intro x hx
          rcases ihc x hx with h1 | ⟨h1, h2⟩
          · rcases hc x h1 with h3 | ⟨h3, h4, h5⟩
            · exact Or.inl h3
            · right
              rw [h3]
              exact ⟨h4, by rw [hg2.2.2 dt i h5]; rfl⟩
          · right
            refine ⟨?_, h2⟩
            cases hv : w.loading x.userData with
            | none => rfl
            | some v => rw [hg1.2.2 _ v hv] at h1; cases h1
    · obtain ⟨iha, ihb, ihc⟩ := ih w w' hz hl
      rename_i hi
      refine ⟨?_, ?_, ihc⟩
      · intro j hj hjc dt' d' hat' hF hI
        rcases List.mem_cons.mp hj with rfl | hj
        · exact absurd hjc hi
        · exact iha j hj hjc dt' d' hat' hF hI
      · intro tok v h0 h1
        obtain ⟨hm, rest'⟩ := ihb tok v h0 h1
        exact ⟨List.mem_cons_of_mem _ hm, rest'⟩

theorem queue_sublist_load (w w' : Window) (index : Int) (h : w.load index = some w') :
    w.imageLoaderThread.Sublist w'.imageLoaderThread := by
  obtain ⟨dt, d, _, hcase⟩ := load_cases w w' index h
  rcases hcase with rfl | ⟨_, _, _, flags, size, rfl, _⟩
  · exact List.Sublist.refl _
  · rw [request_queue]
    unfold LoaderQueue.load
    split
    · exact List.sublist_cons_self _ _
    · exact List.sublist_append_left _ _

theorem queue_sublist_loadEach (l : List Int) :
    ∀ (w w' : Window), Window.loadEach l w = some w' →
      w.imageLoaderThread.Sublist w'.imageLoaderThread := by
  induction l with
  | nil =>
    intro w w' hl
    simp only [Window.loadEach, Option.some.injEq] at hl
    subst hl; exact List.Sublist.refl _
  | cons i rest ih =>
    intro w w' hl
    simp only [Window.loadEach] at hl
    split at hl
    · cases hload : w.load i with
      | none => rw [hload] at hl; cases hl
      | some w1 =>
        rw [hload] at hl
        exact (queue_sublist_load w w1 i hload).trans (ih w1 w' hl)
    · exact ih w w' hl

theorem queue_sublist_updateImages (w w' : Window) (hu : w.updateImages = some w') :
    w.imageLoaderThread.Sublist w'.imageLoaderThread := by
  unfold Window.updateImages at hu
  split at hu
  · cases hu; exact List.Sublist.refl _
  · cases hload : w.load w.current with
    | none => rw [hload] at hu; cases hu
    | some w1 =>
      rw [hload] at hu
      simp only at hu
      have h1 := queue_sublist_load w w1 w.current hload
      split at hu
      · cases hu; exact h1
      · exact h1.trans (queue_sublist_loadEach _ w1 w' hu)

theorem newNode_path (p : String) (flags : Nat) (rotation : Int) (userData : Nat)
    (size : QSize) : (ImageLoaderThread.newNode p flags rotation userData size).path = p := by
  unfold ImageLoaderThread.newNode
  split <;> rfl

/-- What a successful `load` puts into the queue: one request more for the entry that becomes a
key of the loading map, built from the path and the rotation of that entry, and nothing for any
other entry. -/
theorem load_enqueues (w w' : Window) (index : Int) (h : w.load index = some w') (tok : Nat) :
    (w'.requestsOf tok).length
      = (w.requestsOf tok).length + (if w.newKey w' tok = true then 1 else 0) ∧
    (w.newKey w' tok = true → ∃ d flags size, w.heap tok = some d ∧
      ImageLoaderThread.newNode d.path flags d.rotation tok size ∈ w'.imageLoaderThread ∧
      (w.test Flags.AutoZoomEnabled = false → size = QSize.invalid)) := by
  unfold Window.load at h
  cases hat : w.entryAt index with
  | none => rw [hat] at h; cases h
  | some r =>
    obtain ⟨dt, d⟩ := r
    rw [hat] at h
    simp only at h
    have hheap := (entryAt_heap w index dt d hat).2.2
    have hsame : ∀ v : Window, v = w →
        (v.requestsOf tok).length
          = (w.requestsOf tok).length + (if w.newKey v tok = true then 1 else 0) ∧
        (w.newKey v tok = true → ∃ d flags size, w.heap tok = some d ∧
          ImageLoaderThread.newNode d.path flags d.rotation tok size ∈ v.imageLoaderThread ∧
          (w.test Flags.AutoZoomEnabled = false → size = QSize.invalid)) := by
      intro v hv
      subst hv
      have hk : v.newKey v tok = false := by
        unfold Window.newKey
        cases v.loading tok <;> rfl
      rw [hk]
      exact ⟨by simp, fun hc => by cases hc⟩
    have hreq : ∀ (flags : Nat) (size : QSize), w.loading dt = none →
        (w.test Flags.AutoZoomEnabled = false → size = QSize.invalid) →
        ((w.request dt d index flags size).requestsOf tok).length
          = (w.requestsOf tok).length
            + (if w.newKey (w.request dt d index flags size) tok = true then 1 else 0) ∧
        (w.newKey (w.request dt d index flags size) tok = true → ∃ d' flags' size',
          w.heap tok = some d' ∧
          ImageLoaderThread.newNode d'.path flags' d'.rotation tok size'
            ∈ (w.request dt d index flags size).imageLoaderThread ∧
          (w.test Flags.AutoZoomEnabled = false → size' = QSize.invalid)) := by
      intro flags size hL hsz
      have hmem : ImageLoaderThread.newNode d.path flags d.rotation dt size
          ∈ (w.request dt d index flags size).imageLoaderThread := by
        rw [request_queue]
        unfold LoaderQueue.load
        split
        · exact List.mem_cons_self _ _
        · exact List.mem_append_right _ (List.mem_singleton.mpr rfl)
      by_cases htok : tok = dt
      · subst htok
        have hk : w.newKey (w.request tok d index flags size) tok = true := by
          unfold Window.newKey
          rw [hL]
          show (true && (Function.update w.loading tok (some index) tok).isSome) = true
          rw [Function.update_same]
          rfl
        rw [hk]
        refine ⟨?_, fun _ => ⟨d, flags, size, hheap, hmem, hsz⟩⟩
        unfold Window.requestsOf
        rw [request_queue]
        unfold LoaderQueue.load
        have hx : decide ((ImageLoaderThread.newNode d.path flags d.rotation tok size).userData
            = tok) = true := by
          rw [newNode_userData]; exact decide_eq_true rfl
        split
        · rw [List.filter_cons, hx]
          simp
        · rw [List.filter_append, List.filter_cons, hx]
          simp
      · have hk : w.newKey (w.request dt d index flags size) tok = false := by
          unfold Window.newKey
          show ((w.loading tok).isNone && (Function.update w.loading dt (some index) tok).isSome)
            = false
          rw [Function.update_noteq htok]
          cases w.loading tok <;> rfl
        rw [hk]
        refine ⟨?_, fun hc => by cases hc⟩
        unfold Window.requestsOf
        rw [request_queue]
        unfold LoaderQueue.load
        have hx : decide ((ImageLoaderThread.newNode d.path flags d.rotation dt size).userData
            = tok) = false := by
          rw [newNode_userData]; exact decide_eq_false (fun e => htok e.symm)
        split
        · rw [List.filter_cons, hx]
          simp
        · rw [List.filter_append, List.filter_cons, hx]
          simp
    split at h
    · cases h; exact hsame w rfl
    · rename_i hcond
      have hL : w.loading dt = none := by
        cases hl : w.loading dt with
        | none => rfl
        | some v => exact absurd (Or.inr (by rw [hl]; rfl)) hcond
      split at h
      · rename_i hz
        split at h
        · cases h; exact hsame w rfl
        · cases h
          exact hreq _ _ hL (fun hz' => by rw [hz'] at hz; cases hz)
      · split at h
        · cases h; exact hsame w rfl
        · cases h
          exact hreq _ _ hL (fun _ => rfl)

/-- Two steps that each enqueue one request for every new key do so together, when keys stay
keys and the entries stay as they are. -/
theorem enqueues_trans (w w1 w2 : Window) (hg1 : Window.Grown w w1) (hg2 : Window.Grown w1 w2)
    (hq2 : w1.imageLoaderThread.Sublist w2.imageLoaderThread) (tok : Nat)
    (h1 : (w1.requestsOf tok).length
        = (w.requestsOf tok).length + (if w.newKey w1 tok = true then 1 else 0) ∧
      (w.newKey w1 tok = true → ∃ d flags size, w.heap tok = some d ∧
        ImageLoaderThread.newNode d.path flags d.rotation tok size ∈ w1.imageLoaderThread ∧
        (w.test Flags.AutoZoomEnabled = false → size = QSize.invalid)))
    (h2 : (w2.requestsOf tok).length
        = (w1.requestsOf tok).length + (if w1.newKey w2 tok = true then 1 else 0) ∧
      (w1.newKey w2 tok = true → ∃ d flags size, w1.heap tok = some d ∧
        ImageLoaderThread.newNode d.path flags d.rotation tok size ∈ w2.imageLoaderThread ∧
        (w1.test Flags.AutoZoomEnabled = false → size = QSize.invalid))) :
    (w2.requestsOf tok).length
        = (w.requestsOf tok).length + (if w.newKey w2 tok = true then 1 else 0) ∧
      (w.newKey w2 tok = true → ∃ d flags size, w.heap tok = some d ∧
        ImageLoaderThread.newNode d.path flags d.rotation tok size ∈ w2.imageLoaderThread ∧
        (w.test Flags.AutoZoomEnabled = false → size = QSize.invalid)) := by
  have ht : w1.test Flags.AutoZoomEnabled = w.test Flags.AutoZoomEnabled :=
    test_of_kept w w1 hg1.1 _
  cases h0 : w.loading tok with
  | some v =>
    have e1 := hg1.2.2 tok v h0
    have e2 := hg2.2.2 tok v e1
    have k1 : w.newKey w1 tok = false := by unfold Window.newKey; rw [h0]; rfl
    have k2 : w1.newKey w2 tok = false := by unfold Window.newKey; rw [e1]; rfl
    have k3 : w.newKey w2 tok = false := by unfold Window.newKey; rw [h0]; rfl
    rw [k1] at h1
    rw [k2] at h2
    rw [k3]
    exact ⟨by rw [h2.1, h1.1]; simp, fun hc => by cases hc⟩
  | none =>
    cases hm : w1.loading tok with
    | some v =>
      have e2 := hg2.2.2 tok v hm
      have k1 : w.newKey w1 tok = true := by unfold Window.newKey; rw [h0, hm]; rfl
      have k2 : w1.newKey w2 tok = false := by unfold Window.newKey; rw [hm]; rfl
      have k3 : w.newKey w2 tok = true := by unfold Window.newKey; rw [h0, e2]; rfl
      rw [k1] at h1
      rw [k2] at h2
      rw [k3]
      refine ⟨by rw [h2.1, h1.1]; simp, fun _ => ?_⟩
      obtain ⟨d, flags, size, a, b, c⟩ := h1.2 rfl
      exact ⟨d, flags, size, a, hq2.subset b, c⟩
    | none =>
      have k1 : w.newKey w1 tok = false := by unfold Window.newKey; rw [h0, hm]; rfl
      have k3 : w.newKey w2 tok = w1.newKey w2 tok := by
        unfold Window.newKey; rw [h0, hm]
      rw [k1] at h1
      rw [k3]
      refine ⟨by rw [h2.1, h1.1]; simp, fun hk => ?_⟩
      obtain ⟨d, flags, size, a, b, c⟩ := h2.2 hk
      exact ⟨d, flags, size, by rw [← hg1.2.1]; exact a, b, fun hz => c (by rw [ht]; exact hz)⟩

theorem loadEach_enqueues (l : List Int) :
    ∀ (w w' : Window), Window.loadEach l w = some w' → ∀ tok : Nat,
      (w'.requestsOf tok).length
        = (w.requestsOf tok).length + (if w.newKey w' tok = true then 1 else 0) ∧
      (w.newKey w' tok = true → ∃ d flags size, w.heap tok = some d ∧
        ImageLoaderThread.newNode d.path flags d.rotation tok size ∈ w'.imageLoaderThread ∧
        (w.test Flags.AutoZoomEnabled = false → size = QSize.invalid)) := by
  induction l with
  | nil =>
    intro w w' hl tok
    simp only [Window.loadEach, Option.some.injEq] at hl
    subst hl
    have hk : w.newKey w tok = false := by
      unfold Window.newKey
      cases w.loading tok <;> rfl
    rw [hk]
    exact ⟨by simp, fun hc => by cases hc⟩
  | cons i rest ih =>
    intro w w' hl tok
    simp only [Window.loadEach] at hl
    split at hl
    · cases hload : w.load i with
      | none => rw [hload] at hl; cases hl
      | some w1 =>
        rw [hload] at hl
        simp only at hl
        exact enqueues_trans w w1 w' (grown_load w w1 i hload) (grown_loadEach rest w1 w' hl)
          (queue_sublist_loadEach rest w1 w' hl) tok (load_enqueues w w1 i hload tok)
          (ih w1 w' hl tok)
    · exact ih w w' hl tok

theorem updateImages_enqueues (w w' : Window) (hu : w.updateImages = some w') (tok : Nat) :
    (w'.requestsOf tok).length
      = (w.requestsOf tok).length + (if w.newKey w' tok = true then 1 else 0) ∧
    (w.newKey w' tok = true → ∃ d flags size, w.heap tok = some d ∧
      ImageLoaderThread.newNode d.path flags d.rotation tok size ∈ w'.imageLoaderThread ∧
      (w.test Flags.AutoZoomEnabled = false → size = QSize.invalid)) := by
  unfold Window.updateImages at hu
  split at hu
  · cases hu
    have hk : w.newKey w tok = false := by
      unfold Window.newKey
      cases w.loading tok <;> rfl
    rw [hk]
    exact ⟨by simp, fun hc => by cases hc⟩
  · cases hload : w.load w.current with
    | none => rw [hload] at hu; cases hu
    | some w1 =>
      rw [hload] at hu
      simp only at hu
      split at hu
      · cases hu; exact load_enqueues w w' w.current hload tok
      · exact enqueues_trans w w1 w' (grown_load w w1 _ hload) (grown_loadEach _ w1 w' hu)
          (queue_sublist_loadEach _ w1 w' hu) tok (load_enqueues w w1 _ hload tok)
          (loadEach_enqueues _ w1 w' hu tok)

/-- C28: on a non-empty catalog whose entries are all allocated, with the cursor on an entry,
`FirstImage` cleared and auto-zoom disabled, `updateImages` returns and afterwards every index
of `surrounding(current, count, maxImages)` or equal to `current` whose entry is neither `Failed`
nor holding an image is a key of the loading map; every key that is new belongs to such an index
(and to such an entry) and has had a request enqueued: the queue holds exactly one request more
for its entry than before, built from the path and the rotation of the entry, with an invalid
size. For every other entry the queue holds as many requests as before, and every request that
is new in the queue belongs to a new key. -/
theorem updateImages_requests (w : Window) (hA : w.Allocated) (hne : w.data ≠ [])
    (hcur : 0 ≤ w.current ∧ w.current < w.data.length)
    (hfirst : w.test Flags.FirstImage = false)
    (hzoom : w.test Flags.AutoZoomEnabled = false) :
    ∃ w', w.updateImages = some w' ∧
      (∀ i, (i = w.current ∨ i ∈ surrounding w.current w.data.length w.maxImages) →
        ∀ dt d, w.entryAt i = some (dt, d) → d.flags &&& Data.Failed = 0 → d.image = none →
          (w'.loading dt).isSome = true) ∧
      (∀ tok v, w.loading tok = none → w'.loading tok = some v →
        (v = w.current ∨ v ∈ surrounding w.current w.data.length w.maxImages) ∧
          ∃ d, w.entryAt v = some (tok, d) ∧ d.flags &&& Data.Failed = 0 ∧ d.image = none) ∧
      (∀ x ∈ w'.imageLoaderThread, x ∈ w.imageLoaderThread ∨
        (w.loading x.userData = none ∧ (w'.loading x.userData).isSome = true)) ∧
      (∀ tok, (w'.requestsOf tok).length
        = (w.requestsOf tok).length + (if w.newKey w' tok = true then 1 else 0)) ∧
      (∀ tok v, w.loading tok = none → w'.loading tok = some v →
        ∃ d flags, w.heap tok = some d ∧
          ImageLoaderThread.newNode d.path flags d.rotation tok QSize.invalid
            ∈ w'.imageLoaderThread) := by
  obtain ⟨w', hu⟩ := updateImages_some w hA (fun _ => hcur)
  refine ⟨w', hu, ?_⟩
  have henq := updateImages_enqueues w w' hu
  have hlast : ∀ tok v, w.loading tok = none → w'.loading tok = some v →
      ∃ d flags, w.heap tok = some d ∧
        ImageLoaderThread.newNode d.path flags d.rotation tok QSize.invalid
          ∈ w'.imageLoaderThread := by
    intro tok v h0 h1
    have hk : w.newKey w' tok = true := by
      unfold Window.newKey; rw [h0, h1]; rfl
    obtain ⟨d, flags, size, a, b, c⟩ := (henq tok).2 hk
    rw [c hzoom] at b
    exact ⟨d, flags, a, b⟩
  suffices hmain :
      (∀ i, (i = w.current ∨ i ∈ surrounding w.current w.data.length w.maxImages) →
        ∀ dt d, w.entryAt i = some (dt, d) → d.flags &&& Data.Failed = 0 → d.image = none →
          (w'.loading dt).isSome = true) ∧
      (∀ tok v, w.loading tok = none → w'.loading tok = some v →
        (v = w.current ∨ v ∈ surrounding w.current w.data.length w.maxImages) ∧
          ∃ d, w.entryAt v = some (tok, d) ∧ d.flags &&& Data.Failed = 0 ∧ d.image = none) ∧
      (∀ x ∈ w'.imageLoaderThread, x ∈ w.imageLoaderThread ∨
        (w.loading x.userData = none ∧ (w'.loading x.userData).isSome = true)) from
    ⟨hmain.1, hmain.2.1, hmain.2.2, fun tok => (henq tok).1, hlast⟩
  unfold Window.updateImages at hu
  have hemp : w.data.isEmpty = false := by
    cases hd : w.data with
    | nil => exact absurd hd hne
    | cons a l => rfl
  rw [hemp] at hu
  simp only [Bool.false_eq_true, if_false] at hu
  cases hload : w.load w.current with
  | none => rw [hload] at hu; cases hu
  | some w1 =>
    rw [hload] at hu
    simp only at hu
    have hg1 := grown_load w w1 w.current hload
    have hf1 : w1.test Flags.FirstImage = false := by
      rw [test_of_kept w w1 hg1.1]; exact hfirst
    have hz1 : w1.test Flags.AutoZoomEnabled = false := by
      rw [test_of_kept w w1 hg1.1]; exact hzoom
    rw [hf1] at hu
    simp only [Bool.false_eq_true, if_false] at hu
    rw [hg1.1.2.1, hg1.1.1, hg1.1.2.2.2.1] at hu
    have hg2 := grown_loadEach _ w1 w' hu
    obtain ⟨dt0, d0, hat, ha, hb, hc⟩ := load_plain_spec w w1 w.current hzoom hload
    obtain ⟨iha, ihb, ihc⟩ := loadEach_plain_spec _ w1 w' hz1 hu
    refine ⟨?_, ?_, ?_⟩
    · intro i hi dt d hat' hF hI
      by_cases hic : i = w.current
      · subst hic
        rw [hat] at hat'
        cases hat'
        have h1 := ha hF hI
        cases hv : w1.loading dt0 with
        | none => rw [hv] at h1; cases h1
        | some v => rw [hg2.2.2 dt0 v hv]; rfl
      · rcases hi with hi | hi
        · exact absurd hi hic
        · exact iha i ((mem_foreachOrder _ i).mpr hi) (by rw [hg1.1.2.1]; exact hic) dt d
            (by rw [entryAt_of_grown w w1 hg1]; exact hat') hF hI
    · intro tok v h0 h1
      cases hv : w1.loading tok with
      | none =>
        obtain ⟨hm, d', hat', hF, hI⟩ := ihb tok v hv h1
        exact ⟨Or.inr ((mem_foreachOrder _ v).mp hm), d',
          by rw [← entryAt_of_grown w w1 hg1]; exact hat', hF, hI⟩
      | some v1 =>
        have h2 := hg2.2.2 tok v1 hv
        rw [h1] at h2
        cases h2
        obtain ⟨e1, e2, hF, hI⟩ := hb tok v h0 hv
        subst e1 e2
        exact ⟨Or.inl rfl, d0, hat, hF, hI⟩
    · intro x hx
      rcases ihc x hx with h1 | ⟨h1, h2⟩
      · rcases hc x h1 with h3 | ⟨h3, h4, h5⟩
        · exact Or.inl h3
        · right
          rw [h3]
          exact ⟨h4, by rw [hg2.2.2 dt0 _ h5]; rfl⟩
      · right
        refine ⟨?_, h2⟩
        cases hv : w.loading x.userData with
        | none => rfl
        | some v => rw [hg1.2.2 _ v hv] at h1; cases h1

theorem updateImages_requests_witness :
    Window.Allocated { Window.sample with flags := Flags.ManuallySetIndex } ∧
    Window.sample.data ≠ [] ∧
    (0 ≤ Window.sample.current ∧ Window.sample.current < Window.sample.data.length) ∧
    Window.test { Window.sample with flags := Flags.ManuallySetIndex } Flags.FirstImage = false ∧
    Window.test { Window.sample with flags := Flags.ManuallySetIndex } Flags.AutoZoomEnabled
      = false ∧
    (Window.updateImages { Window.sample with flags := Flags.ManuallySetIndex }).map
        (fun w => (w.loading 100, w.imageLoaderThread.map Node.userData))
      = some (some 0, [100]) ∧
    ∃ w', Window.updateImages { Window.sample with flags := Flags.ManuallySetIndex } = some w' ∧
      (∀ i, (i = Window.sample.current ∨
          i ∈ surrounding Window.sample.current Window.sample.data.length
                Window.sample.maxImages) →
        ∀ dt d, Window.entryAt { Window.sample with flags := Flags.ManuallySetIndex } i
            = some (dt, d) →
          d.flags &&& Data.Failed = 0 → d.image = none → (w'.loading dt).isSome = true) ∧
      (∀ tok v, Window.sample.loading tok = none → w'.loading tok = some v →
        (v = Window.sample.current ∨
          v ∈ surrounding Window.sample.current Window.sample.data.length
                Window.sample.maxImages) ∧
          ∃ d, Window.entryAt { Window.sample with flags := Flags.ManuallySetIndex } v
              = some (tok, d) ∧ d.flags &&& Data.Failed = 0 ∧ d.image = none) ∧
      (∀ x ∈ w'.imageLoaderThread, x ∈ Window.sample.imageLoaderThread ∨
        (Window.sample.loading x.userData = none ∧ (w'.loading x.userData).isSome = true)) ∧
      (∀ tok, (w'.requestsOf tok).length
        = (Window.requestsOf { Window.sample with flags := Flags.ManuallySetIndex } tok).length
          + (if Window.newKey { Window.sample with flags := Flags.ManuallySetIndex } w' tok
                = true then 1 else 0)) ∧
      (∀ tok v, Window.sample.loading tok = none → w'.loading tok = some v →
        ∃ d flags, Window.sample.heap tok = some d ∧
          ImageLoaderThread.newNode d.path flags d.rotation tok QSize.invalid
            ∈ w'.imageLoaderThread) :=
  have hA : Window.Allocated { Window.sample with flags := Flags.ManuallySetIndex } := by
    unfold Window.Allocated
    decide
  ⟨hA, by decide, by decide, by decide, by decide, by decide,
    updateImages_requests { Window.sample with flags := Flags.ManuallySetIndex } hA (by decide)
      (by decide) (by decide) (by decide)⟩

/-! ### Search with wrap-around (C21) -/

theorem pathMatches_entry (w : Window) (contains : QString → QString → Bool) (text : QString)
    (index : Int) (dt : Nat) (d : Data) (hat : w.entryAt index = some (dt, d)) :
    w.pathMatches contains text index = contains (QString.fromString d.path) text := by
  unfold Window.pathMatches
  rw [hat]

/-- The loop of `indexOf` returns the first matching index from `index` on, or `-1`. -/
theorem indexOfLoop_spec (w : Window) (contains : QString → QString → Bool) (text : QString)
    (hA : w.Allocated) :
    ∀ (fuel : Nat) (index : Int), 0 ≤ index → ((w.data.length : Int) - index).toNat + 1 ≤ fuel →
      ∃ r, w.indexOfLoop contains text fuel index = some r ∧
        ((r = -1 ∧ ∀ j : Int, index ≤ j → j < w.data.length → w.pathMatches contains text j = false) ∨
         (index ≤ r ∧ r < w.data.length ∧ w.pathMatches contains text r = true ∧
            ∀ j : Int, index ≤ j → j < r → w.pathMatches contains text j = false)) := by
  intro fuel
  induction fuel with
  | zero => intro index _ hf; omega
  | succ fuel ih =>
    intro index h0 hf
    unfold Window.indexOfLoop
    by_cases hlt : index < w.data.length
    · rw [if_pos hlt]
      obtain ⟨dt, d, hat⟩ := entryAt_some w index hA h0 hlt
      rw [hat]
      simp only
      have hm := pathMatches_entry w contains text index dt d hat
      by_cases hc : contains (QString.fromString d.path) text = true
      · rw [if_pos hc]
        exact ⟨index, rfl, Or.inr ⟨le_rfl, hlt, by rw [hm]; exact hc, fun j h1 h2 => by omega⟩⟩
      · rw [if_neg hc]
        have hc' : w.pathMatches contains text index = false := by
          rw [hm]; exact Bool.eq_false_iff.mpr hc
        obtain ⟨r, hr, hcase⟩ := ih (index + 1) (by omega) (by omega)
        refine ⟨r, hr, ?_⟩
        rcases hcase with ⟨h1, h2⟩ | ⟨h1, h2, h3, h4⟩
        · left
          refine ⟨h1, fun j hj1 hj2 => ?_⟩
          by_cases hje : j = index
          · rw [hje]; exact hc'
          · exact h2 j (by omega) hj2
        · right
          refine ⟨by omega, h2, h3, fun j hj1 hj2 => ?_⟩
          by_cases hje : j = index
          · rw [hje]; exact hc'
          · exact h4 j (by omega) hj2
    · rw [if_neg hlt]
      exact ⟨-1, rfl, Or.inl ⟨rfl, fun j h1 h2 => by omega⟩⟩

/-- The loop of `lastIndexOf` returns the last matching index up to `index`, or `-1`. -/
theorem lastIndexOfLoop_spec (w : Window) (contains : QString → QString → Bool) (text : QString)
    (hA : w.Allocated) :
    ∀ (fuel : Nat) (index : Int), index < w.data.length → (index + 1).toNat + 1 ≤ fuel →
      ∃ r, w.lastIndexOfLoop contains text fuel index = some r ∧
        ((r = -1 ∧ ∀ j : Int, 0 ≤ j → j ≤ index → w.pathMatches contains text j = false) ∨
         (0 ≤ r ∧ r ≤ index ∧ w.pathMatches contains text r = true ∧
            ∀ j : Int, r < j → j ≤ index → w.pathMatches contains text j = false)) := by
  intro fuel
  induction fuel with
  | zero => intro index _ hf; omega
  | succ fuel ih =>
    intro index hlt hf
    unfold Window.lastIndexOfLoop
    by_cases h0 : index ≥ 0
    · rw [if_pos h0]
      obtain ⟨dt, d, hat⟩ := entryAt_some w index hA h0 hlt
      rw [hat]
      simp only
      have hm := pathMatches_entry w contains text index dt d hat
      by_cases hc : contains (QString.fromString d.path) text = true
      · rw [if_pos hc]
        exact ⟨index, rfl, Or.inr ⟨h0, le_rfl, by rw [hm]; exact hc, fun j h1 h2 => by omega⟩⟩
      · rw [if_neg hc]
        have hc' : w.pathMatches contains text index = false := by
          rw [hm]; exact Bool.eq_false_iff.mpr hc
        obtain ⟨r, hr, hcase⟩ := ih (index - 1) (by omega) (by omega)
        refine ⟨r, hr, ?_⟩
        rcases hcase with ⟨h1, h2⟩ | ⟨h1, h2, h3, h4⟩
        · left
          refine ⟨h1, fun j hj1 hj2 => ?_⟩
          by_cases hje : j = index
          · rw [hje]; exact hc'
          · exact h2 j hj1 (by omega)
        · right
          refine ⟨h1, by omega, h3, fun j hj1 hj2 => ?_⟩
          by_cases hje : j = index
          · rw [hje]; exact hc'
          · exact h4 j hj1 (by omega)
    · rw [if_neg h0]
      exact ⟨-1, rfl, Or.inl ⟨rfl, fun j h1 h2 => by omega⟩⟩

/-- The two calls of `indexOf` in `searchNext`: the first match in the cyclic order after the
cursor, or `-1` when nothing matches. -/
theorem searchNext_index (w : Window) (contains : QString → QString → Bool) (text : QString)
    (hA : w.Allocated) (hcur : 0 ≤ w.current ∧ w.current < w.data.length) :
    ∃ i0 i, w.indexOf contains text (w.current + 1) = some i0 ∧
      (if i0 = -1 then w.indexOf contains text 0 else some i0) = some i ∧
      ((i = -1 ∧ ∀ j : Int, 0 ≤ j → j < w.data.length → w.pathMatches contains text j = false) ∨
       (0 ≤ i ∧ i < w.data.length ∧ w.pathMatches contains text i = true ∧
          ∀ j : Int, 0 ≤ j → j < w.data.length → w.pathMatches contains text j = true →
            (i - (w.current + 1)) % w.data.length ≤ (j - (w.current + 1)) % w.data.length)) := by
  obtain ⟨i0, h0, hcase0⟩ := indexOfLoop_spec w contains text hA _ (w.current + 1) (by omega)
    le_rfl
  have hn : (0 : Int) < w.data.length := by omega
  rcases hcase0 with ⟨e0, hnone0⟩ | ⟨h1, h2, h3, h4⟩
  · obtain ⟨i, hi, hcase⟩ := indexOfLoop_spec w contains text hA _ 0 le_rfl le_rfl
    refine ⟨i0, i, h0, by rw [if_pos e0]; exact hi, ?_⟩
    rcases hcase with ⟨e, hnone⟩ | ⟨g1, g2, g3, g4⟩
    · exact Or.inl ⟨e, fun j hj1 hj2 => hnone j hj1 hj2⟩
    · right
      have hic : i ≤ w.current := by
        by_contra hgt
        have := hnone0 i (by omega) g2
        rw [this] at g3; cases g3
      refine ⟨g1, g2, g3, fun j hj1 hj2 hjm => ?_⟩
      have hjc : j ≤ w.current := by
        by_contra hgt
        have := hnone0 j (by omega) hj2
        rw [this] at hjm; cases hjm
      have hij : i ≤ j := by
        by_contra hgt
        have := g4 j hj1 (by omega)
        rw [this] at hjm; cases hjm
      rw [emod_wrap_low _ _ (by omega) (by omega), emod_wrap_low _ _ (by omega) (by omega)]
      omega
  · have hne : i0 ≠ -1 := by omega
    refine ⟨i0, i0, h0, by rw [if_neg hne], Or.inr ⟨by omega, h2, h3, fun j hj1 hj2 hjm => ?_⟩⟩
    rw [Int.emod_eq_of_lt (by omega) (by omega)]
    by_cases hjc : j ≤ w.current
    · rw [emod_wrap_low _ _ (by omega) (by omega)]
      omega
    · have hij : i0 ≤ j := by
        by_contra hgt
        have := h4 j (by omega) (by omega)
        rw [this] at hjm; cases hjm
      rw [Int.emod_eq_of_lt (by omega) (by omega)]
      omega

/-- The two calls of `lastIndexOf` in `searchPrevious`: the first match in the cyclic order
before the cursor, or `-1` when nothing matches. -/
theorem searchPrevious_index (w : Window) (contains : QString → QString → Bool) (text : QString)
    (hA : w.Allocated) (hcur : 0 ≤ w.current ∧ w.current < w.data.length) :
    ∃ i0 i, w.lastIndexOf contains text (w.current - 1) = some i0 ∧
      (if i0 = -1 then w.lastIndexOf contains text ((w.data.length : Int) - 1) else some i0)
        = some i ∧
      ((i = -1 ∧ ∀ j : Int, 0 ≤ j → j < w.data.length → w.pathMatches contains text j = false) ∨
       (0 ≤ i ∧ i < w.data.length ∧ w.pathMatches contains text i = true ∧
          ∀ j : Int, 0 ≤ j → j < w.data.length → w.pathMatches contains text j = true →
            (w.current - 1 - i) % w.data.length ≤ (w.current - 1 - j) % w.data.length)) := by
  obtain ⟨i0, h0, hcase0⟩ := lastIndexOfLoop_spec w contains text hA _ (w.current - 1)
    (by omega) le_rfl
  have hn : (0 : Int) < w.data.length := by omega
  rcases hcase0 with ⟨e0, hnone0⟩ | ⟨h1, h2, h3, h4⟩
  · obtain ⟨i, hi, hcase⟩ := lastIndexOfLoop_spec w contains text hA _
      ((w.data.length : Int) - 1) (by omega) le_rfl
    refine ⟨i0, i, h0, by rw [if_pos e0]; exact hi, ?_⟩
    rcases hcase with ⟨e, hnone⟩ | ⟨g1, g2, g3, g4⟩
    · exact Or.inl ⟨e, fun j hj1 hj2 => hnone j hj1 (by omega)⟩
    · right
      have hic : w.current ≤ i := by
        by_contra hgt
        have := hnone0 i g1 (by omega)
        rw [this] at g3; cases g3
      refine ⟨g1, by omega, g3, fun j hj1 hj2 hjm => ?_⟩
      have hjc : w.current ≤ j := by
        by_contra hgt
        have := hnone0 j hj1 (by omega)
        rw [this] at hjm; cases hjm
      have hij : j ≤ i := by
        by_contra hgt
        have := g4 j (by omega) (by omega)
        rw [this] at hjm; cases hjm
      rw [emod_wrap_low _ _ (by omega) (by omega), emod_wrap_low _ _ (by omega) (by omega)]
      omega
  · have hne : i0 ≠ -1 := by omega
    refine ⟨i0, i0, h0, by rw [if_neg hne], Or.inr ⟨h1, by omega, h3, fun j hj1 hj2 hjm => ?_⟩⟩
    rw [Int.emod_eq_of_lt (by omega) (by omega)]
    by_cases hjc : w.current ≤ j
    · rw [emod_wrap_low _ _ (by omega) (by omega)]
      omega
    · have hij : j ≤ i0 := by
        by_contra hgt
        have := h4 j (by omega) (by omega)
        rw [this] at hjm; cases hjm
      rw [Int.emod_eq_of_lt (by omega) (by omega)]
      omega

/-- On a catalog without dangling entries `setCurrentIndex` returns for a valid index and leaves
the cursor there. -/
theorem setCurrentIndex_current (w : Window) (i : Int) (hA : w.Allocated)
    (hcur : 0 ≤ w.current ∧ w.current < w.data.length) (h0 : 0 ≤ i) (h1 : i < w.data.length) :
    ∃ w', w.setCurrentIndex i = some w' ∧ w'.current = i := by
  by_cases hic : i = w.current
  · refine ⟨w, ?_, hic.symm⟩
    unfold Window.setCurrentIndex
    rw [if_pos hic]
  · obtain ⟨w', hw'⟩ := setCurrentIndex_some w i hA ⟨by omega, hcur.2⟩ (Or.inl h1)
    refine ⟨w', hw', ?_⟩
    have he := (setCurrentIndex_effect w w' i hic hw').2.2.2.1
    have hne : w.data ≠ [] := by
      intro e
      rw [e] at h1
      simp at h1
      omega
    rw [he, if_neg hne]
    exact max_eq_right h0

/-- C21: on a catalog without dangling entries, with the cursor on an entry and a non-empty
search text: when some path contains the text, `searchNext` moves the cursor to the first
matching index in the cyclic order `current + 1, ..., n - 1, 0, ..., current` and
`searchPrevious` to the first matching index in the cyclic order
`current - 1, ..., 0, n - 1, ..., current`; when no path matches, both leave the state as it
is. `contains` stands for `QString::contains(text, Qt::CaseInsensitive)`. -/
theorem search_wraps (w : Window) (contains : QString → QString → Bool) (text : QString)
    (hA : w.Allocated) (hcur : 0 ≤ w.current ∧ w.current < w.data.length)
    (htext : text ≠ []) :
    ((∃ j : Int, 0 ≤ j ∧ j < w.data.length ∧ w.pathMatches contains text j = true) →
      (∃ w', w.searchNext contains text = some (true, w') ∧
        0 ≤ w'.current ∧ w'.current < w.data.length ∧
        w.pathMatches contains text w'.current = true ∧
        ∀ j : Int, 0 ≤ j → j < w.data.length → w.pathMatches contains text j = true →
          (w'.current - (w.current + 1)) % w.data.length
            ≤ (j - (w.current + 1)) % w.data.length) ∧
      (∃ w', w.searchPrevious contains text = some (true, w') ∧
        0 ≤ w'.current ∧ w'.current < w.data.length ∧
        w.pathMatches contains text w'.current = true ∧
        ∀ j : Int, 0 ≤ j → j < w.data.length → w.pathMatches contains text j = true →
          (w.current - 1 - w'.current) % w.data.length
            ≤ (w.current - 1 - j) % w.data.length)) ∧
    ((∀ j : Int, 0 ≤ j → j < w.data.length → w.pathMatches contains text j = false) →
      w.searchNext contains text = some (true, w) ∧
      w.searchPrevious contains text = some (true, w)) := by
  have hemp : text.isEmpty = false := by
    cases text with
    | nil => exact absurd rfl htext
    | cons a l => rfl
  obtain ⟨n0, ni, hn0, hni, hncase⟩ := searchNext_index w contains text hA hcur
  obtain ⟨p0, pi, hp0, hpi, hpcase⟩ := searchPrevious_index w contains text hA hcur
  have hnext : w.searchNext contains text
      = if ni ≠ -1 then (w.setCurrentIndex ni).map fun w1 => (true, w1) else some (true, w) := by
    unfold Window.searchNext
    rw [hemp]
    simp only [Bool.false_eq_true, if_false, hn0, hni]
  have hprev : w.searchPrevious contains text
      = if pi ≠ -1 then (w.setCurrentIndex pi).map fun w1 => (true, w1) else some (true, w) := by
    unfold Window.searchPrevious
    rw [hemp]
    simp only [Bool.false_eq_true, if_false, hp0, hpi]
  constructor
  · rintro ⟨j, hj0, hj1, hjm⟩
    constructor
    · rcases hncase with ⟨_, hnone⟩ | ⟨g1, g2, g3, g4⟩
      · have := hnone j hj0 hj1
        rw [this] at hjm; cases hjm
      · obtain ⟨w', hw', hc⟩ := setCurrentIndex_current w ni hA hcur g1 g2
        refine ⟨w', ?_, ?_⟩
        · rw [hnext, if_pos (by omega), hw']; rfl
        · rw [hc]; exact ⟨g1, g2, g3, g4⟩
    · rcases hpcase with ⟨_, hnone⟩ | ⟨g1, g2, g3, g4⟩
      · have := hnone j hj0 hj1
        rw [this] at hjm; cases hjm
      · obtain ⟨w', hw', hc⟩ := setCurrentIndex_current w pi hA hcur g1 g2
        refine ⟨w', ?_, ?_⟩
        · rw [hprev, if_pos (by omega), hw']; rfl
        · rw [hc]; exact ⟨g1, g2, g3, g4⟩
  · intro hnone
    constructor
    · rcases hncase with ⟨e, _⟩ | ⟨g1, g2, g3, _⟩
      · rw [hnext, if_neg (by rw [e]; exact fun h => h rfl)]
      · have := hnone ni g1 g2
        rw [this] at g3; cases g3
    · rcases hpcase with ⟨e, _⟩ | ⟨g1, g2, g3, _⟩
      · rw [hprev, if_neg (by rw [e]; exact fun h => h rfl)]
      · have := hnone pi g1 g2
        rw [this] at g3; cases g3

theorem search_wraps_witness :
    (Window.searchSample 3).Allocated ∧
    (0 ≤ (Window.searchSample 3).current ∧
      (Window.searchSample 3).current < (Window.searchSample 3).data.length) ∧
    QString.fromString "beach" ≠ [] ∧
    (((Window.searchSample 3).searchNext containsAscii (QString.fromString "beach")).map
        (fun r => (r.1, r.2.current)) = some (true, 1) ∧
      ((Window.searchSample 0).searchPrevious containsAscii (QString.fromString "beach")).map
        (fun r => (r.1, r.2.current)) = some (true, 1)) ∧
    (((∃ j : Int, 0 ≤ j ∧ j < (Window.searchSample 3).data.length ∧
        (Window.searchSample 3).pathMatches containsAscii (QString.fromString "beach") j
          = true) →
      (∃ w', (Window.searchSample 3).searchNext containsAscii (QString.fromString "beach")
          = some (true, w') ∧
        0 ≤ w'.current ∧ w'.current < (Window.searchSample 3).data.length ∧
        (Window.searchSample 3).pathMatches containsAscii (QString.fromString "beach")
          w'.current = true ∧
        ∀ j : Int, 0 ≤ j → j < (Window.searchSample 3).data.length →
          (Window.searchSample 3).pathMatches containsAscii (QString.fromString "beach") j
            = true →
          (w'.current - ((Window.searchSample 3).current + 1))
              % (Window.searchSample 3).data.length
            ≤ (j - ((Window.searchSample 3).current + 1))
              % (Window.searchSample 3).data.length) ∧
      (∃ w', (Window.searchSample 3).searchPrevious containsAscii (QString.fromString "beach")
          = some (true, w') ∧
        0 ≤ w'.current ∧ w'.current < (Window.searchSample 3).data.length ∧
        (Window.searchSample 3).pathMatches containsAscii (QString.fromString "beach")
          w'.current = true ∧
        ∀ j : Int, 0 ≤ j → j < (Window.searchSample 3).data.length →
          (Window.searchSample 3).pathMatches containsAscii (QString.fromString "beach") j
            = true →
          ((Window.searchSample 3).current - 1 - w'.current)
              % (Window.searchSample 3).data.length
            ≤ ((Window.searchSample 3).current - 1 - j)
              % (Window.searchSample 3).data.length)) ∧
    ((∀ j : Int, 0 ≤ j → j < (Window.searchSample 3).data.length →
        (Window.searchSample 3).pathMatches containsAscii (QString.fromString "beach") j
          = false) →
      (Window.searchSample 3).searchNext containsAscii (QString.fromString "beach")
        = some (true, Window.searchSample 3) ∧
      (Window.searchSample 3).searchPrevious containsAscii (QString.fromString "beach")
        = some (true, Window.searchSample 3))) :=
  have hA : (Window.searchSample 3).Allocated := by
    unfold Window.Allocated
    decide
  ⟨hA, by decide, by decide, by decide,
    search_wraps (Window.searchSample 3) containsAscii (QString.fromString "beach") hA
      (by decide) (by decide)⟩

/-! ### The index buffer (C22) -/

theorem toInt_digits (b : QString) (hd : ∀ c ∈ b, isNumber c = true)
    (hfit : decimal b ≤ 2147483647) : (QString.toInt b).1 = (decimal b : Int) := by
  unfold QString.toInt
  by_cases hrun : isDigitRun b = true
  · rw [if_pos ⟨hrun, hfit⟩]
  · rw [if_neg (fun h => hrun h.1)]
    cases b with
    | nil => rfl
    | cons c rest =>
      exfalso
      apply hrun
      unfold isDigitRun
      simp only [List.isEmpty_cons, Bool.not_false, Bool.true_and, List.all_eq_true]
      exact hd

theorem decimal_drop_le (b : QString) : decimal (b.drop 1) ≤ decimal b := by
  cases b with
  | nil => exact le_rfl
  | cons c rest =>
    have h := decimal_append [c] rest
    simp only [List.singleton_append] at h
    rw [h]
    simp only [List.drop_succ_cons, List.drop_zero]
    exact Nat.le_add_left _ _

/-- The loop of the digit keys returns, with a buffer that is an end piece of the one it was
given and whose value does not exceed the catalog size. -/
theorem indexBufferLoop_spec (size : Int) (hsize : 0 ≤ size) :
    ∀ (fuel : Nat) (b : QString), b.length + 1 ≤ fuel → (∀ c ∈ b, isNumber c = true) →
      decimal b ≤ 2147483647 →
      ∃ b', indexBufferLoop size fuel b = some b' ∧ (∀ c ∈ b', isNumber c = true) ∧
        (decimal b' : Int) ≤ size ∧ b' <:+ b := by
  intro fuel
  induction fuel with
  | zero => intro b hf; omega
  | succ fuel ih =>
    intro b hf hd hfit
    unfold indexBufferLoop
    simp only
    rw [toInt_digits b hd hfit]
    by_cases hge : (decimal b : Int) - 1 ≥ size
    · rw [if_pos hge]
      have hne : b ≠ [] := by
        intro e
        rw [e] at hge
        simp [decimal] at hge
        omega
      have hlen : (b.drop 1).length + 1 ≤ fuel := by
        cases b with
        | nil => exact absurd rfl hne
        | cons c rest =>
          simp only [List.drop_succ_cons, List.drop_zero]
          simp only [List.length_cons] at hf
          omega
      obtain ⟨b', h1, h2, h3, h4⟩ := ih (b.drop 1) hlen
        (fun c hc => hd c (List.mem_of_mem_drop hc))
        (le_trans (decimal_drop_le b) hfit)
      exact ⟨b', h1, h2, h3, h4.trans (List.drop_suffix 1 b)⟩
    · rw [if_neg hge]
      exact ⟨b, rfl, hd, by omega, List.suffix_refl b⟩

/-- One digit key on a buffer of digits whose value does not exceed the catalog size. -/
theorem keyPressDigit_spec (w : Window) (s : IndexInput) (c : Nat) (hne : w.data ≠ [])
    (hsize : (w.data.length : Int) * 10 + 9 ≤ 2147483647) (hc : isNumber c = true)
    (hd : ∀ x ∈ s.indexBuffer, isNumber x = true)
    (hv : decimal s.indexBuffer ≤ w.data.length) :
    ∃ s', w.keyPressDigit s [c] = some s' ∧ (∀ x ∈ s'.indexBuffer, isNumber x = true) ∧
      decimal s'.indexBuffer ≤ w.data.length ∧ s'.indexBuffer <:+ s.indexBuffer ++ [c] := by
  have hemp : w.data.isEmpty = false := by
    cases hdata : w.data with
    | nil => exact absurd hdata hne
    | cons a l => rfl
  have hc9 : c - 0x30 ≤ 9 := by
    unfold isNumber at hc
    simp only [decide_eq_true_eq] at hc
    omega
  have hval : decimal (s.indexBuffer ++ [c]) ≤ 2147483647 := by
    rw [decimal_append]
    have h1 : decimal [c] = c - 0x30 := by simp [decimal]
    rw [h1]
    simp only [List.length_singleton, pow_one]
    have : (decimal s.indexBuffer : Int) * 10 + 9 ≤ 2147483647 := by
      have hv' : (decimal s.indexBuffer : Int) ≤ w.data.length := by exact_mod_cast hv
      omega
    omega
  have hd' : ∀ x ∈ s.indexBuffer ++ [c], isNumber x = true := by
    intro x hx
    rcases List.mem_append.mp hx with h | h
    · exact hd x h
    · rw [List.mem_singleton] at h; rw [h]; exact hc
  obtain ⟨b', h1, h2, h3, h4⟩ := indexBufferLoop_spec w.data.length (by omega)
    ((s.indexBuffer ++ [c]).length + 1) (s.indexBuffer ++ [c]) le_rfl hd' hval
  refine ⟨⟨b', true, !b'.isEmpty || s.indexBufferClearTimer⟩, ?_, h2, by exact_mod_cast h3, h4⟩
  unfold Window.keyPressDigit
  rw [hemp]
  simp only [Bool.false_eq_true, List.isEmpty_cons, or_self, if_false, h1]

theorem keyPressDigits_spec (w : Window) (hne : w.data ≠ [])
    (hsize : (w.data.length : Int) * 10 + 9 ≤ 2147483647) (keys : List QString) :
    ∀ s : IndexInput, (∀ k ∈ keys, ∃ c, k = [c] ∧ isNumber c = true) →
      (∀ x ∈ s.indexBuffer, isNumber x = true) → decimal s.indexBuffer ≤ w.data.length →
      ∃ s', w.keyPressDigits s keys = some s' ∧ (∀ x ∈ s'.indexBuffer, isNumber x = true) ∧
        decimal s'.indexBuffer ≤ w.data.length := by
  induction keys with
  | nil => intro s _ hd hv; exact ⟨s, rfl, hd, hv⟩
  | cons k rest ih =>
    intro s hkeys hd hv
    obtain ⟨c, rfl, hc⟩ := hkeys k (List.mem_cons_self _ _)
    obtain ⟨s1, h1, hd1, hv1, _⟩ := keyPressDigit_spec w s c hne hsize hc hd hv
    obtain ⟨s', h2, hd2, hv2⟩ := ih s1 (fun k hk => hkeys k (List.mem_cons_of_mem _ hk)) hd1 hv1
    refine ⟨s', ?_, hd2, hv2⟩
    simp only [Window.keyPressDigits, h1]
    exact h2

theorem replicate_isEmpty (n a : Nat) (hn : 0 < n) : (List.replicate n a).isEmpty = false := by
  cases n with
  | zero => omega
  | succ m => rfl

/-- The digit keys on a non-empty catalog, as a function of the buffer. -/
theorem keyPressDigit_eq (w : Window) (s : IndexInput) (text : QString)
    (hdata : w.data.isEmpty = false) (htext : text.isEmpty = false) :
    w.keyPressDigit s text
      = (indexBufferLoop w.data.length ((s.indexBuffer ++ text).length + 1)
          (s.indexBuffer ++ text)).map
        fun b => ⟨b, true, !b.isEmpty || s.indexBufferClearTimer⟩ := by
  unfold Window.keyPressDigit
  rw [hdata, htext]
  simp only [Bool.false_eq_true, or_self, if_false]
  cases indexBufferLoop w.data.length ((s.indexBuffer ++ text).length + 1)
    (s.indexBuffer ++ text) <;> rfl

/-- C22 (as stated, refuted): on the catalog of three entries the key `0` alone leaves the
buffer `0`, which is not empty and whose value is not at least 1. And on a catalog of
300000000 entries the key `0` after the buffer `300000000` leaves the buffer `3000000000`:
`toInt` cannot convert it, so the loop takes it for `0` and keeps it, above the catalog size. -/
theorem index_buffer_zero :
    ¬ (∀ s', Window.sample.keyPressDigits Window.noInput [QString.fromString "0"] = some s' →
        s'.indexBuffer = [] ∨
          (1 ≤ decimal s'.indexBuffer ∧ decimal s'.indexBuffer ≤ Window.sample.data.length)) ∧
    (Window.keyPressDigit { Window.init with data := List.replicate 300000000 100 }
        ⟨QString.fromString "300000000", true, true⟩ (QString.fromString "0")).map
      (fun s => (s.indexBuffer, decide (decimal s.indexBuffer ≤ 300000000)))
      = some (QString.fromString "3000000000", false) := by
  constructor
  · intro h
    have h1 := h ⟨QString.fromString "0", true, true⟩ (by decide)
    revert h1
    decide
  · rw [keyPressDigit_eq { Window.init with data := List.replicate 300000000 100 }
      ⟨QString.fromString "300000000", true, true⟩ (QString.fromString "0")
      (replicate_isEmpty 300000000 100 (by norm_num)) (by decide)]
    simp only [List.length_replicate]
    decide

/-- C22 (amended): on a non-empty catalog of `n` entries, `10 * n + 9` within the range of `int`,
every sequence of digit keys typed into the empty buffer is handled and leaves a buffer of
digits (possibly empty) whose decimal value `v` satisfies `0 ≤ v ≤ n`; when `v = 0` the handler
of the index timer leaves the window as it is. -/
theorem index_buffer_bound (w : Window) (keys : List QString) (hne : w.data ≠ [])
    (hsize : (w.data.length : Int) * 10 + 9 ≤ 2147483647)
    (hkeys : ∀ k ∈ keys, ∃ c, k = [c] ∧ isNumber c = true) :
    ∃ s', w.keyPressDigits Window.noInput keys = some s' ∧
      (∀ x ∈ s'.indexBuffer, isNumber x = true) ∧
      decimal s'.indexBuffer ≤ w.data.length ∧
      (decimal s'.indexBuffer = 0 →
        w.indexBufferTimeout s' = some (w, { s' with indexBufferTimer := false })) := by
  obtain ⟨s', h1, hd, hv⟩ := keyPressDigits_spec w hne hsize keys Window.noInput hkeys
    (fun x hx => absurd hx (List.not_mem_nil x)) (Nat.zero_le _)
  refine ⟨s', h1, hd, hv, ?_⟩
  intro h0
  have hr : (QString.toUInt s'.indexBuffer).1 = 0 := by
    unfold QString.toUInt
    split
    · simp only [h0]; rfl
    · rfl
  unfold Window.indexBufferTimeout
  simp only [hr]
  rw [if_neg]
  intro hc
  have : wrapInt (0 - 1) = -1 := by decide
  rw [this] at hc
  omega

theorem index_buffer_bound_witness :
    Window.sample.data ≠ [] ∧
    (Window.sample.data.length : Int) * 10 + 9 ≤ 2147483647 ∧
    (∀ k ∈ [QString.fromString "0", QString.fromString "2", QString.fromString "3"],
      ∃ c, k = [c] ∧ isNumber c = true) ∧
    ∃ s', Window.sample.keyPressDigits Window.noInput
        [QString.fromString "0", QString.fromString "2", QString.fromString "3"] = some s' ∧
      (∀ x ∈ s'.indexBuffer, isNumber x = true) ∧
      decimal s'.indexBuffer ≤ Window.sample.data.length ∧
      (decimal s'.indexBuffer = 0 →
        Window.sample.indexBufferTimeout s'
          = some (Window.sample, { s' with indexBufferTimer := false })) :=
  have hk : ∀ k ∈ [QString.fromString "0", QString.fromString "2", QString.fromString "3"],
      ∃ c, k = [c] ∧ isNumber c = true := by
    intro k hk
    simp only [List.mem_cons, List.mem_singleton, List.not_mem_nil, or_false] at hk
    rcases hk with rfl | rfl | rfl
    · exact ⟨0x30, by decide, by decide⟩
    · exact ⟨0x32, by decide, by decide⟩
    · exact ⟨0x33, by decide, by decide⟩
  ⟨by decide, by decide, hk,
    index_buffer_bound Window.sample
      [QString.fromString "0", QString.fromString "2", QString.fromString "3"] (by decide)
      (by decide) hk⟩

/-! ### The rotation keys (C26) -/

theorem entryAt_update (w : Window) (i : Int) (dt : Nat) (d d' : Data)
    (hat : w.entryAt i = some (dt, d)) :
    Window.entryAt { w with heap := Function.update w.heap dt (some d') } i = some (dt, d') := by
  obtain ⟨h0, hget, _⟩ := entryAt_heap w i dt d hat
  unfold Window.entryAt
  rw [if_neg (by omega)]
  simp only [hget, Function.update_same, Option.map_some']

/-- What `rotateLeft` does to the entry under the cursor. -/
theorem rotateLeft_entry (w : Window) (dt : Nat) (d : Data) (hcur : w.current ≠ -1)
    (hat : w.entryAt w.current = some (dt, d)) :
    ∃ w' d', w.rotateLeft = some w' ∧ w'.entryAt w'.current = some (dt, d') ∧
      w'.current = w.current ∧ w'.data = w.data ∧
      d'.rotation = (if d.rotation = 0 then 270 else d.rotation - 90) := by
  unfold Window.rotateLeft
  rw [if_pos hcur, hat]
  simp only
  refine ⟨_, _, rfl, entryAt_update w w.current dt d _ hat, rfl, rfl, ?_⟩
  split <;> split <;> rfl

/-- What `rotateRight` does to the entry under the cursor. -/
theorem rotateRight_entry (w : Window) (dt : Nat) (d : Data) (hcur : w.current ≠ -1)
    (hat : w.entryAt w.current = some (dt, d)) :
    ∃ w' d', w.rotateRight = some w' ∧ w'.entryAt w'.current = some (dt, d') ∧
      w'.current = w.current ∧ w'.data = w.data ∧
      d'.rotation = (if d.rotation = 270 then 0 else d.rotation + 90) := by
  unfold Window.rotateRight
  rw [if_pos hcur, hat]
  simp only
  refine ⟨_, _, rfl, entryAt_update w w.current dt d _ hat, rfl, rfl, ?_⟩
  split <;> split <;> rfl

/-- C26: for the entry under the cursor, with a rotation among 0, 90, 180 and 270, `rotateLeft`
and `rotateRight` return and leave a rotation among these four values; `rotateRight` after
`rotateLeft` and `rotateLeft` after `rotateRight` restore the rotation, and so do four
`rotateRight` in a row. -/
theorem rotate_inverse (w : Window) (dt : Nat) (d : Data) (hcur : w.current ≠ -1)
    (hat : w.entryAt w.current = some (dt, d))
    (hrot : d.rotation = 0 ∨ d.rotation = 90 ∨ d.rotation = 180 ∨ d.rotation = 270) :
    (∃ wl r, w.rotateLeft = some wl ∧ wl.rotationOf dt = some r ∧
      (r = 0 ∨ r = 90 ∨ r = 180 ∨ r = 270) ∧
      ∃ w2, wl.rotateRight = some w2 ∧ w2.rotationOf dt = some d.rotation) ∧
    (∃ wr r, w.rotateRight = some wr ∧ wr.rotationOf dt = some r ∧
      (r = 0 ∨ r = 90 ∨ r = 180 ∨ r = 270) ∧
      ∃ w2, wr.rotateLeft = some w2 ∧ w2.rotationOf dt = some d.rotation) ∧
    (∃ w4, (((w.rotateRight.bind Window.rotateRight).bind Window.rotateRight).bind
        Window.rotateRight) = some w4 ∧ w4.rotationOf dt = some d.rotation) := by
  have hrotOf : ∀ (v : Window) (e : Data), v.entryAt v.current = some (dt, e) →
      v.rotationOf dt = some e.rotation := by
    intro v e he
    unfold Window.rotationOf
    rw [(entryAt_heap v v.current dt e he).2.2]
    rfl
  refine ⟨?_, ?_, ?_⟩
  · obtain ⟨wl, dl, h1, h2, h3, _, h5⟩ := rotateLeft_entry w dt d hcur hat
    obtain ⟨w2, d2, g1, g2, _, _, g5⟩ := rotateRight_entry wl dt dl (by rw [h3]; exact hcur) h2
    refine ⟨wl, dl.rotation, h1, hrotOf wl dl h2, ?_, w2, g1, ?_⟩
    · rw [h5]; rcases hrot with h | h | h | h <;> rw [h] <;> decide
    · rw [hrotOf w2 d2 g2, g5, h5]
      rcases hrot with h | h | h | h <;> rw [h] <;> decide
  · obtain ⟨wr, dr, h1, h2, h3, _, h5⟩ := rotateRight_entry w dt d hcur hat
    obtain ⟨w2, d2, g1, g2, _, _, g5⟩ := rotateLeft_entry wr dt dr (by rw [h3]; exact hcur) h2
    refine ⟨wr, dr.rotation, h1, hrotOf wr dr h2, ?_, w2, g1, ?_⟩
    · rw [h5]; rcases hrot with h | h | h | h <;> rw [h] <;> decide
    · rw [hrotOf w2 d2 g2, g5, h5]
      rcases hrot with h | h | h | h <;> rw [h] <;> decide
  · obtain ⟨w1, d1, h1, h2, h3, _, h5⟩ := rotateRight_entry w dt d hcur hat
    obtain ⟨w2, d2, g1, g2, g3, _, g5⟩ := rotateRight_entry w1 dt d1 (by rw [h3]; exact hcur) h2
    obtain ⟨w3, d3, k1, k2, k3, _, k5⟩ :=
      rotateRight_entry w2 dt d2 (by rw [g3, h3]; exact hcur) g2
    obtain ⟨w4, d4, m1, m2, _, _, m5⟩ :=
      rotateRight_entry w3 dt d3 (by rw [k3, g3, h3]; exact hcur) k2
    refine ⟨w4, ?_, ?_⟩
    · rw [h1, Option.some_bind, g1, Option.some_bind, k1, Option.some_bind, m1]
    · rw [hrotOf w4 d4 m2, m5, k5, g5, h5]
      rcases hrot with h | h | h | h <;> rw [h] <;> decide

theorem rotate_inverse_witness :
    Window.sample.current ≠ -1 ∧
    Window.sample.entryAt Window.sample.current = some (100, Data.create "a.jpg") ∧
    ((Data.create "a.jpg").rotation = 0 ∨ (Data.create "a.jpg").rotation = 90 ∨
      (Data.create "a.jpg").rotation = 180 ∨ (Data.create "a.jpg").rotation = 270) ∧
    ((∃ wl r, Window.sample.rotateLeft = some wl ∧ wl.rotationOf 100 = some r ∧
      (r = 0 ∨ r = 90 ∨ r = 180 ∨ r = 270) ∧
      ∃ w2, wl.rotateRight = some w2 ∧
        w2.rotationOf 100 = some (Data.create "a.jpg").rotation) ∧
    (∃ wr r, Window.sample.rotateRight = some wr ∧ wr.rotationOf 100 = some r ∧
      (r = 0 ∨ r = 90 ∨ r = 180 ∨ r = 270) ∧
      ∃ w2, wr.rotateLeft = some w2 ∧
        w2.rotationOf 100 = some (Data.create "a.jpg").rotation) ∧
    (∃ w4, (((Window.sample.rotateRight.bind Window.rotateRight).bind Window.rotateRight).bind
        Window.rotateRight) = some w4 ∧
      w4.rotationOf 100 = some (Data.create "a.jpg").rotation)) :=
  ⟨by decide, by decide, by decide,
    rotate_inverse Window.sample 100 (Data.create "a.jpg") (by decide) (by decide) (by decide)⟩

/-! ### `--ignore` and `--iignore` (C27) -/

/-- C27 (the code differs): the row of `--ignore` is documented as case sensitive, yet
`parseArgs` installs the pattern of `--ignore` as case insensitive; `--iignore`, whose row
carries the type `Ignore` as well, is installed as case insensitive, as documented. The sibling
options behave as documented: `--name` is installed as case sensitive and `--iname` as case
insensitive. -/
theorem ignore_option_case :
    (findOption "--ignore" options).map (fun row => row.description)
      = some (some "Don't load files matching arg in directories (case sensitive)") ∧
    (parseFilterOption Filters.init "--ignore" "*.PNG").map (fun f => f.ignoreRegexp)
      = some ⟨"*.PNG", CaseSensitivity.CaseInsensitive⟩ ∧
    (parseFilterOption Filters.init "--iignore" "*.PNG").map (fun f => f.ignoreRegexp)
      = some ⟨"*.PNG", CaseSensitivity.CaseInsensitive⟩ ∧
    (parseFilterOption Filters.init "--name" "*.PNG").map (fun f => f.regexp)
      = some ⟨"*.PNG", CaseSensitivity.CaseSensitive⟩ ∧
    (parseFilterOption Filters.init "--iname" "*.PNG").map (fun f => f.regexp)
      = some ⟨"*.PNG", CaseSensitivity.CaseInsensitive⟩ := by
  decide

/-! ### Entries from the network are not evicted (C25) -/

theorem networkKept_refl (w : Window) : Window.NetworkKept w w :=
  fun _ _ hd _ => ⟨hd, fun _ h => h, List.Sublist.refl _⟩

theorem networkKept_trans (w w1 w2 : Window) (h1 : Window.NetworkKept w w1)
    (h2 : Window.NetworkKept w1 w2) : Window.NetworkKept w w2 := by
  intro dt d hd hnet
  obtain ⟨a1, b1, c1⟩ := h1 dt d hd hnet
  obtain ⟨a2, b2, c2⟩ := h2 dt d a1 hnet
  exact ⟨a2, fun v hv => b2 v (b1 v hv), c1.trans c2⟩

theorem networkKept_of_grown (w w' : Window) (hg : Window.Grown w w')
    (hq : w.imageLoaderThread.Sublist w'.imageLoaderThread) : Window.NetworkKept w w' := by
  intro dt d hd _
  refine ⟨by rw [hg.2.1]; exact hd, fun v hv => hg.2.2 dt v hv, hq.filter _⟩

theorem filter_remove_other (q : LoaderQueue) (tok dt : Nat) (hne : tok ≠ dt) :
    (LoaderQueue.remove q tok).filter (fun x => decide (x.userData = dt))
      = q.filter (fun x => decide (x.userData = dt)) := by
  induction q with
  | nil => rfl
  | cons x rest ih =>
    unfold LoaderQueue.remove
    split
    · rename_i hx
      have : decide (x.userData = dt) = false := by
        rw [decide_eq_false_iff_not, hx]; exact hne
      rw [List.filter_cons, this]
      simp
    · rw [List.filter_cons, List.filter_cons, ih]

theorem networkKept_evict (w w' : Window) (r : Int) (hev : w.evict r = some w') :
    Window.NetworkKept w w' := by
  unfold Window.evict at hev
  cases hat : w.entryAt r with
  | none => rw [hat] at hev; cases hev
  | some e =>
    obtain ⟨dt0, d0⟩ := e
    rw [hat] at hev
    simp only at hev
    split at hev
    · rename_i hflag
      cases hev
      intro dt d hd hnet
      have hne : dt0 ≠ dt := by
        intro e
        have h0 := (entryAt_heap w r dt0 d0 hat).2.2
        rw [e, hd] at h0
        cases h0
        exact hnet hflag
      have hne' : dt ≠ dt0 := fun e => hne e.symm
      refine ⟨?_, ?_, ?_⟩
      · show Function.update w.heap dt0 (some d0.clear.2) dt = some d
        rw [Function.update_noteq hne']; exact hd
      · intro v hv
        show Function.update w.loading dt0 none dt = some v
        rw [Function.update_noteq hne']; exact hv
      · show (w.imageLoaderThread.filter fun x => decide (x.userData = dt)).Sublist
          ((LoaderQueue.remove w.imageLoaderThread dt0).filter fun x => decide (x.userData = dt))
        rw [filter_remove_other _ dt0 dt hne]
    · cases hev; exact networkKept_refl w

theorem networkKept_evictEach (index : Int) (surr : Finset Int) (l : List Int) :
    ∀ (w w' : Window), Window.evictEach index surr l w = some w' → Window.NetworkKept w w' := by
  induction l with
  | nil =>
    intro w w' hl
    simp only [Window.evictEach, Option.some.injEq] at hl
    subst hl; exact networkKept_refl w
  | cons r rest ih =>
    intro w w' hl
    simp only [Window.evictEach] at hl
    split at hl
    · cases hev : w.evict r with
      | none => rw [hev] at hl; cases hl
      | some w1 =>
        rw [hev] at hl
        exact networkKept_trans w w1 w' (networkKept_evict w w1 r hev) (ih w1 w' hl)
    · exact ih w w' hl

theorem networkKept_updateImages (w w' : Window) (hu : w.updateImages = some w') :
    Window.NetworkKept w w' :=
  networkKept_of_grown w w' (grown_updateImages w w' hu) (queue_sublist_updateImages w w' hu)

theorem networkKept_setCurrentIndex (w w' : Window) (index : Int)
    (h : w.setCurrentIndex index = some w') : Window.NetworkKept w w' := by
  unfold Window.setCurrentIndex at h
  split at h
  · cases h; exact networkKept_refl w
  · simp only at h
    split at h
    · cases h
      intro dt d hd _
      exact ⟨hd, fun _ hv => hv, List.Sublist.refl _⟩
    · cases hev : Window.evictEach (max 0 index)
          (surrounding (max 0 index) w.data.length w.maxImages)
          (foreachOrder (surrounding w.current w.data.length w.maxImages))
          { w with history := trimHistory (index :: w.history).length (index :: w.history),
                   flags := Flags.set w.flags Flags.ManuallySetIndex
                              (decide (w.data.length > 1)),
                   current := max 0 index } with
      | none => rw [hev] at h; cases h
      | some w1 =>
        rw [hev] at h
        have h1 := networkKept_evictEach _ _ _ _ w1 hev
        have h2 := networkKept_updateImages w1 w' h
        have h3 := networkKept_trans _ w1 w' h1 h2
        intro dt d hd hnet
        exact h3 dt d hd hnet

theorem clearEach_network (l : List Nat) :
    ∀ (w w' : Window), Window.clearEach l w = some w' →
      ∀ dt d, w.heap dt = some d → d.flags &&& Data.Network ≠ 0 → w'.heap dt = some d := by
  induction l with
  | nil =>
    intro w w' hl dt d hd _
    simp only [Window.clearEach, Option.some.injEq] at hl
    subst hl; exact hd
  | cons dt0 rest ih =>
    intro w w' hl dt d hd hnet
    simp only [Window.clearEach] at hl
    cases h0 : w.heap dt0 with
    | none => rw [h0] at hl; cases hl
    | some d0 =>
      rw [h0] at hl
      simp only at hl
      split at hl
      · rename_i hflag
        refine ih _ w' hl dt d ?_ hnet
        have hne : dt ≠ dt0 := by
          intro e
          rw [e, h0] at hd
          cases hd
          exact hnet hflag
        show Function.update w.heap dt0 (some d0.clear.2) dt = some d
        rw [Function.update_noteq hne]; exact hd
      · exact ih w w' hl dt d hd hnet

/-- The loop of `clearImages` returns when no entry it visits dangles; it leaves the catalog
and the cursor as they are and deletes no entry. -/
theorem clearEach_some (l : List Nat) :
    ∀ w : Window, (∀ dt ∈ l, (w.heap dt).isSome = true) →
      ∃ w', Window.clearEach l w = some w' ∧ w'.data = w.data ∧ w'.current = w.current ∧
        ∀ dt, (w.heap dt).isSome = true → (w'.heap dt).isSome = true := by
  induction l with
  | nil => intro w _; exact ⟨w, rfl, rfl, rfl, fun _ h => h⟩
  | cons dt0 rest ih =>
    intro w hl
    simp only [Window.clearEach]
    cases h0 : w.heap dt0 with
    | none =>
      have := hl dt0 (List.mem_cons_self _ _)
      rw [h0] at this; cases this
    | some d0 =>
      simp only
      split
      · have hkeep : ∀ dt, (w.heap dt).isSome = true →
            (Function.update w.heap dt0 (some d0.clear.2) dt).isSome = true := by
          intro dt hdt
          by_cases e : dt = dt0
          · rw [e, Function.update_same]; rfl
          · rw [Function.update_noteq e]; exact hdt
        obtain ⟨w', h1, h2, h3, h4⟩ :=
          ih { w with heap := Function.update w.heap dt0 (some d0.clear.2) }
            (fun dt hdt => hkeep dt (hl dt (List.mem_cons_of_mem _ hdt)))
        exact ⟨w', h1, h2, h3, fun dt hdt => h4 dt (hkeep dt hdt)⟩
      · exact ih w (fun dt hdt => hl dt (List.mem_cons_of_mem _ hdt))

theorem clearImages_some (w : Window) (hA : w.Allocated)
    (hcur : w.data ≠ [] → 0 ≤ w.current ∧ w.current < w.data.length) :
    ∃ w', w.clearImages = some w' := by
  obtain ⟨w1, h1, h2, h3, h4⟩ := clearEach_some w.data { w with imageLoaderThread := [] } hA
  unfold Window.clearImages
  rw [h1]
  simp only
  apply updateImages_some
  · intro dt hdt
    exact h4 dt (hA dt (by rw [h2] at hdt; exact hdt))
  · intro hne
    have := hcur (by rw [h2] at hne; exact hne)
    rw [h2, h3]
    exact this

/-- C25: for an entry carrying the `Network` flag, every call of `setCurrentIndex` that returns
leaves the entry as it is (its image included), keeps its value in the loading map and keeps
its requests in the queue; every call of `clearImages` that returns leaves the entry, and so
its image, as it is. Both calls return when no entry of the catalog dangles, the cursor is on
an entry (or the catalog is empty) and the target index is below the catalog size. -/
theorem network_entries_stay (w : Window) (dt : Nat) (d : Data) (hd : w.heap dt = some d)
    (hnet : d.flags &&& Data.Network ≠ 0) :
    (∀ (index : Int) (w' : Window), w.setCurrentIndex index = some w' →
      w'.heap dt = some d ∧ (∀ v, w.loading dt = some v → w'.loading dt = some v) ∧
      (w.imageLoaderThread.filter fun x => decide (x.userData = dt)).Sublist
        (w'.imageLoaderThread.filter fun x => decide (x.userData = dt))) ∧
    (∀ w' : Window, w.clearImages = some w' → w'.heap dt = some d) ∧
    (w.Allocated → (w.data = [] ∧ w.current = -1 ∨ 0 ≤ w.current ∧ w.current < w.data.length) →
      (∀ index : Int, index < w.data.length ∨ w.data = [] →
        ∃ w', w.setCurrentIndex index = some w') ∧
      ∃ w', w.clearImages = some w') := by
  refine ⟨?_, ?_, ?_⟩
  · intro index w' h
    exact networkKept_setCurrentIndex w w' index h dt d hd hnet
  · intro w' h
    unfold Window.clearImages at h
    cases hc : Window.clearEach w.data { w with imageLoaderThread := [] } with
    | none => rw [hc] at h; cases h
    | some w1 =>
      rw [hc] at h
      simp only at h
      have h1 := clearEach_network w.data _ w1 hc dt d hd hnet
      have hg := grown_updateImages _ w' h
      rw [hg.2.1]
      exact h1
  · intro hA hcur
    constructor
    · intro index hidx
      apply setCurrentIndex_some w index hA _ hidx
      rcases hcur with ⟨h1, h2⟩ | ⟨h1, h2⟩
      · rw [h1, h2]; simp
      · exact ⟨by omega, h2⟩
    · apply clearImages_some w hA
      intro hne
      rcases hcur with ⟨h1, _⟩ | h
      · exact absurd h1 hne
      · exact h

theorem network_entries_stay_witness :
    Window.networkSample.heap 104
      = some { path := "http://example.org/e.jpg", image := some ⟨800, 600⟩, movie := none,
               rotation := 0, flags := Data.Network } ∧
    Data.Network &&& Data.Network ≠ 0 ∧
    Window.networkSample.Allocated ∧
    (0 ≤ Window.networkSample.current ∧
      Window.networkSample.current < Window.networkSample.data.length) ∧
    (Window.networkSample.setCurrentIndex 2).map (fun w => (w.current, w.loading 104))
      = some (2, some 4) ∧
    (∀ (index : Int) (w' : Window), Window.networkSample.setCurrentIndex index = some w' →
      w'.heap 104
        = some { path := "http://example.org/e.jpg", image := some ⟨800, 600⟩, movie := none,
                 rotation := 0, flags := Data.Network } ∧
      (∀ v, Window.networkSample.loading 104 = some v → w'.loading 104 = some v) ∧
      (Window.networkSample.imageLoaderThread.filter fun x => decide (x.userData = 104)).Sublist
        (w'.imageLoaderThread.filter fun x => decide (x.userData = 104))) ∧
    (∀ w' : Window, Window.networkSample.clearImages = some w' →
      w'.heap 104
        = some { path := "http://example.org/e.jpg", image := some ⟨800, 600⟩, movie := none,
                 rotation := 0, flags := Data.Network }) ∧
    (Window.networkSample.Allocated →
      (Window.networkSample.data = [] ∧ Window.networkSample.current = -1 ∨
        0 ≤ Window.networkSample.current ∧
          Window.networkSample.current < Window.networkSample.data.length) →
      (∀ index : Int, index < Window.networkSample.data.length ∨ Window.networkSample.data = [] →
        ∃ w', Window.networkSample.setCurrentIndex index = some w') ∧
      ∃ w', Window.networkSample.clearImages = some w') :=
  ⟨by decide, by decide, by unfold Window.Allocated; decide, by decide, by decide,
    network_entries_stay Window.networkSample 104
      { path := "http://example.org/e.jpg", image := some ⟨800, 600⟩, movie := none,
        rotation := 0, flags := Data.Network } (by decide) (by decide)⟩

/-! ### The cursor after a removal and the image counter (C23, C24) -/

/-- On a non-empty catalog and for a new index, `setCurrentIndex` is `moveCursor` followed by the
eviction loop and `updateImages`. -/
theorem setCurrentIndex_moveCursor (w : Window) (index : Int) (hne : index ≠ w.current)
    (hdata : w.data.isEmpty = false) :
    w.setCurrentIndex index
      = (Window.evictEach (max 0 index) (surrounding (max 0 index) w.data.length w.maxImages)
          (foreachOrder (surrounding w.current w.data.length w.maxImages))
          (w.moveCursor index)).bind Window.updateImages := by
  unfold Window.setCurrentIndex Window.moveCursor
  rw [if_neg hne]
  simp only [hdata, Bool.false_eq_true, if_false]
  cases Window.evictEach (max 0 index) (surrounding (max 0 index) w.data.length w.maxImages)
      (foreachOrder (surrounding w.current w.data.length w.maxImages))
      { w with history := trimHistory (index :: w.history).length (index :: w.history),
               flags := Flags.set w.flags Flags.ManuallySetIndex (decide (w.data.length > 1)),
               current := max 0 index } <;> rfl

/-- The cursor `removeFile` leaves is `-1` on an empty catalog and an index of the catalog
otherwise, when it was so before. -/
theorem removeFile_cursor (w w' : Window) (dt : Nat) (h : w.removeFile dt = some w')
    (hcur : w.data = [] ∧ w.current = -1 ∨ 0 ≤ w.current ∧ w.current < w.data.length) :
    w'.data = [] ∧ w'.current = -1 ∨ 0 ≤ w'.current ∧ w'.current < w'.data.length := by
  unfold Window.removeFile at h
  cases hh : w.heap dt with
  | none => rw [hh] at h; cases h
  | some d =>
    rw [hh] at h
    simp only at h
    split at h
    · cases h; exact hcur
    · split at h
      · cases h
        simp only
        cases he : w.data.eraseIdx (List.indexOf dt w.data) with
        | nil => left; exact ⟨rfl, rfl⟩
        | cons a l =>
          right
          simp only [List.isEmpty_cons, Bool.false_eq_true, if_false, List.length_cons]
          constructor
          · exact le_max_left _ _
          · apply max_lt
            · omega
            · apply lt_of_le_of_lt (min_le_left _ _)
              push_cast
              omega
      · cases h; exact hcur

/-- C23 (the code leaves the range): three files are added, the user visits the last one, returns
to the first one, and the last one is removed with `removeFile`. The catalog then has two
entries, the cursor is 0 and the history still holds the index 2. `back` hands this index to
`setCurrentIndex`, which stores 2 in the cursor of a catalog of size 2 and then reads the entry
at index 2, which does not exist. -/
theorem back_after_removeFile :
    Window.purgedLast.map (fun w => (w.data, w.current, w.history))
      = some ([100, 101], 0, [0, 2, 0]) ∧
    Window.purgedLast.map (fun w =>
        ((Window.moveCursor { w with history := [2, 0, 0],
                                     flags := Flags.set w.flags Flags.InNextPrev true } 2).current,
          (w.data.length : Int))) = some (2, 2) ∧
    (Window.purgedLast.bind Window.back).isNone = true ∧
    (Window.purgedLast.bind fun w => w.load 2).isNone = true := by
  decide

/-- C24 (the code loses count): after two files are added and the image of the first one has
arrived the counter and the number of entries holding an image are both 1; `removeFile` for that
entry leaves the counter at 1 with no image in the catalog. After the reply for a network
address the counter and the number of images are both 1; `clearImages` sets the counter to 0
and leaves the image of the network entry in place. -/
theorem imagesInMemory_drifts :
    Window.loadedFirst.map (fun w => (w.imagesInMemory, w.imageCount)) = some (1, 1) ∧
    (Window.loadedFirst.bind fun w => w.removeFile 100).map
        (fun w => (w.imagesInMemory, w.imageCount, w.data)) = some (1, 0, [101]) ∧
    Window.networkFirst.map (fun w => (w.imagesInMemory, w.imageCount)) = some (1, 1) ∧
    (Window.networkFirst.bind Window.clearImages).map
        (fun w => (w.imagesInMemory, w.imageCount)) = some (0, 1) := by
  decide

end Vp2
